import Mathlib

/-!
# Transaction core of the Thor node: resolver, intrinsic gas and gas-payer selection

A shallow embedding of `thor/tx/transaction.go`, `thor/tx/tx_dynamic_fee.go` and
`thor/runtime/resolved_tx.go`.

* `uint64`, `uint32` and `byte` values are natural numbers; every place where the Go
  code can wrap around is written with an explicit `% 2 ^ 64`.
* `*big.Int` values are `Int`; a `*big.Int` that may be `nil` is `Option Int`.
* Go's `(value, error)` results are `Except Error value`.
* The memoisation cache of a transaction is an explicit field that the methods thread
  through: a method returns its result together with the transaction as the call left it.
* The chain state (`state.State` seen through the `Params`, `Energy` and `Prototype`
  built-ins) is the record `State`, threaded through `BuyGas` and the continuation it
  returns.
* The calls into the `rlp` package are the parameter `Codec` of the envelope; the
  canonical codec the specification describes is the instance `rlpCodec`.
-/

namespace Thor

/-! ## Primitive types -/

/-- One byte of a byte slice. -/
abbrev Byte := Fin 256

/-- The type `thor.Address`: a 20-byte identifier, read as a number. The zero value of the
Go type is `0`. -/
abbrev Address := Nat

/-- The type `thor.Bytes32`: a 32-byte digest, read as a big-endian number. The zero value of
the Go type is `0`. -/
abbrev Bytes32 := Nat

/-- The errors the transaction core returns. Each constructor is one `errors.New`
value of the sources (its message is quoted), except `external`, which stands for an
error handed back by a collaborator (signature recovery, the state ledgers, the RLP
decoder) and is passed on unchanged, and `nilPointer` and `divisionByZero`, which
stand for the Go run-time panics of a `nil` `*big.Int` being dereferenced and of
`big.Int.Div` by zero. -/
inductive Error
  /-- `ErrTxTypeNotSupported`: "transaction type not supported". -/
  | txTypeNotSupported
  /-- `errIntrinsicGasOverflow`: "intrinsic gas overflow". -/
  | intrinsicGasOverflow
  /-- `errShortTypedTx`: "typed transaction too short". -/
  | shortTypedTx
  /-- `secp256k1.ErrInvalidSignatureLen`. -/
  | invalidSignatureLen
  /-- "intrinsic gas exceeds provided gas". -/
  | intrinsicGasExceedsProvidedGas
  /-- "clause with negative value". -/
  | clauseWithNegativeValue
  /-- "tx value too large". -/
  | txValueTooLarge
  /-- "max fee per gas must be positive". -/
  | maxFeePerGasNegative
  /-- "max priority fee per gas must be positive". -/
  | maxPriorityFeePerGasNegative
  /-- "max fee per gas higher than 2^256-1". -/
  | maxFeePerGasTooHigh
  /-- "max priority fee per gas higher than 2^256-1". -/
  | maxPriorityFeePerGasTooHigh
  /-- "maxFeePerGas is less than maxPriorityFeePerGas". -/
  | maxFeeLessThanMaxPriorityFee
  /-- "gas price is less than block base fee". -/
  | gasPriceLessThanBaseFee
  /-- "insufficient energy". -/
  | insufficientEnergy
  /-- "unsupported features". -/
  | unsupportedFeatures
  /-- "unused reserved slot". -/
  | unusedReservedSlot
  /-- An error returned by a collaborator, identified by a code. -/
  | external (code : Nat)
  /-- A `nil` pointer dereference (Go panics; no result is returned). -/
  | nilPointer
  /-- A `big.Int` division by zero (Go panics; no result is returned). -/
  | divisionByZero
  deriving DecidableEq, Repr

/-- Modelled from the spec: the clause type (`clause.go` is not among the sources).
`Clause: { to: Address?; value: U256; data: bytes }`, contract creation iff `to` is
absent. `value` is a `*big.Int` whose sign the resolver checks, hence an `Int`. -/
structure Clause where
  To : Option Address
  Value : Int
  Data : List Byte
  deriving DecidableEq, Repr

/-- The method `Clause.IsCreatingContract`: the clause has no recipient. -/
def Clause.IsCreatingContract (c : Clause) : Bool := c.To.isNone

/-- Modelled from the spec: the reserved block (`reserved.go` is not among the
sources). `Reserved: { features: u32 bitmask; unused: list<bytes> }`. -/
structure reserved where
  Features : Nat
  Unused : List (List Byte)
  deriving DecidableEq, Repr

/-- Modelled from the spec: `Features.IsDelegated`, "Bit 0 of `features` denotes
*delegated*". -/
def Features.IsDelegated (f : Nat) : Bool := f % 2 == 1

/-! ## Intrinsic gas -/

/-- The gas constants `IntrinsicGas` reads: `thor.TxGas`, `thor.ClauseGas`,
`thor.ClauseGasContractCreation` and go-ethereum's `params.TxDataZeroGas`,
`params.TxDataNonZeroGas`. Their declarations are not among the sources, so they
are parameters. All five are `uint64` constants. -/
structure GasSchedule where
  TxGas : Nat
  ClauseGas : Nat
  ClauseGasContractCreation : Nat
  TxDataZeroGas : Nat
  TxDataNonZeroGas : Nat
  deriving DecidableEq, Repr

/-- go-ethereum `math.SafeAdd`: the 64-bit sum and whether it overflowed. -/
def SafeAdd (x y : Nat) : Nat × Bool := ((x + y) % 2 ^ 64, decide (2 ^ 64 ≤ x + y))

/-- go-ethereum `math.SafeMul`: the low 64 bits of the product and whether the high
64 bits are non-zero. -/
def SafeMul (x y : Nat) : Nat × Bool := ((x * y) % 2 ^ 64, decide (2 ^ 64 ≤ x * y))

/-- The loop of `dataGas`: one step of `z++` / `nz++` on `uint64` counters. -/
def countStep (acc : Nat × Nat) (byt : Byte) : Nat × Nat :=
  if byt = 0 then ((acc.1 + 1) % 2 ^ 64, acc.2) else (acc.1, (acc.2 + 1) % 2 ^ 64)

/-- The function `dataGas` of `transaction.go`. -/
def dataGas (G : GasSchedule) (data : List Byte) : Except Error Nat :=
  if data.length = 0 then .ok 0
  else
    let counts := data.foldl countStep (0, 0)
    let z := counts.1
    let nz := counts.2
    let zr := SafeMul G.TxDataZeroGas z
    if zr.2 then .error .intrinsicGasOverflow
    else
      let nzr := SafeMul G.TxDataNonZeroGas nz
      if nzr.2 then .error .intrinsicGasOverflow
      else
        let gr := SafeAdd zr.1 nzr.1
        if gr.2 then .error .intrinsicGasOverflow
        else .ok gr.1

/-- The `for _, c := range clauses` loop of `IntrinsicGas`, started with the running
`total`. -/
def intrinsicGasLoop (G : GasSchedule) : Nat → List Clause → Except Error Nat
  | total, [] => .ok total
  | total, c :: cs =>
    match dataGas G c.Data with
    | .error e => .error e
    | .ok gas =>
      let r1 := SafeAdd total gas
      if r1.2 then .error .intrinsicGasOverflow
      else
        let cgas := if c.IsCreatingContract then G.ClauseGasContractCreation else G.ClauseGas
        let r2 := SafeAdd r1.1 cgas
        if r2.2 then .error .intrinsicGasOverflow
        else intrinsicGasLoop G r2.1 cs

/-- The package-level function `IntrinsicGas(clauses ...*Clause)`. The result for no
clauses is the constant expression `thor.TxGas + thor.ClauseGas`. -/
def IntrinsicGas (G : GasSchedule) (clauses : List Clause) : Except Error Nat :=
  if clauses.length = 0 then .ok (G.TxGas + G.ClauseGas)
  else intrinsicGasLoop G G.TxGas clauses

/-! ## Transaction bodies -/

/-- The type `Type`: the transaction type byte. -/
abbrev TxType := Nat

/-- The constant `TypeLegacy = Type(0x00)`. -/
def TypeLegacy : TxType := 0x00

/-- The constant `TypeDynamicFee = Type(0x51)`. -/
def TypeDynamicFee : TxType := 0x51

/-- One element of the `[]any` returned by `signingFields`: the Go values that occur
in a transaction body, as the hash functions read them. The hashes are taken over the
canonical encoding, in which a `*big.Int` is written as its integer value and "zero
[is] encoded as the empty string", as is a `nil` pointer ("optional fields encode as
the empty string when absent"); a `*big.Int` element is therefore the integer it is
written as, `0` for `nil`. -/
inductive Field
  | byte (v : Nat)
  | uint32 (v : Nat)
  | uint64 (v : Nat)
  | bigInt (v : Int)
  | clauses (cs : List Clause)
  | bytes32 (v : Option Bytes32)
  | reserved (r : reserved)
  | bytes (b : List Byte)
  deriving DecidableEq, Repr

/-- The struct `dynamicFeeTransaction` of `tx_dynamic_fee.go`. The two fee fields are
`*big.Int` and may be `nil`. -/
structure dynamicFeeTransaction where
  ChainTag : Nat
  BlockRef : Nat
  Expiration : Nat
  Clauses : List Clause
  MaxPriorityFeePerGas : Option Int
  MaxFeePerGas : Option Int
  Gas : Nat
  DependsOn : Option Bytes32
  Nonce : Nat
  Reserved : reserved
  Signature : List Byte
  deriving DecidableEq, Repr

/-- The method `dynamicFeeTransaction.copy`: a new struct with the same fields; a `nil` fee field
becomes a fresh zero. -/
def dynamicFeeTransaction.copy (t : dynamicFeeTransaction) : dynamicFeeTransaction :=
  { ChainTag := t.ChainTag
    BlockRef := t.BlockRef
    Expiration := t.Expiration
    Clauses := t.Clauses
    Gas := t.Gas
    MaxFeePerGas := some (t.MaxFeePerGas.getD 0)
    MaxPriorityFeePerGas := some (t.MaxPriorityFeePerGas.getD 0)
    DependsOn := t.DependsOn
    Nonce := t.Nonce
    Reserved := t.Reserved
    Signature := t.Signature }

/-- The method `dynamicFeeTransaction.maxFeePerGas`: zero for `nil`, else a copy of the field. -/
def dynamicFeeTransaction.maxFeePerGas (t : dynamicFeeTransaction) : Int :=
  match t.MaxFeePerGas with
  | none => 0
  | some v => v

/-- The method `dynamicFeeTransaction.maxPriorityFeePerGas`: zero for `nil`, else a copy of the
field. -/
def dynamicFeeTransaction.maxPriorityFeePerGas (t : dynamicFeeTransaction) : Int :=
  match t.MaxPriorityFeePerGas with
  | none => 0
  | some v => v

/-- The method `dynamicFeeTransaction.setSignature`. -/
def dynamicFeeTransaction.setSignature (t : dynamicFeeTransaction) (sig : List Byte) :
    dynamicFeeTransaction :=
  { t with Signature := sig }

/-- The method `dynamicFeeTransaction.signingFields`: the body without the signature. -/
def dynamicFeeTransaction.signingFields (t : dynamicFeeTransaction) : List Field :=
  [ .byte t.ChainTag, .uint64 t.BlockRef, .uint32 t.Expiration, .clauses t.Clauses,
    .bigInt (t.MaxPriorityFeePerGas.getD 0), .bigInt (t.MaxFeePerGas.getD 0), .uint64 t.Gas,
    .bytes32 t.DependsOn, .uint64 t.Nonce, .reserved t.Reserved ]

/-- The fields of the struct `dynamicFeeTransaction` in declaration order, as `rlpHash` and
`prefixedRlpHash` read the body: the signing fields, then the signature. -/
def dynamicFeeTransaction.fields (t : dynamicFeeTransaction) : List Field :=
  [ .byte t.ChainTag, .uint64 t.BlockRef, .uint32 t.Expiration, .clauses t.Clauses,
    .bigInt (t.MaxPriorityFeePerGas.getD 0), .bigInt (t.MaxFeePerGas.getD 0), .uint64 t.Gas,
    .bytes32 t.DependsOn, .uint64 t.Nonce, .reserved t.Reserved, .bytes t.Signature ]

/-- Modelled from the spec: the legacy body (`tx_legacy.go` is not among the sources).
"Common fields: `chainTag: u8`, `blockRef: u64`, `expiration: u32`, `clauses`,
`gas: u64`, `dependsOn: Hash256?`, `nonce: u64`, `reserved`, `signature`"; "`Legacy`
adds: `gasPriceCoef: u8`". -/
structure legacyTransaction where
  ChainTag : Nat
  BlockRef : Nat
  Expiration : Nat
  Clauses : List Clause
  GasPriceCoef : Nat
  Gas : Nat
  DependsOn : Option Bytes32
  Nonce : Nat
  Reserved : reserved
  Signature : List Byte
  deriving DecidableEq, Repr

/-- Modelled from the spec: `legacyTransaction.gasPrice`,
"`gasPrice(baseGasPrice) = baseGasPrice + (baseGasPrice * gasPriceCoef) / 255`". -/
def legacyTransaction.gasPrice (t : legacyTransaction) (baseGasPrice : Int) : Int :=
  baseGasPrice + (baseGasPrice * (t.GasPriceCoef : Int)) / 255

/-- Modelled from the spec: `legacyTransaction.signingFields`, "the body **excluding**
`signature`", in the wire order
`[chainTag, blockRef, expiration, clauses, gasPriceCoef, gas, dependsOn, nonce, reserved]`. -/
def legacyTransaction.signingFields (t : legacyTransaction) : List Field :=
  [ .byte t.ChainTag, .uint64 t.BlockRef, .uint32 t.Expiration, .clauses t.Clauses,
    .byte t.GasPriceCoef, .uint64 t.Gas, .bytes32 t.DependsOn, .uint64 t.Nonce,
    .reserved t.Reserved ]

/-- Modelled from the spec: `legacyTransaction.copy` (`tx_legacy.go` is not among the
sources), "a new value with a deep copy of mutable inner buffers": the same fields. -/
def legacyTransaction.copy (t : legacyTransaction) : legacyTransaction :=
  { ChainTag := t.ChainTag
    BlockRef := t.BlockRef
    Expiration := t.Expiration
    Clauses := t.Clauses
    GasPriceCoef := t.GasPriceCoef
    Gas := t.Gas
    DependsOn := t.DependsOn
    Nonce := t.Nonce
    Reserved := t.Reserved
    Signature := t.Signature }

/-- Modelled from the spec: `legacyTransaction.setSignature` (`tx_legacy.go` is not among
the sources): the `signature` field is replaced. -/
def legacyTransaction.setSignature (t : legacyTransaction) (sig : List Byte) :
    legacyTransaction :=
  { t with Signature := sig }

/-- Modelled from the spec: the fields of the legacy body as the hash of the whole body
reads them, in the wire order
`[chainTag, blockRef, expiration, clauses, gasPriceCoef, gas, dependsOn, nonce, reserved,
signature]`. -/
def legacyTransaction.fields (t : legacyTransaction) : List Field :=
  [ .byte t.ChainTag, .uint64 t.BlockRef, .uint32 t.Expiration, .clauses t.Clauses,
    .byte t.GasPriceCoef, .uint64 t.Gas, .bytes32 t.DependsOn, .uint64 t.Nonce,
    .reserved t.Reserved, .bytes t.Signature ]

/-- The interface `txData`: one of the two body structs. -/
inductive txData
  | legacy (b : legacyTransaction)
  | dynamicFee (b : dynamicFeeTransaction)
  deriving DecidableEq, Repr

namespace txData

/-- The method `txData.txType`. -/
def txType : txData → TxType
  | legacy _ => TypeLegacy
  | dynamicFee _ => TypeDynamicFee

/-- The method `txData.clauses`. -/
def clauses : txData → List Clause
  | legacy b => b.Clauses
  | dynamicFee b => b.Clauses

/-- The method `txData.gas`. -/
def gas : txData → Nat
  | legacy b => b.Gas
  | dynamicFee b => b.Gas

/-- The method `txData.blockRef`. -/
def blockRef : txData → Nat
  | legacy b => b.BlockRef
  | dynamicFee b => b.BlockRef

/-- The method `txData.expiration`. -/
def expiration : txData → Nat
  | legacy b => b.Expiration
  | dynamicFee b => b.Expiration

/-- The method `txData.nonce`. -/
def nonce : txData → Nat
  | legacy b => b.Nonce
  | dynamicFee b => b.Nonce

/-- The method `txData.reserved`. -/
def reserved : txData → Thor.reserved
  | legacy b => b.Reserved
  | dynamicFee b => b.Reserved

/-- The method `txData.signature`. -/
def signature : txData → List Byte
  | legacy b => b.Signature
  | dynamicFee b => b.Signature

/-- The method `txData.maxFeePerGas`. The accessor of the legacy body is not among the sources;
it is only ever called on a dynamic-fee body here and is given the zero value. -/
def maxFeePerGas : txData → Int
  | legacy _ => 0
  | dynamicFee b => b.maxFeePerGas

/-- The method `txData.maxPriorityFeePerGas`. The accessor of the legacy body is not among the
sources; it is only ever called on a dynamic-fee body here and is given the zero
value. -/
def maxPriorityFeePerGas : txData → Int
  | legacy _ => 0
  | dynamicFee b => b.maxPriorityFeePerGas

/-- The method `txData.signingFields`. -/
def signingFields : txData → List Field
  | legacy b => b.signingFields
  | dynamicFee b => b.signingFields

/-- The body as `rlpHash(t.body)` and `prefixedRlpHash(t.Type(), t.body)` read it: the list
of its fields. -/
def fields : txData → List Field
  | legacy b => b.fields
  | dynamicFee b => b.fields

/-- The method `txData.chainTag`. -/
def chainTag : txData → Nat
  | legacy b => b.ChainTag
  | dynamicFee b => b.ChainTag

/-- The method `txData.dependsOn`. -/
def dependsOn : txData → Option Bytes32
  | legacy b => b.DependsOn
  | dynamicFee b => b.DependsOn

/-- The method `txData.copy`. -/
def copy : txData → txData
  | legacy b => legacy b.copy
  | dynamicFee b => dynamicFee b.copy

/-- The method `txData.setSignature`. -/
def setSignature : txData → List Byte → txData
  | legacy b, sig => legacy (b.setSignature sig)
  | dynamicFee b, sig => dynamicFee (b.setSignature sig)

end txData

/-! ## The transaction envelope and its cache -/

/-- The hashing and signature-recovery primitives the envelope calls
(`rlpHash`, `prefixedRlpHash`, `thor.Blake2b`, `crypto.SigToPub`,
`crypto.PubkeyToAddress`). They are external to the sources and are parameters. A
public key is an abstract number; a failed recovery gives the code of its error,
which the envelope hands on as `Error.external`. -/
structure Crypto where
  rlpHash : List Field → Bytes32
  prefixedRlpHash : TxType → List Field → Bytes32
  Blake2b : Bytes32 → Address → Bytes32
  SigToPub : Bytes32 → List Byte → Except Nat Nat
  PubkeyToAddress : Nat → Address

/-- The field `cache` of `Transaction`. An `atomic.Value` that was never stored is
`none`; the two `atomic.Uint64` cells hold `0` until stored. -/
structure Cache where
  signingHash : Option Bytes32
  origin : Option Address
  id : Option Bytes32
  unprovedWork : Option Int
  size : Nat
  intrinsicGas : Nat
  hash : Option Bytes32
  delegator : Option Address
  deriving DecidableEq, Repr

/-- The cache of a newly built transaction. -/
def Cache.empty : Cache :=
  { signingHash := none, origin := none, id := none, unprovedWork := none, size := 0,
    intrinsicGas := 0, hash := none, delegator := none }

/-- The struct `Transaction`: a body and the cache of derived values. -/
structure Transaction where
  body : txData
  cache : Cache
  deriving DecidableEq, Repr

/-- The type `BlockRef`: the 8 bytes of a block reference, read as a big-endian
number. -/
abbrev BlockRef := Nat

/-- Modelled from the spec: `BlockRef.Number` (`block_ref.go` is not among the
sources), "first 4 bytes interpreted big-endian as a block number". -/
def BlockRef.Number (br : BlockRef) : Nat := br / 2 ^ 32 % 2 ^ 32

/-- The call `bytes.HasPrefix(id[:], ref[:])`: the first 8 of the 32 bytes of `id` are
the 8 bytes of `ref`. -/
def HasPrefix (id : Bytes32) (ref : BlockRef) : Bool := id % 2 ^ 256 / 2 ^ 192 == ref

/-- The constant and the two functions of the proof-of-work computation that are not
among the sources: `thor.MaxTxWorkDelay`, the method `legacyTransaction.evaluateWork`
(of `tx_legacy.go`) and the function `workToGas`, which returns a `uint64`. They are
parameters. -/
structure WorkParams where
  MaxTxWorkDelay : Nat
  evaluateWork : legacyTransaction → Address → Nat → Int
  workToGas : Int → Nat → Nat

/-- The calls into go-ethereum's `rlp` package on the two body structs
(`rlp.EncodeToBytes`, `rlp.Encode`, `rlp.DecodeBytes`). The package is external to the
sources, so the four calls are parameters; a failed call gives the code of its error,
which the envelope hands on as `Error.external`. -/
structure Codec where
  EncodeLegacy : legacyTransaction → Except Nat (List Byte)
  DecodeLegacy : List Byte → Except Nat legacyTransaction
  EncodeDynamicFee : dynamicFeeTransaction → Except Nat (List Byte)
  DecodeDynamicFee : List Byte → Except Nat dynamicFeeTransaction

/-- The result of `Transaction.ProvedWork`: the returned value or error, the block numbers
`getBlockID` was called with (in call order), and the transaction as the call left
it. -/
structure ProvedWorkResult where
  result : Except Error Int
  calls : List Nat
  tx : Transaction

namespace Transaction

/-- The method `Transaction.Type` (`Type` is reserved in Lean). -/
def txType (t : Transaction) : TxType := t.body.txType

/-- The method `Transaction.Gas`. -/
def Gas (t : Transaction) : Nat := t.body.gas

/-- The method `Transaction.MaxFeePerGas`. -/
def MaxFeePerGas (t : Transaction) : Int := t.body.maxFeePerGas

/-- The method `Transaction.MaxPriorityFeePerGas`. -/
def MaxPriorityFeePerGas (t : Transaction) : Int := t.body.maxPriorityFeePerGas

/-- The method `Transaction.Clauses`: a clone of the clause slice. -/
def Clauses (t : Transaction) : List Clause := t.body.clauses

/-- The method `Transaction.Features`. -/
def Features (t : Transaction) : Nat := t.body.reserved.Features

/-- The method `Transaction.validateSignatureLength`: 65 bytes, doubled for a delegated
transaction. -/
def validateSignatureLength (t : Transaction) : Except Error Unit :=
  let expectedSigLen := if Features.IsDelegated t.Features then 65 * 2 else 65
  if t.body.signature.length ≠ expectedSigLen then .error .invalidSignatureLen
  else .ok ()

/-- The method `Transaction.SigningHash`: the cached value if there is one, else the hash of the
signing fields (with the type prefix for a typed transaction), which the deferred
store puts in the cache. -/
def SigningHash (K : Crypto) (t : Transaction) : Bytes32 × Transaction :=
  match t.cache.signingHash with
  | some cached => (cached, t)
  | none =>
    let hash :=
      if t.txType = TypeLegacy then K.rlpHash t.body.signingFields
      else K.prefixedRlpHash t.txType t.body.signingFields
    (hash, { t with cache := { t.cache with signingHash := some hash } })

/-- The method `Transaction.Hash`: the cached value if there is one, else the hash of the whole
body (with the type prefix for a typed transaction), which the deferred store puts in
the cache. -/
def Hash (K : Crypto) (t : Transaction) : Bytes32 × Transaction :=
  match t.cache.hash with
  | some cached => (cached, t)
  | none =>
    let hash :=
      if t.txType = TypeLegacy then K.rlpHash t.body.fields
      else K.prefixedRlpHash t.txType t.body.fields
    (hash, { t with cache := { t.cache with hash := some hash } })

/-- The method `Transaction.Origin`. -/
def Origin (K : Crypto) (t : Transaction) : Except Error Address × Transaction :=
  match t.validateSignatureLength with
  | .error err => (.error err, t)
  | .ok _ =>
    match t.cache.origin with
    | some cached => (.ok cached, t)
    | none =>
      let sh := t.SigningHash K
      match K.SigToPub sh.1 (t.body.signature.take 65) with
      | .error err => (.error (.external err), sh.2)
      | .ok pub =>
        let origin := K.PubkeyToAddress pub
        (.ok origin, { sh.2 with cache := { sh.2.cache with origin := some origin } })

/-- The method `Transaction.DelegatorSigningHash`. -/
def DelegatorSigningHash (K : Crypto) (t : Transaction) (origin : Address) :
    Bytes32 × Transaction :=
  let sh := t.SigningHash K
  (K.Blake2b sh.1 origin, sh.2)

/-- The method `Transaction.Delegator`: `.ok none` is the Go result `(nil, nil)`. -/
def Delegator (K : Crypto) (t : Transaction) : Except Error (Option Address) × Transaction :=
  match t.validateSignatureLength with
  | .error err => (.error err, t)
  | .ok _ =>
    if ¬ Features.IsDelegated t.Features then (.ok none, t)
    else
      match t.cache.delegator with
      | some cached => (.ok (some cached), t)
      | none =>
        let o := t.Origin K
        match o.1 with
        | .error err => (.error err, o.2)
        | .ok origin =>
          let dh := o.2.DelegatorSigningHash K origin
          match K.SigToPub dh.1 (t.body.signature.drop 65) with
          | .error err => (.error (.external err), dh.2)
          | .ok pub =>
            let delegator := K.PubkeyToAddress pub
            (.ok (some delegator),
              { dh.2 with cache := { dh.2.cache with delegator := some delegator } })

/-- The method `Transaction.IntrinsicGas`: the cached value when it is non-zero, else
the intrinsic gas of the clauses, stored on success. -/
def IntrinsicGas (G : GasSchedule) (t : Transaction) : Except Error Nat × Transaction :=
  if t.cache.intrinsicGas ≠ 0 then (.ok t.cache.intrinsicGas, t)
  else
    match Thor.IntrinsicGas G t.body.clauses with
    | .error err => (.error err, t)
    | .ok gas => (.ok gas, { t with cache := { t.cache with intrinsicGas := gas } })

/-- The method `Transaction.EffectiveGasPrice`. For a dynamic-fee transaction the call
`Add(..., baseFee)` dereferences `baseFee`, so a `nil` base fee is a `nilPointer`. -/
def EffectiveGasPrice (t : Transaction) (baseFee : Option Int) (legacyTxBaseGasPrice : Int) :
    Except Error Int :=
  match t.body with
  | .legacy b => .ok (b.gasPrice legacyTxBaseGasPrice)
  | .dynamicFee b =>
    match baseFee with
    | none => .error .nilPointer
    | some bf => .ok (min b.maxFeePerGas (b.maxPriorityFeePerGas + bf))

/-- The method `Transaction.BlockRef`: the `uint64` of the body written big-endian into
8 bytes. -/
def BlockRef (t : Transaction) : Thor.BlockRef := t.body.blockRef

/-- The method `Transaction.IsExpired`: both sides are `uint64`, so is the sum. -/
def IsExpired (t : Transaction) (blockNum : Nat) : Bool :=
  decide (blockNum % 2 ^ 64 >
    (BlockRef.Number t.BlockRef % 2 ^ 64 + t.body.expiration % 2 ^ 64) % 2 ^ 64)

/-- The method `Transaction.Signature`: a clone of the signature. -/
def Signature (t : Transaction) : List Byte := t.body.signature

/-- The method `Transaction.ID`. The deferred store puts the returned value in the cache,
also the zero value returned when the origin is not available. -/
def ID (K : Crypto) (t : Transaction) : Bytes32 × Transaction :=
  match t.cache.id with
  | some cached => (cached, t)
  | none =>
    let o := t.Origin K
    match o.1 with
    | .error _ => (0, { o.2 with cache := { o.2.cache with id := some 0 } })
    | .ok origin =>
      let sh := o.2.SigningHash K
      let id := K.Blake2b sh.1 origin
      (id, { sh.2 with cache := { sh.2.cache with id := some id } })

/-- The method `Transaction.WithSignature`: a new transaction over a copy of the body with
the signature set; its cache is empty. -/
def WithSignature (t : Transaction) (sig : List Byte) : Transaction :=
  { body := t.body.copy.setSignature sig, cache := Cache.empty }

/-- The method `Transaction.EvaluateWork`. -/
def EvaluateWork (W : WorkParams) (t : Transaction) (origin : Address) : Nat → Int :=
  match t.body with
  | .dynamicFee _ => fun _ => 0
  | .legacy b => W.evaluateWork b origin

/-- The method `Transaction.UnprovedWork`. A failed origin gives zero, which is not
cached. -/
def UnprovedWork (W : WorkParams) (K : Crypto) (t : Transaction) : Int × Transaction :=
  if t.txType ≠ TypeLegacy then (0, t)
  else
    match t.cache.unprovedWork with
    | some cached => (cached, t)
    | none =>
      let o := t.Origin K
      match o.1 with
      | .error _ => (0, o.2)
      | .ok origin =>
        let w := o.2.EvaluateWork W origin t.body.nonce
        (w, { o.2 with cache := { o.2.cache with unprovedWork := some w } })

/-- The method `Transaction.ProvedWork`. `headBlockNum` is a `uint32`, so is the
difference `headBlockNum - refNum`. An error of `getBlockID` is identified by a
code. -/
def ProvedWork (W : WorkParams) (K : Crypto) (t : Transaction) (headBlockNum : Nat)
    (getBlockID : Nat → Except Nat Bytes32) : ProvedWorkResult :=
  if t.txType ≠ TypeLegacy then { result := .ok 0, calls := [], tx := t }
  else
    let ref := t.BlockRef
    let refNum := BlockRef.Number ref
    if refNum ≥ headBlockNum then { result := .ok 0, calls := [], tx := t }
    else
      let delay := (headBlockNum + 2 ^ 32 - refNum) % 2 ^ 32
      if delay > W.MaxTxWorkDelay then { result := .ok 0, calls := [], tx := t }
      else
        match getBlockID refNum with
        | .error err => { result := .error (.external err), calls := [refNum], tx := t }
        | .ok id =>
          if HasPrefix id ref then
            let u := t.UnprovedWork W K
            { result := .ok u.1, calls := [refNum], tx := u.2 }
          else { result := .ok 0, calls := [refNum], tx := t }

/-- The method `Transaction.OverallGasPrice`. The division `x.Div(x, gas)` panics when the
gas of the body is zero. -/
def OverallGasPrice (W : WorkParams) (t : Transaction) (legacyTxBaseGasPrice : Int)
    (provedWork : Int) : Except Error Int :=
  match t.body with
  | .dynamicFee b => .ok b.maxFeePerGas
  | .legacy b =>
    let gasPrice := b.gasPrice legacyTxBaseGasPrice
    if provedWork = 0 then .ok gasPrice
    else
      let wgas := W.workToGas provedWork (BlockRef.Number t.BlockRef)
      if wgas = 0 then .ok gasPrice
      else
        let wgas := if wgas > t.body.gas then t.body.gas else wgas
        let x := (wgas : Int) * legacyTxBaseGasPrice
        if t.body.gas = 0 then .error .divisionByZero
        else .ok (x / (t.body.gas : Int) + gasPrice)

/-- The method `Transaction.EffectivePriorityFeePerGas`. The call `Sub(maxFeePerGas, baseFee)`
dereferences `baseFee`, so a `nil` base fee is a `nilPointer`. -/
def EffectivePriorityFeePerGas (W : WorkParams) (t : Transaction) (baseFee : Option Int)
    (legacyTxBaseGasPrice : Int) (provedWork : Int) : Except Error Int :=
  let caps : Except Error (Int × Int) :=
    if t.txType = TypeLegacy then
      match t.OverallGasPrice W legacyTxBaseGasPrice provedWork with
      | .error err => .error err
      | .ok overallGasPrice => .ok (overallGasPrice, overallGasPrice)
    else .ok (t.body.maxPriorityFeePerGas, t.body.maxFeePerGas)
  match caps with
  | .error err => .error err
  | .ok (maxPriorityFeePerGas, maxFeePerGas) =>
    match baseFee with
    | none => .error .nilPointer
    | some bf =>
      let priorityFeePerGas := maxFeePerGas - bf
      .ok (min priorityFeePerGas maxPriorityFeePerGas)

/-- The method `txData.encode` as `encodeTyped` calls it. The method of the legacy body is
not among the sources and is not reached from `MarshalBinary`; it is read as the RLP
encoding of the body, like the dynamic-fee one. -/
def encodeBody (R : Codec) : txData → Except Nat (List Byte)
  | .legacy b => R.EncodeLegacy b
  | .dynamicFee b => R.EncodeDynamicFee b

/-- The method `Transaction.encodeTyped`: the type byte, then the encoding of the body. -/
def encodeTyped (R : Codec) (t : Transaction) : Except Error (List Byte) :=
  match encodeBody R t.body with
  | .error err => .error (.external err)
  | .ok enc => .ok (Fin.ofNat t.txType :: enc)

/-- The method `Transaction.MarshalBinary`. -/
def MarshalBinary (R : Codec) (t : Transaction) : Except Error (List Byte) :=
  match t.body with
  | .legacy b =>
    match R.EncodeLegacy b with
    | .error err => .error (.external err)
    | .ok enc => .ok enc
  | .dynamicFee _ => t.encodeTyped R

/-- The method `Transaction.decodeTyped`. -/
def decodeTyped (R : Codec) (b : List Byte) : Except Error txData :=
  if b.length ≤ 1 then .error .shortTypedTx
  else
    match b with
    | [] => .error .shortTypedTx
    | b0 :: rest =>
      if b0.val = TypeDynamicFee then
        match R.DecodeDynamicFee rest with
        | .error err => .error (.external err)
        | .ok body => .ok (.dynamicFee body)
      else .error .txTypeNotSupported

/-- The method `Transaction.setDecoded`: the body is replaced and a non-zero size stored;
the other cells of the cache are left as they are. -/
def setDecoded (t : Transaction) (body : txData) (size : Nat) : Transaction :=
  if size > 0 then { body := body, cache := { t.cache with size := size } }
  else { body := body, cache := t.cache }

/-- The method `Transaction.UnmarshalBinary`: the returned error (`none` for `nil`) and the
receiver as the call left it. -/
def UnmarshalBinary (R : Codec) (t : Transaction) (b : List Byte) :
    Option Error × Transaction :=
  let isLegacy : Bool :=
    match b with
    | [] => false
    | b0 :: _ => decide (b0.val > 0x7f)
  if isLegacy then
    match R.DecodeLegacy b with
    | .error err => (some (.external err), t)
    | .ok data => (none, t.setDecoded (.legacy data) (b.length % 2 ^ 64))
  else
    match decodeTyped R b with
    | .error err => (some err, t)
    | .ok body => (none, t.setDecoded body (b.length % 2 ^ 64))

end Transaction

/-! ## The resolver -/

/-- The struct `ResolvedTransaction`. `tx` is the resolved transaction as the
resolver left it (cache included). -/
structure ResolvedTransaction where
  tx : Transaction
  Origin : Address
  Delegator : Option Address
  IntrinsicGas : Nat
  Clauses : List Clause
  deriving DecidableEq, Repr

/-- The method `big.Int.BitLen`: the length of the absolute value in bits. -/
def BitLen (x : Int) : Nat := x.natAbs.size

/-- The clause loop of `ResolveTransaction`, started with the running `sumValue`:
every value is non-negative and the running sum has at most 256 bits. -/
def checkClauseValues : Int → List Clause → Except Error Int
  | sumValue, [] => .ok sumValue
  | sumValue, clause :: rest =>
    let value := clause.Value
    if value < 0 then .error .clauseWithNegativeValue
    else
      let sumValue := sumValue + value
      if BitLen sumValue > 256 then .error .txValueTooLarge
      else checkClauseValues sumValue rest

/-- The block `if trx.Type() != tx.TypeLegacy { ... }` of `ResolveTransaction`. -/
def checkFeeFields (trx : Transaction) : Except Error Unit :=
  if trx.txType ≠ TypeLegacy then
    if trx.MaxFeePerGas < 0 then .error .maxFeePerGasNegative
    else if trx.MaxPriorityFeePerGas < 0 then .error .maxPriorityFeePerGasNegative
    else if BitLen trx.MaxFeePerGas > 256 then .error .maxFeePerGasTooHigh
    else if BitLen trx.MaxPriorityFeePerGas > 256 then .error .maxPriorityFeePerGasTooHigh
    else if trx.MaxFeePerGas < trx.MaxPriorityFeePerGas then .error .maxFeeLessThanMaxPriorityFee
    else .ok ()
  else .ok ()

/-- The function `ResolveTransaction`. The second component is the transaction
as the call left it (the cache cells the call filled). -/
def ResolveTransaction (G : GasSchedule) (K : Crypto) (trx : Transaction) :
    Except Error ResolvedTransaction × Transaction :=
  let o := trx.Origin K
  match o.1 with
  | .error err => (.error err, o.2)
  | .ok origin =>
    let ig := o.2.IntrinsicGas G
    match ig.1 with
    | .error err => (.error err, ig.2)
    | .ok intrinsicGas =>
      if ig.2.Gas < intrinsicGas then (.error .intrinsicGasExceedsProvidedGas, ig.2)
      else
        let d := ig.2.Delegator K
        match d.1 with
        | .error err => (.error err, d.2)
        | .ok delegator =>
          let clauses := d.2.Clauses
          match checkClauseValues 0 clauses with
          | .error err => (.error err, d.2)
          | .ok _ =>
            match checkFeeFields d.2 with
            | .error err => (.error err, d.2)
            | .ok _ =>
              (.ok { tx := d.2, Origin := origin, Delegator := delegator,
                     IntrinsicGas := intrinsicGas, Clauses := clauses }, d.2)

/-- The loop of `CommonTo` over `r.Clauses[1:]`. -/
def commonToLoop (firstTo : Address) : List Clause → Option Address
  | [] => some firstTo
  | clause :: rest =>
    match clause.To with
    | none => none
    | some to_ => if to_ ≠ firstTo then none else commonToLoop firstTo rest

/-- The method `ResolvedTransaction.CommonTo`. -/
def ResolvedTransaction.CommonTo (r : ResolvedTransaction) : Option Address :=
  match r.Clauses with
  | [] => none
  | first :: rest =>
    match first.To with
    | none => none
    | some firstTo => commonToLoop firstTo rest

/-! ## The state ledgers -/

/-- Modelled from the spec: the chain state as `BuyGas` sees it through the built-in
contracts (`builtin` and `state` are not among the sources). "An energy ledger per
address plus a prototype registry per contract", and the params registry. Every read
is `get(..) -> (value, err)`: an entry is either a value or the code of a read error.
* `legacyTxBaseGasPrice` is `Params.Get(thor.KeyLegacyTxBaseGasPrice)`;
* `energy a` is the energy balance of `a`;
* `credit c u` is `Prototype.Bind(c).UserCredit(u, ·)`;
* `sponsor c` is `Prototype.Bind(c).CurrentSponsor()`;
* `isSponsor c a` is `Prototype.Bind(c).IsSponsor(a)`. -/
structure State where
  legacyTxBaseGasPrice : Except Nat Int
  energy : Address → Except Nat Int
  credit : Address → Address → Except Nat Int
  sponsor : Address → Except Nat Address
  isSponsor : Address → Address → Except Nat Bool

/-- Write the energy balance of one address. -/
def State.setEnergy (s : State) (addr : Address) (v : Int) : State :=
  { s with energy := fun a => if a = addr then .ok v else s.energy a }

/-- Write the credit of one user on one contract. -/
def State.setCredit (s : State) (contract user : Address) (v : Int) : State :=
  { s with credit := fun c u => if c = contract ∧ u = user then .ok v else s.credit c u }

/-- A ledger read as the core sees it: the value, or the read error handed on as
`Error.external`. -/
def ledgerRead {α : Type} (x : Except Nat α) : Except Error α :=
  match x with
  | .error code => .error (.external code)
  | .ok v => .ok v

/-- Modelled from the spec: `ParamsRegistry.get(key) -> (U256, err)`, for the key
`thor.KeyLegacyTxBaseGasPrice`. -/
def Params.Get (s : State) : Except Error Int := ledgerRead s.legacyTxBaseGasPrice

/-- Modelled from the spec: `EnergyLedger.sub(addr, amount) -> (ok, err)`, "debit
`prepaid` from ... energy"; with insufficient energy it answers `false` and leaves the
state as it is. -/
def Energy.Sub (s : State) (_blockTime : Nat) (addr : Address) (amount : Int) :
    Except Error (Bool × State) :=
  match ledgerRead (s.energy addr) with
  | .error err => .error err
  | .ok balance =>
    if balance < amount then .ok (false, s)
    else .ok (true, s.setEnergy addr (balance - amount))

/-- Modelled from the spec: `EnergyLedger.add(addr, amount) -> err`, "credit ... back
to the payer". -/
def Energy.Add (s : State) (_blockTime : Nat) (addr : Address) (amount : Int) :
    Except Error State :=
  match ledgerRead (s.energy addr) with
  | .error err => .error err
  | .ok balance => .ok (s.setEnergy addr (balance + amount))

/-- Modelled from the spec: `PrototypeRegistry.bind(addr).userCredit(user, blockTime)`. -/
def Binding.UserCredit (s : State) (contract user : Address) (_blockTime : Nat) :
    Except Error Int :=
  ledgerRead (s.credit contract user)

/-- Modelled from the spec:
`PrototypeRegistry.bind(addr).setUserCredit(user, credit, blockTime)`. -/
def Binding.SetUserCredit (s : State) (contract user : Address) (credit : Int)
    (_blockTime : Nat) : Except Error State :=
  .ok (s.setCredit contract user credit)

/-- Modelled from the spec: `PrototypeRegistry.bind(addr).currentSponsor()`. -/
def Binding.CurrentSponsor (s : State) (contract : Address) : Except Error Address :=
  ledgerRead (s.sponsor contract)

/-- Modelled from the spec: `PrototypeRegistry.bind(addr).isSponsor(addr)`. -/
def Binding.IsSponsor (s : State) (contract addr : Address) : Except Error Bool :=
  ledgerRead (s.isSponsor contract addr)

/-! ## Gas-payer selection -/

/-- The successful result of `BuyGas`. `returnGas` is the returned continuation: it
takes the remaining gas and the state and gives back its error (`none` for `nil`) and
the state it left. -/
structure BuyGasResult where
  legacyTxBaseGasPrice : Int
  effectiveGasPrice : Int
  payer : Address
  prepaid : Int
  returnGas : Nat → State → Option Error × State

/-- The closure `doReturnGas` of `BuyGas`, for the payer it reads when called. -/
def doReturnGas (blockTime : Nat) (effectiveGasPrice : Int) (payer : Address) (rgas : Nat)
    (s : State) : Except Error Int × State :=
  let returnedEnergy := (rgas : Int) * effectiveGasPrice
  match Energy.Add s blockTime payer returnedEnergy with
  | .error err => (.error err, s)
  | .ok s1 => (.ok returnedEnergy, s1)

/-- The continuation `func(rgas uint64) error { _, err := doReturnGas(rgas); return err }`
returned by the delegator branch and by the origin branch. -/
def returnGasOnly (blockTime : Nat) (effectiveGasPrice : Int) (payer : Address) (rgas : Nat)
    (s : State) : Option Error × State :=
  match doReturnGas blockTime effectiveGasPrice payer rgas s with
  | (.error err, s1) => (some err, s1)
  | (.ok _, s1) => (none, s1)

/-- The closure `doReturnGasAndSetCredit` of `BuyGas`. -/
def doReturnGasAndSetCredit (blockTime : Nat) (effectiveGasPrice : Int) (payer : Address)
    (commonTo origin : Address) (credit prepaid : Int) (rgas : Nat) (s : State) :
    Option Error × State :=
  match doReturnGas blockTime effectiveGasPrice payer rgas s with
  | (.error err, s1) => (some err, s1)
  | (.ok returnedEnergy, s1) =>
    let usedEnergy := prepaid - returnedEnergy
    match Binding.SetUserCredit s1 commonTo origin (credit - usedEnergy) blockTime with
    | .error err => (some err, s1)
    | .ok s2 => (none, s2)

/-- The tail of `BuyGas` after the comment "fallback to deduct from tx origin". -/
def buyGasOrigin (r : ResolvedTransaction) (state : State) (blockTime : Nat)
    (legacyTxBaseGasPrice effectiveGasPrice prepaid : Int) :
    Except Error BuyGasResult × State :=
  match Energy.Sub state blockTime r.Origin prepaid with
  | .error err => (.error err, state)
  | .ok (sufficient, state1) =>
    if sufficient then
      (.ok { legacyTxBaseGasPrice := legacyTxBaseGasPrice
             effectiveGasPrice := effectiveGasPrice
             payer := r.Origin
             prepaid := prepaid
             returnGas := returnGasOnly blockTime effectiveGasPrice r.Origin }, state1)
    else (.error .insufficientEnergy, state1)

/-- The part of `BuyGas` after the comment "deduct from To", falling back to the
origin when the common recipient cannot pay. -/
def buyGasCommonTo (r : ResolvedTransaction) (state : State) (blockTime : Nat)
    (legacyTxBaseGasPrice effectiveGasPrice prepaid : Int) (commonTo : Address) (credit : Int) :
    Except Error BuyGasResult × State :=
  match Energy.Sub state blockTime commonTo prepaid with
  | .error err => (.error err, state)
  | .ok (sufficient, state1) =>
    if sufficient then
      (.ok { legacyTxBaseGasPrice := legacyTxBaseGasPrice
             effectiveGasPrice := effectiveGasPrice
             payer := commonTo
             prepaid := prepaid
             returnGas := doReturnGasAndSetCredit blockTime effectiveGasPrice commonTo
               commonTo r.Origin credit prepaid }, state1)
    else buyGasOrigin r state1 blockTime legacyTxBaseGasPrice effectiveGasPrice prepaid

/-- The block `if commonTo != nil { ... }` of `BuyGas`, followed by the fallback to
the origin. -/
def buyGasSponsored (r : ResolvedTransaction) (state : State) (blockTime : Nat)
    (legacyTxBaseGasPrice effectiveGasPrice prepaid : Int) (commonTo : Address) :
    Except Error BuyGasResult × State :=
  match Binding.UserCredit state commonTo r.Origin blockTime with
  | .error err => (.error err, state)
  | .ok credit =>
    if credit ≥ prepaid then
      match Binding.CurrentSponsor state commonTo with
      | .error err => (.error err, state)
      | .ok sponsor =>
        match Binding.IsSponsor state commonTo sponsor with
        | .error err => (.error err, state)
        | .ok isSponsor =>
          if isSponsor then
            match Energy.Sub state blockTime sponsor prepaid with
            | .error err => (.error err, state)
            | .ok (ok, state1) =>
              if ok then
                (.ok { legacyTxBaseGasPrice := legacyTxBaseGasPrice
                       effectiveGasPrice := effectiveGasPrice
                       payer := sponsor
                       prepaid := prepaid
                       returnGas := doReturnGasAndSetCredit blockTime effectiveGasPrice sponsor
                         commonTo r.Origin credit prepaid }, state1)
              else
                buyGasCommonTo r state1 blockTime legacyTxBaseGasPrice effectiveGasPrice prepaid
                  commonTo credit
          else
            buyGasCommonTo r state blockTime legacyTxBaseGasPrice effectiveGasPrice prepaid
              commonTo credit
    else buyGasOrigin r state blockTime legacyTxBaseGasPrice effectiveGasPrice prepaid

/-- The test `baseFee != nil && effectiveGasPrice.Cmp(baseFee) < 0` of `BuyGas`. -/
def belowBaseFee (baseFee : Option Int) (effectiveGasPrice : Int) : Bool :=
  match baseFee with
  | none => false
  | some bf => decide (effectiveGasPrice < bf)

/-- The method `ResolvedTransaction.BuyGas`. The second component is the state the call left. -/
def ResolvedTransaction.BuyGas (r : ResolvedTransaction) (state : State) (blockTime : Nat)
    (baseFee : Option Int) : Except Error BuyGasResult × State :=
  match Params.Get state with
  | .error err => (.error err, state)
  | .ok legacyTxBaseGasPrice =>
    match r.tx.EffectiveGasPrice baseFee legacyTxBaseGasPrice with
    | .error err => (.error err, state)
    | .ok effectiveGasPrice =>
      if belowBaseFee baseFee effectiveGasPrice then
        (.error .gasPriceLessThanBaseFee, state)
      else
        let prepaid := (r.tx.Gas : Int) * effectiveGasPrice
        match r.Delegator with
        | some delegator =>
          match Energy.Sub state blockTime delegator prepaid with
          | .error err => (.error err, state)
          | .ok (sufficient, state1) =>
            if sufficient then
              (.ok { legacyTxBaseGasPrice := legacyTxBaseGasPrice
                     effectiveGasPrice := effectiveGasPrice
                     payer := delegator
                     prepaid := prepaid
                     returnGas := returnGasOnly blockTime effectiveGasPrice delegator }, state1)
            else (.error .insufficientEnergy, state1)
        | none =>
          match r.CommonTo with
          | some commonTo =>
            buyGasSponsored r state blockTime legacyTxBaseGasPrice effectiveGasPrice prepaid
              commonTo
          | none =>
            buyGasOrigin r state blockTime legacyTxBaseGasPrice effectiveGasPrice prepaid

/-! ### The exact cost the intrinsic gas is compared with -/

/-- Number of zero bytes of a byte string. -/
def zeroBytes (data : List Byte) : Nat := data.countP (fun b => b = 0)

/-- Number of non-zero bytes of a byte string. -/
def nonZeroBytes (data : List Byte) : Nat := data.countP (fun b => b ≠ 0)

/-- Exact data gas of a byte string: zero bytes at `TxDataZeroGas`, the others at
`TxDataNonZeroGas`. -/
def dataCost (G : GasSchedule) (data : List Byte) : Nat :=
  zeroBytes data * G.TxDataZeroGas + nonZeroBytes data * G.TxDataNonZeroGas

/-- Exact cost of one clause: data gas plus clause gas, as a natural number. -/
def clauseCost (G : GasSchedule) (c : Clause) : Nat :=
  dataCost G c.Data + (if c.To = none then G.ClauseGasContractCreation else G.ClauseGas)

/-- Exact total: `TxGas` plus the cost of every clause, as a natural number. -/
def exactIntrinsicGas (G : GasSchedule) (clauses : List Clause) : Nat :=
  G.TxGas + (clauses.map (clauseCost G)).sum

/-- Example schedule used to evaluate the definitions on concrete inputs. -/
def exampleSchedule : GasSchedule :=
  { TxGas := 5000, ClauseGas := 16000, ClauseGasContractCreation := 48000,
    TxDataZeroGas := 4, TxDataNonZeroGas := 68 }

/-! ## Outcomes of the gas-payer selection and example inputs -/

/-- The sponsor of a common recipient cannot pay: it is not active, or its energy is
below `prepaid`. -/
def sponsorCannotPay (s : State) (commonTo : Address) (prepaid : Int) : Prop :=
  ∃ sponsor, s.sponsor commonTo = .ok sponsor ∧
    (s.isSponsor commonTo sponsor = .ok false ∨
      (s.isSponsor commonTo sponsor = .ok true ∧
        ∃ es, s.energy sponsor = .ok es ∧ es < prepaid))

/-- What a successful sponsored branch did: the active sponsor paid, or the sponsor
could not and the common recipient paid, or the branch fell through and the origin
paid. In each case `s1` is the state after the debit and `res` the result. -/
def SponsoredOutcome (r : ResolvedTransaction) (s : State) (bt : Nat)
    (gp egp prepaid : Int) (commonTo : Address) (res : BuyGasResult) (s1 : State) : Prop :=
  (∃ credit sponsor e, s.credit commonTo r.Origin = .ok credit ∧ prepaid ≤ credit ∧
    s.sponsor commonTo = .ok sponsor ∧ s.isSponsor commonTo sponsor = .ok true ∧
    s.energy sponsor = .ok e ∧ prepaid ≤ e ∧
    s1 = s.setEnergy sponsor (e - prepaid) ∧
    res = { legacyTxBaseGasPrice := gp, effectiveGasPrice := egp, payer := sponsor,
            prepaid := prepaid,
            returnGas := doReturnGasAndSetCredit bt egp sponsor commonTo r.Origin credit
              prepaid }) ∨
  (∃ credit e, s.credit commonTo r.Origin = .ok credit ∧ prepaid ≤ credit ∧
    sponsorCannotPay s commonTo prepaid ∧
    s.energy commonTo = .ok e ∧ prepaid ≤ e ∧
    s1 = s.setEnergy commonTo (e - prepaid) ∧
    res = { legacyTxBaseGasPrice := gp, effectiveGasPrice := egp, payer := commonTo,
            prepaid := prepaid,
            returnGas := doReturnGasAndSetCredit bt egp commonTo commonTo r.Origin credit
              prepaid }) ∨
  (∃ credit e, s.credit commonTo r.Origin = .ok credit ∧
    (credit < prepaid ∨
      (sponsorCannotPay s commonTo prepaid ∧
        ∃ ec, s.energy commonTo = .ok ec ∧ ec < prepaid)) ∧
    s.energy r.Origin = .ok e ∧ prepaid ≤ e ∧
    s1 = s.setEnergy r.Origin (e - prepaid) ∧
    res = { legacyTxBaseGasPrice := gp, effectiveGasPrice := egp, payer := r.Origin,
            prepaid := prepaid, returnGas := returnGasOnly bt egp r.Origin })

/-- What a successful `BuyGas` did: it passed the base-fee check and one branch paid.
`s1` is the state after the debit and `res` the result. -/
def BuyGasOutcome (r : ResolvedTransaction) (state : State) (bt : Nat)
    (baseFee : Option Int) (res : BuyGasResult) (s1 : State) : Prop :=
  ∃ gp egp, Params.Get state = .ok gp ∧ r.tx.EffectiveGasPrice baseFee gp = .ok egp ∧
    belowBaseFee baseFee egp = false ∧
    ((∃ delegator e, r.Delegator = some delegator ∧ state.energy delegator = .ok e ∧
        (r.tx.Gas : Int) * egp ≤ e ∧
        s1 = state.setEnergy delegator (e - (r.tx.Gas : Int) * egp) ∧
        res = { legacyTxBaseGasPrice := gp, effectiveGasPrice := egp, payer := delegator,
                prepaid := (r.tx.Gas : Int) * egp,
                returnGas := returnGasOnly bt egp delegator }) ∨
      (r.Delegator = none ∧ ∃ commonTo, r.CommonTo = some commonTo ∧
        SponsoredOutcome r state bt gp egp ((r.tx.Gas : Int) * egp) commonTo res s1) ∨
      (r.Delegator = none ∧ r.CommonTo = none ∧
        ∃ e, state.energy r.Origin = .ok e ∧ (r.tx.Gas : Int) * egp ≤ e ∧
          s1 = state.setEnergy r.Origin (e - (r.tx.Gas : Int) * egp) ∧
          res = { legacyTxBaseGasPrice := gp, effectiveGasPrice := egp, payer := r.Origin,
                  prepaid := (r.tx.Gas : Int) * egp,
                  returnGas := returnGasOnly bt egp r.Origin }))

/-- The accounts the sponsored branch tries, in order: the current sponsor when it is
active, the common recipient, the origin. -/
def payerCandidates (active : Bool) (sponsor commonTo origin : Address) : List Address :=
  (if active then [sponsor] else []) ++ [commonTo, origin]

/-- Example primitives used to evaluate the definitions on concrete inputs: every
signing hash is `1` (`0x51 + 1` with a type prefix), recovery of a 65-byte signature
gives the key `hash + 2`, and the address of a key is the key. -/
def exampleCrypto : Crypto :=
  { rlpHash := fun _ => 1
    prefixedRlpHash := fun ty _ => ty + 1
    Blake2b := fun h o => h + o
    SigToPub := fun h sig => if sig.length = 65 then .ok (h + 2) else .error 1
    PubkeyToAddress := fun pub => pub }

/-- Example legacy transaction: two clauses calling the contract `7`, gas 40000, gas
price coefficient 0, a 65-byte signature, nothing cached. -/
def exampleLegacyTx : Transaction :=
  { body := .legacy
      { ChainTag := 1, BlockRef := 0, Expiration := 32,
        Clauses := [⟨some 7, 0, []⟩, ⟨some 7, 0, []⟩],
        GasPriceCoef := 0, Gas := 40000, DependsOn := none, Nonce := 0,
        Reserved := ⟨0, []⟩, Signature := List.replicate 65 0 }
    cache := Cache.empty }

/-- Example dynamic-fee transaction: two clauses calling the contract `7`,
`maxFeePerGas = 80`, `maxPriorityFeePerGas = 5`. -/
def exampleDynamicTx : Transaction :=
  { body := .dynamicFee
      { ChainTag := 1, BlockRef := 0, Expiration := 32,
        Clauses := [⟨some 7, 0, []⟩, ⟨some 7, 0, []⟩],
        MaxPriorityFeePerGas := some 5, MaxFeePerGas := some 80,
        Gas := 40000, DependsOn := none, Nonce := 0,
        Reserved := ⟨0, []⟩, Signature := List.replicate 65 0 }
    cache := Cache.empty }

/-- Example dynamic-fee transaction with two different recipients, `7` and `8`. -/
def exampleMixedTx : Transaction :=
  { body := .dynamicFee
      { ChainTag := 1, BlockRef := 0, Expiration := 32,
        Clauses := [⟨some 7, 0, []⟩, ⟨some 8, 0, []⟩],
        MaxPriorityFeePerGas := some 5, MaxFeePerGas := some 80,
        Gas := 40000, DependsOn := none, Nonce := 0,
        Reserved := ⟨0, []⟩, Signature := List.replicate 65 0 }
    cache := Cache.empty }

/-- Example resolved transaction: origin `3`, no delegator. -/
def exampleResolved (trx : Transaction) : ResolvedTransaction :=
  { tx := trx, Origin := 3, Delegator := none, IntrinsicGas := 37000,
    Clauses := trx.Clauses }

/-- Example resolved transaction: origin `3`, delegator `4`. -/
def exampleDelegated (trx : Transaction) : ResolvedTransaction :=
  { tx := trx, Origin := 3, Delegator := some 4, IntrinsicGas := 37000,
    Clauses := trx.Clauses }

/-- Example balances: the origin `3`, the delegator `4` and the sponsor `9` hold
`10 ^ 21`, the contract `7` holds `10 ^ 20`, every other address nothing. -/
def exampleBalance (a : Address) : Int :=
  if a = 3 then 10 ^ 21 else if a = 4 then 10 ^ 21 else if a = 7 then 10 ^ 20
  else if a = 9 then 10 ^ 21 else 0

/-- Example state: base gas price `10 ^ 9`, the balances of `exampleBalance`, a user
credit of `10 ^ 20` everywhere, and `9` the active sponsor of every contract. -/
def exampleState : State :=
  { legacyTxBaseGasPrice := .ok 1000000000
    energy := fun a => .ok (exampleBalance a)
    credit := fun _ _ => .ok (10 ^ 20)
    sponsor := fun _ => .ok 9
    isSponsor := fun _ a => .ok (decide (a = 9)) }

/-- The example state with every energy balance at zero. -/
def examplePoorState : State :=
  { exampleState with energy := fun _ => .ok 0 }

/-- The result of `BuyGas` on the example legacy transaction without delegator: the
sponsor `9` pays `40000 × 10 ^ 9`. -/
def exampleSponsorResult : BuyGasResult :=
  { legacyTxBaseGasPrice := 1000000000
    effectiveGasPrice := 1000000000
    payer := 9
    prepaid := 40000 * 1000000000
    returnGas := doReturnGasAndSetCredit 0 1000000000 9 7 3 (10 ^ 20) (40000 * 1000000000) }

/-- The example state after the sponsor `9` has paid `40000 × 10 ^ 9`. -/
def exampleStateAfter : State :=
  exampleState.setEnergy 9 (10 ^ 21 - 40000 * 1000000000)

/-! ## Example inputs and cache conditions of the envelope methods -/

/-- Example transaction whose signature has 64 bytes although its cache holds an origin
and a delegator. -/
def exampleShortSigTx : Transaction :=
  { body := .legacy
      { ChainTag := 1, BlockRef := 0, Expiration := 32,
        Clauses := [⟨some 7, 0, []⟩],
        GasPriceCoef := 0, Gas := 40000, DependsOn := none, Nonce := 0,
        Reserved := ⟨0, []⟩, Signature := List.replicate 64 0 }
    cache := { Cache.empty with origin := some 3, delegator := some 4 } }

/-- Example proof-of-work parameters: a delay of 30 blocks, work that is a thousand times
the sum of origin and nonce, and one unit of gas per thousand units of work. -/
def exampleWork : WorkParams :=
  { MaxTxWorkDelay := 30
    evaluateWork := fun _ origin nonce => 1000 * ((origin : Int) + (nonce : Int))
    workToGas := fun work _ => (work / 1000).toNat }

/-- Example legacy transaction with the block reference `2 ^ 32 + 9`: block number `1`. -/
def exampleRefTx : Transaction :=
  { body := .legacy
      { ChainTag := 1, BlockRef := 2 ^ 32 + 9, Expiration := 32,
        Clauses := [⟨some 7, 0, []⟩],
        GasPriceCoef := 0, Gas := 40000, DependsOn := none, Nonce := 0,
        Reserved := ⟨0, []⟩, Signature := List.replicate 65 0 }
    cache := Cache.empty }

/-- The `id` cell of the cache is empty or holds the value `ID` computes when the cell is
empty: the cell is only ever written by `ID` itself. -/
def idCached (K : Crypto) (t : Transaction) : Prop :=
  ∀ cached, t.cache.id = some cached →
    cached = (Transaction.ID K { t with cache := { t.cache with id := none } }).1

/-- The `signingHash` cell of the cache is empty or holds the value `SigningHash` computes
when the cell is empty: the cell is only ever written by `SigningHash` itself. -/
def signingHashCached (K : Crypto) (t : Transaction) : Prop :=
  ∀ cached, t.cache.signingHash = some cached →
    cached = (Transaction.SigningHash K
      { t with cache := { t.cache with signingHash := none } }).1

/-- Example dynamic-fee transaction whose fee fields are `nil` and whose cache holds the
signing hash a first call of `SigningHash` stored. -/
def exampleNilFeeTx : Transaction :=
  { body := .dynamicFee
      { ChainTag := 1, BlockRef := 0, Expiration := 32,
        Clauses := [⟨some 7, 0, []⟩],
        MaxPriorityFeePerGas := none, MaxFeePerGas := none,
        Gas := 40000, DependsOn := none, Nonce := 0,
        Reserved := ⟨0, []⟩, Signature := [] }
    cache := { Cache.empty with signingHash := some 0x52 } }

/-! ## The canonical codec

The package `rlp` of go-ethereum and the files `clause.go`, `reserved.go` and
`tx_legacy.go` are not among the sources. The codec below is modelled from the
specification: the encoding rules of its section 4.1 and the wire formats of its
section 6. The decoders accept the canonical form only. -/

/-- Modelled from the spec: the value of a big-endian byte string ("Integers are
big-endian"). -/
def bytesToNat (bs : List Byte) : Nat := bs.foldl (fun acc b => acc * 256 + b.val) 0

/-- Modelled from the spec: the big-endian bytes of `n` on exactly `k` bytes ("Fixed-size
types (addresses, hashes) encode as their canonical byte length"). -/
def natToBytesFixed : Nat → Nat → List Byte
  | 0, _ => []
  | k + 1, n => natToBytesFixed k (n / 256) ++ [Fin.ofNat (n % 256)]

/-- Modelled from the spec: the leading zero bytes removed ("no leading zero bytes"). -/
def stripZeros (bs : List Byte) : List Byte := bs.dropWhile (fun b => b = 0)

/-- The number of bytes of `n`, counted by dividing by 256 at most `fuel` times. -/
def byteWidthAux : Nat → Nat → Nat
  | 0, _ => 0
  | fuel + 1, n => if n = 0 then 0 else byteWidthAux fuel (n / 256) + 1

/-- The number of bytes of `n`. -/
def byteWidth (n : Nat) : Nat := byteWidthAux n n

/-- Modelled from the spec: the minimal big-endian bytes of `n` ("Integers are
big-endian, no leading zero bytes, zero encoded as the empty string"). -/
def natToBytes (n : Nat) : List Byte := stripZeros (natToBytesFixed (byteWidth n) n)
/-- Modelled from the spec: one item of the canonical encoding, "a byte string" or "a
list"; a list is kept as the bytes of its payload, the "concatenated encodings" of its
elements. -/
inductive Item
  | str (s : List Byte)
  | list (payload : List Byte)
  deriving DecidableEq, Repr

/-- Modelled from the spec: the "length-tagged header" of a payload of `len` bytes, from
the tag `base` (`0x80` for a byte string, `0xc0` for a list): one byte for a length below
56, else a byte counting the bytes of the length, then the length as an integer. -/
def encodeLength (base len : Nat) : List Byte :=
  if len < 56 then [Fin.ofNat (base + len)]
  else Fin.ofNat (base + 55 + (natToBytes len).length) :: natToBytes len

/-- Modelled from the spec: the encoding of a byte string, "a byte string <128 is itself;
a longer string has a length-tagged header". -/
def encodeString (s : List Byte) : List Byte :=
  match s with
  | [x] => if x.val < 0x80 then [x] else encodeLength 0x80 1 ++ [x]
  | _ => encodeLength 0x80 s.length ++ s

/-- Modelled from the spec: the encoding of a list, "a length-tagged header followed by
concatenated encodings". -/
def encodeList (payload : List Byte) : List Byte :=
  encodeLength 0xc0 payload.length ++ payload

/-- Modelled from the spec: the encoding of an item. -/
def Item.encode : Item → List Byte
  | .str s => encodeString s
  | .list payload => encodeList payload

/-- Modelled from the spec: the first `len` bytes of the input and the rest; none when
the input is shorter. -/
def takePayload (len : Nat) (input : List Byte) : Option (List Byte × List Byte) :=
  if input.length < len then none else some (input.take len, input.drop len)

/-- Modelled from the spec: a length written on `ll` bytes read off the input. Only the
canonical form is accepted: "no leading zero bytes", and a length of 56 or more (a
shorter payload has the one-byte header). -/
def readLength (ll : Nat) (input : List Byte) : Option (Nat × List Byte) :=
  match takePayload ll input with
  | none => none
  | some (lb, rest) =>
    if lb.head? = some 0 then none
    else if bytesToNat lb < 56 then none
    else some (bytesToNat lb, rest)

/-- Modelled from the spec: the decoder of one item, the inverse of `Item.encode`: the
first item of the input and the bytes after it. Only the canonical form is accepted (a
single byte below `0x80` is never given a header). -/
def readItem (input : List Byte) : Option (Item × List Byte) :=
  match input with
  | [] => none
  | h :: tl =>
    if h.val < 0x80 then some (.str [h], tl)
    else if h.val < 0xb8 then
      match takePayload (h.val - 0x80) tl with
      | none => none
      | some (s, rest) =>
        match s with
        | [x] => if x.val < 0x80 then none else some (.str s, rest)
        | _ => some (.str s, rest)
    else if h.val < 0xc0 then
      match readLength (h.val - 0xb7) tl with
      | none => none
      | some (len, tl2) =>
        match takePayload len tl2 with
        | none => none
        | some (s, rest) => some (.str s, rest)
    else if h.val < 0xf8 then
      match takePayload (h.val - 0xc0) tl with
      | none => none
      | some (payload, rest) => some (.list payload, rest)
    else
      match readLength (h.val - 0xf7) tl with
      | none => none
      | some (len, tl2) =>
        match takePayload len tl2 with
        | none => none
        | some (payload, rest) => some (.list payload, rest)

/-- The number of payload bytes of an item. -/
def Item.size : Item → Nat
  | .str s => s.length
  | .list payload => payload.length
/-- Modelled from the spec: the payload of a list, the "concatenated encodings" of its
items. -/
def encodeItems (its : List Item) : List Byte :=
  its.foldr (fun it acc => it.encode ++ acc) []

/-- Modelled from the spec: the items of a list payload, read one after the other until
the payload is used up. The first argument bounds the number of items. -/
def readItemsAux : Nat → List Byte → Option (List Item)
  | 0, input => if input = [] then some [] else none
  | fuel + 1, input =>
    if input = [] then some []
    else
      match readItem input with
      | none => none
      | some (it, rest) =>
        match readItemsAux fuel rest with
        | none => none
        | some its => some (it :: its)

/-- Modelled from the spec: the items of a list payload; every item takes at least one
byte, so the length of the payload bounds their number. -/
def readItems (payload : List Byte) : Option (List Item) :=
  readItemsAux payload.length payload

/-! ### Fields, clauses and the reserved block -/

/-- Modelled from the spec: an unsigned integer as an item, "big-endian, no leading zero
bytes, zero encoded as the empty string". -/
def encodeUint (n : Nat) : Item := .str (natToBytes n)

/-- Modelled from the spec: the decoder of an unsigned integer of at most `w` bytes; a
list, a longer string and a string with a leading zero byte are rejected. -/
def decodeUint (w : Nat) : Item → Option Nat
  | .str s => if s.length ≤ w ∧ s.head? ≠ some 0 then some (bytesToNat s) else none
  | .list _ => none

/-- Modelled from the spec: a big integer (`U256` fields are `*big.Int` in the sources)
as an item; a negative value has no encoding. -/
def encodeBigInt (v : Int) : Option Item :=
  if v < 0 then none else some (.str (natToBytes v.toNat))

/-- Modelled from the spec: the decoder of a big integer: a string without a leading
zero byte. -/
def decodeBigInt : Item → Option Int
  | .str s => if s.head? ≠ some 0 then some (bytesToNat s : Int) else none
  | .list _ => none

/-- Modelled from the spec: an optional fixed-size value (an address of 20 bytes, a hash
of 32) as an item: "Fixed-size types (addresses, hashes) encode as their canonical byte
length; optional fields encode as the empty string when absent". -/
def encodeFixedOpt (w : Nat) : Option Nat → Item
  | none => .str []
  | some v => .str (natToBytesFixed w v)

/-- Modelled from the spec: the decoder of an optional fixed-size value of `w` bytes: the
empty string is the absent value, a string of `w` bytes a present one. -/
def decodeFixedOpt (w : Nat) : Item → Option (Option Nat)
  | .str s =>
    if s.length = 0 then some none
    else if s.length = w then some (some (bytesToNat s))
    else none
  | .list _ => none

/-- Modelled from the spec: the decoder of a byte string field. -/
def decodeBytes : Item → Option (List Byte)
  | .str s => some s
  | .list _ => none
/-- Modelled from the spec: "Clause encoding: `[to_or_empty, value, data]`. `to` encodes
as empty when absent (contract creation)." (`clause.go` is not among the sources.) -/
def encodeClause (c : Clause) : Option Item :=
  (encodeBigInt c.Value).bind fun value =>
    some (.list (encodeItems [encodeFixedOpt 20 c.To, value, .str c.Data]))

/-- Modelled from the spec: the decoder of a clause: a list of exactly the three fields
`[to_or_empty, value, data]`. -/
def decodeClause : Item → Option Clause
  | .str _ => none
  | .list payload =>
    (readItems payload).bind fun its =>
      match its with
      | [to_, value, data] =>
        (decodeFixedOpt 20 to_).bind fun t =>
          (decodeBigInt value).bind fun v =>
            (decodeBytes data).bind fun d => some { To := t, Value := v, Data := d }
      | _ => none

/-- Modelled from the spec: the items of the "ordered sequence of Clause". -/
def encodeClauseList : List Clause → Option (List Item)
  | [] => some []
  | c :: cs =>
    (encodeClause c).bind fun it => (encodeClauseList cs).bind fun its => some (it :: its)

/-- Modelled from the spec: the clauses decoded from the items of the sequence. -/
def decodeClauseList : List Item → Option (List Clause)
  | [] => some []
  | it :: its =>
    (decodeClause it).bind fun c => (decodeClauseList its).bind fun cs => some (c :: cs)

/-- Modelled from the spec: the `clauses` field, the list of the encoded clauses. -/
def encodeClauses (cs : List Clause) : Option Item :=
  (encodeClauseList cs).bind fun its => some (.list (encodeItems its))

/-- Modelled from the spec: the decoder of the `clauses` field. -/
def decodeClauses : Item → Option (List Clause)
  | .str _ => none
  | .list payload => (readItems payload).bind decodeClauseList

/-- A clause whose recipient, when present, is an address of 20 bytes. -/
def Clause.WellFormed (c : Clause) : Prop := ∀ a, c.To = some a → a < 256 ^ 20
/-- Modelled from the spec: the trailing empty elements of the reserved block left out,
"Trailing empty `unused` list must be omitted at encode time". -/
def trimEmpty (its : List Item) : List Item :=
  (its.reverse.dropWhile (fun it => it = .str [])).reverse

/-- Modelled from the spec: "`reserved` encoding: `[features_u32, ...unused]`", trimmed, so
that it is "just `[features]` (or ... an empty list when `features==0` and `unused` is
empty)". (`reserved.go` is not among the sources.) -/
def encodeReserved (r : reserved) : Item :=
  .list (encodeItems (trimEmpty (encodeUint r.Features :: r.Unused.map Item.str)))

/-- Modelled from the spec: the `unused` byte strings decoded from their items. -/
def decodeBytesList : List Item → Option (List (List Byte))
  | [] => some []
  | it :: its =>
    (decodeBytes it).bind fun s => (decodeBytesList its).bind fun ss => some (s :: ss)

/-- Modelled from the spec: the decoder of the reserved block. The empty list is the
block without features; a list whose last element is empty is not in the trimmed form
and is rejected. -/
def decodeReserved : Item → Option reserved
  | .str _ => none
  | .list payload =>
    (readItems payload).bind fun its =>
      match its with
      | [] => some { Features := 0, Unused := [] }
      | f :: us =>
        if (f :: us).getLast? = some (.str []) then none
        else
          (decodeUint 4 f).bind fun features =>
            (decodeBytesList us).bind fun unused =>
              some { Features := features, Unused := unused }

/-- A reserved block whose features fit in 32 bits and whose unused slots do not end
with an empty one (the trimmed form). -/
def reserved.WellFormed (r : reserved) : Prop :=
  r.Features < 256 ^ 4 ∧ r.Unused.getLast? ≠ some []

/-! ### The two bodies -/

/-- Modelled from the spec: the fields of the list of a dynamic-fee transaction,
`[chainTag, blockRef, expiration, clauses, maxPriorityFeePerGas, maxFeePerGas, gas,
dependsOn, nonce, reserved, signature]`; a `nil` fee is written as zero. There are none
when a big integer is negative. -/
def dynamicFeeTransaction.toItems (t : dynamicFeeTransaction) : Option (List Item) :=
  (encodeClauses t.Clauses).bind fun clauses =>
    (encodeBigInt (t.MaxPriorityFeePerGas.getD 0)).bind fun maxPriorityFeePerGas =>
      (encodeBigInt (t.MaxFeePerGas.getD 0)).bind fun maxFeePerGas =>
        some [encodeUint t.ChainTag, encodeUint t.BlockRef, encodeUint t.Expiration, clauses,
          maxPriorityFeePerGas, maxFeePerGas, encodeUint t.Gas, encodeFixedOpt 32 t.DependsOn,
          encodeUint t.Nonce, encodeReserved t.Reserved, .str t.Signature]

/-- Modelled from the spec: the dynamic-fee body decoded from the items of its list:
exactly the eleven fields, each decoded per its type (`u8`, `u64`, `u32`, clauses, two
big integers, `u64`, optional hash, `u64`, reserved, bytes). -/
def dynamicFeeTransaction.ofItems : List Item → Option dynamicFeeTransaction
  | [chainTag, blockRef, expiration, clauses, maxPriorityFeePerGas, maxFeePerGas, gas,
      dependsOn, nonce, reserved, signature] =>
    (decodeUint 1 chainTag).bind fun ct =>
    (decodeUint 8 blockRef).bind fun br =>
    (decodeUint 4 expiration).bind fun ex =>
    (decodeClauses clauses).bind fun cs =>
    (decodeBigInt maxPriorityFeePerGas).bind fun mp =>
    (decodeBigInt maxFeePerGas).bind fun mf =>
    (decodeUint 8 gas).bind fun g =>
    (decodeFixedOpt 32 dependsOn).bind fun d =>
    (decodeUint 8 nonce).bind fun n =>
    (decodeReserved reserved).bind fun r =>
    (decodeBytes signature).bind fun sig =>
      some { ChainTag := ct, BlockRef := br, Expiration := ex, Clauses := cs,
             MaxPriorityFeePerGas := some mp, MaxFeePerGas := some mf, Gas := g,
             DependsOn := d, Nonce := n, Reserved := r, Signature := sig }
  | _ => none

/-- The method `dynamicFeeTransaction.encode`: `rlp.Encode(b, t)`. Modelled from the spec: the
package `rlp` is not among the sources; the encoding is the list of the fields, and the
error (code `1`) that of a negative big integer. -/
def dynamicFeeTransaction.encode (t : dynamicFeeTransaction) : Except Nat (List Byte) :=
  match t.toItems with
  | none => .error 1
  | some its => .ok (encodeList (encodeItems its))

/-- The method `dynamicFeeTransaction.decode`: `rlp.DecodeBytes(input, t)`, on a new body.
Modelled from the spec: the input is one list and nothing after it, holding the fields
of the body; any other input is an error (code `2`). -/
def dynamicFeeTransaction.decode (input : List Byte) : Except Nat dynamicFeeTransaction :=
  match readItem input with
  | some (.list payload, []) =>
    match (readItems payload).bind dynamicFeeTransaction.ofItems with
    | some t => .ok t
    | none => .error 2
  | _ => .error 2

/-- A dynamic-fee body as the Go types and the encoder admit it: every integer field
within its width, addresses of 20 and hashes of 32 bytes, non-negative clause values,
fee fields that are set and non-negative, and a trimmed reserved block. -/
def dynamicFeeTransaction.WellFormed (t : dynamicFeeTransaction) : Prop :=
  t.ChainTag < 2 ^ 8 ∧ t.BlockRef < 2 ^ 64 ∧ t.Expiration < 2 ^ 32 ∧
  (∀ c ∈ t.Clauses, c.WellFormed ∧ 0 ≤ c.Value) ∧
  (∃ v, t.MaxPriorityFeePerGas = some v ∧ 0 ≤ v) ∧
  (∃ v, t.MaxFeePerGas = some v ∧ 0 ≤ v) ∧
  t.Gas < 2 ^ 64 ∧ (∀ d, t.DependsOn = some d → d < 2 ^ 256) ∧ t.Nonce < 2 ^ 64 ∧
  t.Reserved.WellFormed

/-- Modelled from the spec: the fields of the list of a legacy transaction,
`[chainTag, blockRef, expiration, clauses, gasPriceCoef, gas, dependsOn, nonce, reserved,
signature]` (`tx_legacy.go` is not among the sources). There are none when a clause
value is negative. -/
def legacyTransaction.toItems (t : legacyTransaction) : Option (List Item) :=
  (encodeClauses t.Clauses).bind fun clauses =>
    some [encodeUint t.ChainTag, encodeUint t.BlockRef, encodeUint t.Expiration, clauses,
      encodeUint t.GasPriceCoef, encodeUint t.Gas, encodeFixedOpt 32 t.DependsOn,
      encodeUint t.Nonce, encodeReserved t.Reserved, .str t.Signature]

/-- Modelled from the spec: the legacy body decoded from the items of its list: exactly
the ten fields, each decoded per its type (`u8`, `u64`, `u32`, clauses, `u8`, `u64`,
optional hash, `u64`, reserved, bytes). -/
def legacyTransaction.ofItems : List Item → Option legacyTransaction
  | [chainTag, blockRef, expiration, clauses, gasPriceCoef, gas, dependsOn, nonce, reserved,
      signature] =>
    (decodeUint 1 chainTag).bind fun ct =>
    (decodeUint 8 blockRef).bind fun br =>
    (decodeUint 4 expiration).bind fun ex =>
    (decodeClauses clauses).bind fun cs =>
    (decodeUint 1 gasPriceCoef).bind fun gpc =>
    (decodeUint 8 gas).bind fun g =>
    (decodeFixedOpt 32 dependsOn).bind fun d =>
    (decodeUint 8 nonce).bind fun n =>
    (decodeReserved reserved).bind fun r =>
    (decodeBytes signature).bind fun sig =>
      some { ChainTag := ct, BlockRef := br, Expiration := ex, Clauses := cs,
             GasPriceCoef := gpc, Gas := g, DependsOn := d, Nonce := n, Reserved := r,
             Signature := sig }
  | _ => none

/-- The call `rlp.EncodeToBytes(t.body)` of `MarshalBinary` on a legacy body. Modelled from
the spec: the package `rlp` and the legacy body are not among the sources; the encoding
is "a single top-level list over all body fields", and the error (code `1`) that of a
negative big integer. -/
def legacyTransaction.encode (t : legacyTransaction) : Except Nat (List Byte) :=
  match t.toItems with
  | none => .error 1
  | some its => .ok (encodeList (encodeItems its))

/-- The call `rlp.DecodeBytes(b, &data)` of `UnmarshalBinary` into a legacy body. Modelled
from the spec: the input is one list and nothing after it, holding the fields of the
body; any other input is an error (code `2`). -/
def legacyTransaction.decode (input : List Byte) : Except Nat legacyTransaction :=
  match readItem input with
  | some (.list payload, []) =>
    match (readItems payload).bind legacyTransaction.ofItems with
    | some t => .ok t
    | none => .error 2
  | _ => .error 2

/-- A legacy body as the Go types and the encoder admit it: every integer field within
its width, addresses of 20 and hashes of 32 bytes, non-negative clause values, and a
trimmed reserved block. -/
def legacyTransaction.WellFormed (t : legacyTransaction) : Prop :=
  t.ChainTag < 2 ^ 8 ∧ t.BlockRef < 2 ^ 64 ∧ t.Expiration < 2 ^ 32 ∧
  (∀ c ∈ t.Clauses, c.WellFormed ∧ 0 ≤ c.Value) ∧
  t.GasPriceCoef < 2 ^ 8 ∧
  t.Gas < 2 ^ 64 ∧ (∀ d, t.DependsOn = some d → d < 2 ^ 256) ∧ t.Nonce < 2 ^ 64 ∧
  t.Reserved.WellFormed

/-- Modelled from the spec: the canonical codec of §4.1 and §6 as the RLP calls of the
envelope. -/
def rlpCodec : Codec :=
  { EncodeLegacy := legacyTransaction.encode
    DecodeLegacy := legacyTransaction.decode
    EncodeDynamicFee := dynamicFeeTransaction.encode
    DecodeDynamicFee := dynamicFeeTransaction.decode }

/-- A transaction whose body is well-formed. -/
def Transaction.WellFormed (t : Transaction) : Prop :=
  match t.body with
  | .legacy b => b.WellFormed
  | .dynamicFee b => b.WellFormed

/-- Example legacy transaction with the highest block number, `2 ^ 32 - 1`, in its block
reference and the expiration `32`. -/
def exampleLateTx : Transaction :=
  { body := .legacy
      { ChainTag := 1, BlockRef := (2 ^ 32 - 1) * 2 ^ 32 + 5, Expiration := 32,
        Clauses := [⟨some 7, 0, []⟩],
        GasPriceCoef := 0, Gas := 40000, DependsOn := none, Nonce := 0,
        Reserved := ⟨0, []⟩, Signature := List.replicate 65 0 }
    cache := Cache.empty }

/-- The `intrinsicGas` cell of the cache is zero or holds the intrinsic gas of the clauses
of the body: the cell is only ever written by `IntrinsicGas` itself. -/
def intrinsicGasCached (G : GasSchedule) (t : Transaction) : Prop :=
  t.cache.intrinsicGas ≠ 0 → IntrinsicGas G t.body.clauses = .ok t.cache.intrinsicGas

/-- Example legacy transaction that breaks two invariants: its only clause has the value
`-1`, and its gas `100` is below its intrinsic gas `21000`. Its signature has the right
length. -/
def exampleTwoFaultsTx : Transaction :=
  { body := .legacy
      { ChainTag := 1, BlockRef := 0, Expiration := 32,
        Clauses := [⟨some 7, -1, []⟩],
        GasPriceCoef := 0, Gas := 100, DependsOn := none, Nonce := 0,
        Reserved := ⟨0, []⟩, Signature := List.replicate 65 0 }
    cache := Cache.empty }

/-- The cache `c` of a transaction with the body `body` holds, in each of the cells
`signingHash`, `origin`, `id`, `hash` and `intrinsicGas`, nothing or the result of the
method on the transaction with that body and an empty cache. -/
structure CacheSound (G : GasSchedule) (K : Crypto) (body : txData) (c : Cache) : Prop where
  signingHash : ∀ h, c.signingHash = some h →
    h = (Transaction.SigningHash K { body := body, cache := Cache.empty }).1
  origin : ∀ o, c.origin = some o →
    (Transaction.Origin K { body := body, cache := Cache.empty }).1 = .ok o
  id : ∀ i, c.id = some i → i = (Transaction.ID K { body := body, cache := Cache.empty }).1
  hash : ∀ h, c.hash = some h →
    h = (Transaction.Hash K { body := body, cache := Cache.empty }).1
  intrinsicGas : c.intrinsicGas ≠ 0 →
    (Transaction.IntrinsicGas G { body := body, cache := Cache.empty }).1
      = .ok c.intrinsicGas

/-- One call of a method that writes the cache: the transaction before and the transaction
as the call leaves it. (`DelegatorSigningHash`, `ProvedWork` and `ResolveTransaction` write
the cache through these.) -/
inductive Transaction.Step (G : GasSchedule) (K : Crypto) (W : WorkParams) :
    Transaction → Transaction → Prop
  | signingHash (t : Transaction) : Step G K W t (t.SigningHash K).2
  | hash (t : Transaction) : Step G K W t (t.Hash K).2
  | id (t : Transaction) : Step G K W t (t.ID K).2
  | intrinsicGas (t : Transaction) : Step G K W t (t.IntrinsicGas G).2
  | origin (t : Transaction) : Step G K W t (t.Origin K).2
  | delegator (t : Transaction) : Step G K W t (t.Delegator K).2
  | unprovedWork (t : Transaction) : Step G K W t (t.UnprovedWork W K).2

/-- Example schedule under which the intrinsic gas of every transaction with a clause
overflows. -/
def exampleOverflowSchedule : GasSchedule :=
  { TxGas := 2 ^ 64 - 1, ClauseGas := 16000, ClauseGasContractCreation := 48000,
    TxDataZeroGas := 4, TxDataNonZeroGas := 68 }

/-! ## Memory: the structs, integers and arrays behind pointers

The methods above pass values. In the Go code a `*Transaction`, the body in its `body`
field, a `*big.Int` and the array of a slice are reached through pointers: a write
through a pointer is seen through every copy of it. This section embeds the methods that
write through a pointer, or hand one out, over a memory of cells: `copy`,
`setSignature`, the two fee accessors, `WithSignature`, `EffectiveGasPrice` and
`EffectivePriorityFeePerGas`. What such a call leaves unchanged is then a statement
about the memory after the call. The memory holds dynamic-fee bodies only
(`tx_legacy.go` is not among the sources). -/

/-- A pointer: the index of a cell among the cells of its kind. -/
abbrev Ptr := Nat

/-- The struct `dynamicFeeTransaction` of `tx_dynamic_fee.go` as it lies in memory. The
fee fields are `*big.Int` (`nil` is `none`); the slices `Clauses` and `Signature` point
to their arrays (a `nil` slice is `none`). A `*Clause` and the `*thor.Bytes32` of
`DependsOn` are held by value: no method writes through them. -/
structure dynamicFeeCell where
  ChainTag : Nat
  BlockRef : Nat
  Expiration : Nat
  Clauses : Option Ptr
  MaxPriorityFeePerGas : Option Ptr
  MaxFeePerGas : Option Ptr
  Gas : Nat
  DependsOn : Option Bytes32
  Nonce : Nat
  Reserved : reserved
  Signature : Option Ptr
  deriving DecidableEq, Repr

/-- The struct `Transaction` as it lies in memory: the field `body` holds a
`*dynamicFeeTransaction`. -/
structure TransactionCell where
  body : Ptr
  cache : Cache
  deriving DecidableEq, Repr

/-- The memory: the `big.Int` values, the arrays of the `[]byte` slices, the arrays of
the `[]*Clause` slices, the body structs and the `Transaction` structs. An allocation
appends a cell. -/
structure Memory where
  ints : List Int
  byteArrays : List (List Byte)
  clauseArrays : List (List Clause)
  bodies : List dynamicFeeCell
  txs : List TransactionCell
  deriving DecidableEq, Repr

namespace Memory

/-- The value of the `big.Int` behind `p`. Dereferencing `nil`, or an address that is no
cell of the memory, panics. -/
def int (m : Memory) (p : Option Ptr) : Except Error Int :=
  match p with
  | none => .error .nilPointer
  | some a =>
    match m.ints[a]? with
    | none => .error .nilPointer
    | some v => .ok v

/-- The body struct behind `p`. -/
def bodyCell (m : Memory) (p : Ptr) : Except Error dynamicFeeCell :=
  match m.bodies[p]? with
  | none => .error .nilPointer
  | some c => .ok c

/-- The `Transaction` struct behind `p`. -/
def txCell (m : Memory) (p : Ptr) : Except Error TransactionCell :=
  match m.txs[p]? with
  | none => .error .nilPointer
  | some c => .ok c

/-- The expressions `new(big.Int)` and `&big.Int{}`: a new cell holding zero. -/
def newInt (m : Memory) : Ptr × Memory :=
  (m.ints.length, { m with ints := m.ints ++ [0] })

/-- The write of the value `v` to the `big.Int` behind `z`. -/
def setInt (m : Memory) (z : Ptr) (v : Int) : Except Error Memory :=
  if z < m.ints.length then .ok { m with ints := m.ints.set z v }
  else .error .nilPointer

/-- The method `z.Set(x)` of `math/big`: `z` takes the value of `x`; `z` is returned. -/
def Set (m : Memory) (z : Ptr) (x : Option Ptr) : Except Error (Ptr × Memory) := do
  let v ← m.int x
  let m1 ← m.setInt z v
  pure (z, m1)

/-- The method `z.Add(x, y)` of `math/big`: `z` takes the value `x + y`; `z` is
returned. -/
def Add (m : Memory) (z : Ptr) (x y : Option Ptr) : Except Error (Ptr × Memory) := do
  let a ← m.int x
  let b ← m.int y
  let m1 ← m.setInt z (a + b)
  pure (z, m1)

/-- The method `z.Sub(x, y)` of `math/big`: `z` takes the value `x - y`; `z` is
returned. -/
def Sub (m : Memory) (z : Ptr) (x y : Option Ptr) : Except Error (Ptr × Memory) := do
  let a ← m.int x
  let b ← m.int y
  let m1 ← m.setInt z (a - b)
  pure (z, m1)

/-- The function `math.BigMin(x, y)` of go-ethereum: `y` if `x.Cmp(y) > 0`, else `x`. One
of the two pointers is returned; nothing is written. -/
def BigMin (m : Memory) (x y : Option Ptr) : Except Error (Option Ptr) := do
  let a ← m.int x
  let b ← m.int y
  pure (if a > b then y else x)

/-- The function `slices.Clone(s)`: `nil` for `nil`, else a slice over a new array with
the elements of `s`. -/
def Clone (m : Memory) (s : Option Ptr) : Except Error (Option Ptr × Memory) :=
  match s with
  | none => .ok (none, m)
  | some a =>
    match m.byteArrays[a]? with
    | none => .error .nilPointer
    | some bs =>
      .ok (some m.byteArrays.length, { m with byteArrays := m.byteArrays ++ [bs] })

/-- The expression `make([]*Clause, len(s))` with the later `copy(cpy.Clauses, s)`: a
slice over a new array that holds the clause pointers of `s` (none for a `nil` `s`). -/
def makeClauses (m : Memory) (s : Option Ptr) : Except Error (Option Ptr × Memory) :=
  match s with
  | none =>
    .ok (some m.clauseArrays.length, { m with clauseArrays := m.clauseArrays ++ [[]] })
  | some a =>
    match m.clauseArrays[a]? with
    | none => .error .nilPointer
    | some cs =>
      .ok (some m.clauseArrays.length, { m with clauseArrays := m.clauseArrays ++ [cs] })

/-- The method `dynamicFeeTransaction.copy` on the body behind `t`: a new struct `cpy` with
a new clause array and two new `big.Int`, the other fields those of `t` (the signature
slice is shared); a fee field of `t` that is not `nil` is then copied into the new
integer by `Set`. The pointer `cpy` is returned. -/
def copy (m : Memory) (t : Ptr) : Except Error (Ptr × Memory) := do
  let c ← m.bodyCell t
  let (clauses, m1) ← m.makeClauses c.Clauses
  let (maxFeePerGas, m2) := m1.newInt
  let (maxPriorityFeePerGas, m3) := m2.newInt
  let cpy := m3.bodies.length
  let m4 : Memory :=
    { m3 with
      bodies := m3.bodies ++
        [{ ChainTag := c.ChainTag
           BlockRef := c.BlockRef
           Expiration := c.Expiration
           Clauses := clauses
           Gas := c.Gas
           MaxFeePerGas := some maxFeePerGas
           MaxPriorityFeePerGas := some maxPriorityFeePerGas
           DependsOn := c.DependsOn
           Nonce := c.Nonce
           Reserved := c.Reserved
           Signature := c.Signature }] }
  let m5 ←
    match c.MaxFeePerGas with
    | none => pure m4
    | some p => do
      let (_, m') ← m4.Set maxFeePerGas (some p)
      pure m'
  let m6 ←
    match c.MaxPriorityFeePerGas with
    | none => pure m5
    | some p => do
      let (_, m') ← m5.Set maxPriorityFeePerGas (some p)
      pure m'
  pure (cpy, m6)

/-- The method `dynamicFeeTransaction.setSignature` on the body behind `t`: the field
`Signature` of that struct is overwritten. -/
def setSignature (m : Memory) (t : Ptr) (sig : Option Ptr) : Except Error Memory :=
  match m.bodies[t]? with
  | none => .error .nilPointer
  | some c => .ok { m with bodies := m.bodies.set t { c with Signature := sig } }

/-- The method `dynamicFeeTransaction.maxFeePerGas` on the body behind `t`: a pointer to a
new zero if the field is `nil`, else to a new integer set to the value of the field. -/
def maxFeePerGas (m : Memory) (t : Ptr) : Except Error (Ptr × Memory) := do
  let c ← m.bodyCell t
  match c.MaxFeePerGas with
  | none => pure m.newInt
  | some p =>
    let (z, m1) := m.newInt
    m1.Set z (some p)

/-- The method `dynamicFeeTransaction.maxPriorityFeePerGas` on the body behind `t`: a
pointer to a new zero if the field is `nil`, else to a new integer set to the value of
the field. -/
def maxPriorityFeePerGas (m : Memory) (t : Ptr) : Except Error (Ptr × Memory) := do
  let c ← m.bodyCell t
  match c.MaxPriorityFeePerGas with
  | none => pure m.newInt
  | some p =>
    let (z, m1) := m.newInt
    m1.Set z (some p)

/-- The method `Transaction.WithSignature` on the transaction behind `t`: the body is
copied, the signature of the copy is set to a clone of `sig`, and a pointer to a new
`Transaction` struct with that body and an empty cache is returned. -/
def WithSignature (m : Memory) (t : Ptr) (sig : Option Ptr) : Except Error (Ptr × Memory) := do
  let tc ← m.txCell t
  let (body, m1) ← m.copy tc.body
  let (s, m2) ← m1.Clone sig
  let m3 ← m2.setSignature body s
  pure (m3.txs.length, { m3 with txs := m3.txs ++ [{ body := body, cache := Cache.empty }] })

/-- The method `Transaction.EffectiveGasPrice` on the transaction behind `t`, whose body is
a dynamic-fee body:
`math.BigMin(t.body.maxFeePerGas(),
t.body.maxPriorityFeePerGas().Add(t.body.maxPriorityFeePerGas(), baseFee))`, the three
accessor calls in the order they are written. -/
def EffectiveGasPrice (m : Memory) (t : Ptr) (baseFee : Option Ptr)
    (_legacyTxBaseGasPrice : Option Ptr) : Except Error (Option Ptr × Memory) := do
  let tc ← m.txCell t
  let (x, m1) ← m.maxFeePerGas tc.body
  let (z, m2) ← m1.maxPriorityFeePerGas tc.body
  let (y, m3) ← m2.maxPriorityFeePerGas tc.body
  let (sum, m4) ← m3.Add z (some y) baseFee
  let r ← m4.BigMin (some x) (some sum)
  pure (r, m4)

/-- The method `Transaction.EffectivePriorityFeePerGas` on the transaction behind `t`, whose
body is a dynamic-fee body: the two accessor calls, then
`priorityFeePerGas := new(big.Int).Sub(maxFeePerGas, baseFee)` and
`math.BigMin(priorityFeePerGas, maxPriorityFeePerGas)`. -/
def EffectivePriorityFeePerGas (m : Memory) (t : Ptr) (baseFee : Option Ptr)
    (_legacyTxBaseGasPrice _provedWork : Option Ptr) :
    Except Error (Option Ptr × Memory) := do
  let tc ← m.txCell t
  let (maxPriorityFeePerGas, m1) ← m.maxPriorityFeePerGas tc.body
  let (maxFeePerGas, m2) ← m1.maxFeePerGas tc.body
  let (z, m3) := m2.newInt
  let (priorityFeePerGas, m4) ← m3.Sub z (some maxFeePerGas) baseFee
  let r ← m4.BigMin (some priorityFeePerGas) (some maxPriorityFeePerGas)
  pure (r, m4)

/-- The value a nullable `*big.Int` field stands for: `nil`, or the integer behind it. -/
def bigInt (m : Memory) (p : Option Ptr) : Option (Option Int) :=
  match p with
  | none => some none
  | some a => (m.ints[a]?).map some

/-- The bytes of a `[]byte` slice: none for `nil`, else the array behind it. -/
def bytes (m : Memory) (s : Option Ptr) : Option (List Byte) :=
  match s with
  | none => some []
  | some a => m.byteArrays[a]?

/-- The clauses of a `[]*Clause` slice: none for `nil`, else the array behind it. -/
def clauses (m : Memory) (s : Option Ptr) : Option (List Clause) :=
  match s with
  | none => some []
  | some a => m.clauseArrays[a]?

/-- The body value that the struct behind `p` and the cells it points to stand for. -/
def body (m : Memory) (p : Ptr) : Option dynamicFeeTransaction :=
  match m.bodies[p]? with
  | none => none
  | some c =>
    match m.clauses c.Clauses, m.bigInt c.MaxPriorityFeePerGas, m.bigInt c.MaxFeePerGas,
      m.bytes c.Signature with
    | some cs, some prio, some fee, some sig =>
      some
        { ChainTag := c.ChainTag
          BlockRef := c.BlockRef
          Expiration := c.Expiration
          Clauses := cs
          MaxPriorityFeePerGas := prio
          MaxFeePerGas := fee
          Gas := c.Gas
          DependsOn := c.DependsOn
          Nonce := c.Nonce
          Reserved := c.Reserved
          Signature := sig }
    | _, _, _, _ => none

/-- The transaction value that the `Transaction` struct behind `p` stands for. -/
def transaction (m : Memory) (p : Ptr) : Option Transaction :=
  match m.txs[p]? with
  | none => none
  | some tc =>
    match m.body tc.body with
    | none => none
    | some b => some { body := .dynamicFee b, cache := tc.cache }

/-- Every cell of `m` is a cell of `m2` and holds there what it holds in `m`: `m2` arose
from `m` by allocations and by writes to cells allocated since. -/
def Extends (m m2 : Memory) : Prop :=
  m.ints <+: m2.ints ∧ m.byteArrays <+: m2.byteArrays ∧
    m.clauseArrays <+: m2.clauseArrays ∧ m.bodies <+: m2.bodies ∧ m.txs <+: m2.txs

/-- Whether a memory extends another can be computed. -/
instance decidableExtends (m m2 : Memory) : Decidable (m.Extends m2) := by
  unfold Extends
  infer_instance

/-- The transaction behind `q` in `m2` lies in cells that `m` does not have: its struct,
its body, the integers of its fee fields and the arrays of its slices. -/
def IsNew (m m2 : Memory) (q : Ptr) : Prop :=
  m.txs.length ≤ q ∧
  ∃ tc c, m2.txs[q]? = some tc ∧ m.bodies.length ≤ tc.body ∧
    m2.bodies[tc.body]? = some c ∧
    (∀ a, c.MaxFeePerGas = some a → m.ints.length ≤ a) ∧
    (∀ a, c.MaxPriorityFeePerGas = some a → m.ints.length ≤ a) ∧
    (∀ a, c.Clauses = some a → m.clauseArrays.length ≤ a) ∧
    (∀ a, c.Signature = some a → m.byteArrays.length ≤ a)

end Memory

/-- Example memory: the transaction `exampleNilFeeTx` behind the pointer `0` and the
transaction `exampleDynamicTx` behind the pointer `1`; the integer cell `2` holds a base
fee `10` and the byte array `0` a signature `[1, 2, 3]`. -/
def exampleMemory : Memory :=
  { ints := [5, 80, 10]
    byteArrays := [[1, 2, 3], List.replicate 65 0]
    clauseArrays := [[⟨some 7, 0, []⟩], [⟨some 7, 0, []⟩, ⟨some 7, 0, []⟩]]
    bodies :=
      [ { ChainTag := 1, BlockRef := 0, Expiration := 32, Clauses := some 0,
          MaxPriorityFeePerGas := none, MaxFeePerGas := none, Gas := 40000,
          DependsOn := none, Nonce := 0, Reserved := ⟨0, []⟩, Signature := none },
        { ChainTag := 1, BlockRef := 0, Expiration := 32, Clauses := some 1,
          MaxPriorityFeePerGas := some 0, MaxFeePerGas := some 1, Gas := 40000,
          DependsOn := none, Nonce := 0, Reserved := ⟨0, []⟩, Signature := some 1 } ]
    txs :=
      [ { body := 0, cache := { Cache.empty with signingHash := some 0x52 } },
        { body := 1, cache := Cache.empty } ] }

end Thor

namespace Thor

/-! ## Intrinsic gas: the checked arithmetic is exact -/

theorem SafeAdd_overflow (x y : Nat) : (SafeAdd x y).2 = true ↔ 2 ^ 64 ≤ x + y := by
  unfold SafeAdd
  exact decide_eq_true_iff

theorem SafeAdd_exact (x y : Nat) (h : x + y < 2 ^ 64) : (SafeAdd x y).1 = x + y := by
  unfold SafeAdd
  exact Nat.mod_eq_of_lt h

theorem SafeMul_overflow (x y : Nat) : (SafeMul x y).2 = true ↔ 2 ^ 64 ≤ x * y := by
  unfold SafeMul
  exact decide_eq_true_iff

theorem SafeMul_exact (x y : Nat) (h : x * y < 2 ^ 64) : (SafeMul x y).1 = x * y := by
  unfold SafeMul
  exact Nat.mod_eq_of_lt h

theorem zeroBytes_cons (b : Byte) (rest : List Byte) :
    zeroBytes (b :: rest) = zeroBytes rest + (if b = 0 then 1 else 0) := by
  unfold zeroBytes
  rw [List.countP_cons]
  by_cases hb : b = 0 <;> simp [hb]

theorem nonZeroBytes_cons (b : Byte) (rest : List Byte) :
    nonZeroBytes (b :: rest) = nonZeroBytes rest + (if b = 0 then 0 else 1) := by
  unfold nonZeroBytes
  rw [List.countP_cons]
  by_cases hb : b = 0 <;> simp [hb]

theorem foldl_countStep (data : List Byte) :
    ∀ z nz : Nat, z + nz + data.length < 2 ^ 64 →
      data.foldl countStep (z, nz) = (z + zeroBytes data, nz + nonZeroBytes data) := by
  induction data with
  | nil => intro z nz _; simp [zeroBytes, nonZeroBytes]
  | cons b rest ih =>
    intro z nz h
    rw [List.length_cons] at h
    rw [List.foldl_cons, zeroBytes_cons, nonZeroBytes_cons]
    by_cases hb : b = 0
    · have hz : (z + 1) % 2 ^ 64 = z + 1 := Nat.mod_eq_of_lt (by omega)
      have hs : countStep (z, nz) b = (z + 1, nz) := by
        unfold countStep
        rw [if_pos hb, hz]
      rw [hs, ih (z + 1) nz (by omega), if_pos hb, if_pos hb]
      ext
      · simp only; omega
      · simp only; omega
    · have hnz : (nz + 1) % 2 ^ 64 = nz + 1 := Nat.mod_eq_of_lt (by omega)
      have hs : countStep (z, nz) b = (z, nz + 1) := by
        unfold countStep
        rw [if_neg hb, hnz]
      rw [hs, ih z (nz + 1) (by omega), if_neg hb, if_neg hb]
      ext
      · simp only; omega
      · simp only; omega

theorem zeroBytes_le_length (data : List Byte) : zeroBytes data ≤ data.length :=
  List.countP_le_length _

theorem nonZeroBytes_le_length (data : List Byte) : nonZeroBytes data ≤ data.length :=
  List.countP_le_length _

theorem dataGas_eq (G : GasSchedule) (data : List Byte) (hlen : data.length < 2 ^ 64) :
    dataGas G data =
      if dataCost G data < 2 ^ 64 then .ok (dataCost G data)
      else .error .intrinsicGasOverflow := by
  unfold dataGas
  by_cases h0 : data.length = 0
  · have hnil : data = [] := List.length_eq_zero.mp h0
    subst hnil
    have hz : dataCost G [] = 0 := by simp [dataCost, zeroBytes, nonZeroBytes]
    rw [if_pos h0, hz, if_pos (by decide)]
  · rw [if_neg h0]
    have hf := foldl_countStep data 0 0 (by omega)
    rw [Nat.zero_add, Nat.zero_add] at hf
    rw [hf]
    show (if (SafeMul G.TxDataZeroGas (zeroBytes data)).2 = true then _ else _) = _
    have e1 : G.TxDataZeroGas * zeroBytes data = zeroBytes data * G.TxDataZeroGas :=
      Nat.mul_comm _ _
    have e2 : G.TxDataNonZeroGas * nonZeroBytes data = nonZeroBytes data * G.TxDataNonZeroGas :=
      Nat.mul_comm _ _
    by_cases ha : 2 ^ 64 ≤ G.TxDataZeroGas * zeroBytes data
    · rw [if_pos ((SafeMul_overflow _ _).mpr ha), if_neg]
      unfold dataCost
      omega
    · rw [if_neg (fun h => ha ((SafeMul_overflow _ _).mp h))]
      show (if (SafeMul G.TxDataNonZeroGas (nonZeroBytes data)).2 = true then _ else _) = _
      by_cases hb : 2 ^ 64 ≤ G.TxDataNonZeroGas * nonZeroBytes data
      · rw [if_pos ((SafeMul_overflow _ _).mpr hb), if_neg]
        unfold dataCost
        omega
      · rw [if_neg (fun h => hb ((SafeMul_overflow _ _).mp h))]
        show (if (SafeAdd (SafeMul G.TxDataZeroGas (zeroBytes data)).1
            (SafeMul G.TxDataNonZeroGas (nonZeroBytes data)).1).2 = true then _ else _) = _
        rw [SafeMul_exact _ _ (by omega), SafeMul_exact _ _ (by omega)]
        by_cases hc : 2 ^ 64 ≤ G.TxDataZeroGas * zeroBytes data
            + G.TxDataNonZeroGas * nonZeroBytes data
        · rw [if_pos ((SafeAdd_overflow _ _).mpr hc), if_neg]
          unfold dataCost
          omega
        · rw [if_neg (fun h => hc ((SafeAdd_overflow _ _).mp h)), if_pos]
          · rw [SafeAdd_exact _ _ (by omega)]
            unfold dataCost
            rw [e1, e2]
          · unfold dataCost
            omega

/-- The clause gas the loop adds for a clause. -/
theorem clauseGas_eq (G : GasSchedule) (c : Clause) :
    (if c.IsCreatingContract = true then G.ClauseGasContractCreation else G.ClauseGas)
      = (if c.To = none then G.ClauseGasContractCreation else G.ClauseGas) := by
  unfold Clause.IsCreatingContract
  cases c.To <;> simp

theorem intrinsicGasLoop_eq (G : GasSchedule) (cs : List Clause)
    (hlen : ∀ c ∈ cs, c.Data.length < 2 ^ 64) :
    ∀ total : Nat, intrinsicGasLoop G total cs =
      if cs = [] ∨ total + (cs.map (clauseCost G)).sum < 2 ^ 64
      then .ok (total + (cs.map (clauseCost G)).sum)
      else .error .intrinsicGasOverflow := by
  induction cs with
  | nil => intro total; simp [intrinsicGasLoop]
  | cons c rest ih =>
    intro total
    have hc : c.Data.length < 2 ^ 64 := hlen c (List.mem_cons_self _ _)
    have hrest : ∀ c ∈ rest, c.Data.length < 2 ^ 64 :=
      fun x hx => hlen x (List.mem_cons_of_mem _ hx)
    have ih := ih hrest
    have hsum : ((c :: rest).map (clauseCost G)).sum
        = clauseCost G c + (rest.map (clauseCost G)).sum := by simp
    have hcost : clauseCost G c = dataCost G c.Data
        + (if c.To = none then G.ClauseGasContractCreation else G.ClauseGas) := rfl
    have hS0 : rest = [] → (rest.map (clauseCost G)).sum = 0 := by
      intro h
      subst h
      rfl
    rw [hsum, hcost, if_congr (or_iff_right (List.cons_ne_nil c rest)) rfl rfl]
    generalize (rest.map (clauseCost G)).sum = S at ih hS0 ⊢
    unfold intrinsicGasLoop
    simp only [clauseGas_eq]
    generalize (if c.To = none then G.ClauseGasContractCreation else G.ClauseGas) = cg
    rw [dataGas_eq G c.Data hc]
    by_cases h1 : dataCost G c.Data < 2 ^ 64
    · rw [if_pos h1]
      show (if (SafeAdd total (dataCost G c.Data)).2 = true then _ else _) = _
      by_cases h2 : 2 ^ 64 ≤ total + dataCost G c.Data
      · rw [if_pos ((SafeAdd_overflow _ _).mpr h2), if_neg]
        omega
      · rw [if_neg (fun h => h2 ((SafeAdd_overflow _ _).mp h))]
        show (if (SafeAdd (SafeAdd total (dataCost G c.Data)).1 cg).2 = true
          then _ else _) = _
        rw [SafeAdd_exact _ _ (by omega)]
        by_cases h3 : 2 ^ 64 ≤ total + dataCost G c.Data + cg
        · rw [if_pos ((SafeAdd_overflow _ _).mpr h3), if_neg]
          omega
        · rw [if_neg (fun h => h3 ((SafeAdd_overflow _ _).mp h))]
          rw [SafeAdd_exact _ _ (by omega), ih]
          have hor : (rest = [] ∨ total + dataCost G c.Data + cg + S < 2 ^ 64)
              ↔ total + (dataCost G c.Data + cg + S) < 2 ^ 64 := by
            constructor
            · rintro (h | h)
              · have := hS0 h
                omega
              · omega
            · intro h
              right
              omega
          rw [if_congr hor rfl rfl]
          have hassoc : total + dataCost G c.Data + cg + S
              = total + (dataCost G c.Data + cg + S) := by omega
          rw [hassoc]
    · rw [if_neg h1, if_neg]
      omega

/-- The intrinsic gas of a non-empty clause list is the exact total when that fits in
64 bits, and the overflow error otherwise. -/
theorem IntrinsicGas_eq (G : GasSchedule) (cs : List Clause) (hne : cs ≠ [])
    (hlen : ∀ c ∈ cs, c.Data.length < 2 ^ 64) :
    IntrinsicGas G cs =
      if exactIntrinsicGas G cs < 2 ^ 64 then .ok (exactIntrinsicGas G cs)
      else .error .intrinsicGasOverflow := by
  unfold IntrinsicGas
  have h0 : ¬ cs.length = 0 := fun h => hne (List.length_eq_zero.mp h)
  rw [if_neg h0, intrinsicGasLoop_eq G cs hlen, if_congr (or_iff_right hne) rfl rfl]
  rfl

/-- Claim C9. `IntrinsicGas` returns `TxGas + ClauseGas` for the empty clause list, and
on every non-empty clause list on which it succeeds it returns `TxGas` plus the sum
over the clauses of `zeroBytes × TxDataZeroGas + nonZeroBytes × TxDataNonZeroGas +
(ClauseGasContractCreation if the clause has no recipient, else ClauseGas)`, as an
exact natural number. (A Go byte slice is shorter than `2 ^ 64`.) -/
theorem IntrinsicGas_exact_sum (G : GasSchedule) (cs : List Clause)
    (hlen : ∀ c ∈ cs, c.Data.length < 2 ^ 64) :
    IntrinsicGas G [] = .ok (G.TxGas + G.ClauseGas) ∧
    (cs ≠ [] → ∀ g, IntrinsicGas G cs = .ok g →
      g = G.TxGas + (cs.map (fun c =>
        zeroBytes c.Data * G.TxDataZeroGas + nonZeroBytes c.Data * G.TxDataNonZeroGas
          + (if c.To = none then G.ClauseGasContractCreation else G.ClauseGas))).sum) := by
  refine ⟨rfl, fun hne g hg => ?_⟩
  rw [IntrinsicGas_eq G cs hne hlen] at hg
  by_cases h : exactIntrinsicGas G cs < 2 ^ 64
  · rw [if_pos h] at hg
    exact (Except.ok.inj hg).symm
  · rw [if_neg h] at hg
    cases hg

/-- Claim C10. `IntrinsicGas` fails with "intrinsic gas overflow" exactly when the
exact total (`TxGas` plus the data gas and the clause gas of every clause) exceeds
`2 ^ 64 - 1`; a returned value of a non-empty clause list is that exact total, never a
wrapped one; and when the exact total fits in 64 bits the call succeeds. (`TxGas` is
a `uint64` constant and a Go byte slice is shorter than `2 ^ 64`.) -/
theorem IntrinsicGas_overflow_iff (G : GasSchedule) (cs : List Clause)
    (hTx : G.TxGas < 2 ^ 64) (hlen : ∀ c ∈ cs, c.Data.length < 2 ^ 64) :
    (IntrinsicGas G cs = .error .intrinsicGasOverflow ↔ 2 ^ 64 - 1 < exactIntrinsicGas G cs) ∧
    (∀ e, IntrinsicGas G cs = .error e → e = .intrinsicGasOverflow) ∧
    (∀ g, IntrinsicGas G cs = .ok g → cs ≠ [] → g = exactIntrinsicGas G cs ∧ g < 2 ^ 64) ∧
    (exactIntrinsicGas G cs ≤ 2 ^ 64 - 1 → ∃ g, IntrinsicGas G cs = .ok g) := by
  by_cases hne : cs = []
  · subst hne
    have hex : exactIntrinsicGas G [] = G.TxGas := by simp [exactIntrinsicGas]
    have hig : IntrinsicGas G [] = .ok (G.TxGas + G.ClauseGas) := rfl
    rw [hex, hig]
    refine ⟨⟨?_, ?_⟩, ?_, ?_, ?_⟩
    · intro h
      cases h
    · intro h
      omega
    · intro e h
      cases h
    · intro g _ h
      exact absurd rfl h
    · intro _
      exact ⟨_, rfl⟩
  · rw [IntrinsicGas_eq G cs hne hlen]
    by_cases h : exactIntrinsicGas G cs < 2 ^ 64
    · rw [if_pos h]
      refine ⟨⟨?_, ?_⟩, ?_, ?_, ?_⟩
      · intro h'
        cases h'
      · intro h'
        omega
      · intro e h'
        cases h'
      · intro g hg _
        have := Except.ok.inj hg
        subst this
        exact ⟨rfl, h⟩
      · intro _
        exact ⟨_, rfl⟩
    · rw [if_neg h]
      refine ⟨⟨?_, ?_⟩, ?_, ?_, ?_⟩
      · intro _
        omega
      · intro _
        rfl
      · intro e he
        exact (Except.error.inj he).symm
      · intro g hg _
        cases hg
      · intro h'
        omega

namespace Transaction

theorem SigningHash_body (K : Crypto) (t : Transaction) : (t.SigningHash K).2.body = t.body := by
  unfold SigningHash; split <;> rfl

theorem SigningHash_cached (K : Crypto) (t : Transaction) (h : Bytes32)
    (hc : t.cache.signingHash = some h) : t.SigningHash K = (h, t) := by
  unfold SigningHash; rw [hc]

theorem SigningHash_stored (K : Crypto) (t : Transaction) :
    (t.SigningHash K).2.cache.signingHash = some (t.SigningHash K).1 := by
  unfold SigningHash
  split
  · assumption
  · rfl

theorem SigningHash_cache_origin (K : Crypto) (t : Transaction) :
    (t.SigningHash K).2.cache.origin = t.cache.origin := by
  unfold SigningHash; split <;> rfl

theorem SigningHash_cache_delegator (K : Crypto) (t : Transaction) :
    (t.SigningHash K).2.cache.delegator = t.cache.delegator := by
  unfold SigningHash; split <;> rfl

theorem SigningHash_cache_intrinsicGas (K : Crypto) (t : Transaction) :
    (t.SigningHash K).2.cache.intrinsicGas = t.cache.intrinsicGas := by
  unfold SigningHash; split <;> rfl

/-- The signing hash a transaction reports depends on the body and on the cached
signing hash only. -/
theorem SigningHash_congr (K : Crypto) (t u : Transaction) (hb : u.body = t.body)
    (hc : u.cache.signingHash = t.cache.signingHash) :
    (u.SigningHash K).1 = (t.SigningHash K).1 := by
  unfold SigningHash txType
  rw [hb, hc]
  split <;> rfl

theorem Origin_body (K : Crypto) (t : Transaction) : (t.Origin K).2.body = t.body := by
  unfold Origin
  dsimp only
  split
  · rfl
  · split
    · rfl
    · split
      · exact SigningHash_body K t
      · exact SigningHash_body K t

theorem Origin_cache_delegator (K : Crypto) (t : Transaction) :
    (t.Origin K).2.cache.delegator = t.cache.delegator := by
  unfold Origin
  dsimp only
  split
  · rfl
  · split
    · rfl
    · split
      · exact SigningHash_cache_delegator K t
      · exact SigningHash_cache_delegator K t

theorem Origin_cache_intrinsicGas (K : Crypto) (t : Transaction) :
    (t.Origin K).2.cache.intrinsicGas = t.cache.intrinsicGas := by
  unfold Origin
  dsimp only
  split
  · rfl
  · split
    · rfl
    · split
      · exact SigningHash_cache_intrinsicGas K t
      · exact SigningHash_cache_intrinsicGas K t

/-- After `Origin` the transaction reports the same signing hash as before. -/
theorem Origin_signingHash (K : Crypto) (t : Transaction) :
    ((t.Origin K).2.SigningHash K).1 = (t.SigningHash K).1 := by
  unfold Origin
  dsimp only
  split
  · rfl
  · split
    · rfl
    · split
      · rw [SigningHash_cached K _ _ (SigningHash_stored K t)]
      · rename_i pub _
        have h1 := SigningHash_congr K (t.SigningHash K).2
          { (t.SigningHash K).2 with
            cache := { (t.SigningHash K).2.cache with
                       origin := some (K.PubkeyToAddress pub) } } rfl rfl
        have h2 := SigningHash_cached K _ _ (SigningHash_stored K t)
        rw [h2] at h1
        exact h1

/-- A successful `Origin` leaves the recovered address in the cache. -/
theorem Origin_stored (K : Crypto) (t : Transaction) (origin : Address)
    (h : (t.Origin K).1 = .ok origin) : (t.Origin K).2.cache.origin = some origin := by
  unfold Origin at h ⊢
  dsimp only at h ⊢
  split
  · rename_i err he
    rw [he] at h
    cases h
  · rename_i u he
    rw [he] at h
    dsimp only at h
    split
    · rename_i cached hc
      rw [hc] at h
      rw [hc]
      exact congrArg some (Except.ok.inj h)
    · rename_i hc
      rw [hc] at h
      dsimp only at h
      split
      · rename_i err hs
        rw [hs] at h
        cases h
      · rename_i pub hs
        rw [hs] at h
        exact congrArg some (Except.ok.inj h)

theorem IntrinsicGas_body (G : GasSchedule) (t : Transaction) :
    (t.IntrinsicGas G).2.body = t.body := by
  unfold IntrinsicGas
  split
  · rfl
  · split <;> rfl

theorem IntrinsicGas_cache_signingHash (G : GasSchedule) (t : Transaction) :
    (t.IntrinsicGas G).2.cache.signingHash = t.cache.signingHash := by
  unfold IntrinsicGas
  split
  · rfl
  · split <;> rfl

theorem IntrinsicGas_cache_origin (G : GasSchedule) (t : Transaction) :
    (t.IntrinsicGas G).2.cache.origin = t.cache.origin := by
  unfold IntrinsicGas
  split
  · rfl
  · split <;> rfl

theorem IntrinsicGas_cache_delegator (G : GasSchedule) (t : Transaction) :
    (t.IntrinsicGas G).2.cache.delegator = t.cache.delegator := by
  unfold IntrinsicGas
  split
  · rfl
  · split <;> rfl

/-- The result of the method `IntrinsicGas` depends on the body and on the cached
intrinsic gas only. -/
theorem IntrinsicGas_congr (G : GasSchedule) (t u : Transaction) (hb : u.body = t.body)
    (hc : u.cache.intrinsicGas = t.cache.intrinsicGas) :
    (u.IntrinsicGas G).1 = (t.IntrinsicGas G).1 := by
  unfold IntrinsicGas
  rw [hb, hc]
  split
  · rfl
  · split <;> rfl

theorem validateSignatureLength_congr (t u : Transaction) (hb : u.body = t.body) :
    u.validateSignatureLength = t.validateSignatureLength := by
  unfold validateSignatureLength Features
  rw [hb]

/-- With the origin in the cache, `Origin` answers it as soon as the signature has
the right length. -/
theorem Origin_cached (K : Crypto) (t : Transaction) (origin : Address)
    (hv : t.validateSignatureLength = .ok ()) (hc : t.cache.origin = some origin) :
    t.Origin K = (.ok origin, t) := by
  unfold Origin
  rw [hv]
  dsimp only
  rw [hc]

/-- The result of `Delegator`, read off the cache and the result of `Origin`. -/
theorem Delegator_fst (K : Crypto) (t : Transaction) :
    (t.Delegator K).1 =
      match t.validateSignatureLength with
      | .error err => .error err
      | .ok _ =>
        if ¬ Features.IsDelegated t.Features then .ok none
        else
          match t.cache.delegator with
          | some cached => .ok (some cached)
          | none =>
            match (t.Origin K).1 with
            | .error err => .error err
            | .ok origin =>
              match K.SigToPub (K.Blake2b ((t.Origin K).2.SigningHash K).1 origin)
                  (t.body.signature.drop 65) with
              | .error err => .error (.external err)
              | .ok pub => .ok (some (K.PubkeyToAddress pub)) := by
  unfold Delegator DelegatorSigningHash
  dsimp only
  split
  · rfl
  · split
    · rfl
    · split
      · rfl
      · split
        · rfl
        · split <;> rfl

end Transaction

theorem Transaction.Delegator_body (K : Crypto) (t : Transaction) :
    (t.Delegator K).2.body = t.body := by
  unfold Transaction.Delegator Transaction.DelegatorSigningHash
  dsimp only
  split
  · rfl
  · split
    · rfl
    · split
      · rfl
      · split
        · exact Transaction.Origin_body K t
        · split
          · exact (Transaction.SigningHash_body K _).trans (Transaction.Origin_body K t)
          · exact (Transaction.SigningHash_body K _).trans (Transaction.Origin_body K t)

/-- The method `Delegator` gives the same result on a transaction whose cache holds the origin
that `Origin` recovers and that otherwise reports the same values. -/
theorem Transaction.Delegator_congr (K : Crypto) (t u : Transaction) (origin : Address)
    (hb : u.body = t.body) (hd : u.cache.delegator = t.cache.delegator)
    (ho : u.cache.origin = some origin) (hs : (u.SigningHash K).1 = (t.SigningHash K).1)
    (h : (t.Origin K).1 = .ok origin) :
    (u.Delegator K).1 = (t.Delegator K).1 := by
  rw [Transaction.Delegator_fst K u, Transaction.Delegator_fst K t,
    Transaction.validateSignatureLength_congr t u hb]
  have hf : u.Features = t.Features := by unfold Transaction.Features; rw [hb]
  cases hv : t.validateSignatureLength with
  | error err => rfl
  | ok x =>
    have hvu : u.validateSignatureLength = .ok () :=
      (Transaction.validateSignatureLength_congr t u hb).trans hv
    have hou := Transaction.Origin_cached K u origin hvu ho
    dsimp only
    rw [hf, hd, hou, h, hb]
    dsimp only
    rw [hs, Transaction.Origin_signingHash K t]

theorem BitLen_gt_iff (x : Int) (n : Nat) : BitLen x > n ↔ 2 ^ n ≤ x.natAbs := by
  unfold BitLen
  exact Nat.lt_size

theorem checkClauseValues_ok_iff (cs : List Clause) :
    ∀ s : Int, 0 ≤ s → s < 2 ^ 256 →
      ((∃ v, checkClauseValues s cs = .ok v) ↔
        (∀ c ∈ cs, 0 ≤ c.Value) ∧ s + (cs.map Clause.Value).sum < 2 ^ 256) := by
  induction cs with
  | nil =>
    intro s _ hs
    refine ⟨fun _ => ⟨fun c hc => absurd hc (List.not_mem_nil c), ?_⟩, fun _ => ⟨s, rfl⟩⟩
    rw [List.map_nil, List.sum_nil, add_zero]
    exact hs
  | cons c rest ih =>
    intro s h0 hs
    unfold checkClauseValues
    dsimp only
    by_cases hneg : c.Value < 0
    · rw [if_pos hneg]
      constructor
      · rintro ⟨v, hv⟩
        cases hv
      · rintro ⟨hall, _⟩
        have := hall c (List.mem_cons_self _ _)
        omega
    · rw [if_neg hneg]
      have hc : 0 ≤ c.Value := by omega
      have habs : ((s + c.Value).natAbs : Int) = s + c.Value :=
        Int.natAbs_of_nonneg (by omega)
      have hbit : BitLen (s + c.Value) > 256 ↔ (2 : Int) ^ 256 ≤ s + c.Value := by
        rw [BitLen_gt_iff, ← habs]
        exact_mod_cast Iff.rfl
      have hsum : ((c :: rest).map Clause.Value).sum = c.Value + (rest.map Clause.Value).sum := by
        simp
      have hrest : ∀ l : List Clause, (∀ x ∈ l, 0 ≤ x.Value) → 0 ≤ (l.map Clause.Value).sum := by
        intro l
        induction l with
        | nil => intro _; simp
        | cons a l ihl =>
          intro hl
          have h1 := hl a (List.mem_cons_self _ _)
          have h2 := ihl (fun x hx => hl x (List.mem_cons_of_mem _ hx))
          simp only [List.map_cons, List.sum_cons]
          omega
      by_cases hbig : (2 : Int) ^ 256 ≤ s + c.Value
      · rw [if_pos (hbit.mpr hbig)]
        constructor
        · rintro ⟨v, hv⟩
          cases hv
        · rintro ⟨hall, hlt⟩
          have := hrest rest (fun x hx => hall x (List.mem_cons_of_mem _ hx))
          rw [hsum] at hlt
          omega
      · rw [if_neg (fun h => hbig (hbit.mp h))]
        rw [ih (s + c.Value) (by omega) (by omega), hsum]
        constructor
        · rintro ⟨hall, hlt⟩
          refine ⟨?_, by omega⟩
          intro x hx
          rcases List.mem_cons.mp hx with rfl | hx
          · exact hc
          · exact hall x hx
        · rintro ⟨hall, hlt⟩
          exact ⟨fun x hx => hall x (List.mem_cons_of_mem _ hx), by omega⟩

theorem checkFeeFields_ok_iff (trx : Transaction) :
    checkFeeFields trx = .ok () ↔
      (trx.txType ≠ TypeLegacy →
        0 ≤ trx.MaxPriorityFeePerGas ∧ trx.MaxPriorityFeePerGas ≤ trx.MaxFeePerGas
          ∧ trx.MaxFeePerGas < 2 ^ 256) := by
  unfold checkFeeFields
  by_cases ht : trx.txType ≠ TypeLegacy
  · rw [if_pos ht]
    have hb : ∀ x : Int, 0 ≤ x → (BitLen x > 256 ↔ (2 : Int) ^ 256 ≤ x) := by
      intro x hx
      have habs : (x.natAbs : Int) = x := Int.natAbs_of_nonneg hx
      rw [BitLen_gt_iff]
      constructor
      · intro h
        have : ((2 ^ 256 : Nat) : Int) ≤ (x.natAbs : Int) := by exact_mod_cast h
        rw [habs] at this
        exact_mod_cast this
      · intro h
        rw [← habs] at h
        exact_mod_cast h
    by_cases h1 : trx.MaxFeePerGas < 0
    · rw [if_pos h1]
      constructor
      · intro h; cases h
      · intro h
        have := h ht
        omega
    · rw [if_neg h1]
      by_cases h2 : trx.MaxPriorityFeePerGas < 0
      · rw [if_pos h2]
        constructor
        · intro h; cases h
        · intro h
          have := h ht
          omega
      · rw [if_neg h2]
        by_cases h3 : (2 : Int) ^ 256 ≤ trx.MaxFeePerGas
        · rw [if_pos ((hb _ (by omega)).mpr h3)]
          constructor
          · intro h; cases h
          · intro h
            have := h ht
            omega
        · rw [if_neg (fun h => h3 ((hb _ (by omega)).mp h))]
          by_cases h4 : (2 : Int) ^ 256 ≤ trx.MaxPriorityFeePerGas
          · rw [if_pos ((hb _ (by omega)).mpr h4)]
            constructor
            · intro h; cases h
            · intro h
              have := h ht
              omega
          · rw [if_neg (fun h => h4 ((hb _ (by omega)).mp h))]
            by_cases h5 : trx.MaxFeePerGas < trx.MaxPriorityFeePerGas
            · rw [if_pos h5]
              constructor
              · intro h; cases h
              · intro h
                have := h ht
                omega
            · rw [if_neg h5]
              constructor
              · intro _ _
                omega
              · intro _
                rfl
  · rw [if_neg ht]
    constructor
    · intro _ h
      exact absurd h ht
    · intro _
      rfl

theorem checkFeeFields_congr (t u : Transaction) (hb : u.body = t.body) :
    checkFeeFields u = checkFeeFields t := by
  unfold checkFeeFields Transaction.txType Transaction.MaxFeePerGas
    Transaction.MaxPriorityFeePerGas
  rw [hb]

/-- The result of `ResolveTransaction`, written with the results the three cached
methods give on the transaction as it was passed in. -/
theorem ResolveTransaction_fst (G : GasSchedule) (K : Crypto) (trx : Transaction) :
    (ResolveTransaction G K trx).1 =
      match (trx.Origin K).1 with
      | .error err => .error err
      | .ok origin =>
        match (trx.IntrinsicGas G).1 with
        | .error err => .error err
        | .ok intrinsicGas =>
          if trx.Gas < intrinsicGas then .error .intrinsicGasExceedsProvidedGas
          else
            match (trx.Delegator K).1 with
            | .error err => .error err
            | .ok delegator =>
              match checkClauseValues 0 trx.Clauses with
              | .error err => .error err
              | .ok _ =>
                match checkFeeFields trx with
                | .error err => .error err
                | .ok _ =>
                  .ok { tx := (((trx.Origin K).2.IntrinsicGas G).2.Delegator K).2
                        Origin := origin
                        Delegator := delegator
                        IntrinsicGas := intrinsicGas
                        Clauses := trx.Clauses } := by
  have hig : ((trx.Origin K).2.IntrinsicGas G).1 = (trx.IntrinsicGas G).1 :=
    Transaction.IntrinsicGas_congr G trx _ (Transaction.Origin_body K trx)
      (Transaction.Origin_cache_intrinsicGas K trx)
  have hb2 : ((trx.Origin K).2.IntrinsicGas G).2.body = trx.body :=
    (Transaction.IntrinsicGas_body G _).trans (Transaction.Origin_body K trx)
  have hb3 : (((trx.Origin K).2.IntrinsicGas G).2.Delegator K).2.body = trx.body :=
    (Transaction.Delegator_body K _).trans hb2
  have hgas : ((trx.Origin K).2.IntrinsicGas G).2.Gas = trx.Gas := by
    unfold Transaction.Gas
    rw [hb2]
  have hcl : (((trx.Origin K).2.IntrinsicGas G).2.Delegator K).2.Clauses = trx.Clauses := by
    unfold Transaction.Clauses
    rw [hb3]
  have hfee := checkFeeFields_congr trx _ hb3
  unfold ResolveTransaction
  dsimp only
  rw [hig, hgas, hcl, hfee]
  cases ho : (trx.Origin K).1 with
  | error err => rfl
  | ok origin =>
    have hd : (((trx.Origin K).2.IntrinsicGas G).2.Delegator K).1 = (trx.Delegator K).1 := by
      refine Transaction.Delegator_congr K trx _ origin hb2 ?_ ?_ ?_ ho
      · exact (Transaction.IntrinsicGas_cache_delegator G _).trans
          (Transaction.Origin_cache_delegator K trx)
      · exact (Transaction.IntrinsicGas_cache_origin G _).trans
          (Transaction.Origin_stored K trx origin ho)
      · exact (Transaction.SigningHash_congr K _ _ (Transaction.IntrinsicGas_body G _)
          (Transaction.IntrinsicGas_cache_signingHash G _)).trans
          (Transaction.Origin_signingHash K trx)
    rw [hd]
    dsimp only
    cases (trx.IntrinsicGas G).1 with
    | error err => rfl
    | ok intrinsicGas =>
      dsimp only
      by_cases hg : trx.Gas < intrinsicGas
      · rw [if_pos hg, if_pos hg]
      · rw [if_neg hg, if_neg hg]
        cases (trx.Delegator K).1 with
        | error err => rfl
        | ok delegator =>
          dsimp only
          cases checkClauseValues 0 trx.Clauses with
          | error err => rfl
          | ok v =>
            dsimp only
            cases checkFeeFields trx with
            | error err => rfl
            | ok u => rfl

/-- Claim C1. `ResolveTransaction` succeeds if and only if origin recovery succeeds
(the signature-length gate included), the intrinsic gas of the clauses is computed,
`Gas()` is at least that intrinsic gas, delegator recovery succeeds, every clause
value is non-negative, the sum of the clause values is below `2 ^ 256` and, for a
non-legacy transaction, `0 ≤ maxPriorityFeePerGas ≤ maxFeePerGas < 2 ^ 256`. On
success the result carries exactly that origin, that delegator, that intrinsic gas
and the clauses of the transaction in order. -/
theorem ResolveTransaction_ok_iff (G : GasSchedule) (K : Crypto) (trx : Transaction) :
    ((∃ r, (ResolveTransaction G K trx).1 = .ok r) ↔
      ∃ origin intrinsicGas delegator,
        (trx.Origin K).1 = .ok origin ∧
        (trx.IntrinsicGas G).1 = .ok intrinsicGas ∧
        intrinsicGas ≤ trx.Gas ∧
        (trx.Delegator K).1 = .ok delegator ∧
        (∀ c ∈ trx.Clauses, 0 ≤ c.Value) ∧
        (trx.Clauses.map Clause.Value).sum < 2 ^ 256 ∧
        (trx.txType ≠ TypeLegacy →
          0 ≤ trx.MaxPriorityFeePerGas ∧ trx.MaxPriorityFeePerGas ≤ trx.MaxFeePerGas
            ∧ trx.MaxFeePerGas < 2 ^ 256)) ∧
    (∀ r, (ResolveTransaction G K trx).1 = .ok r →
      (trx.Origin K).1 = .ok r.Origin ∧
      (trx.Delegator K).1 = .ok r.Delegator ∧
      (trx.IntrinsicGas G).1 = .ok r.IntrinsicGas ∧
      r.Clauses = trx.Clauses ∧
      r.tx.body = trx.body) := by
  have hval := checkClauseValues_ok_iff trx.Clauses 0 le_rfl (by positivity)
  rw [zero_add] at hval
  have hfee := checkFeeFields_ok_iff trx
  have hbody : (((trx.Origin K).2.IntrinsicGas G).2.Delegator K).2.body = trx.body :=
    (Transaction.Delegator_body K _).trans
      ((Transaction.IntrinsicGas_body G _).trans (Transaction.Origin_body K trx))
  rw [ResolveTransaction_fst]
  cases ho : (trx.Origin K).1 with
  | error err =>
    refine ⟨⟨?_, ?_⟩, ?_⟩
    · rintro ⟨r, hr⟩
      cases hr
    · rintro ⟨origin, g, d, h1, _⟩
      cases h1
    · intro r hr
      cases hr
  | ok origin =>
    dsimp only
    cases hg : (trx.IntrinsicGas G).1 with
    | error err =>
      refine ⟨⟨?_, ?_⟩, ?_⟩
      · rintro ⟨r, hr⟩
        cases hr
      · rintro ⟨origin, g, d, _, h2, _⟩
        cases h2
      · intro r hr
        cases hr
    | ok intrinsicGas =>
      dsimp only
      by_cases hlt : trx.Gas < intrinsicGas
      · rw [if_pos hlt]
        refine ⟨⟨?_, ?_⟩, ?_⟩
        · rintro ⟨r, hr⟩
          cases hr
        · rintro ⟨origin, g, d, _, h2, h3, _⟩
          have := Except.ok.inj h2
          omega
        · intro r hr
          cases hr
      · rw [if_neg hlt]
        cases hd : (trx.Delegator K).1 with
        | error err =>
          refine ⟨⟨?_, ?_⟩, ?_⟩
          · rintro ⟨r, hr⟩
            cases hr
          · rintro ⟨origin, g, d, _, _, _, h4, _⟩
            cases h4
          · intro r hr
            cases hr
        | ok delegator =>
          dsimp only
          cases hcv : checkClauseValues 0 trx.Clauses with
          | error err =>
            have hno : ¬ ∃ v, checkClauseValues 0 trx.Clauses = .ok v := by
              rintro ⟨v, hv⟩
              rw [hcv] at hv
              cases hv
            refine ⟨⟨?_, ?_⟩, ?_⟩
            · rintro ⟨r, hr⟩
              cases hr
            · rintro ⟨origin, g, d, _, _, _, _, h5, h6, _⟩
              exact absurd (hval.mpr ⟨h5, h6⟩) hno
            · intro r hr
              cases hr
          | ok v =>
            have hyes := hval.mp ⟨v, hcv⟩
            dsimp only
            cases hcf : checkFeeFields trx with
            | error err =>
              have hno : ¬ checkFeeFields trx = .ok () := by
                rw [hcf]
                intro h
                cases h
              refine ⟨⟨?_, ?_⟩, ?_⟩
              · rintro ⟨r, hr⟩
                cases hr
              · rintro ⟨origin, g, d, _, _, _, _, _, _, h7⟩
                exact absurd (hfee.mpr h7) hno
              · intro r hr
                cases hr
            | ok u =>
              have hfeeok := hfee.mp hcf
              dsimp only
              refine ⟨⟨?_, ?_⟩, ?_⟩
              · intro _
                exact ⟨origin, intrinsicGas, delegator, rfl, rfl, by omega, rfl,
                  hyes.1, hyes.2, hfeeok⟩
              · intro _
                exact ⟨_, rfl⟩
              · intro r hr
                have hr := Except.ok.inj hr
                subst hr
                exact ⟨rfl, rfl, rfl, rfl, hbody⟩

/-! ## Gas-payer selection -/

theorem Energy.Sub_sufficient (s : State) (bt : Nat) (a : Address) (amount e : Int)
    (he : s.energy a = .ok e) (h : amount ≤ e) :
    Energy.Sub s bt a amount = .ok (true, s.setEnergy a (e - amount)) := by
  unfold Energy.Sub ledgerRead
  rw [he]
  dsimp only
  rw [if_neg (by omega)]

theorem Energy.Sub_insufficient (s : State) (bt : Nat) (a : Address) (amount e : Int)
    (he : s.energy a = .ok e) (h : e < amount) :
    Energy.Sub s bt a amount = .ok (false, s) := by
  unfold Energy.Sub ledgerRead
  rw [he]
  dsimp only
  rw [if_pos h]

theorem Energy.Sub_unreadable (s : State) (bt : Nat) (a : Address) (amount : Int) (code : Nat)
    (he : s.energy a = .error code) :
    Energy.Sub s bt a amount = .error (.external code) := by
  unfold Energy.Sub ledgerRead
  rw [he]

/-- The three outcomes of `Energy.Sub`. -/
theorem Energy.Sub_cases (s : State) (bt : Nat) (a : Address) (amount : Int) :
    (∃ code, s.energy a = .error code ∧ Energy.Sub s bt a amount = .error (.external code)) ∨
    (∃ e, s.energy a = .ok e ∧ e < amount ∧ Energy.Sub s bt a amount = .ok (false, s)) ∨
    (∃ e, s.energy a = .ok e ∧ amount ≤ e ∧
      Energy.Sub s bt a amount = .ok (true, s.setEnergy a (e - amount))) := by
  cases he : s.energy a with
  | error code => exact Or.inl ⟨code, rfl, Energy.Sub_unreadable s bt a amount code he⟩
  | ok e =>
    by_cases h : e < amount
    · exact Or.inr (Or.inl ⟨e, rfl, h, Energy.Sub_insufficient s bt a amount e he h⟩)
    · exact Or.inr (Or.inr ⟨e, rfl, by omega,
        Energy.Sub_sufficient s bt a amount e he (by omega)⟩)

/-- The errors the origin branch can return. -/
theorem buyGasOrigin_error (r : ResolvedTransaction) (s : State) (bt : Nat)
    (gp egp prepaid : Int) (err : Error)
    (h : (buyGasOrigin r s bt gp egp prepaid).1 = .error err) :
    (buyGasOrigin r s bt gp egp prepaid).2 = s ∧
      (err = .insufficientEnergy ∨ ∃ code, err = .external code) := by
  unfold buyGasOrigin at h ⊢
  rcases Energy.Sub_cases s bt r.Origin prepaid with ⟨code, _, hs⟩ | ⟨e, _, _, hs⟩ | ⟨e, _, _, hs⟩
  · rw [hs] at h ⊢
    exact ⟨rfl, Or.inr ⟨code, (Except.error.inj h).symm⟩⟩
  · rw [hs] at h ⊢
    exact ⟨rfl, Or.inl (Except.error.inj h).symm⟩
  · rw [hs] at h
    cases h

/-- The errors the common-recipient step can return. -/
theorem buyGasCommonTo_error (r : ResolvedTransaction) (s : State) (bt : Nat)
    (gp egp prepaid : Int) (commonTo : Address) (credit : Int) (err : Error)
    (h : (buyGasCommonTo r s bt gp egp prepaid commonTo credit).1 = .error err) :
    (buyGasCommonTo r s bt gp egp prepaid commonTo credit).2 = s ∧
      (err = .insufficientEnergy ∨ ∃ code, err = .external code) := by
  unfold buyGasCommonTo at h ⊢
  rcases Energy.Sub_cases s bt commonTo prepaid with ⟨code, _, hs⟩ | ⟨e, _, _, hs⟩ | ⟨e, _, _, hs⟩
  · rw [hs] at h ⊢
    exact ⟨rfl, Or.inr ⟨code, (Except.error.inj h).symm⟩⟩
  · rw [hs] at h ⊢
    exact buyGasOrigin_error r s bt gp egp prepaid err h
  · rw [hs] at h
    cases h

/-- The errors the sponsored branch can return. -/
theorem buyGasSponsored_error (r : ResolvedTransaction) (s : State) (bt : Nat)
    (gp egp prepaid : Int) (commonTo : Address) (err : Error)
    (h : (buyGasSponsored r s bt gp egp prepaid commonTo).1 = .error err) :
    (buyGasSponsored r s bt gp egp prepaid commonTo).2 = s ∧
      (err = .insufficientEnergy ∨ ∃ code, err = .external code) := by
  unfold buyGasSponsored Binding.UserCredit Binding.CurrentSponsor Binding.IsSponsor
    ledgerRead at h ⊢
  cases hc : s.credit commonTo r.Origin with
  | error code =>
    rw [hc] at h
    exact ⟨rfl, Or.inr ⟨code, (Except.error.inj h).symm⟩⟩
  | ok credit =>
    rw [hc] at h
    dsimp only at h ⊢
    by_cases hcr : credit ≥ prepaid
    · rw [if_pos hcr] at h ⊢
      cases hsp : s.sponsor commonTo with
      | error code =>
        rw [hsp] at h
        exact ⟨rfl, Or.inr ⟨code, (Except.error.inj h).symm⟩⟩
      | ok sponsor =>
        rw [hsp] at h
        dsimp only at h ⊢
        cases his : s.isSponsor commonTo sponsor with
        | error code =>
          rw [his] at h
          exact ⟨rfl, Or.inr ⟨code, (Except.error.inj h).symm⟩⟩
        | ok isSponsor =>
          rw [his] at h
          dsimp only at h ⊢
          cases isSponsor with
          | false =>
            rw [if_neg (by decide)] at h ⊢
            exact buyGasCommonTo_error r s bt gp egp prepaid commonTo credit err h
          | true =>
            rw [if_pos rfl] at h ⊢
            rcases Energy.Sub_cases s bt sponsor prepaid with
              ⟨code, _, hs⟩ | ⟨e, _, _, hs⟩ | ⟨e, _, _, hs⟩
            · rw [hs] at h ⊢
              exact ⟨rfl, Or.inr ⟨code, (Except.error.inj h).symm⟩⟩
            · rw [hs] at h ⊢
              exact buyGasCommonTo_error r s bt gp egp prepaid commonTo credit err h
            · rw [hs] at h
              cases h
    · rw [if_neg hcr] at h ⊢
      exact buyGasOrigin_error r s bt gp egp prepaid err h

/-- The branch `if r.Delegator != nil { ... }` of `BuyGas`. -/
theorem buyGasDelegator_error (s : State) (bt : Nat) (gp egp prepaid : Int)
    (delegator : Address) (err : Error)
    (h : (match Energy.Sub s bt delegator prepaid with
          | .error err => ((.error err : Except Error BuyGasResult), s)
          | .ok (sufficient, state1) =>
            if sufficient then
              (.ok { legacyTxBaseGasPrice := gp
                     effectiveGasPrice := egp
                     payer := delegator
                     prepaid := prepaid
                     returnGas := returnGasOnly bt egp delegator }, state1)
            else (.error .insufficientEnergy, state1)).1 = .error err) :
    (match Energy.Sub s bt delegator prepaid with
      | .error err => ((.error err : Except Error BuyGasResult), s)
      | .ok (sufficient, state1) =>
        if sufficient then
          (.ok { legacyTxBaseGasPrice := gp
                 effectiveGasPrice := egp
                 payer := delegator
                 prepaid := prepaid
                 returnGas := returnGasOnly bt egp delegator }, state1)
        else (.error .insufficientEnergy, state1)).2 = s ∧
      (err = .insufficientEnergy ∨ ∃ code, err = .external code) := by
  rcases Energy.Sub_cases s bt delegator prepaid with ⟨code, _, hs⟩ | ⟨e, _, _, hs⟩ | ⟨e, _, _, hs⟩
  · rw [hs] at h ⊢
    exact ⟨rfl, Or.inr ⟨code, (Except.error.inj h).symm⟩⟩
  · rw [hs] at h ⊢
    exact ⟨rfl, Or.inl (Except.error.inj h).symm⟩
  · rw [hs] at h
    cases h

/-- The result of `BuyGas` when the params read fails. -/
theorem BuyGas_params_error (r : ResolvedTransaction) (state : State) (bt : Nat)
    (baseFee : Option Int) (err : Error) (hp : Params.Get state = .error err) :
    r.BuyGas state bt baseFee = (.error err, state) := by
  unfold ResolvedTransaction.BuyGas
  rw [hp]

/-- The result of `BuyGas` when the effective gas price cannot be computed. -/
theorem BuyGas_price_error (r : ResolvedTransaction) (state : State) (bt : Nat)
    (baseFee : Option Int) (gp : Int) (err : Error) (hp : Params.Get state = .ok gp)
    (he : r.tx.EffectiveGasPrice baseFee gp = .error err) :
    r.BuyGas state bt baseFee = (.error err, state) := by
  unfold ResolvedTransaction.BuyGas
  rw [hp]
  dsimp only
  rw [he]

/-- The result of `BuyGas` when the effective gas price is below the base fee. -/
theorem BuyGas_below_baseFee (r : ResolvedTransaction) (state : State) (bt : Nat)
    (baseFee : Option Int) (gp egp : Int) (hp : Params.Get state = .ok gp)
    (he : r.tx.EffectiveGasPrice baseFee gp = .ok egp)
    (hb : belowBaseFee baseFee egp = true) :
    r.BuyGas state bt baseFee = (.error .gasPriceLessThanBaseFee, state) := by
  unfold ResolvedTransaction.BuyGas
  rw [hp]
  dsimp only
  rw [he]
  dsimp only
  rw [if_pos hb]

/-- The result of `BuyGas` past the base-fee check: the payer selection. -/
theorem BuyGas_past_baseFee (r : ResolvedTransaction) (state : State) (bt : Nat)
    (baseFee : Option Int) (gp egp : Int) (hp : Params.Get state = .ok gp)
    (he : r.tx.EffectiveGasPrice baseFee gp = .ok egp)
    (hb : belowBaseFee baseFee egp = false) :
    r.BuyGas state bt baseFee =
      match r.Delegator with
      | some delegator =>
        match Energy.Sub state bt delegator ((r.tx.Gas : Int) * egp) with
        | .error err => (.error err, state)
        | .ok (sufficient, state1) =>
          if sufficient then
            (.ok { legacyTxBaseGasPrice := gp
                   effectiveGasPrice := egp
                   payer := delegator
                   prepaid := (r.tx.Gas : Int) * egp
                   returnGas := returnGasOnly bt egp delegator }, state1)
          else (.error .insufficientEnergy, state1)
      | none =>
        match r.CommonTo with
        | some commonTo =>
          buyGasSponsored r state bt gp egp ((r.tx.Gas : Int) * egp) commonTo
        | none => buyGasOrigin r state bt gp egp ((r.tx.Gas : Int) * egp) := by
  unfold ResolvedTransaction.BuyGas
  rw [hp]
  dsimp only
  rw [he]
  dsimp only
  rw [if_neg (by rw [hb]; exact Bool.false_ne_true)]

theorem EffectiveGasPrice_error (t : Transaction) (baseFee : Option Int) (gp : Int)
    (err : Error) (h : t.EffectiveGasPrice baseFee gp = .error err) : err = .nilPointer := by
  unfold Transaction.EffectiveGasPrice at h
  cases hb : t.body with
  | legacy b =>
    rw [hb] at h
    cases h
  | dynamicFee b =>
    rw [hb] at h
    dsimp only at h
    cases baseFee with
    | none => exact (Except.error.inj h).symm
    | some bf => cases h

theorem belowBaseFee_iff (baseFee : Option Int) (egp : Int) :
    belowBaseFee baseFee egp = true ↔ ∃ bf, baseFee = some bf ∧ egp < bf := by
  unfold belowBaseFee
  cases baseFee with
  | none =>
    constructor
    · intro h
      cases h
    · rintro ⟨bf, h, _⟩
      cases h
  | some bf =>
    dsimp only
    rw [decide_eq_true_iff]
    constructor
    · intro h
      exact ⟨bf, rfl, h⟩
    · rintro ⟨bf', h, hlt⟩
      cases h
      exact hlt

/-- Every error of `BuyGas` leaves the state as it was; the error is the params read
error, the `nil` base fee, the base-fee check, "insufficient energy" or a ledger read
error. -/
theorem BuyGas_error (r : ResolvedTransaction) (state : State) (bt : Nat)
    (baseFee : Option Int) (err : Error)
    (h : (r.BuyGas state bt baseFee).1 = .error err) :
    (r.BuyGas state bt baseFee).2 = state ∧
      (err = .gasPriceLessThanBaseFee →
        ∃ gp egp, Params.Get state = .ok gp ∧ r.tx.EffectiveGasPrice baseFee gp = .ok egp
          ∧ belowBaseFee baseFee egp = true) := by
  cases hp : Params.Get state with
  | error e =>
    rw [BuyGas_params_error r state bt baseFee e hp] at h ⊢
    refine ⟨rfl, fun he => ?_⟩
    have h1 : e = err := Except.error.inj h
    unfold Params.Get ledgerRead at hp
    cases hl : state.legacyTxBaseGasPrice with
    | error code =>
      rw [hl] at hp
      have h2 := Except.error.inj hp
      rw [he] at h1
      rw [h1] at h2
      cases h2
    | ok v =>
      rw [hl] at hp
      cases hp
  | ok gp =>
    cases he : r.tx.EffectiveGasPrice baseFee gp with
    | error e =>
      rw [BuyGas_price_error r state bt baseFee gp e hp he] at h ⊢
      refine ⟨rfl, fun hg => ?_⟩
      have h1 : e = err := Except.error.inj h
      have h2 := EffectiveGasPrice_error r.tx baseFee gp e he
      rw [h1, hg] at h2
      cases h2
    | ok egp =>
      cases hb : belowBaseFee baseFee egp with
      | true =>
        rw [BuyGas_below_baseFee r state bt baseFee gp egp hp he hb]
        exact ⟨rfl, fun _ => ⟨gp, egp, rfl, he, hb⟩⟩
      | false =>
        rw [BuyGas_past_baseFee r state bt baseFee gp egp hp he hb] at h ⊢
        have key : (match r.Delegator with
            | some delegator =>
              match Energy.Sub state bt delegator ((r.tx.Gas : Int) * egp) with
              | .error err => ((.error err : Except Error BuyGasResult), state)
              | .ok (sufficient, state1) =>
                if sufficient then
                  (.ok { legacyTxBaseGasPrice := gp
                         effectiveGasPrice := egp
                         payer := delegator
                         prepaid := (r.tx.Gas : Int) * egp
                         returnGas := returnGasOnly bt egp delegator }, state1)
                else (.error .insufficientEnergy, state1)
            | none =>
              match r.CommonTo with
              | some commonTo =>
                buyGasSponsored r state bt gp egp ((r.tx.Gas : Int) * egp) commonTo
              | none => buyGasOrigin r state bt gp egp ((r.tx.Gas : Int) * egp)).2 = state ∧
            (err = .insufficientEnergy ∨ ∃ code, err = .external code) := by
          cases hd : r.Delegator with
          | some delegator =>
            rw [hd] at h
            exact buyGasDelegator_error state bt gp egp _ delegator err h
          | none =>
            rw [hd] at h
            dsimp only at h ⊢
            cases hc : r.CommonTo with
            | some commonTo =>
              rw [hc] at h
              exact buyGasSponsored_error r state bt gp egp _ commonTo err h
            | none =>
              rw [hc] at h
              exact buyGasOrigin_error r state bt gp egp _ err h
        refine ⟨key.1, fun hg => ?_⟩
        rcases key.2 with h1 | ⟨code, h1⟩
        · rw [hg] at h1
          cases h1
        · rw [hg] at h1
          cases h1

/-- Success of the origin branch. -/
theorem buyGasOrigin_ok (r : ResolvedTransaction) (s : State) (bt : Nat)
    (gp egp prepaid : Int) (res : BuyGasResult) (s1 : State)
    (h : buyGasOrigin r s bt gp egp prepaid = (.ok res, s1)) :
    ∃ e, s.energy r.Origin = .ok e ∧ prepaid ≤ e ∧
      s1 = s.setEnergy r.Origin (e - prepaid) ∧
      res = { legacyTxBaseGasPrice := gp, effectiveGasPrice := egp, payer := r.Origin,
              prepaid := prepaid, returnGas := returnGasOnly bt egp r.Origin } := by
  unfold buyGasOrigin at h
  rcases Energy.Sub_cases s bt r.Origin prepaid with ⟨code, _, hs⟩ | ⟨e, _, _, hs⟩ | ⟨e, he, hle, hs⟩
  · rw [hs] at h
    cases h
  · rw [hs] at h
    cases h
  · rw [hs] at h
    dsimp only at h
    rw [if_pos rfl] at h
    have h1 := (Prod.mk.inj h).1
    have h2 := (Prod.mk.inj h).2
    exact ⟨e, he, hle, h2.symm, (Except.ok.inj h1).symm⟩

/-- Success of the common-recipient step: the common recipient paid, or it could not
and the origin paid. -/
theorem buyGasCommonTo_ok (r : ResolvedTransaction) (s : State) (bt : Nat)
    (gp egp prepaid : Int) (commonTo : Address) (credit : Int) (res : BuyGasResult)
    (s1 : State) (h : buyGasCommonTo r s bt gp egp prepaid commonTo credit = (.ok res, s1)) :
    (∃ e, s.energy commonTo = .ok e ∧ prepaid ≤ e ∧
      s1 = s.setEnergy commonTo (e - prepaid) ∧
      res = { legacyTxBaseGasPrice := gp, effectiveGasPrice := egp, payer := commonTo,
              prepaid := prepaid,
              returnGas := doReturnGasAndSetCredit bt egp commonTo commonTo r.Origin credit
                prepaid }) ∨
    ((∃ ec, s.energy commonTo = .ok ec ∧ ec < prepaid) ∧
      ∃ e, s.energy r.Origin = .ok e ∧ prepaid ≤ e ∧
        s1 = s.setEnergy r.Origin (e - prepaid) ∧
        res = { legacyTxBaseGasPrice := gp, effectiveGasPrice := egp, payer := r.Origin,
                prepaid := prepaid, returnGas := returnGasOnly bt egp r.Origin }) := by
  unfold buyGasCommonTo at h
  rcases Energy.Sub_cases s bt commonTo prepaid with
    ⟨code, _, hs⟩ | ⟨e, he, hlt, hs⟩ | ⟨e, he, hle, hs⟩
  · rw [hs] at h
    cases h
  · rw [hs] at h
    exact Or.inr ⟨⟨e, he, hlt⟩, buyGasOrigin_ok r s bt gp egp prepaid res s1 h⟩
  · rw [hs] at h
    dsimp only at h
    rw [if_pos rfl] at h
    have h1 := (Prod.mk.inj h).1
    have h2 := (Prod.mk.inj h).2
    exact Or.inl ⟨e, he, hle, h2.symm, (Except.ok.inj h1).symm⟩

/-- Success of the sponsored branch: which account paid, and the continuation. -/
theorem buyGasSponsored_ok (r : ResolvedTransaction) (s : State) (bt : Nat)
    (gp egp prepaid : Int) (commonTo : Address) (res : BuyGasResult) (s1 : State)
    (h : buyGasSponsored r s bt gp egp prepaid commonTo = (.ok res, s1)) :
    SponsoredOutcome r s bt gp egp prepaid commonTo res s1 := by
  unfold buyGasSponsored Binding.UserCredit Binding.CurrentSponsor Binding.IsSponsor
    ledgerRead at h
  cases hc : s.credit commonTo r.Origin with
  | error code =>
    rw [hc] at h
    cases h
  | ok credit =>
    rw [hc] at h
    dsimp only at h
    by_cases hcr : credit ≥ prepaid
    · rw [if_pos hcr] at h
      cases hsp : s.sponsor commonTo with
      | error code =>
        rw [hsp] at h
        cases h
      | ok sponsor =>
        rw [hsp] at h
        dsimp only at h
        cases his : s.isSponsor commonTo sponsor with
        | error code =>
          rw [his] at h
          cases h
        | ok isSponsor =>
          rw [his] at h
          dsimp only at h
          have fromCommonTo : sponsorCannotPay s commonTo prepaid →
              buyGasCommonTo r s bt gp egp prepaid commonTo credit = (.ok res, s1) →
              SponsoredOutcome r s bt gp egp prepaid commonTo res s1 := by
            intro hcannot hct
            unfold SponsoredOutcome
            rcases buyGasCommonTo_ok r s bt gp egp prepaid commonTo credit res s1 hct with
              ⟨e, he, hle, hs1, hres⟩ | ⟨hec, e, he, hle, hs1, hres⟩
            · exact Or.inr (Or.inl ⟨credit, e, hc, hcr, hcannot, he, hle, hs1, hres⟩)
            · exact Or.inr (Or.inr ⟨credit, e, hc, Or.inr ⟨hcannot, hec⟩, he, hle, hs1,
                hres⟩)
          cases isSponsor with
          | false =>
            rw [if_neg (by decide)] at h
            exact (fromCommonTo ⟨sponsor, hsp, Or.inl his⟩ h)
          | true =>
            rw [if_pos rfl] at h
            rcases Energy.Sub_cases s bt sponsor prepaid with
              ⟨code, _, hs⟩ | ⟨e, he, hlt, hs⟩ | ⟨e, he, hle, hs⟩
            · rw [hs] at h
              cases h
            · rw [hs] at h
              exact fromCommonTo ⟨sponsor, hsp, Or.inr ⟨his, e, he, hlt⟩⟩ h
            · rw [hs] at h
              dsimp only at h
              rw [if_pos rfl] at h
              have h1 := (Prod.mk.inj h).1
              have h2 := (Prod.mk.inj h).2
              unfold SponsoredOutcome
              exact Or.inl ⟨credit, sponsor, e, hc, hcr, hsp, his, he, hle, h2.symm,
                (Except.ok.inj h1).symm⟩
    · rw [if_neg hcr] at h
      obtain ⟨e, he, hle, hs1, hres⟩ := buyGasOrigin_ok r s bt gp egp prepaid res s1 h
      unfold SponsoredOutcome
      exact Or.inr (Or.inr ⟨credit, e, hc, Or.inl (by omega), he, hle, hs1, hres⟩)

/-- Every success of `BuyGas` is one of the outcomes of `BuyGasOutcome`. -/
theorem BuyGas_ok (r : ResolvedTransaction) (state : State) (bt : Nat)
    (baseFee : Option Int) (res : BuyGasResult) (s1 : State)
    (h : r.BuyGas state bt baseFee = (.ok res, s1)) :
    BuyGasOutcome r state bt baseFee res s1 := by
  cases hp : Params.Get state with
  | error e =>
    rw [BuyGas_params_error r state bt baseFee e hp] at h
    cases h
  | ok gp =>
    cases he : r.tx.EffectiveGasPrice baseFee gp with
    | error e =>
      rw [BuyGas_price_error r state bt baseFee gp e hp he] at h
      cases h
    | ok egp =>
      cases hb : belowBaseFee baseFee egp with
      | true =>
        rw [BuyGas_below_baseFee r state bt baseFee gp egp hp he hb] at h
        cases h
      | false =>
        rw [BuyGas_past_baseFee r state bt baseFee gp egp hp he hb] at h
        unfold BuyGasOutcome
        rw [hp]
        refine ⟨gp, egp, rfl, he, hb, ?_⟩
        cases hd : r.Delegator with
        | some delegator =>
          rw [hd] at h
          dsimp only at h
          rcases Energy.Sub_cases state bt delegator ((r.tx.Gas : Int) * egp) with
            ⟨code, _, hs⟩ | ⟨e, _, _, hs⟩ | ⟨e, hen, hle, hs⟩
          · rw [hs] at h
            cases h
          · rw [hs] at h
            cases h
          · rw [hs] at h
            dsimp only at h
            rw [if_pos rfl] at h
            have h1 := (Prod.mk.inj h).1
            have h2 := (Prod.mk.inj h).2
            exact Or.inl ⟨delegator, e, rfl, hen, hle, h2.symm, (Except.ok.inj h1).symm⟩
        | none =>
          rw [hd] at h
          dsimp only at h
          cases hc : r.CommonTo with
          | some commonTo =>
            rw [hc] at h
            exact Or.inr (Or.inl ⟨rfl, commonTo, rfl,
              buyGasSponsored_ok r state bt gp egp _ commonTo res s1 h⟩)
          | none =>
            rw [hc] at h
            exact Or.inr (Or.inr ⟨rfl, rfl,
              buyGasOrigin_ok r state bt gp egp _ res s1 h⟩)

/-- Claim C5. Given that the params read succeeds, `BuyGas` fails with "gas price is
less than block base fee" exactly when the base fee is set and the effective gas price
is below it; the check comes before every debit (the state is returned as it was); in
particular a dynamic-fee transaction whose `maxFeePerGas` is below the base fee is
rejected with that error whatever its `maxPriorityFeePerGas` is. -/
theorem BuyGas_baseFee_check (r : ResolvedTransaction) (state : State) (bt : Nat)
    (baseFee : Option Int) (gp : Int) (hp : Params.Get state = .ok gp) :
    ((r.BuyGas state bt baseFee).1 = .error .gasPriceLessThanBaseFee ↔
      ∃ bf egp, baseFee = some bf ∧ r.tx.EffectiveGasPrice baseFee gp = .ok egp ∧ egp < bf) ∧
    ((r.BuyGas state bt baseFee).1 = .error .gasPriceLessThanBaseFee →
      (r.BuyGas state bt baseFee).2 = state) ∧
    (∀ b bf, r.tx.body = .dynamicFee b → baseFee = some bf → b.maxFeePerGas < bf →
      r.BuyGas state bt baseFee = (.error .gasPriceLessThanBaseFee, state)) := by
  refine ⟨⟨?_, ?_⟩, ?_, ?_⟩
  · intro h
    obtain ⟨gp', egp, hp', he, hb⟩ := (BuyGas_error r state bt baseFee _ h).2 rfl
    rw [hp] at hp'
    have hgp : gp = gp' := Except.ok.inj hp'
    subst hgp
    obtain ⟨bf, hbf, hlt⟩ := (belowBaseFee_iff baseFee egp).mp hb
    exact ⟨bf, egp, hbf, he, hlt⟩
  · rintro ⟨bf, egp, hbf, he, hlt⟩
    rw [BuyGas_below_baseFee r state bt baseFee gp egp hp he
      ((belowBaseFee_iff baseFee egp).mpr ⟨bf, hbf, hlt⟩)]
  · intro h
    exact (BuyGas_error r state bt baseFee _ h).1
  · intro b bf hbody hbf hlt
    have he : r.tx.EffectiveGasPrice baseFee gp
        = .ok (min b.maxFeePerGas (b.maxPriorityFeePerGas + bf)) := by
      unfold Transaction.EffectiveGasPrice
      rw [hbody, hbf]
    refine BuyGas_below_baseFee r state bt baseFee gp _ hp he ?_
    rw [belowBaseFee_iff]
    exact ⟨bf, hbf, lt_of_le_of_lt (min_le_left _ _) hlt⟩

/-- Claim C2. For a resolved transaction that has a delegator and passes the base-fee
check, `BuyGas` only debits the delegator: with energy at least `prepaid` the payer is
the delegator and the state differs in the delegator's energy only; with less energy
`BuyGas` fails with "insufficient energy" and the state is as before. No balance or
credit of the sponsor, the common recipient or the origin enters the result. -/
theorem BuyGas_delegator (r : ResolvedTransaction) (state : State) (bt : Nat)
    (baseFee : Option Int) (gp egp : Int) (delegator : Address) (e : Int)
    (hd : r.Delegator = some delegator)
    (hp : Params.Get state = .ok gp)
    (he : r.tx.EffectiveGasPrice baseFee gp = .ok egp)
    (hb : belowBaseFee baseFee egp = false)
    (hen : state.energy delegator = .ok e) :
    ((r.tx.Gas : Int) * egp ≤ e →
      ∃ res, r.BuyGas state bt baseFee
          = (.ok res, state.setEnergy delegator (e - (r.tx.Gas : Int) * egp)) ∧
        res.payer = delegator ∧ res.prepaid = (r.tx.Gas : Int) * egp) ∧
    (e < (r.tx.Gas : Int) * egp →
      r.BuyGas state bt baseFee = (.error .insufficientEnergy, state)) := by
  rw [BuyGas_past_baseFee r state bt baseFee gp egp hp he hb, hd]
  dsimp only
  constructor
  · intro hle
    rw [Energy.Sub_sufficient state bt delegator _ e hen hle]
    exact ⟨_, rfl, rfl, rfl⟩
  · intro hlt
    rw [Energy.Sub_insufficient state bt delegator _ e hen hlt]
    rfl

theorem buyGasOrigin_sufficient (r : ResolvedTransaction) (s : State) (bt : Nat)
    (gp egp prepaid e : Int) (hen : s.energy r.Origin = .ok e) (hle : prepaid ≤ e) :
    buyGasOrigin r s bt gp egp prepaid =
      (.ok { legacyTxBaseGasPrice := gp, effectiveGasPrice := egp, payer := r.Origin,
             prepaid := prepaid, returnGas := returnGasOnly bt egp r.Origin },
        s.setEnergy r.Origin (e - prepaid)) := by
  unfold buyGasOrigin
  rw [Energy.Sub_sufficient s bt r.Origin prepaid e hen hle]
  rfl

theorem buyGasOrigin_insufficient (r : ResolvedTransaction) (s : State) (bt : Nat)
    (gp egp prepaid e : Int) (hen : s.energy r.Origin = .ok e) (hlt : e < prepaid) :
    buyGasOrigin r s bt gp egp prepaid = (.error .insufficientEnergy, s) := by
  unfold buyGasOrigin
  rw [Energy.Sub_insufficient s bt r.Origin prepaid e hen hlt]
  rfl

theorem buyGasCommonTo_sufficient (r : ResolvedTransaction) (s : State) (bt : Nat)
    (gp egp prepaid : Int) (commonTo : Address) (credit e : Int)
    (hen : s.energy commonTo = .ok e) (hle : prepaid ≤ e) :
    buyGasCommonTo r s bt gp egp prepaid commonTo credit =
      (.ok { legacyTxBaseGasPrice := gp, effectiveGasPrice := egp, payer := commonTo,
             prepaid := prepaid,
             returnGas := doReturnGasAndSetCredit bt egp commonTo commonTo r.Origin credit
               prepaid },
        s.setEnergy commonTo (e - prepaid)) := by
  unfold buyGasCommonTo
  rw [Energy.Sub_sufficient s bt commonTo prepaid e hen hle]
  rfl

theorem buyGasCommonTo_insufficient (r : ResolvedTransaction) (s : State) (bt : Nat)
    (gp egp prepaid : Int) (commonTo : Address) (credit e : Int)
    (hen : s.energy commonTo = .ok e) (hlt : e < prepaid) :
    buyGasCommonTo r s bt gp egp prepaid commonTo credit =
      buyGasOrigin r s bt gp egp prepaid := by
  unfold buyGasCommonTo
  rw [Energy.Sub_insufficient s bt commonTo prepaid e hen hlt]
  rfl

/-- The sponsored branch with enough credit: the sponsor is tried when it is active,
then the common recipient. -/
theorem buyGasSponsored_credit (r : ResolvedTransaction) (s : State) (bt : Nat)
    (gp egp prepaid : Int) (commonTo : Address) (credit : Int) (sponsor : Address)
    (active : Bool)
    (hcr : s.credit commonTo r.Origin = .ok credit) (hge : prepaid ≤ credit)
    (hsp : s.sponsor commonTo = .ok sponsor)
    (his : s.isSponsor commonTo sponsor = .ok active) :
    buyGasSponsored r s bt gp egp prepaid commonTo =
      if active then
        match Energy.Sub s bt sponsor prepaid with
        | .error err => (.error err, s)
        | .ok (ok, state1) =>
          if ok then
            (.ok { legacyTxBaseGasPrice := gp
                   effectiveGasPrice := egp
                   payer := sponsor
                   prepaid := prepaid
                   returnGas := doReturnGasAndSetCredit bt egp sponsor
                     commonTo r.Origin credit prepaid }, state1)
          else buyGasCommonTo r state1 bt gp egp prepaid commonTo credit
      else buyGasCommonTo r s bt gp egp prepaid commonTo credit := by
  unfold buyGasSponsored Binding.UserCredit Binding.CurrentSponsor Binding.IsSponsor
    ledgerRead
  rw [hcr]
  dsimp only
  rw [if_pos (show credit ≥ prepaid from hge), hsp]
  dsimp only
  rw [his]

/-- The sponsored branch with too little credit falls back to the origin. -/
theorem buyGasSponsored_no_credit (r : ResolvedTransaction) (s : State) (bt : Nat)
    (gp egp prepaid : Int) (commonTo : Address) (credit : Int)
    (hcr : s.credit commonTo r.Origin = .ok credit) (hlt : credit < prepaid) :
    buyGasSponsored r s bt gp egp prepaid commonTo = buyGasOrigin r s bt gp egp prepaid := by
  unfold buyGasSponsored Binding.UserCredit ledgerRead
  rw [hcr]
  dsimp only
  rw [if_neg (show ¬ credit ≥ prepaid by omega)]

/-- Claim C3, amended. For a resolved transaction with no delegator, a common recipient
`C` and `userCredit(origin)` on `C` at least `prepaid`, which passes the base-fee
check, the payer is the first account of `[currentSponsor(C)` if it is an active
sponsor`, C, origin]` whose energy is at least `prepaid`, and only that account is
debited; if none can pay, `BuyGas` fails with "insufficient energy" and the state is
as before. -/
theorem BuyGas_sponsored_order (r : ResolvedTransaction) (state : State) (bt : Nat)
    (baseFee : Option Int) (gp egp : Int) (commonTo : Address) (credit : Int)
    (sponsor : Address) (active : Bool) (bal : Address → Int)
    (hd : r.Delegator = none) (hc : r.CommonTo = some commonTo)
    (hp : Params.Get state = .ok gp)
    (he : r.tx.EffectiveGasPrice baseFee gp = .ok egp)
    (hb : belowBaseFee baseFee egp = false)
    (hcr : state.credit commonTo r.Origin = .ok credit)
    (hge : (r.tx.Gas : Int) * egp ≤ credit)
    (hsp : state.sponsor commonTo = .ok sponsor)
    (his : state.isSponsor commonTo sponsor = .ok active)
    (hbal : ∀ a ∈ payerCandidates active sponsor commonTo r.Origin,
      state.energy a = .ok (bal a)) :
    match (payerCandidates active sponsor commonTo r.Origin).find?
        (fun a => decide ((r.tx.Gas : Int) * egp ≤ bal a)) with
    | some payer =>
      ∃ res, r.BuyGas state bt baseFee
          = (.ok res, state.setEnergy payer (bal payer - (r.tx.Gas : Int) * egp)) ∧
        res.payer = payer ∧ res.prepaid = (r.tx.Gas : Int) * egp
    | none => r.BuyGas state bt baseFee = (.error .insufficientEnergy, state) := by
  rw [BuyGas_past_baseFee r state bt baseFee gp egp hp he hb, hd]
  dsimp only
  rw [hc]
  dsimp only
  rw [buyGasSponsored_credit r state bt gp egp _ commonTo credit sponsor active hcr hge hsp his]
  generalize (r.tx.Gas : Int) * egp = prepaid at *
  have hC : state.energy commonTo = .ok (bal commonTo) :=
    hbal commonTo (by unfold payerCandidates; simp)
  have hO : state.energy r.Origin = .ok (bal r.Origin) :=
    hbal r.Origin (by unfold payerCandidates; simp)
  have tail : match [commonTo, r.Origin].find? (fun a => decide (prepaid ≤ bal a)) with
      | some payer =>
        ∃ res, buyGasCommonTo r state bt gp egp prepaid commonTo credit
            = (.ok res, state.setEnergy payer (bal payer - prepaid)) ∧
          res.payer = payer ∧ res.prepaid = prepaid
      | none => buyGasCommonTo r state bt gp egp prepaid commonTo credit
          = (.error .insufficientEnergy, state) := by
    by_cases h1 : prepaid ≤ bal commonTo
    · rw [List.find?_cons_of_pos _ (by simpa using h1)]
      rw [buyGasCommonTo_sufficient r state bt gp egp prepaid commonTo credit _ hC h1]
      exact ⟨_, rfl, rfl, rfl⟩
    · rw [List.find?_cons_of_neg _ (by simpa using h1)]
      rw [buyGasCommonTo_insufficient r state bt gp egp prepaid commonTo credit _ hC
        (by omega)]
      by_cases h2 : prepaid ≤ bal r.Origin
      · rw [List.find?_cons_of_pos _ (by simpa using h2)]
        rw [buyGasOrigin_sufficient r state bt gp egp prepaid _ hO h2]
        exact ⟨_, rfl, rfl, rfl⟩
      · rw [List.find?_cons_of_neg _ (by simpa using h2), List.find?_nil]
        exact buyGasOrigin_insufficient r state bt gp egp prepaid _ hO (by omega)
  cases active with
  | false =>
    rw [if_neg (by decide)]
    exact tail
  | true =>
    rw [if_pos rfl]
    have hS : state.energy sponsor = .ok (bal sponsor) :=
      hbal sponsor (by unfold payerCandidates; simp)
    have hcand : payerCandidates true sponsor commonTo r.Origin
        = sponsor :: [commonTo, r.Origin] := rfl
    rw [hcand]
    by_cases h0 : prepaid ≤ bal sponsor
    · rw [List.find?_cons_of_pos _ (by simpa using h0)]
      rw [Energy.Sub_sufficient state bt sponsor prepaid _ hS h0]
      exact ⟨_, rfl, rfl, rfl⟩
    · rw [List.find?_cons_of_neg _ (by simpa using h0)]
      rw [Energy.Sub_insufficient state bt sponsor prepaid _ hS (by omega)]
      exact tail

/-- Claim C4, amended. For a resolved transaction with no delegator that passes the
base-fee check and has no common recipient, or whose origin has less user credit on
the common recipient than `prepaid`, `BuyGas` debits the origin alone: it succeeds with
payer = origin when the origin's energy is at least `prepaid` and otherwise fails with
"insufficient energy", whatever the sponsor and the recipients hold. -/
theorem BuyGas_origin_only (r : ResolvedTransaction) (state : State) (bt : Nat)
    (baseFee : Option Int) (gp egp e : Int)
    (hd : r.Delegator = none)
    (hp : Params.Get state = .ok gp)
    (he : r.tx.EffectiveGasPrice baseFee gp = .ok egp)
    (hb : belowBaseFee baseFee egp = false)
    (hcase : r.CommonTo = none ∨
      ∃ commonTo credit, r.CommonTo = some commonTo ∧
        state.credit commonTo r.Origin = .ok credit ∧ credit < (r.tx.Gas : Int) * egp)
    (hen : state.energy r.Origin = .ok e) :
    ((r.tx.Gas : Int) * egp ≤ e →
      ∃ res, r.BuyGas state bt baseFee
          = (.ok res, state.setEnergy r.Origin (e - (r.tx.Gas : Int) * egp)) ∧
        res.payer = r.Origin ∧ res.prepaid = (r.tx.Gas : Int) * egp) ∧
    (e < (r.tx.Gas : Int) * egp →
      r.BuyGas state bt baseFee = (.error .insufficientEnergy, state)) := by
  have hfall : r.BuyGas state bt baseFee
      = buyGasOrigin r state bt gp egp ((r.tx.Gas : Int) * egp) := by
    rw [BuyGas_past_baseFee r state bt baseFee gp egp hp he hb, hd]
    dsimp only
    rcases hcase with hnone | ⟨commonTo, credit, hc, hcr, hlt⟩
    · rw [hnone]
    · rw [hc]
      exact buyGasSponsored_no_credit r state bt gp egp _ commonTo credit hcr hlt
  rw [hfall]
  constructor
  · intro hle
    rw [buyGasOrigin_sufficient r state bt gp egp _ e hen hle]
    exact ⟨_, rfl, rfl, rfl⟩
  · intro hlt
    exact buyGasOrigin_insufficient r state bt gp egp _ e hen hlt

theorem State.setEnergy_same (s : State) (a : Address) (v : Int) :
    (s.setEnergy a v).energy a = .ok v := by
  unfold State.setEnergy
  dsimp only
  rw [if_pos rfl]

theorem State.setEnergy_other (s : State) (a b : Address) (v : Int) (h : b ≠ a) :
    (s.setEnergy a v).energy b = s.energy b := by
  unfold State.setEnergy
  dsimp only
  rw [if_neg h]

theorem State.setCredit_same (s : State) (c u : Address) (v : Int) :
    (s.setCredit c u v).credit c u = .ok v := by
  unfold State.setCredit
  dsimp only
  rw [if_pos ⟨rfl, rfl⟩]

theorem State.setCredit_other (s : State) (c u c' u' : Address) (v : Int)
    (h : ¬ (c' = c ∧ u' = u)) : (s.setCredit c u v).credit c' u' = s.credit c' u' := by
  unfold State.setCredit
  dsimp only
  rw [if_neg h]

/-- The continuation of the delegator and origin branches on a state in which the
payer's energy can be read. -/
theorem returnGasOnly_eq (bt : Nat) (egp : Int) (payer : Address) (rgas : Nat) (s : State)
    (e : Int) (hen : s.energy payer = .ok e) :
    returnGasOnly bt egp payer rgas s = (none, s.setEnergy payer (e + (rgas : Int) * egp)) := by
  unfold returnGasOnly doReturnGas Energy.Add ledgerRead
  rw [hen]

/-- The continuation of the delegator and origin branches never writes a user credit. -/
theorem returnGasOnly_credit (bt : Nat) (egp : Int) (payer : Address) (rgas : Nat)
    (s : State) : (returnGasOnly bt egp payer rgas s).2.credit = s.credit := by
  unfold returnGasOnly doReturnGas Energy.Add ledgerRead
  cases hen : s.energy payer with
  | error code => rfl
  | ok e => rfl

/-- The continuation of the sponsored branch on a state in which the payer's energy
can be read. -/
theorem doReturnGasAndSetCredit_eq (bt : Nat) (egp : Int) (payer commonTo origin : Address)
    (credit prepaid : Int) (rgas : Nat) (s : State) (e : Int)
    (hen : s.energy payer = .ok e) :
    doReturnGasAndSetCredit bt egp payer commonTo origin credit prepaid rgas s =
      (none, (s.setEnergy payer (e + (rgas : Int) * egp)).setCredit commonTo origin
        (credit - (prepaid - (rgas : Int) * egp))) := by
  unfold doReturnGasAndSetCredit doReturnGas Energy.Add ledgerRead Binding.SetUserCredit
  rw [hen]

/-- What a successful `BuyGas` returns, whichever branch paid: the prices, the exact
prepaid amount, the debit of the payer alone, and a continuation of one of the two
kinds. -/
theorem BuyGas_ok_paid (r : ResolvedTransaction) (state : State) (bt : Nat)
    (baseFee : Option Int) (res : BuyGasResult) (s1 : State)
    (h : r.BuyGas state bt baseFee = (.ok res, s1)) :
    ∃ gp e, Params.Get state = .ok gp ∧
      r.tx.EffectiveGasPrice baseFee gp = .ok res.effectiveGasPrice ∧
      res.legacyTxBaseGasPrice = gp ∧
      res.prepaid = (r.tx.Gas : Int) * res.effectiveGasPrice ∧
      state.energy res.payer = .ok e ∧ res.prepaid ≤ e ∧
      s1 = state.setEnergy res.payer (e - res.prepaid) ∧
      (res.returnGas = returnGasOnly bt res.effectiveGasPrice res.payer ∨
        ∃ commonTo credit, res.returnGas = doReturnGasAndSetCredit bt res.effectiveGasPrice
          res.payer commonTo r.Origin credit res.prepaid) := by
  obtain ⟨gp, egp, hp, he, _, hcases⟩ := BuyGas_ok r state bt baseFee res s1 h
  rcases hcases with ⟨d, e, _, hen, hle, hs1, hres⟩ | ⟨_, commonTo, _, hsp⟩ |
    ⟨_, _, e, hen, hle, hs1, hres⟩
  · subst hres
    exact ⟨gp, e, hp, he, rfl, rfl, hen, hle, hs1, Or.inl rfl⟩
  · unfold SponsoredOutcome at hsp
    rcases hsp with ⟨credit, sponsor, e, _, _, _, _, hen, hle, hs1, hres⟩ |
      ⟨credit, e, _, _, _, hen, hle, hs1, hres⟩ | ⟨credit, e, _, _, hen, hle, hs1, hres⟩
    · subst hres
      exact ⟨gp, e, hp, he, rfl, rfl, hen, hle, hs1, Or.inr ⟨commonTo, credit, rfl⟩⟩
    · subst hres
      exact ⟨gp, e, hp, he, rfl, rfl, hen, hle, hs1, Or.inr ⟨commonTo, credit, rfl⟩⟩
    · subst hres
      exact ⟨gp, e, hp, he, rfl, rfl, hen, hle, hs1, Or.inl rfl⟩
  · subst hres
    exact ⟨gp, e, hp, he, rfl, rfl, hen, hle, hs1, Or.inl rfl⟩

/-- The payer of a successful `BuyGas` is the delegator, the current sponsor of the
common recipient, the common recipient or the origin. -/
theorem BuyGas_ok_payer (r : ResolvedTransaction) (state : State) (bt : Nat)
    (baseFee : Option Int) (res : BuyGasResult) (s1 : State)
    (h : r.BuyGas state bt baseFee = (.ok res, s1)) :
    r.Delegator = some res.payer ∨
      (∃ commonTo, r.CommonTo = some commonTo ∧
        (state.sponsor commonTo = .ok res.payer ∨ res.payer = commonTo)) ∨
      res.payer = r.Origin := by
  obtain ⟨gp, egp, _, _, _, hcases⟩ := BuyGas_ok r state bt baseFee res s1 h
  rcases hcases with ⟨d, e, hd, _, _, _, hres⟩ | ⟨_, commonTo, hc, hsp⟩ |
    ⟨_, _, e, _, _, _, hres⟩
  · subst hres
    exact Or.inl hd
  · unfold SponsoredOutcome at hsp
    rcases hsp with ⟨credit, sponsor, e, _, _, hs, _, _, _, _, hres⟩ |
      ⟨credit, e, _, _, _, _, _, _, hres⟩ | ⟨credit, e, _, _, _, _, _, hres⟩
    · subst hres
      exact Or.inr (Or.inl ⟨commonTo, hc, Or.inl hs⟩)
    · subst hres
      exact Or.inr (Or.inl ⟨commonTo, hc, Or.inr rfl⟩)
    · subst hres
      exact Or.inr (Or.inr rfl)
  · subst hres
    exact Or.inr (Or.inr rfl)

/-- Claim C6. Whenever `BuyGas` succeeds, the returned prepaid is `Gas()` times the
effective gas price as an exact integer, the payer is the delegator, the current
sponsor of the common recipient, the common recipient or the origin, the payer's energy
has decreased by exactly prepaid, and the energy of every other address and every user
credit are as before. -/
theorem BuyGas_success_frame (r : ResolvedTransaction) (state : State) (bt : Nat)
    (baseFee : Option Int) (res : BuyGasResult) (s1 : State)
    (h : r.BuyGas state bt baseFee = (.ok res, s1)) :
    res.prepaid = (r.tx.Gas : Int) * res.effectiveGasPrice ∧
    (∃ gp, Params.Get state = .ok gp ∧
      r.tx.EffectiveGasPrice baseFee gp = .ok res.effectiveGasPrice) ∧
    (r.Delegator = some res.payer ∨
      (∃ commonTo, r.CommonTo = some commonTo ∧
        (state.sponsor commonTo = .ok res.payer ∨ res.payer = commonTo)) ∨
      res.payer = r.Origin) ∧
    (∃ e, state.energy res.payer = .ok e ∧ s1.energy res.payer = .ok (e - res.prepaid)) ∧
    (∀ a, a ≠ res.payer → s1.energy a = state.energy a) ∧
    (∀ c u, s1.credit c u = state.credit c u) := by
  obtain ⟨gp, e, hp, he, _, hpre, hen, _, hs1, _⟩ := BuyGas_ok_paid r state bt baseFee res s1 h
  refine ⟨hpre, ⟨gp, hp, he⟩, BuyGas_ok_payer r state bt baseFee res s1 h, ⟨e, hen, ?_⟩, ?_, ?_⟩
  · rw [hs1]
    exact State.setEnergy_same state res.payer _
  · intro a ha
    rw [hs1]
    exact State.setEnergy_other state res.payer a _ ha
  · intro c u
    rw [hs1]
    rfl

/-- Claim C7. After a successful `BuyGas`, in whichever branch, the returned
continuation called with `rgas` credits exactly `rgas × effectiveGasPrice` to the
payer and to no other address; called on the state `BuyGas` left, it makes the payer's
net debit `Gas() × effectiveGasPrice - rgas × effectiveGasPrice`, which for `rgas = 0`
is exactly prepaid. -/
theorem BuyGas_returnGas_credits_payer (r : ResolvedTransaction) (state : State) (bt : Nat)
    (baseFee : Option Int) (res : BuyGasResult) (s1 : State)
    (h : r.BuyGas state bt baseFee = (.ok res, s1)) :
    (∀ (rgas : Nat) (s2 : State) (e2 : Int), s2.energy res.payer = .ok e2 →
      (res.returnGas rgas s2).1 = none ∧
      (res.returnGas rgas s2).2.energy res.payer
        = .ok (e2 + (rgas : Int) * res.effectiveGasPrice) ∧
      ∀ a, a ≠ res.payer → (res.returnGas rgas s2).2.energy a = s2.energy a) ∧
    (∃ e, state.energy res.payer = .ok e ∧
      (∀ rgas : Nat,
        (res.returnGas rgas s1).2.energy res.payer
          = .ok (e - ((r.tx.Gas : Int) * res.effectiveGasPrice
              - (rgas : Int) * res.effectiveGasPrice))) ∧
      (res.returnGas 0 s1).2.energy res.payer = .ok (e - res.prepaid)) := by
  obtain ⟨gp, e, _, _, _, hpre, hen, _, hs1, hcont⟩ :=
    BuyGas_ok_paid r state bt baseFee res s1 h
  have first : ∀ (rgas : Nat) (s2 : State) (e2 : Int), s2.energy res.payer = .ok e2 →
      (res.returnGas rgas s2).1 = none ∧
      (res.returnGas rgas s2).2.energy res.payer
        = .ok (e2 + (rgas : Int) * res.effectiveGasPrice) ∧
      ∀ a, a ≠ res.payer → (res.returnGas rgas s2).2.energy a = s2.energy a := by
    intro rgas s2 e2 h2
    rcases hcont with hc | ⟨commonTo, credit, hc⟩
    · rw [hc, returnGasOnly_eq bt _ res.payer rgas s2 e2 h2]
      exact ⟨rfl, State.setEnergy_same s2 res.payer _,
        fun a ha => State.setEnergy_other s2 res.payer a _ ha⟩
    · rw [hc, doReturnGasAndSetCredit_eq bt _ res.payer commonTo r.Origin credit _ rgas s2 e2 h2]
      exact ⟨rfl, State.setEnergy_same s2 res.payer _,
        fun a ha => State.setEnergy_other s2 res.payer a _ ha⟩
  have hs1e : s1.energy res.payer = .ok (e - res.prepaid) := by
    rw [hs1]
    exact State.setEnergy_same state res.payer _
  refine ⟨first, e, hen, ?_, ?_⟩
  · intro rgas
    rw [(first rgas s1 _ hs1e).2.1, hpre]
    congr 1
    omega
  · rw [(first 0 s1 _ hs1e).2.1]
    congr 1
    simp

/-- Claim C8. A successful `BuyGas` is in one of two cases. Either the payer was
chosen as the sponsor or as the common recipient `C` (no delegator, credit at least
prepaid): then the returned continuation called with `rgas` sets the origin's user
credit on `C` to `credit - (prepaid - rgas × effectiveGasPrice)`, `credit` being the
value read during `BuyGas`, and writes no other credit. Or the payer was chosen as the
delegator or as the origin: then the continuation writes no user credit. -/
theorem BuyGas_returnGas_user_credit (r : ResolvedTransaction) (state : State) (bt : Nat)
    (baseFee : Option Int) (res : BuyGasResult) (s1 : State)
    (h : r.BuyGas state bt baseFee = (.ok res, s1)) :
    (∃ commonTo credit, r.Delegator = none ∧ r.CommonTo = some commonTo ∧
      state.credit commonTo r.Origin = .ok credit ∧ res.prepaid ≤ credit ∧
      ((state.sponsor commonTo = .ok res.payer ∧
          state.isSponsor commonTo res.payer = .ok true) ∨
        (res.payer = commonTo ∧ sponsorCannotPay state commonTo res.prepaid)) ∧
      ∀ (rgas : Nat) (s2 : State) (e2 : Int), s2.energy res.payer = .ok e2 →
        (res.returnGas rgas s2).1 = none ∧
        (res.returnGas rgas s2).2.credit commonTo r.Origin
          = .ok (credit - (res.prepaid - (rgas : Int) * res.effectiveGasPrice)) ∧
        ∀ c u, ¬ (c = commonTo ∧ u = r.Origin) →
          (res.returnGas rgas s2).2.credit c u = s2.credit c u) ∨
    ((r.Delegator = some res.payer ∨
        (r.Delegator = none ∧ res.payer = r.Origin ∧
          (r.CommonTo = none ∨
            ∃ commonTo credit, r.CommonTo = some commonTo ∧
              state.credit commonTo r.Origin = .ok credit ∧
              (credit < res.prepaid ∨
                (sponsorCannotPay state commonTo res.prepaid ∧
                  ∃ ec, state.energy commonTo = .ok ec ∧ ec < res.prepaid))))) ∧
      ∀ (rgas : Nat) (s2 : State), (res.returnGas rgas s2).2.credit = s2.credit) := by
  obtain ⟨gp, egp, _, _, _, hcases⟩ := BuyGas_ok r state bt baseFee res s1 h
  have setsCredit : ∀ (payer commonTo : Address) (credit prepaid : Int) (rgas : Nat)
      (s2 : State) (e2 : Int), s2.energy payer = .ok e2 →
      (doReturnGasAndSetCredit bt egp payer commonTo r.Origin credit prepaid rgas s2).1
        = none ∧
      (doReturnGasAndSetCredit bt egp payer commonTo r.Origin credit prepaid rgas s2).2.credit
          commonTo r.Origin = .ok (credit - (prepaid - (rgas : Int) * egp)) ∧
      ∀ c u, ¬ (c = commonTo ∧ u = r.Origin) →
        (doReturnGasAndSetCredit bt egp payer commonTo r.Origin credit prepaid rgas s2).2.credit
          c u = s2.credit c u := by
    intro payer commonTo credit prepaid rgas s2 e2 h2
    rw [doReturnGasAndSetCredit_eq bt egp payer commonTo r.Origin credit prepaid rgas s2 e2 h2]
    refine ⟨rfl, State.setCredit_same _ commonTo r.Origin _, fun c u hcu => ?_⟩
    rw [State.setCredit_other _ commonTo r.Origin c u _ hcu]
    rfl
  rcases hcases with ⟨d, e, hd, _, _, _, hres⟩ | ⟨hd, commonTo, hc, hsp⟩ |
    ⟨hd, hc, e, _, _, _, hres⟩
  · subst hres
    exact Or.inr ⟨Or.inl hd, fun rgas s2 => returnGasOnly_credit bt egp d rgas s2⟩
  · unfold SponsoredOutcome at hsp
    rcases hsp with ⟨credit, sponsor, e, hcr, hge, hs, his, _, _, _, hres⟩ |
      ⟨credit, e, hcr, hge, hcannot, _, _, _, hres⟩ |
      ⟨credit, e, hcr, hwhy, _, _, _, hres⟩
    · subst hres
      exact Or.inl ⟨commonTo, credit, hd, hc, hcr, hge, Or.inl ⟨hs, his⟩,
        fun rgas s2 e2 h2 => setsCredit sponsor commonTo credit _ rgas s2 e2 h2⟩
    · subst hres
      exact Or.inl ⟨commonTo, credit, hd, hc, hcr, hge, Or.inr ⟨rfl, hcannot⟩,
        fun rgas s2 e2 h2 => setsCredit commonTo commonTo credit _ rgas s2 e2 h2⟩
    · subst hres
      exact Or.inr ⟨Or.inr ⟨hd, rfl, Or.inr ⟨commonTo, credit, hc, hcr, hwhy⟩⟩,
        fun rgas s2 => returnGasOnly_credit bt egp r.Origin rgas s2⟩
  · subst hres
    exact Or.inr ⟨Or.inr ⟨hd, rfl, Or.inl hc⟩,
      fun rgas s2 => returnGasOnly_credit bt egp r.Origin rgas s2⟩

/-- The intrinsic gas of a call with data `[0, 1]` followed by a contract creation is
`5000 + (4 + 68 + 16000) + 48000`, the exact sum of claim C9. -/
theorem IntrinsicGas_exact_sum_witness :
    (∀ c ∈ [(⟨some 7, 0, [0, 1]⟩ : Clause), ⟨none, 0, []⟩], c.Data.length < 2 ^ 64) ∧
    IntrinsicGas exampleSchedule [⟨some 7, 0, [0, 1]⟩, ⟨none, 0, []⟩] = .ok 69072 ∧
    (69072 : Nat) = exampleSchedule.TxGas
      + ([(⟨some 7, 0, [0, 1]⟩ : Clause), ⟨none, 0, []⟩].map (fun c =>
        zeroBytes c.Data * exampleSchedule.TxDataZeroGas
          + nonZeroBytes c.Data * exampleSchedule.TxDataNonZeroGas
          + (if c.To = none then exampleSchedule.ClauseGasContractCreation
             else exampleSchedule.ClauseGas))).sum :=
  ⟨by decide, rfl,
    (IntrinsicGas_exact_sum exampleSchedule [⟨some 7, 0, [0, 1]⟩, ⟨none, 0, []⟩]
      (by decide)).2 (by decide) 69072 rfl⟩

/-- The overflow criterion of claim C10 on a one-clause example. -/
theorem IntrinsicGas_overflow_iff_witness :
    exampleSchedule.TxGas < 2 ^ 64 ∧
    (∀ c ∈ [(⟨some 7, 0, [0, 1]⟩ : Clause)], c.Data.length < 2 ^ 64) ∧
    (IntrinsicGas exampleSchedule [⟨some 7, 0, [0, 1]⟩] = .error .intrinsicGasOverflow ↔
      2 ^ 64 - 1 < exactIntrinsicGas exampleSchedule [⟨some 7, 0, [0, 1]⟩]) :=
  ⟨by decide, by decide,
    (IntrinsicGas_overflow_iff exampleSchedule [⟨some 7, 0, [0, 1]⟩]
      (by decide) (by decide)).1⟩

/-- The delegator `4` of the example pays `40000 × 10 ^ 9` (claim C2). -/
theorem BuyGas_delegator_witness :
    ∃ res, (exampleDelegated exampleLegacyTx).BuyGas exampleState 0 none
        = (.ok res, exampleState.setEnergy 4
            (10 ^ 21 - ((exampleDelegated exampleLegacyTx).tx.Gas : Int) * 1000000000)) ∧
      res.payer = 4 ∧
      res.prepaid = ((exampleDelegated exampleLegacyTx).tx.Gas : Int) * 1000000000 :=
  (BuyGas_delegator (exampleDelegated exampleLegacyTx) exampleState 0 none
    1000000000 1000000000 4 (10 ^ 21) rfl rfl rfl rfl rfl).1 (by decide)

/-- On the example state the sponsor `9` pays for the example legacy transaction. -/
theorem exampleSponsor_BuyGas :
    (exampleResolved exampleLegacyTx).BuyGas exampleState 0 none
      = (.ok exampleSponsorResult, exampleStateAfter) := rfl

/-- Claim C3 as stated fails. The example dynamic-fee transaction has no delegator, the
common recipient `7` and enough user credit; its effective gas price 80 is below the
base fee 100. When the sponsor, the recipient and the origin hold nothing, so that none
can pay, `BuyGas` fails with "gas price is less than block base fee" and not with
"insufficient energy"; and when the active sponsor `9` holds enough energy, `BuyGas`
still chooses no payer. -/
theorem BuyGas_sponsored_order_counterexample :
    (exampleResolved exampleDynamicTx).Delegator = none ∧
    (exampleResolved exampleDynamicTx).CommonTo = some 7 ∧
    (exampleResolved exampleDynamicTx).tx.EffectiveGasPrice (some 100) 1000000000 = .ok 80 ∧
    examplePoorState.credit 7 (exampleResolved exampleDynamicTx).Origin = .ok (10 ^ 20) ∧
    ((exampleResolved exampleDynamicTx).tx.Gas : Int) * 80 ≤ 10 ^ 20 ∧
    examplePoorState.sponsor 7 = .ok 9 ∧ examplePoorState.isSponsor 7 9 = .ok true ∧
    (∀ a, examplePoorState.energy a = .ok 0) ∧
    (0 : Int) < ((exampleResolved exampleDynamicTx).tx.Gas : Int) * 80 ∧
    (exampleResolved exampleDynamicTx).BuyGas examplePoorState 0 (some 100)
      = (.error .gasPriceLessThanBaseFee, examplePoorState) ∧
    ((exampleResolved exampleDynamicTx).BuyGas examplePoorState 0 (some 100)).1
      ≠ .error .insufficientEnergy ∧
    exampleState.credit 7 (exampleResolved exampleDynamicTx).Origin = .ok (10 ^ 20) ∧
    exampleState.sponsor 7 = .ok 9 ∧ exampleState.isSponsor 7 9 = .ok true ∧
    exampleState.energy 9 = .ok (10 ^ 21) ∧
    ((exampleResolved exampleDynamicTx).tx.Gas : Int) * 80 ≤ 10 ^ 21 ∧
    (exampleResolved exampleDynamicTx).BuyGas exampleState 0 (some 100)
      = (.error .gasPriceLessThanBaseFee, exampleState) ∧
    ¬ (∃ res, ((exampleResolved exampleDynamicTx).BuyGas exampleState 0 (some 100)).1
          = .ok res) := by
  have hpoor : (exampleResolved exampleDynamicTx).BuyGas examplePoorState 0 (some 100)
      = (.error .gasPriceLessThanBaseFee, examplePoorState) := rfl
  have hrich : (exampleResolved exampleDynamicTx).BuyGas exampleState 0 (some 100)
      = (.error .gasPriceLessThanBaseFee, exampleState) := rfl
  refine ⟨rfl, rfl, rfl, rfl, by decide, rfl, rfl, fun _ => rfl, by decide, hpoor, ?_,
    rfl, rfl, rfl, rfl, by decide, hrich, ?_⟩
  · rw [hpoor]
    intro h
    cases h
  · rw [hrich]
    rintro ⟨res, h⟩
    cases h

/-- With the active sponsor `9`, the first of `[9, 7, 3]` that can pay is `9`
(claim C3, amended). -/
theorem BuyGas_sponsored_order_witness :
    ∃ res, (exampleResolved exampleLegacyTx).BuyGas exampleState 0 none
        = (.ok res, exampleState.setEnergy 9
            (exampleBalance 9 - ((exampleResolved exampleLegacyTx).tx.Gas : Int) * 1000000000)) ∧
      res.payer = 9 ∧
      res.prepaid = ((exampleResolved exampleLegacyTx).tx.Gas : Int) * 1000000000 :=
  BuyGas_sponsored_order (exampleResolved exampleLegacyTx) exampleState 0 none
    1000000000 1000000000 7 (10 ^ 20) 9 true exampleBalance rfl rfl rfl rfl rfl rfl
    (by decide) rfl rfl (fun _ _ => rfl)

/-- Claim C4 as stated fails. The example transaction with two different recipients
has no delegator and no common recipient; its effective gas price 80 is below the base
fee 100. When its origin `3` holds more than prepaid, `BuyGas` does not succeed with
payer = origin; and when the origin holds nothing, `BuyGas` fails with "gas price is
less than block base fee" and not with "insufficient energy". -/
theorem BuyGas_origin_only_counterexample :
    (exampleResolved exampleMixedTx).Delegator = none ∧
    (exampleResolved exampleMixedTx).CommonTo = none ∧
    (exampleResolved exampleMixedTx).tx.EffectiveGasPrice (some 100) 1000000000 = .ok 80 ∧
    exampleState.energy (exampleResolved exampleMixedTx).Origin = .ok (10 ^ 21) ∧
    ((exampleResolved exampleMixedTx).tx.Gas : Int) * 80 ≤ 10 ^ 21 ∧
    (exampleResolved exampleMixedTx).BuyGas exampleState 0 (some 100)
      = (.error .gasPriceLessThanBaseFee, exampleState) ∧
    ¬ (∃ res, ((exampleResolved exampleMixedTx).BuyGas exampleState 0 (some 100)).1
          = .ok res) ∧
    examplePoorState.energy (exampleResolved exampleMixedTx).Origin = .ok 0 ∧
    (0 : Int) < ((exampleResolved exampleMixedTx).tx.Gas : Int) * 80 ∧
    (exampleResolved exampleMixedTx).BuyGas examplePoorState 0 (some 100)
      = (.error .gasPriceLessThanBaseFee, examplePoorState) ∧
    ((exampleResolved exampleMixedTx).BuyGas examplePoorState 0 (some 100)).1
      ≠ .error .insufficientEnergy := by
  have hrich : (exampleResolved exampleMixedTx).BuyGas exampleState 0 (some 100)
      = (.error .gasPriceLessThanBaseFee, exampleState) := rfl
  have hpoor : (exampleResolved exampleMixedTx).BuyGas examplePoorState 0 (some 100)
      = (.error .gasPriceLessThanBaseFee, examplePoorState) := rfl
  refine ⟨rfl, rfl, rfl, rfl, by decide, hrich, ?_, rfl, by decide, hpoor, ?_⟩
  · rw [hrich]
    rintro ⟨res, h⟩
    cases h
  · rw [hpoor]
    intro h
    cases h

/-- With two different recipients and base fee 50 the origin `3` pays `40000 × 55`
(claim C4, amended). -/
theorem BuyGas_origin_only_witness :
    ∃ res, (exampleResolved exampleMixedTx).BuyGas exampleState 0 (some 50)
        = (.ok res, exampleState.setEnergy (exampleResolved exampleMixedTx).Origin
            (10 ^ 21 - ((exampleResolved exampleMixedTx).tx.Gas : Int) * 55)) ∧
      res.payer = (exampleResolved exampleMixedTx).Origin ∧
      res.prepaid = ((exampleResolved exampleMixedTx).tx.Gas : Int) * 55 :=
  (BuyGas_origin_only (exampleResolved exampleMixedTx) exampleState 0 (some 50)
    1000000000 55 (10 ^ 21) rfl rfl rfl rfl (Or.inl rfl) rfl).1 (by decide)

/-- The example of claim C5: base fee 100, `maxFeePerGas` 80. -/
theorem BuyGas_baseFee_check_witness :
    (exampleResolved exampleDynamicTx).BuyGas exampleState 0 (some 100)
      = (.error .gasPriceLessThanBaseFee, exampleState) :=
  (BuyGas_baseFee_check (exampleResolved exampleDynamicTx) exampleState 0 (some 100)
    1000000000 rfl).2.2 _ 100 rfl rfl (by decide)

/-- The frame of claim C6 on the example in which the sponsor `9` pays. -/
theorem BuyGas_success_frame_witness :
    exampleSponsorResult.prepaid
        = ((exampleResolved exampleLegacyTx).tx.Gas : Int)
          * exampleSponsorResult.effectiveGasPrice ∧
    (∃ e, exampleState.energy exampleSponsorResult.payer = .ok e ∧
      exampleStateAfter.energy exampleSponsorResult.payer
        = .ok (e - exampleSponsorResult.prepaid)) ∧
    (∀ a, a ≠ exampleSponsorResult.payer →
      exampleStateAfter.energy a = exampleState.energy a) ∧
    (∀ c u, exampleStateAfter.credit c u = exampleState.credit c u) :=
  have h := BuyGas_success_frame (exampleResolved exampleLegacyTx) exampleState 0 none
    exampleSponsorResult exampleStateAfter exampleSponsor_BuyGas
  ⟨h.1, h.2.2.2.1, h.2.2.2.2.1, h.2.2.2.2.2⟩

/-- The refund of claim C7 on the example in which the sponsor `9` pays. -/
theorem BuyGas_returnGas_credits_payer_witness :
    ∃ e, exampleState.energy exampleSponsorResult.payer = .ok e ∧
      (∀ rgas : Nat,
        (exampleSponsorResult.returnGas rgas exampleStateAfter).2.energy
            exampleSponsorResult.payer
          = .ok (e - (((exampleResolved exampleLegacyTx).tx.Gas : Int)
                * exampleSponsorResult.effectiveGasPrice
              - (rgas : Int) * exampleSponsorResult.effectiveGasPrice))) ∧
      (exampleSponsorResult.returnGas 0 exampleStateAfter).2.energy
          exampleSponsorResult.payer
        = .ok (e - exampleSponsorResult.prepaid) :=
  (BuyGas_returnGas_credits_payer (exampleResolved exampleLegacyTx) exampleState 0 none
    exampleSponsorResult exampleStateAfter exampleSponsor_BuyGas).2

/-- The credit update of claim C8 on the example in which the sponsor `9` pays:
with 10000 gas returned the credit of `3` on `7` becomes
`10 ^ 20 - (40000 × 10 ^ 9 - 10000 × 10 ^ 9)`. -/
theorem BuyGas_returnGas_user_credit_witness :
    (exampleSponsorResult.returnGas 10000 exampleStateAfter).2.credit 7 3
      = .ok (10 ^ 20 - (40000 * 1000000000 - 10000 * 1000000000)) := by
  rcases BuyGas_returnGas_user_credit (exampleResolved exampleLegacyTx) exampleState 0 none
    exampleSponsorResult exampleStateAfter exampleSponsor_BuyGas with
    ⟨commonTo, credit, _, hc, hcr, _, _, hset⟩ | ⟨_, hnone⟩
  · have h7 : commonTo = 7 := (Option.some.inj hc).symm
    subst h7
    have hcredit : credit = 10 ^ 20 := (Except.ok.inj hcr).symm
    subst hcredit
    exact (hset 10000 exampleStateAfter _ rfl).2.1
  · have := hnone 10000 exampleStateAfter
    have h2 := congrFun (congrFun this 7) 3
    exact absurd h2 (by
      intro h
      have h3 : (Except.ok (10 ^ 20 - (40000 * 1000000000 - 10000 * 1000000000)) :
          Except Nat Int) = Except.ok (10 ^ 20) := h
      have h4 := Except.ok.inj h3
      revert h4
      decide)

/-- The example legacy transaction resolves (claim C1). -/
theorem ResolveTransaction_ok_iff_witness :
    ∃ r, (ResolveTransaction exampleSchedule exampleCrypto exampleLegacyTx).1 = .ok r :=
  (ResolveTransaction_ok_iff exampleSchedule exampleCrypto exampleLegacyTx).1.mpr
    ⟨3, 37000, none, rfl, rfl, by decide, rfl, by decide,
      by simp [exampleLegacyTx, Transaction.Clauses, txData.clauses],
      fun h => absurd rfl h⟩

/-! ## Additivity of the intrinsic gas and the common recipient -/

/-- Claim C11. For non-empty clause lists `xs` and `ys` on whose concatenation
`IntrinsicGas` succeeds, it succeeds on `xs` and on `ys`, both results are at least
`TxGas`, and the result of the concatenation less `TxGas` is the sum of the two results
each less `TxGas`. (A Go byte slice is shorter than `2 ^ 64`.) -/
theorem IntrinsicGas_append (G : GasSchedule) (xs ys : List Clause)
    (hx : xs ≠ []) (hy : ys ≠ []) (hlen : ∀ c ∈ xs ++ ys, c.Data.length < 2 ^ 64)
    (g : Nat) (h : IntrinsicGas G (xs ++ ys) = .ok g) :
    ∃ gx gy, IntrinsicGas G xs = .ok gx ∧ IntrinsicGas G ys = .ok gy ∧
      G.TxGas ≤ gx ∧ G.TxGas ≤ gy ∧ G.TxGas ≤ g ∧
      g - G.TxGas = (gx - G.TxGas) + (gy - G.TxGas) := by
  have hxy : xs ++ ys ≠ [] := fun e => hx (List.append_eq_nil.mp e).1
  have hlx : ∀ c ∈ xs, c.Data.length < 2 ^ 64 :=
    fun c hc => hlen c (List.mem_append_left ys hc)
  have hly : ∀ c ∈ ys, c.Data.length < 2 ^ 64 :=
    fun c hc => hlen c (List.mem_append_right xs hc)
  have hsum : exactIntrinsicGas G (xs ++ ys) + G.TxGas
      = exactIntrinsicGas G xs + exactIntrinsicGas G ys := by
    unfold exactIntrinsicGas
    rw [List.map_append, List.sum_append]
    omega
  have hgx : G.TxGas ≤ exactIntrinsicGas G xs := Nat.le_add_right _ _
  have hgy : G.TxGas ≤ exactIntrinsicGas G ys := Nat.le_add_right _ _
  rw [IntrinsicGas_eq G (xs ++ ys) hxy hlen] at h
  by_cases hlt : exactIntrinsicGas G (xs ++ ys) < 2 ^ 64
  · rw [if_pos hlt] at h
    have hg : exactIntrinsicGas G (xs ++ ys) = g := Except.ok.inj h
    refine ⟨exactIntrinsicGas G xs, exactIntrinsicGas G ys, ?_, ?_, hgx, hgy, ?_, ?_⟩
    · rw [IntrinsicGas_eq G xs hx hlx, if_pos (by omega)]
    · rw [IntrinsicGas_eq G ys hy hly, if_pos (by omega)]
    · omega
    · omega
  · rw [if_neg hlt] at h
    cases h

/-- The additivity of claim C11 on the spec's case of two one-clause lists. -/
theorem IntrinsicGas_append_witness :
    ∃ gx gy, IntrinsicGas exampleSchedule [⟨some 7, 0, [0, 1]⟩] = .ok gx ∧
      IntrinsicGas exampleSchedule [⟨none, 0, [5]⟩] = .ok gy ∧
      exampleSchedule.TxGas ≤ gx ∧ exampleSchedule.TxGas ≤ gy ∧
      exampleSchedule.TxGas ≤ 69140 ∧
      69140 - exampleSchedule.TxGas
        = (gx - exampleSchedule.TxGas) + (gy - exampleSchedule.TxGas) :=
  IntrinsicGas_append exampleSchedule [⟨some 7, 0, [0, 1]⟩] [⟨none, 0, [5]⟩]
    (by decide) (by decide) (by decide) 69140 rfl

/-- The loop of `CommonTo` returns an address exactly when it is the first recipient and
every remaining clause has it as recipient. -/
theorem commonToLoop_eq_some (firstTo a : Address) (cs : List Clause) :
    commonToLoop firstTo cs = some a ↔ a = firstTo ∧ ∀ c ∈ cs, c.To = some a := by
  induction cs with
  | nil =>
    unfold commonToLoop
    constructor
    · intro h
      exact ⟨(Option.some.inj h).symm, fun c hc => by cases hc⟩
    · intro h
      rw [h.1]
  | cons c rest ih =>
    unfold commonToLoop
    cases hto : c.To with
    | none =>
      constructor
      · intro h
        cases h
      · intro h
        have := h.2 c (List.mem_cons_self c rest)
        rw [hto] at this
        cases this
    | some to_ =>
      dsimp only
      by_cases hne : to_ ≠ firstTo
      · rw [if_pos hne]
        constructor
        · intro h
          cases h
        · intro h
          have := h.2 c (List.mem_cons_self c rest)
          rw [hto, h.1] at this
          exact absurd (Option.some.inj this) hne
      · rw [if_neg hne, ih]
        have heq : to_ = firstTo := not_not.mp hne
        constructor
        · intro h
          refine ⟨h.1, fun d hd => ?_⟩
          rcases List.mem_cons.mp hd with hd | hd
          · rw [hd, hto, heq, h.1]
          · exact h.2 d hd
        · intro h
          exact ⟨h.1, fun d hd => h.2 d (List.mem_cons_of_mem c hd)⟩

/-- Claim C12. `CommonTo` returns the address `a` exactly when the clause list is not
empty and every clause has the recipient `a`; it returns none for the empty clause
list, when a clause creates a contract (has no recipient), and when two clauses have
different recipients. -/
theorem CommonTo_iff (r : ResolvedTransaction) :
    (∀ a, r.CommonTo = some a ↔ r.Clauses ≠ [] ∧ ∀ c ∈ r.Clauses, c.To = some a) ∧
    (r.Clauses = [] → r.CommonTo = none) ∧
    ((∃ c ∈ r.Clauses, c.IsCreatingContract = true) → r.CommonTo = none) ∧
    ((∃ c ∈ r.Clauses, ∃ d ∈ r.Clauses, c.To ≠ d.To) → r.CommonTo = none) := by
  have hiff : ∀ a, r.CommonTo = some a ↔
      r.Clauses ≠ [] ∧ ∀ c ∈ r.Clauses, c.To = some a := by
    intro a
    unfold ResolvedTransaction.CommonTo
    cases hcs : r.Clauses with
    | nil =>
      constructor
      · intro h
        cases h
      · intro h
        exact absurd rfl h.1
    | cons first rest =>
      dsimp only
      cases hto : first.To with
      | none =>
        constructor
        · intro h
          cases h
        · intro h
          have := h.2 first (List.mem_cons_self first rest)
          rw [hto] at this
          cases this
      | some firstTo =>
        dsimp only
        rw [commonToLoop_eq_some]
        constructor
        · intro h
          refine ⟨List.cons_ne_nil first rest, fun d hd => ?_⟩
          rcases List.mem_cons.mp hd with hd | hd
          · rw [hd, hto, h.1]
          · exact h.2 d hd
        · intro h
          have hf := h.2 first (List.mem_cons_self first rest)
          rw [hto] at hf
          exact ⟨(Option.some.inj hf).symm, fun d hd => h.2 d (List.mem_cons_of_mem first hd)⟩
  have hnone : ∀ {p : Prop}, (∀ a, (r.Clauses ≠ [] ∧ ∀ c ∈ r.Clauses, c.To = some a) → p → False) →
      p → r.CommonTo = none := by
    intro p hp hpp
    cases hc : r.CommonTo with
    | none => rfl
    | some a => exact absurd hpp (fun q => hp a ((hiff a).mp hc) q)
  refine ⟨hiff, ?_, ?_, ?_⟩
  · exact hnone (fun a h e => h.1 e)
  · refine hnone (fun a h e => ?_)
    obtain ⟨c, hc, hcc⟩ := e
    have := h.2 c hc
    unfold Clause.IsCreatingContract at hcc
    rw [this] at hcc
    cases hcc
  · refine hnone (fun a h e => ?_)
    obtain ⟨c, hc, d, hd, hne⟩ := e
    exact hne ((h.2 c hc).trans (h.2 d hd).symm)

/-- The common recipient of the two clauses of the example legacy transaction is `7`,
and the example with recipients `7` and `8` has none (claim C12). -/
theorem CommonTo_iff_witness :
    (exampleResolved exampleLegacyTx).CommonTo = some 7 ∧
    (exampleResolved exampleMixedTx).CommonTo = none :=
  ⟨((CommonTo_iff (exampleResolved exampleLegacyTx)).1 7).mpr ⟨by decide, by decide⟩,
    (CommonTo_iff (exampleResolved exampleMixedTx)).2.2.2
      ⟨⟨some 7, 0, []⟩, by decide, ⟨some 8, 0, []⟩, by decide, by decide⟩⟩

/-! ## The envelope: signature gate, rejected inputs, fees and proved work -/

/-- The signature-length gate fails exactly on a length other than the expected one, and
its only error is the invalid-signature-length error. -/
theorem Transaction.validateSignatureLength_error_iff (t : Transaction) (e : Error) :
    t.validateSignatureLength = .error e ↔
      e = .invalidSignatureLen ∧
        t.body.signature.length ≠ (if Features.IsDelegated t.Features then 130 else 65) := by
  unfold Transaction.validateSignatureLength
  dsimp only
  have h130 : (65 * 2 : Nat) = 130 := rfl
  rw [h130]
  by_cases h : t.body.signature.length ≠ (if Features.IsDelegated t.Features then 130 else 65)
  · rw [if_pos h]
    constructor
    · intro he
      exact ⟨(Except.error.inj he).symm, h⟩
    · intro he
      rw [he.1]
  · rw [if_neg h]
    constructor
    · intro he
      cases he
    · intro he
      exact absurd he.2 h

/-- Claim C16. `Origin` and `Delegator` fail with the invalid-signature-length error
exactly when the signature length differs from 65 with the delegated bit clear, or from
130 with it set. This holds for every content of the cache (a cached origin or
delegator is not returned past a failing gate), and the failing call leaves the
transaction as it was. With length 65 and the bit clear, `Delegator` returns no
delegator and no error. -/
theorem Origin_Delegator_signature_gate (K : Crypto) (t : Transaction) :
    ((t.Origin K).1 = .error .invalidSignatureLen ↔
      t.body.signature.length ≠ (if Features.IsDelegated t.Features then 130 else 65)) ∧
    ((t.Delegator K).1 = .error .invalidSignatureLen ↔
      t.body.signature.length ≠ (if Features.IsDelegated t.Features then 130 else 65)) ∧
    (t.body.signature.length ≠ (if Features.IsDelegated t.Features then 130 else 65) →
      t.Origin K = (.error .invalidSignatureLen, t) ∧
      t.Delegator K = (.error .invalidSignatureLen, t)) ∧
    (t.body.signature.length = 65 → Features.IsDelegated t.Features = false →
      t.Delegator K = (.ok none, t)) := by
  have hgate := Transaction.validateSignatureLength_error_iff t
  cases hv : t.validateSignatureLength with
  | error e =>
    have he := (hgate e).mp hv
    have hO : t.Origin K = (.error .invalidSignatureLen, t) := by
      unfold Transaction.Origin
      rw [hv, he.1]
    have hD : t.Delegator K = (.error .invalidSignatureLen, t) := by
      unfold Transaction.Delegator
      rw [hv, he.1]
    refine ⟨?_, ?_, fun _ => ⟨hO, hD⟩, ?_⟩
    · rw [hO]
      exact ⟨fun _ => he.2, fun _ => rfl⟩
    · rw [hD]
      exact ⟨fun _ => he.2, fun _ => rfl⟩
    · intro h65 hnd
      rw [hnd] at he
      exact absurd h65 he.2
  | ok u =>
    have hlen : ¬ t.body.signature.length ≠
        (if Features.IsDelegated t.Features then 130 else 65) := by
      intro hne
      have := (hgate .invalidSignatureLen).mpr ⟨rfl, hne⟩
      rw [hv] at this
      cases this
    have hO : (t.Origin K).1 ≠ .error .invalidSignatureLen := by
      unfold Transaction.Origin
      rw [hv]
      dsimp only
      split
      · intro h
        cases h
      · split
        · intro h
          cases h
        · intro h
          cases h
    have hD : (t.Delegator K).1 ≠ .error .invalidSignatureLen := by
      rw [Transaction.Delegator_fst, hv]
      dsimp only
      split
      · intro h
        cases h
      · split
        · intro h
          cases h
        · split
          · rename_i err heq
            intro h
            rw [heq] at hO
            exact hO (congrArg Except.error (Except.error.inj h))
          · split
            · intro h
              cases h
            · intro h
              cases h
    refine ⟨⟨fun h => absurd h hO, fun h => absurd h hlen⟩,
      ⟨fun h => absurd h hD, fun h => absurd h hlen⟩, fun h => absurd h hlen, ?_⟩
    intro _ hnd
    unfold Transaction.Delegator
    rw [hv]
    dsimp only
    rw [if_pos (by rw [hnd]; decide)]

/-- The gate of claim C16 on the example transaction: its signature has 65 bytes and the
delegated bit is clear, so `Delegator` returns no delegator; cut to 64 bytes, `Origin`
fails on the length although an origin is cached. -/
theorem Origin_Delegator_signature_gate_witness :
    exampleLegacyTx.Delegator exampleCrypto = (.ok none, exampleLegacyTx) ∧
    ((exampleShortSigTx.Origin exampleCrypto).1 = .error .invalidSignatureLen ↔
      exampleShortSigTx.body.signature.length ≠
        (if Features.IsDelegated exampleShortSigTx.Features then 130 else 65)) ∧
    exampleShortSigTx.Origin exampleCrypto = (.error .invalidSignatureLen, exampleShortSigTx) :=
  ⟨(Origin_Delegator_signature_gate exampleCrypto exampleLegacyTx).2.2.2 rfl rfl,
    (Origin_Delegator_signature_gate exampleCrypto exampleShortSigTx).1,
    ((Origin_Delegator_signature_gate exampleCrypto exampleShortSigTx).2.2.1 (by decide)).1⟩

/-- Claim C19. `UnmarshalBinary` rejects the empty input and every one-byte input whose
byte is at most `0x7f` with "typed transaction too short", and every input of two or
more bytes whose first byte is at most `0x7f` and is not `0x51` (`0x00` included) with
"transaction type not supported". The RLP decoder is not called, and the receiver is
left as it was: its body and every cell of its cache, the size included. -/
theorem UnmarshalBinary_rejects (R : Codec) (t : Transaction) :
    t.UnmarshalBinary R [] = (some .shortTypedTx, t) ∧
    (∀ x : Byte, x.val ≤ 0x7f → t.UnmarshalBinary R [x] = (some .shortTypedTx, t)) ∧
    (∀ (x : Byte) (rest : List Byte), rest ≠ [] → x.val ≤ 0x7f → x.val ≠ 0x51 →
      t.UnmarshalBinary R (x :: rest) = (some .txTypeNotSupported, t)) := by
  refine ⟨rfl, ?_, ?_⟩
  · intro x hx
    unfold Transaction.UnmarshalBinary
    dsimp only
    have h : decide (x.val > 0x7f) = false := decide_eq_false (by omega)
    rw [h]
    rfl
  · intro x rest hrest hx h51
    unfold Transaction.UnmarshalBinary
    dsimp only
    have h : decide (x.val > 0x7f) = false := decide_eq_false (by omega)
    rw [h]
    have hd : Transaction.decodeTyped R (x :: rest) = .error .txTypeNotSupported := by
      unfold Transaction.decodeTyped
      have hl : ¬ (x :: rest).length ≤ 1 := by
        cases rest with
        | nil => exact absurd rfl hrest
        | cons y ys => simp
      rw [if_neg hl]
      dsimp only
      have h51b : ¬ x.val = TypeDynamicFee := h51
      rw [if_neg h51b]
    simp only [hd]
    rfl

/-- The rejections of claim C19 on the inputs `[0x00]` and `[0x00, 0xc0]`, into a
receiver that holds the example transaction with a cached size. -/
theorem UnmarshalBinary_rejects_witness :
    Transaction.UnmarshalBinary rlpCodec
        { exampleLegacyTx with cache := { Cache.empty with size := 9 } } [0x00]
      = (some .shortTypedTx, { exampleLegacyTx with cache := { Cache.empty with size := 9 } }) ∧
    Transaction.UnmarshalBinary rlpCodec
        { exampleLegacyTx with cache := { Cache.empty with size := 9 } } [0x00, 0xc0]
      = (some .txTypeNotSupported,
          { exampleLegacyTx with cache := { Cache.empty with size := 9 } }) :=
  ⟨(UnmarshalBinary_rejects rlpCodec _).2.1 0x00 (by decide),
    (UnmarshalBinary_rejects rlpCodec _).2.2 0x00 [0xc0] (by decide) (by decide)
      (by decide)⟩

/-- Claim C15. For a dynamic-fee transaction with a non-negative `maxPriorityFeePerGas`
and every base fee, `EffectivePriorityFeePerGas` is
`min (maxFeePerGas - baseFee) maxPriorityFeePerGas` (whatever the legacy base gas price
and the proved work passed along), and that value is negative exactly when the base fee
exceeds `maxFeePerGas`. -/
theorem EffectivePriorityFeePerGas_dynamicFee (W : WorkParams) (t : Transaction)
    (b : dynamicFeeTransaction) (baseFee legacyTxBaseGasPrice provedWork : Int)
    (hb : t.body = .dynamicFee b) (hprio : 0 ≤ t.MaxPriorityFeePerGas) :
    t.EffectivePriorityFeePerGas W (some baseFee) legacyTxBaseGasPrice provedWork
      = .ok (min (t.MaxFeePerGas - baseFee) t.MaxPriorityFeePerGas) ∧
    (min (t.MaxFeePerGas - baseFee) t.MaxPriorityFeePerGas < 0 ↔ t.MaxFeePerGas < baseFee) := by
  constructor
  · unfold Transaction.EffectivePriorityFeePerGas Transaction.txType Transaction.MaxFeePerGas
      Transaction.MaxPriorityFeePerGas
    rw [hb]
    rfl
  · constructor
    · intro h
      rcases min_lt_iff.mp h with h1 | h1
      · omega
      · omega
    · intro h
      exact min_lt_iff.mpr (Or.inl (by omega))

/-- The priority fee of claim C15 for the example transaction (`maxFeePerGas = 80`,
`maxPriorityFeePerGas = 5`): `5` under the base fee `10`, and the negative `-20` under
the base fee `100`. -/
theorem EffectivePriorityFeePerGas_dynamicFee_witness :
    exampleDynamicTx.EffectivePriorityFeePerGas exampleWork (some 10) 0 0 = .ok 5 ∧
    exampleDynamicTx.EffectivePriorityFeePerGas exampleWork (some 100) 0 0 = .ok (-20) :=
  ⟨(EffectivePriorityFeePerGas_dynamicFee exampleWork exampleDynamicTx _ 10 0 0 rfl
      (by decide)).1,
    (EffectivePriorityFeePerGas_dynamicFee exampleWork exampleDynamicTx _ 100 0 0 rfl
      (by decide)).1⟩

/-- Claim C13. For a legacy transaction and a 32-bit `headBlockNum`, `ProvedWork` returns
zero without calling `getBlockID` when the number of the block reference is at least
`headBlockNum` or lags it by more than `MaxTxWorkDelay`. Otherwise it calls `getBlockID`
once, on that number, and returns its error when it fails, `UnprovedWork()` when the
returned id starts with the 8 bytes of the block reference, and zero when it does not.
For a dynamic-fee transaction it returns zero without calling `getBlockID`. -/
theorem ProvedWork_cases (W : WorkParams) (K : Crypto) (t : Transaction)
    (headBlockNum : Nat) (getBlockID : Nat → Except Nat Bytes32)
    (hhead : headBlockNum < 2 ^ 32) :
    (∀ b, t.body = .legacy b →
      ((headBlockNum ≤ BlockRef.Number t.BlockRef ∨
          W.MaxTxWorkDelay < headBlockNum - BlockRef.Number t.BlockRef) →
        t.ProvedWork W K headBlockNum getBlockID = { result := .ok 0, calls := [], tx := t }) ∧
      (BlockRef.Number t.BlockRef < headBlockNum →
        headBlockNum - BlockRef.Number t.BlockRef ≤ W.MaxTxWorkDelay →
        (∀ err, getBlockID (BlockRef.Number t.BlockRef) = .error err →
          t.ProvedWork W K headBlockNum getBlockID =
            { result := .error (.external err), calls := [BlockRef.Number t.BlockRef],
              tx := t }) ∧
        (∀ id, getBlockID (BlockRef.Number t.BlockRef) = .ok id →
          HasPrefix id t.BlockRef = true →
          t.ProvedWork W K headBlockNum getBlockID =
            { result := .ok (t.UnprovedWork W K).1, calls := [BlockRef.Number t.BlockRef],
              tx := (t.UnprovedWork W K).2 }) ∧
        (∀ id, getBlockID (BlockRef.Number t.BlockRef) = .ok id →
          HasPrefix id t.BlockRef = false →
          t.ProvedWork W K headBlockNum getBlockID =
            { result := .ok 0, calls := [BlockRef.Number t.BlockRef], tx := t }))) ∧
    (∀ b, t.body = .dynamicFee b →
      t.ProvedWork W K headBlockNum getBlockID = { result := .ok 0, calls := [], tx := t }) := by
  constructor
  · intro b hb
    have hty : ¬ t.txType ≠ TypeLegacy := by
      unfold Transaction.txType
      rw [hb]
      exact not_not.mpr rfl
    constructor
    · intro h
      unfold Transaction.ProvedWork
      rw [if_neg hty]
      dsimp only
      by_cases h1 : BlockRef.Number t.BlockRef ≥ headBlockNum
      · rw [if_pos h1]
      · rw [if_neg h1]
        have h2 : W.MaxTxWorkDelay < headBlockNum - BlockRef.Number t.BlockRef := by
          rcases h with h | h
          · exact absurd h h1
          · exact h
        have h3 : (headBlockNum + 2 ^ 32 - BlockRef.Number t.BlockRef) % 2 ^ 32
            = headBlockNum - BlockRef.Number t.BlockRef := by omega
        rw [h3, if_pos h2]
    · intro h1 h2
      have h1n : ¬ BlockRef.Number t.BlockRef ≥ headBlockNum := by omega
      have h3 : (headBlockNum + 2 ^ 32 - BlockRef.Number t.BlockRef) % 2 ^ 32
          = headBlockNum - BlockRef.Number t.BlockRef := by omega
      have h2n : ¬ headBlockNum - BlockRef.Number t.BlockRef > W.MaxTxWorkDelay := by omega
      refine ⟨?_, ?_, ?_⟩
      · intro err herr
        unfold Transaction.ProvedWork
        rw [if_neg hty]
        dsimp only
        rw [if_neg h1n, h3, if_neg h2n, herr]
      · intro id hid hpre
        unfold Transaction.ProvedWork
        rw [if_neg hty]
        dsimp only
        rw [if_neg h1n, h3, if_neg h2n, hid]
        dsimp only
        rw [if_pos hpre]
      · intro id hid hpre
        unfold Transaction.ProvedWork
        rw [if_neg hty]
        dsimp only
        rw [if_neg h1n, h3, if_neg h2n, hid]
        dsimp only
        rw [if_neg (by rw [hpre]; decide)]
  · intro b hb
    have hty : t.txType ≠ TypeLegacy := by
      unfold Transaction.txType
      rw [hb]
      intro h
      cases h
    unfold Transaction.ProvedWork
    rw [if_pos hty]

/-- The cases of claim C13 on the example legacy transaction with the block reference
`2 ^ 32 + 9` (block number `1`): at head `1` nothing is looked up; at head `5` the block
id `(2 ^ 32 + 9) × 2 ^ 192 + 77` proves the work `3000` of the origin `3`. -/
theorem ProvedWork_cases_witness :
    exampleRefTx.ProvedWork exampleWork exampleCrypto 1 (fun _ => .error 7)
      = { result := .ok 0, calls := [], tx := exampleRefTx } ∧
    (exampleRefTx.ProvedWork exampleWork exampleCrypto 5
      (fun _ => .ok ((2 ^ 32 + 9) * 2 ^ 192 + 77))).result = .ok 3000 ∧
    (exampleRefTx.ProvedWork exampleWork exampleCrypto 5
      (fun _ => .ok ((2 ^ 32 + 9) * 2 ^ 192 + 77))).calls = [1] :=
  ⟨((ProvedWork_cases exampleWork exampleCrypto exampleRefTx 1 (fun _ => .error 7)
      (by decide)).1 _ rfl).1 (Or.inl (by decide)),
    congrArg ProvedWorkResult.result
      ((((ProvedWork_cases exampleWork exampleCrypto exampleRefTx 5
        (fun _ => .ok ((2 ^ 32 + 9) * 2 ^ 192 + 77)) (by decide)).1 _ rfl).2
          (by decide) (by decide)).2.1 _ rfl (by decide)),
    congrArg ProvedWorkResult.calls
      ((((ProvedWork_cases exampleWork exampleCrypto exampleRefTx 5
        (fun _ => .ok ((2 ^ 32 + 9) * 2 ^ 192 + 77)) (by decide)).1 _ rfl).2
          (by decide) (by decide)).2.1 _ rfl (by decide))⟩

/-- Claim C14. For a legacy transaction with `Gas() > 0` and a non-negative
`legacyTxBaseGasPrice`, and a `workToGas` that gives no gas for zero work,
`OverallGasPrice` returns `gasPrice + ⌊legacyTxBaseGasPrice × min(workToGas(provedWork,
blockRef.number), Gas()) / Gas()⌋`; the added term is the floor of the exact quotient,
and the result lies between `gasPrice` and `gasPrice + legacyTxBaseGasPrice`. -/
theorem OverallGasPrice_legacy (W : WorkParams) (t : Transaction) (b : legacyTransaction)
    (legacyTxBaseGasPrice provedWork : Int)
    (hb : t.body = .legacy b) (hgas : 0 < t.Gas) (hbase : 0 ≤ legacyTxBaseGasPrice)
    (hzero : provedWork = 0 → W.workToGas provedWork (BlockRef.Number t.BlockRef) = 0) :
    t.OverallGasPrice W legacyTxBaseGasPrice provedWork
      = .ok (b.gasPrice legacyTxBaseGasPrice
          + legacyTxBaseGasPrice
            * ((min (W.workToGas provedWork (BlockRef.Number t.BlockRef)) t.Gas : Nat) : Int)
            / (t.Gas : Int)) ∧
    legacyTxBaseGasPrice
        * ((min (W.workToGas provedWork (BlockRef.Number t.BlockRef)) t.Gas : Nat) : Int)
        / (t.Gas : Int)
      = ⌊((legacyTxBaseGasPrice
          * ((min (W.workToGas provedWork (BlockRef.Number t.BlockRef)) t.Gas : Nat) : Int)
            : Int) : ℚ) / ((t.Gas : Nat) : ℚ)⌋ ∧
    (∀ p, t.OverallGasPrice W legacyTxBaseGasPrice provedWork = .ok p →
      b.gasPrice legacyTxBaseGasPrice ≤ p ∧
      p ≤ b.gasPrice legacyTxBaseGasPrice + legacyTxBaseGasPrice) := by
  have hg : 0 < t.body.gas := hgas
  have hgI : (0 : Int) < (t.body.gas : Int) := Int.ofNat_lt.mpr hg
  have hformula : t.OverallGasPrice W legacyTxBaseGasPrice provedWork
      = .ok (b.gasPrice legacyTxBaseGasPrice
          + legacyTxBaseGasPrice
            * ((min (W.workToGas provedWork (BlockRef.Number t.BlockRef)) t.Gas : Nat) : Int)
            / (t.Gas : Int)) := by
    unfold Transaction.OverallGasPrice Transaction.Gas
    rw [hb]
    dsimp only
    rw [← hb]
    by_cases hp : provedWork = 0
    · rw [if_pos hp, hzero hp, Nat.zero_min]
      simp
    · rw [if_neg hp]
      by_cases hw : W.workToGas provedWork (BlockRef.Number t.BlockRef) = 0
      · rw [if_pos hw, hw, Nat.zero_min]
        simp
      · rw [if_neg hw, if_neg (Nat.pos_iff_ne_zero.mp hg)]
        congr 1
        by_cases hgt : W.workToGas provedWork (BlockRef.Number t.BlockRef) > t.body.gas
        · rw [if_pos hgt, Nat.min_eq_right (Nat.le_of_lt hgt), Int.mul_comm, Int.add_comm]
        · rw [if_neg hgt, Nat.min_eq_left (Nat.le_of_not_gt hgt), Int.mul_comm, Int.add_comm]
  refine ⟨hformula, ?_, ?_⟩
  · exact (Rat.floor_intCast_div_natCast _ _).symm
  · intro p hp
    rw [hformula] at hp
    have hpe := Except.ok.inj hp
    have hmin : ((min (W.workToGas provedWork (BlockRef.Number t.BlockRef)) t.Gas : Nat) : Int)
        ≤ (t.Gas : Int) := Int.ofNat_le.mpr (Nat.min_le_right _ _)
    have hminn : (0 : Int)
        ≤ ((min (W.workToGas provedWork (BlockRef.Number t.BlockRef)) t.Gas : Nat) : Int) :=
      Int.ofNat_nonneg _
    have h1 : 0 ≤ legacyTxBaseGasPrice
        * ((min (W.workToGas provedWork (BlockRef.Number t.BlockRef)) t.Gas : Nat) : Int)
        / (t.Gas : Int) :=
      Int.ediv_nonneg (Int.mul_nonneg hbase hminn) (Int.le_of_lt hgI)
    have h2 : legacyTxBaseGasPrice
        * ((min (W.workToGas provedWork (BlockRef.Number t.BlockRef)) t.Gas : Nat) : Int)
        / (t.Gas : Int) ≤ legacyTxBaseGasPrice :=
      Int.ediv_le_of_le_mul hgI (Int.mul_le_mul_of_nonneg_left hmin hbase)
    omega

/-- The overall gas price of claim C14 on the example legacy transaction (gas `40000`,
coefficient `0`) with the base gas price `10 ^ 9`: the work `20000000` converts to `20000`
units of gas, half the gas of the transaction, and adds half the base gas price. -/
theorem OverallGasPrice_legacy_witness :
    exampleLegacyTx.OverallGasPrice exampleWork 1000000000 20000000 = .ok 1500000000 :=
  (OverallGasPrice_legacy exampleWork exampleLegacyTx _ 1000000000 20000000 rfl
    (by decide) (by decide) (by decide)).1

/-- The result of `Origin` depends on the body and on the `signingHash` and `origin`
cells of the cache only. -/
theorem Transaction.Origin_congr (K : Crypto) (t u : Transaction) (hb : u.body = t.body)
    (hs : u.cache.signingHash = t.cache.signingHash) (ho : u.cache.origin = t.cache.origin) :
    (u.Origin K).1 = (t.Origin K).1 := by
  have hsh := Transaction.SigningHash_congr K t u hb hs
  unfold Transaction.Origin
  rw [Transaction.validateSignatureLength_congr t u hb, ho, hb]
  split
  · rfl
  · split
    · rfl
    · dsimp only
      rw [hsh]
      split <;> rfl

/-- With an empty `id` cell, `ID` is the Blake2b hash of the signing hash and the origin,
or zero when `Origin` fails. -/
theorem Transaction.ID_fresh (K : Crypto) (t : Transaction) (hc : t.cache.id = none) :
    (t.ID K).1 =
      match (t.Origin K).1 with
      | .error _ => 0
      | .ok origin => K.Blake2b (t.SigningHash K).1 origin := by
  unfold Transaction.ID
  rw [hc]
  dsimp only
  cases h : (Transaction.Origin K t).1 with
  | error err => rfl
  | ok origin =>
    dsimp only
    rw [Transaction.Origin_signingHash]

/-- Claim C17. When `Origin` recovers the origin `o`, `ID()` equals
`DelegatorSigningHash(o)`, and both are the Blake2b hash of the signing hash followed
by `o`; when `Origin` fails, `ID()` is the zero value. The `id` cell of the cache is
empty or was written by `ID`. -/
theorem ID_eq_DelegatorSigningHash (K : Crypto) (t : Transaction) (hid : idCached K t) :
    (∀ o, (t.Origin K).1 = .ok o →
      (t.ID K).1 = (t.DelegatorSigningHash K o).1 ∧
      (t.ID K).1 = K.Blake2b (t.SigningHash K).1 o) ∧
    (∀ err, (t.Origin K).1 = .error err → (t.ID K).1 = 0) := by
  have hval : (t.ID K).1 =
      match (t.Origin K).1 with
      | .error _ => 0
      | .ok origin => K.Blake2b (t.SigningHash K).1 origin := by
    cases hc : t.cache.id with
    | none => exact Transaction.ID_fresh K t hc
    | some cached =>
      have h1 : (t.ID K).1 = cached := by
        unfold Transaction.ID
        rw [hc]
      rw [h1, hid cached hc, Transaction.ID_fresh K _ rfl,
        Transaction.Origin_congr K t { t with cache := { t.cache with id := none } }
          rfl rfl rfl,
        Transaction.SigningHash_congr K t { t with cache := { t.cache with id := none } }
          rfl rfl]
  constructor
  · intro o ho
    rw [hval, ho]
    exact ⟨rfl, rfl⟩
  · intro err herr
    rw [hval, herr]

/-- The identity of claim C17 on the example legacy transaction after a first call of
`ID` filled the cache: the origin is `3` and the id is the hash of the signing hash and
`3`; with a 64-byte signature the origin fails and the id is zero. -/
theorem ID_eq_DelegatorSigningHash_witness :
    idCached exampleCrypto (exampleLegacyTx.ID exampleCrypto).2 ∧
    ((exampleLegacyTx.ID exampleCrypto).2.ID exampleCrypto).1
      = ((exampleLegacyTx.ID exampleCrypto).2.DelegatorSigningHash exampleCrypto 3).1 ∧
    ((exampleShortSigTx.ID exampleCrypto).1 = 0) :=
  ⟨fun _ hc => (Option.some.inj hc).symm.trans rfl,
    ((ID_eq_DelegatorSigningHash exampleCrypto (exampleLegacyTx.ID exampleCrypto).2
      (fun _ hc => (Option.some.inj hc).symm.trans rfl)).1 3 rfl).1,
    (ID_eq_DelegatorSigningHash exampleCrypto exampleShortSigTx
      (fun _ hc => Option.noConfusion hc)).2 .invalidSignatureLen rfl⟩

/-! ## The memory: the methods over the memory refine the methods on values -/

/-- A cell of a prefix of a list is the same cell of the list. -/
theorem cell_mono {α : Type} {l l2 : List α} (h : l <+: l2) {i : Nat} {v : α}
    (hv : l[i]? = some v) : l2[i]? = some v := by
  obtain ⟨r, rfl⟩ := h
  have hi : i < l.length := by
    by_contra hn
    rw [List.getElem?_eq_none (by omega)] at hv
    cases hv
  rw [List.getElem?_append_left hi]
  exact hv

/-- A cell that can be read lies within the list. -/
theorem cell_lt_length {α : Type} {l : List α} {i : Nat} {v : α}
    (hv : l[i]? = some v) : i < l.length := by
  by_contra hn
  rw [List.getElem?_eq_none (by omega)] at hv
  cases hv

/-- A write to the cell appended last replaces it. -/
theorem set_append_singleton {α : Type} (l : List α) (a v : α) :
    (l ++ [a]).set l.length v = l ++ [v] := by
  rw [List.set_append_right _ _ (le_refl _)]
  simp

/-- The value of a fee field read through the accessor of the body value. -/
theorem Memory.bigInt_cases (m : Memory) (p : Option Ptr) (v : Option Int)
    (hv : m.bigInt p = some v) :
    (p = none ∧ v = none) ∨ (∃ a x, p = some a ∧ v = some x ∧ m.ints[a]? = some x) := by
  unfold Memory.bigInt at hv
  cases p with
  | none => exact Or.inl ⟨rfl, (Option.some.inj hv).symm⟩
  | some a =>
    dsimp only at hv
    cases hx : m.ints[a]? with
    | none =>
      rw [hx] at hv
      cases hv
    | some x =>
      rw [hx] at hv
      exact Or.inr ⟨a, x, rfl, (Option.some.inj hv).symm, hx⟩

/-- An accessor of a fee field allocates one integer cell that holds the value of the
field (zero for `nil`) and returns the pointer to it; no other cell changes. -/
theorem Memory.newInt_Set (m : Memory) (p : Option Ptr) (v : Option Int)
    (hv : m.bigInt p = some v) :
    (match p with
      | none => (pure m.newInt : Except Error (Ptr × Memory))
      | some a => m.newInt.2.Set m.newInt.1 (some a))
      = .ok (m.ints.length, { m with ints := m.ints ++ [v.getD 0] }) := by
  rcases m.bigInt_cases p v hv with ⟨rfl, rfl⟩ | ⟨a, x, rfl, rfl, hx⟩
  · rfl
  · dsimp only
    unfold Memory.Set Memory.int Memory.newInt Memory.setInt
    dsimp only
    rw [List.getElem?_append_left (cell_lt_length hx), hx]
    dsimp only [bind, Except.bind]
    rw [if_pos (by simp), set_append_singleton]
    rfl

/-- The accessor `maxFeePerGas` over the memory: one integer cell is allocated, holding the
value of the field (zero for `nil`), and the pointer to it is returned. -/
theorem Memory.maxFeePerGas_eq (m : Memory) (t : Ptr) (c : dynamicFeeCell) (v : Option Int)
    (hc : m.bodies[t]? = some c) (hv : m.bigInt c.MaxFeePerGas = some v) :
    m.maxFeePerGas t = .ok (m.ints.length, { m with ints := m.ints ++ [v.getD 0] }) := by
  unfold Memory.maxFeePerGas Memory.bodyCell
  rw [hc]
  exact m.newInt_Set _ v hv

/-- The accessor `maxPriorityFeePerGas` over the memory: one integer cell is allocated,
holding the value of the field (zero for `nil`), and the pointer to it is returned. -/
theorem Memory.maxPriorityFeePerGas_eq (m : Memory) (t : Ptr) (c : dynamicFeeCell)
    (v : Option Int) (hc : m.bodies[t]? = some c)
    (hv : m.bigInt c.MaxPriorityFeePerGas = some v) :
    m.maxPriorityFeePerGas t
      = .ok (m.ints.length, { m with ints := m.ints ++ [v.getD 0] }) := by
  unfold Memory.maxPriorityFeePerGas Memory.bodyCell
  rw [hc]
  exact m.newInt_Set _ v hv

/-- A memory extends itself. -/
theorem Memory.extends_refl (m : Memory) : m.Extends m :=
  ⟨⟨[], List.append_nil _⟩, ⟨[], List.append_nil _⟩, ⟨[], List.append_nil _⟩,
    ⟨[], List.append_nil _⟩, ⟨[], List.append_nil _⟩⟩

/-- Extension is transitive. -/
theorem Memory.extends_trans {m m2 m3 : Memory} (h : m.Extends m2) (h2 : m2.Extends m3) :
    m.Extends m3 :=
  ⟨h.1.trans h2.1, h.2.1.trans h2.2.1, h.2.2.1.trans h2.2.2.1, h.2.2.2.1.trans h2.2.2.2.1,
    h.2.2.2.2.trans h2.2.2.2.2⟩

/-- A fee field reads the same in every memory that extends the memory. -/
theorem Memory.bigInt_of_extends {m m2 : Memory} (h : m.Extends m2) {p : Option Ptr}
    {v : Option Int} (hv : m.bigInt p = some v) : m2.bigInt p = some v := by
  rcases m.bigInt_cases p v hv with ⟨rfl, rfl⟩ | ⟨a, x, rfl, rfl, hx⟩
  · rfl
  · unfold Memory.bigInt
    dsimp only
    rw [cell_mono h.1 hx]
    rfl

/-- A byte slice reads the same in every memory that extends the memory. -/
theorem Memory.bytes_of_extends {m m2 : Memory} (h : m.Extends m2) {s : Option Ptr}
    {v : List Byte} (hv : m.bytes s = some v) : m2.bytes s = some v := by
  cases s with
  | none => exact hv
  | some a => exact cell_mono h.2.1 hv

/-- A clause slice reads the same in every memory that extends the memory. -/
theorem Memory.clauses_of_extends {m m2 : Memory} (h : m.Extends m2) {s : Option Ptr}
    {v : List Clause} (hv : m.clauses s = some v) : m2.clauses s = some v := by
  cases s with
  | none => exact hv
  | some a => exact cell_mono h.2.2.1 hv

/-- The cells behind a body value. -/
theorem Memory.body_eq_some (m : Memory) (p : Ptr) (b : dynamicFeeTransaction)
    (h : m.body p = some b) :
    ∃ c, m.bodies[p]? = some c ∧ m.clauses c.Clauses = some b.Clauses ∧
      m.bigInt c.MaxPriorityFeePerGas = some b.MaxPriorityFeePerGas ∧
      m.bigInt c.MaxFeePerGas = some b.MaxFeePerGas ∧
      m.bytes c.Signature = some b.Signature ∧
      b = { ChainTag := c.ChainTag, BlockRef := c.BlockRef, Expiration := c.Expiration,
            Clauses := b.Clauses, MaxPriorityFeePerGas := b.MaxPriorityFeePerGas,
            MaxFeePerGas := b.MaxFeePerGas, Gas := c.Gas, DependsOn := c.DependsOn,
            Nonce := c.Nonce, Reserved := c.Reserved, Signature := b.Signature } := by
  unfold Memory.body at h
  cases hc : m.bodies[p]? with
  | none =>
    rw [hc] at h
    cases h
  | some c =>
    rw [hc] at h
    dsimp only at h
    cases h1 : m.clauses c.Clauses with
    | none =>
      rw [h1] at h
      cases h
    | some cs =>
      cases h2 : m.bigInt c.MaxPriorityFeePerGas with
      | none =>
        rw [h1, h2] at h
        cases h
      | some prio =>
        cases h3 : m.bigInt c.MaxFeePerGas with
        | none =>
          rw [h1, h2, h3] at h
          cases h
        | some fee =>
          cases h4 : m.bytes c.Signature with
          | none =>
            rw [h1, h2, h3, h4] at h
            cases h
          | some sig =>
            rw [h1, h2, h3, h4] at h
            cases Option.some.inj h
            exact ⟨c, rfl, h1, h2, h3, h4, rfl⟩

/-- A body struct whose cells are readable stands for a body value. -/
theorem Memory.body_of_cells (m : Memory) (p : Ptr) (c : dynamicFeeCell) (cs : List Clause)
    (prio fee : Option Int) (sig : List Byte)
    (hc : m.bodies[p]? = some c) (h1 : m.clauses c.Clauses = some cs)
    (h2 : m.bigInt c.MaxPriorityFeePerGas = some prio)
    (h3 : m.bigInt c.MaxFeePerGas = some fee) (h4 : m.bytes c.Signature = some sig) :
    m.body p = some
      { ChainTag := c.ChainTag, BlockRef := c.BlockRef, Expiration := c.Expiration,
        Clauses := cs, MaxPriorityFeePerGas := prio, MaxFeePerGas := fee, Gas := c.Gas,
        DependsOn := c.DependsOn, Nonce := c.Nonce, Reserved := c.Reserved,
        Signature := sig } := by
  unfold Memory.body
  rw [hc]
  dsimp only
  rw [h1, h2, h3, h4]

/-- A body of a memory is the same body of every memory that extends it. -/
theorem Memory.body_of_extends {m m2 : Memory} (h : m.Extends m2) {p : Ptr}
    {b : dynamicFeeTransaction} (hb : m.body p = some b) : m2.body p = some b := by
  obtain ⟨c, hc, h1, h2, h3, h4, he⟩ := m.body_eq_some p b hb
  rw [he]
  exact m2.body_of_cells p c _ _ _ _ (cell_mono h.2.2.2.1 hc)
    (Memory.clauses_of_extends h h1) (Memory.bigInt_of_extends h h2)
    (Memory.bigInt_of_extends h h3) (Memory.bytes_of_extends h h4)

/-- The cells behind a transaction value. -/
theorem Memory.transaction_eq_some (m : Memory) (p : Ptr) (t : Transaction)
    (h : m.transaction p = some t) :
    ∃ tc b, m.txs[p]? = some tc ∧ m.body tc.body = some b ∧
      t = { body := .dynamicFee b, cache := tc.cache } := by
  unfold Memory.transaction at h
  cases htc : m.txs[p]? with
  | none =>
    rw [htc] at h
    cases h
  | some tc =>
    rw [htc] at h
    dsimp only at h
    cases hb : m.body tc.body with
    | none =>
      rw [hb] at h
      cases h
    | some b =>
      rw [hb] at h
      exact ⟨tc, b, rfl, hb, (Option.some.inj h).symm⟩

/-- A `Transaction` struct whose body is readable stands for a transaction value. -/
theorem Memory.transaction_of_cells (m : Memory) (p : Ptr) (tc : TransactionCell)
    (b : dynamicFeeTransaction) (htc : m.txs[p]? = some tc) (hb : m.body tc.body = some b) :
    m.transaction p = some { body := .dynamicFee b, cache := tc.cache } := by
  unfold Memory.transaction
  rw [htc]
  dsimp only
  rw [hb]

/-- A transaction of a memory is the same transaction of every memory that extends it. -/
theorem Memory.transaction_of_extends {m m2 : Memory} (h : m.Extends m2) {p : Ptr}
    {t : Transaction} (ht : m.transaction p = some t) : m2.transaction p = some t := by
  obtain ⟨tc, b, htc, hb, rfl⟩ := m.transaction_eq_some p t ht
  exact m2.transaction_of_cells p tc b (cell_mono h.2.2.2.2 htc)
    (Memory.body_of_extends h hb)

/-- Allocating integers extends the memory. -/
theorem Memory.extends_ints (m : Memory) (l : List Int) :
    m.Extends { m with ints := m.ints ++ l } :=
  ⟨⟨_, rfl⟩, ⟨[], List.append_nil _⟩, ⟨[], List.append_nil _⟩,
    ⟨[], List.append_nil _⟩, ⟨[], List.append_nil _⟩⟩

/-- A cell appended to a list, read at its offset past the list. -/
theorem cell_append_add {α : Type} (l r : List α) (k : Nat) :
    (l ++ r)[l.length + k]? = r[k]? := by
  rw [List.getElem?_append_right (by omega)]
  congr 1
  omega

/-- Reading an integer cell through a pointer that is not `nil`. -/
theorem Memory.int_some (m : Memory) (a : Ptr) (v : Int) (h : m.ints[a]? = some v) :
    m.int (some a) = .ok v := by
  unfold Memory.int
  dsimp only
  rw [h]

/-- The method `Add` writes the sum to the cell behind its receiver. -/
theorem Memory.Add_eq (m : Memory) (z : Ptr) (x y : Option Ptr) (a b : Int)
    (hx : m.int x = .ok a) (hy : m.int y = .ok b) (hz : z < m.ints.length) :
    m.Add z x y = .ok (z, { m with ints := m.ints.set z (a + b) }) := by
  unfold Memory.Add Memory.setInt
  rw [hx, hy]
  dsimp only [bind, Except.bind]
  rw [if_pos hz]
  rfl

/-- The method `Sub` writes the difference to the cell behind its receiver. -/
theorem Memory.Sub_eq (m : Memory) (z : Ptr) (x y : Option Ptr) (a b : Int)
    (hx : m.int x = .ok a) (hy : m.int y = .ok b) (hz : z < m.ints.length) :
    m.Sub z x y = .ok (z, { m with ints := m.ints.set z (a - b) }) := by
  unfold Memory.Sub Memory.setInt
  rw [hx, hy]
  dsimp only [bind, Except.bind]
  rw [if_pos hz]
  rfl

/-- The function `BigMin` returns the pointer to the smaller value, the first on a tie. -/
theorem Memory.BigMin_eq (m : Memory) (x y : Option Ptr) (a b : Int)
    (hx : m.int x = .ok a) (hy : m.int y = .ok b) :
    m.BigMin x y = .ok (if a > b then y else x) := by
  unfold Memory.BigMin
  rw [hx, hy]
  rfl

/-- The effective gas price over the memory: three integers are allocated, the maximum
fee, the sum of the priority fee and the base fee, and the priority fee; the result
points to one of the first two. -/
theorem Memory.EffectiveGasPrice_eq (m : Memory) (t : Ptr) (tc : TransactionCell)
    (c : dynamicFeeCell) (fee prio : Option Int) (bf : Ptr) (baseFee : Int)
    (lp : Option Ptr) (htc : m.txs[t]? = some tc) (hc : m.bodies[tc.body]? = some c)
    (hfee : m.bigInt c.MaxFeePerGas = some fee)
    (hprio : m.bigInt c.MaxPriorityFeePerGas = some prio)
    (hbf : m.ints[bf]? = some baseFee) :
    m.EffectiveGasPrice t (some bf) lp
      = .ok (some (if fee.getD 0 > prio.getD 0 + baseFee then m.ints.length + 1
                    else m.ints.length),
          { m with ints := m.ints ++ [fee.getD 0, prio.getD 0 + baseFee, prio.getD 0] }) := by
  have hlt := cell_lt_length hbf
  have e1 := m.extends_ints [fee.getD 0]
  have e2 := Memory.extends_ints { m with ints := m.ints ++ [fee.getD 0] } [prio.getD 0]
  unfold Memory.EffectiveGasPrice Memory.txCell
  rw [htc]
  dsimp only [bind, Except.bind]
  rw [m.maxFeePerGas_eq _ c fee hc hfee]
  dsimp only
  rw [Memory.maxPriorityFeePerGas_eq { m with ints := m.ints ++ [fee.getD 0] } _ c prio hc
    (Memory.bigInt_of_extends e1 hprio)]
  dsimp only
  rw [Memory.maxPriorityFeePerGas_eq
    { m with ints := m.ints ++ [fee.getD 0] ++ [prio.getD 0] } _ c prio hc
    (Memory.bigInt_of_extends (Memory.extends_trans e1 e2) hprio)]
  dsimp only
  simp only [List.length_append, List.length_singleton, List.append_assoc,
    List.singleton_append, List.cons_append, List.nil_append]
  rw [Memory.Add_eq _ _ _ _ (prio.getD 0) baseFee
    (Memory.int_some _ _ _ (by
      show (m.ints ++ [fee.getD 0, prio.getD 0, prio.getD 0])[m.ints.length + 1 + 1]? = _
      rw [Nat.add_assoc, cell_append_add]
      rfl))
    (Memory.int_some _ _ _ (by
      show (m.ints ++ [fee.getD 0, prio.getD 0, prio.getD 0])[bf]? = _
      rw [List.getElem?_append_left hlt, hbf]))
    (by
      show m.ints.length + 1 < (m.ints ++ [fee.getD 0, prio.getD 0, prio.getD 0]).length
      simp)]
  dsimp only
  have hset : (m.ints ++ [fee.getD 0, prio.getD 0, prio.getD 0]).set (m.ints.length + 1)
      (prio.getD 0 + baseFee) = m.ints ++ [fee.getD 0, prio.getD 0 + baseFee, prio.getD 0] := by
    simp
  rw [hset]
  rw [Memory.BigMin_eq _ _ _ (fee.getD 0) (prio.getD 0 + baseFee)
    (Memory.int_some _ _ _ (by
      show (m.ints ++ [fee.getD 0, prio.getD 0 + baseFee, prio.getD 0])[m.ints.length]? = _
      rw [← Nat.add_zero m.ints.length, cell_append_add]
      rfl))
    (Memory.int_some _ _ _ (by
      show (m.ints ++ [fee.getD 0, prio.getD 0 + baseFee, prio.getD 0])[m.ints.length + 1]? = _
      rw [cell_append_add]
      rfl))]
  dsimp only [pure, Except.pure]
  split <;> rfl

/-- The effective priority fee over the memory: three integers are allocated, the
priority fee, the maximum fee and their difference with the base fee; the result points
to the first or the third. -/
theorem Memory.EffectivePriorityFeePerGas_eq (m : Memory) (t : Ptr) (tc : TransactionCell)
    (c : dynamicFeeCell) (fee prio : Option Int) (bf : Ptr) (baseFee : Int)
    (lp pw : Option Ptr) (htc : m.txs[t]? = some tc) (hc : m.bodies[tc.body]? = some c)
    (hfee : m.bigInt c.MaxFeePerGas = some fee)
    (hprio : m.bigInt c.MaxPriorityFeePerGas = some prio)
    (hbf : m.ints[bf]? = some baseFee) :
    m.EffectivePriorityFeePerGas t (some bf) lp pw
      = .ok (some (if fee.getD 0 - baseFee > prio.getD 0 then m.ints.length
                    else m.ints.length + 2),
          { m with ints := m.ints ++ [prio.getD 0, fee.getD 0, fee.getD 0 - baseFee] }) := by
  have hlt := cell_lt_length hbf
  have e1 := m.extends_ints [prio.getD 0]
  unfold Memory.EffectivePriorityFeePerGas Memory.txCell
  rw [htc]
  dsimp only [bind, Except.bind]
  rw [m.maxPriorityFeePerGas_eq _ c prio hc hprio]
  dsimp only
  rw [Memory.maxFeePerGas_eq { m with ints := m.ints ++ [prio.getD 0] } _ c fee hc
    (Memory.bigInt_of_extends e1 hfee)]
  dsimp only
  unfold Memory.newInt
  dsimp only
  simp only [List.length_append, List.length_singleton, List.append_assoc,
    List.singleton_append, List.cons_append, List.nil_append, List.length_cons,
    List.length_nil, Nat.zero_add, Nat.add_assoc, Nat.reduceAdd]
  rw [Memory.Sub_eq _ _ _ _ (fee.getD 0) baseFee
    (Memory.int_some _ _ _ (by
      show (m.ints ++ [prio.getD 0, fee.getD 0, 0])[m.ints.length + 1]? = _
      rw [cell_append_add]
      rfl))
    (Memory.int_some _ _ _ (by
      show (m.ints ++ [prio.getD 0, fee.getD 0, 0])[bf]? = _
      rw [List.getElem?_append_left hlt, hbf]))
    (by
      show m.ints.length + 2 < (m.ints ++ [prio.getD 0, fee.getD 0, 0]).length
      rw [List.length_append]
      exact Nat.add_lt_add_left (by simp) _)]
  dsimp only
  have hset : (m.ints ++ [prio.getD 0, fee.getD 0, 0]).set (m.ints.length + 2)
      (fee.getD 0 - baseFee) = m.ints ++ [prio.getD 0, fee.getD 0, fee.getD 0 - baseFee] := by
    simp
  rw [hset]
  rw [Memory.BigMin_eq _ _ _ (fee.getD 0 - baseFee) (prio.getD 0)
    (Memory.int_some _ _ _ (by
      show (m.ints ++ [prio.getD 0, fee.getD 0, fee.getD 0 - baseFee])[m.ints.length + 2]?
        = _
      rw [cell_append_add]
      rfl))
    (Memory.int_some _ _ _ (by
      show (m.ints ++ [prio.getD 0, fee.getD 0, fee.getD 0 - baseFee])[m.ints.length]? = _
      rw [← Nat.add_zero m.ints.length, cell_append_add]
      rfl))]
  dsimp only [pure, Except.pure]
  split <;> rfl

/-- The new clause array holds the clauses of the slice it is made from. -/
theorem Memory.makeClauses_eq (m : Memory) (s : Option Ptr) (cs : List Clause)
    (h : m.clauses s = some cs) :
    m.makeClauses s = .ok (some m.clauseArrays.length,
      { m with clauseArrays := m.clauseArrays ++ [cs] }) := by
  cases s with
  | none =>
    cases Option.some.inj h
    rfl
  | some a =>
    have h2 : m.clauseArrays[a]? = some cs := h
    unfold Memory.makeClauses
    dsimp only
    rw [h2]

/-- The method `Set` writes the value to the cell behind its receiver. -/
theorem Memory.Set_eq (m : Memory) (z : Ptr) (x : Option Ptr) (a : Int)
    (hx : m.int x = .ok a) (hz : z < m.ints.length) :
    m.Set z x = .ok (z, { m with ints := m.ints.set z a }) := by
  unfold Memory.Set Memory.setInt
  rw [hx]
  dsimp only [bind, Except.bind]
  rw [if_pos hz]
  rfl

/-- The copy of a body over the memory: a clause array, two integers and a body struct
are allocated; the new struct points to the new array and the new integers, which hold
the clauses and the fees of the body copied (zero for a `nil` fee), and it shares the
signature slice. -/
theorem Memory.copy_eq (m : Memory) (t : Ptr) (c : dynamicFeeCell) (cs : List Clause)
    (fee prio : Option Int) (hc : m.bodies[t]? = some c)
    (hcs : m.clauses c.Clauses = some cs)
    (hfee : m.bigInt c.MaxFeePerGas = some fee)
    (hprio : m.bigInt c.MaxPriorityFeePerGas = some prio) :
    m.copy t = .ok (m.bodies.length,
      { m with
        ints := m.ints ++ [fee.getD 0, prio.getD 0]
        clauseArrays := m.clauseArrays ++ [cs]
        bodies := m.bodies ++
          [{ ChainTag := c.ChainTag, BlockRef := c.BlockRef, Expiration := c.Expiration,
             Clauses := some m.clauseArrays.length,
             MaxPriorityFeePerGas := some (m.ints.length + 1),
             MaxFeePerGas := some m.ints.length, Gas := c.Gas, DependsOn := c.DependsOn,
             Nonce := c.Nonce, Reserved := c.Reserved, Signature := c.Signature }] }) := by
  unfold Memory.copy Memory.bodyCell
  rw [hc]
  dsimp only [bind, Except.bind]
  rw [m.makeClauses_eq _ cs hcs]
  dsimp only
  unfold Memory.newInt
  dsimp only
  simp only [List.length_append, List.length_singleton, List.append_assoc,
    List.singleton_append, List.cons_append, List.nil_append, List.length_cons,
    List.length_nil, Nat.zero_add, Nat.add_assoc, Nat.reduceAdd]
  rcases m.bigInt_cases _ _ hfee with ⟨hf, hfv⟩ | ⟨a, x, hf, hfv, hx⟩ <;>
    rcases m.bigInt_cases _ _ hprio with ⟨hp, hpv⟩ | ⟨a2, x2, hp, hpv, hx2⟩
  · rw [hf, hp, hfv, hpv]
    rfl
  · rw [hf, hp, hfv, hpv]
    dsimp only [pure, Except.pure]
    rw [Memory.Set_eq _ _ _ x2
      (Memory.int_some _ _ _ (by
        show (m.ints ++ [0, 0])[a2]? = _
        rw [List.getElem?_append_left (cell_lt_length hx2), hx2]))
      (by
        show m.ints.length + 1 < (m.ints ++ [0, 0]).length
        simp)]
    dsimp only
    have hset : (m.ints ++ [0, 0]).set (m.ints.length + 1) x2 = m.ints ++ [0, x2] := by
      simp
    rw [hset]
    rfl
  · rw [hf, hp, hfv, hpv]
    dsimp only [pure, Except.pure]
    rw [Memory.Set_eq _ _ _ x
      (Memory.int_some _ _ _ (by
        show (m.ints ++ [0, 0])[a]? = _
        rw [List.getElem?_append_left (cell_lt_length hx), hx]))
      (by
        show m.ints.length < (m.ints ++ [0, 0]).length
        simp)]
    dsimp only
    have hset : (m.ints ++ [0, 0]).set m.ints.length x = m.ints ++ [x, 0] := by
      simp
    rw [hset]
    rfl
  · rw [hf, hp, hfv, hpv]
    dsimp only [pure, Except.pure]
    rw [Memory.Set_eq _ _ _ x
      (Memory.int_some _ _ _ (by
        show (m.ints ++ [0, 0])[a]? = _
        rw [List.getElem?_append_left (cell_lt_length hx), hx]))
      (by
        show m.ints.length < (m.ints ++ [0, 0]).length
        simp)]
    dsimp only
    have hset : (m.ints ++ [0, 0]).set m.ints.length x = m.ints ++ [x, 0] := by
      simp
    rw [hset]
    rw [Memory.Set_eq _ _ _ x2
      (Memory.int_some _ _ _ (by
        show (m.ints ++ [x, 0])[a2]? = _
        rw [List.getElem?_append_left (cell_lt_length hx2), hx2]))
      (by
        show m.ints.length + 1 < (m.ints ++ [x, 0]).length
        simp)]
    dsimp only
    have hset2 : (m.ints ++ [x, 0]).set (m.ints.length + 1) x2 = m.ints ++ [x, x2] := by
      simp
    rw [hset2]
    rfl

/-- The cell appended to a list is read at the length of the list. -/
theorem cell_append_length {α : Type} (l : List α) (a : α) :
    (l ++ [a])[l.length]? = some a := by
  rw [← Nat.add_zero l.length, cell_append_add]
  rfl

/-- The memory after `WithSignature`, whatever the signature slice `s` of the copy is: the
new `Transaction` struct stands for the signed copy, the memory before is extended, and
the new transaction lies in new cells. -/
theorem Memory.WithSignature_result (m : Memory) (tc : TransactionCell)
    (c : dynamicFeeCell) (b : dynamicFeeTransaction) (sig : List Byte)
    (ba : List (List Byte)) (s : Option Ptr)
    (he : b =
      { ChainTag := c.ChainTag, BlockRef := c.BlockRef, Expiration := c.Expiration,
        Clauses := b.Clauses, MaxPriorityFeePerGas := b.MaxPriorityFeePerGas,
        MaxFeePerGas := b.MaxFeePerGas, Gas := c.Gas, DependsOn := c.DependsOn,
        Nonce := c.Nonce, Reserved := c.Reserved, Signature := b.Signature })
    (hpre : m.byteArrays <+: ba)
    (hsig : (match s with
      | none => some []
      | some a => ba[a]?) = some sig)
    (hnew : ∀ a, s = some a → m.byteArrays.length ≤ a) :
    Memory.transaction
        { ints := m.ints ++ [b.MaxFeePerGas.getD 0, b.MaxPriorityFeePerGas.getD 0]
          byteArrays := ba
          clauseArrays := m.clauseArrays ++ [b.Clauses]
          bodies := m.bodies ++
            [{ ChainTag := c.ChainTag, BlockRef := c.BlockRef, Expiration := c.Expiration,
               Clauses := some m.clauseArrays.length,
               MaxPriorityFeePerGas := some (m.ints.length + 1),
               MaxFeePerGas := some m.ints.length, Gas := c.Gas, DependsOn := c.DependsOn,
               Nonce := c.Nonce, Reserved := c.Reserved, Signature := s }]
          txs := m.txs ++ [{ body := m.bodies.length, cache := Cache.empty }] }
        m.txs.length
      = some (Transaction.WithSignature { body := .dynamicFee b, cache := tc.cache } sig) ∧
    m.Extends
        { ints := m.ints ++ [b.MaxFeePerGas.getD 0, b.MaxPriorityFeePerGas.getD 0]
          byteArrays := ba
          clauseArrays := m.clauseArrays ++ [b.Clauses]
          bodies := m.bodies ++
            [{ ChainTag := c.ChainTag, BlockRef := c.BlockRef, Expiration := c.Expiration,
               Clauses := some m.clauseArrays.length,
               MaxPriorityFeePerGas := some (m.ints.length + 1),
               MaxFeePerGas := some m.ints.length, Gas := c.Gas, DependsOn := c.DependsOn,
               Nonce := c.Nonce, Reserved := c.Reserved, Signature := s }]
          txs := m.txs ++ [{ body := m.bodies.length, cache := Cache.empty }] } ∧
    m.IsNew
        { ints := m.ints ++ [b.MaxFeePerGas.getD 0, b.MaxPriorityFeePerGas.getD 0]
          byteArrays := ba
          clauseArrays := m.clauseArrays ++ [b.Clauses]
          bodies := m.bodies ++
            [{ ChainTag := c.ChainTag, BlockRef := c.BlockRef, Expiration := c.Expiration,
               Clauses := some m.clauseArrays.length,
               MaxPriorityFeePerGas := some (m.ints.length + 1),
               MaxFeePerGas := some m.ints.length, Gas := c.Gas, DependsOn := c.DependsOn,
               Nonce := c.Nonce, Reserved := c.Reserved, Signature := s }]
          txs := m.txs ++ [{ body := m.bodies.length, cache := Cache.empty }] }
        m.txs.length := by
  refine ⟨?_, ?_, ?_⟩
  · have hbody := Memory.body_of_cells
        { ints := m.ints ++ [b.MaxFeePerGas.getD 0, b.MaxPriorityFeePerGas.getD 0]
          byteArrays := ba
          clauseArrays := m.clauseArrays ++ [b.Clauses]
          bodies := m.bodies ++
            [{ ChainTag := c.ChainTag, BlockRef := c.BlockRef, Expiration := c.Expiration,
               Clauses := some m.clauseArrays.length,
               MaxPriorityFeePerGas := some (m.ints.length + 1),
               MaxFeePerGas := some m.ints.length, Gas := c.Gas, DependsOn := c.DependsOn,
               Nonce := c.Nonce, Reserved := c.Reserved, Signature := s }]
          txs := m.txs ++ [{ body := m.bodies.length, cache := Cache.empty }] }
        m.bodies.length _ b.Clauses (some (b.MaxPriorityFeePerGas.getD 0))
        (some (b.MaxFeePerGas.getD 0)) sig
        (cell_append_length _ _)
        (cell_append_length _ _)
        (by
          show Option.map some
            ((m.ints ++ [b.MaxFeePerGas.getD 0, b.MaxPriorityFeePerGas.getD 0])[
              m.ints.length + 1]?) = _
          rw [cell_append_add]
          rfl)
        (by
          show Option.map some
            ((m.ints ++ [b.MaxFeePerGas.getD 0, b.MaxPriorityFeePerGas.getD 0])[
              m.ints.length]?) = _
          rw [← Nat.add_zero m.ints.length, cell_append_add]
          rfl)
        hsig
    have htx := Memory.transaction_of_cells _ m.txs.length
      { body := m.bodies.length, cache := Cache.empty } _
      (cell_append_length _ _) hbody
    rw [htx]
    unfold Transaction.WithSignature txData.copy txData.setSignature
      dynamicFeeTransaction.copy dynamicFeeTransaction.setSignature
    dsimp only
    rw [he]
  · exact ⟨⟨_, rfl⟩, hpre, ⟨_, rfl⟩, ⟨_, rfl⟩,
      ⟨_, rfl⟩⟩
  · refine ⟨le_refl _, _, _, cell_append_length _ _, le_refl _,
      cell_append_length _ _, ?_, ?_, ?_, hnew⟩
    · intro a h
      cases Option.some.inj h
      exact le_refl _
    · intro a h
      cases Option.some.inj h
      exact Nat.le_succ _
    · intro a h
      cases Option.some.inj h
      exact le_refl _

/-- The method `WithSignature` over the memory refines the method on values: it returns a
pointer to a transaction that stands for `t.WithSignature sig`, every cell of the memory
before the call is unchanged, and the new transaction lies in new cells. -/
theorem Memory.WithSignature_spec (m : Memory) (tp : Ptr) (sigp : Option Ptr)
    (t : Transaction) (sig : List Byte) (ht : m.transaction tp = some t)
    (hs : m.bytes sigp = some sig) :
    ∃ q m2, m.WithSignature tp sigp = .ok (q, m2) ∧
      m2.transaction q = some (t.WithSignature sig) ∧ m.Extends m2 ∧ m.IsNew m2 q := by
  obtain ⟨tc, b, htc, hb, rfl⟩ := m.transaction_eq_some tp t ht
  obtain ⟨c, hc, h1, h2, h3, h4, he⟩ := m.body_eq_some tc.body b hb
  unfold Memory.WithSignature Memory.txCell
  rw [htc]
  dsimp only [bind, Except.bind]
  rw [m.copy_eq _ c _ _ _ hc h1 h3 h2]
  dsimp only
  cases sigp with
  | none =>
    cases Option.some.inj hs
    unfold Memory.Clone Memory.setSignature
    dsimp only
    rw [cell_append_length]
    dsimp only [pure, Except.pure]
    rw [set_append_singleton]
    exact ⟨_, _, rfl, m.WithSignature_result tc c b [] m.byteArrays none he
      (⟨[], List.append_nil _⟩) rfl (fun a h => Option.noConfusion h)⟩
  | some a =>
    have hs2 : m.byteArrays[a]? = some sig := hs
    unfold Memory.Clone Memory.setSignature
    dsimp only
    rw [hs2]
    dsimp only
    rw [cell_append_length]
    dsimp only [pure, Except.pure]
    rw [set_append_singleton]
    exact ⟨_, _, rfl, m.WithSignature_result tc c b sig (m.byteArrays ++ [sig])
      (some m.byteArrays.length) he (⟨_, rfl⟩)
      (cell_append_length _ _)
      (fun a h => by
        cases Option.some.inj h
        exact le_refl _)⟩

/-- The accessor `maxFeePerGas` on values is the field, zero for `nil`. -/
theorem dynamicFeeTransaction.maxFeePerGas_eq_getD (b : dynamicFeeTransaction) :
    b.maxFeePerGas = b.MaxFeePerGas.getD 0 := by
  unfold dynamicFeeTransaction.maxFeePerGas
  cases b.MaxFeePerGas <;> rfl

/-- The accessor `maxPriorityFeePerGas` on values is the field, zero for `nil`. -/
theorem dynamicFeeTransaction.maxPriorityFeePerGas_eq_getD (b : dynamicFeeTransaction) :
    b.maxPriorityFeePerGas = b.MaxPriorityFeePerGas.getD 0 := by
  unfold dynamicFeeTransaction.maxPriorityFeePerGas
  cases b.MaxPriorityFeePerGas <;> rfl

/-- The method `EffectiveGasPrice` over the memory refines the method on values: the
result points to a new integer that holds the price, and every cell of the memory before
the call is unchanged. -/
theorem Memory.EffectiveGasPrice_spec (m : Memory) (tp bf : Ptr) (lp : Option Ptr)
    (t : Transaction) (baseFee : Int) (ht : m.transaction tp = some t)
    (hbf : m.ints[bf]? = some baseFee) :
    ∃ r m1, m.EffectiveGasPrice tp (some bf) lp = .ok (some r, m1) ∧
      m1.ints[r]? = some (min t.MaxFeePerGas (t.MaxPriorityFeePerGas + baseFee)) ∧
      m.ints.length ≤ r ∧ m.Extends m1 := by
  obtain ⟨tc, b, htc, hb, rfl⟩ := m.transaction_eq_some tp t ht
  obtain ⟨c, hc, _, h2, h3, _, _⟩ := m.body_eq_some tc.body b hb
  rw [m.EffectiveGasPrice_eq tp tc c _ _ bf baseFee lp htc hc h3 h2 hbf]
  refine ⟨_, _, rfl, ?_, ?_, m.extends_ints _⟩
  · show _ = some (min b.maxFeePerGas (b.maxPriorityFeePerGas + baseFee))
    rw [b.maxFeePerGas_eq_getD, b.maxPriorityFeePerGas_eq_getD]
    dsimp only
    split
    · rw [cell_append_add, min_eq_right (by omega)]
      rfl
    · rw [← Nat.add_zero m.ints.length, cell_append_add, min_eq_left (by omega)]
      rfl
  · split <;> omega

/-- The method `EffectivePriorityFeePerGas` over the memory refines the method on values:
the result points to a new integer that holds the priority fee, and every cell of the
memory before the call is unchanged. -/
theorem Memory.EffectivePriorityFeePerGas_spec (m : Memory) (tp bf : Ptr)
    (lp pw : Option Ptr) (t : Transaction) (baseFee : Int)
    (ht : m.transaction tp = some t) (hbf : m.ints[bf]? = some baseFee) :
    ∃ r m1, m.EffectivePriorityFeePerGas tp (some bf) lp pw = .ok (some r, m1) ∧
      m1.ints[r]? = some (min (t.MaxFeePerGas - baseFee) t.MaxPriorityFeePerGas) ∧
      m.ints.length ≤ r ∧ m.Extends m1 := by
  obtain ⟨tc, b, htc, hb, rfl⟩ := m.transaction_eq_some tp t ht
  obtain ⟨c, hc, _, h2, h3, _, _⟩ := m.body_eq_some tc.body b hb
  rw [m.EffectivePriorityFeePerGas_eq tp tc c _ _ bf baseFee lp pw htc hc h3 h2 hbf]
  refine ⟨_, _, rfl, ?_, ?_, m.extends_ints _⟩
  · show _ = some (min (b.maxFeePerGas - baseFee) b.maxPriorityFeePerGas)
    rw [b.maxFeePerGas_eq_getD, b.maxPriorityFeePerGas_eq_getD]
    dsimp only
    split
    · rw [← Nat.add_zero m.ints.length, cell_append_add, min_eq_right (by omega)]
      rfl
    · rw [cell_append_add, min_eq_left (by omega)]
      rfl
  · split <;> omega

/-- A pointer that stands for a transaction is a cell of the memory. -/
theorem Memory.lt_length_of_transaction (m : Memory) (p : Ptr) (t : Transaction)
    (h : m.transaction p = some t) : p < m.txs.length := by
  obtain ⟨tc, b, htc, _, _⟩ := m.transaction_eq_some p t h
  exact cell_lt_length htc

/-- Claim C18. For a dynamic-fee transaction `t` and a byte string `sig`,
`t.WithSignature(sig)` is a dynamic-fee transaction whose `Signature()` is `sig`, whose
chain tag, block reference, expiration, clauses, fee fields, gas, `dependsOn`, nonce and
reserved block are those of `t`, and whose `SigningHash()` is that of `t`. The
`signingHash` cell of the cache of `t` is empty or was written by `SigningHash`.
`t` itself is unchanged: in every memory in which the pointer `tp` stands for `t` and the
slice `sigp` for `sig`, the call over the memory returns a pointer `q`, other than `tp`,
that stands for `t.WithSignature(sig)`; after the call `tp` still stands for `t`, with
its signature and all its fields, `sigp` still stands for `sig`, every cell the memory
had holds what it held, and the transaction behind `q` lies in new cells only. -/
theorem WithSignature_dynamicFee (K : Crypto) (t : Transaction) (b : dynamicFeeTransaction)
    (sig : List Byte) (hb : t.body = .dynamicFee b) (hsh : signingHashCached K t) :
    (t.WithSignature sig).txType = t.txType ∧
    (t.WithSignature sig).Signature = sig ∧
    (t.WithSignature sig).body.chainTag = t.body.chainTag ∧
    (t.WithSignature sig).BlockRef = t.BlockRef ∧
    (t.WithSignature sig).body.expiration = t.body.expiration ∧
    (t.WithSignature sig).Clauses = t.Clauses ∧
    (t.WithSignature sig).MaxPriorityFeePerGas = t.MaxPriorityFeePerGas ∧
    (t.WithSignature sig).MaxFeePerGas = t.MaxFeePerGas ∧
    (t.WithSignature sig).Gas = t.Gas ∧
    (t.WithSignature sig).body.dependsOn = t.body.dependsOn ∧
    (t.WithSignature sig).body.nonce = t.body.nonce ∧
    (t.WithSignature sig).body.reserved = t.body.reserved ∧
    ((t.WithSignature sig).SigningHash K).1 = (t.SigningHash K).1 ∧
    (∀ (m : Memory) (tp : Ptr) (sigp : Option Ptr),
      m.transaction tp = some t → m.bytes sigp = some sig →
      ∃ q m2, m.WithSignature tp sigp = .ok (q, m2) ∧
        m2.transaction q = some (t.WithSignature sig) ∧
        m2.transaction tp = some t ∧
        m2.bytes sigp = some sig ∧
        q ≠ tp ∧
        m.Extends m2 ∧
        m.IsNew m2 q) := by
  have hmem : ∀ (m : Memory) (tp : Ptr) (sigp : Option Ptr),
      m.transaction tp = some t → m.bytes sigp = some sig →
      ∃ q m2, m.WithSignature tp sigp = .ok (q, m2) ∧
        m2.transaction q = some (t.WithSignature sig) ∧
        m2.transaction tp = some t ∧
        m2.bytes sigp = some sig ∧
        q ≠ tp ∧
        m.Extends m2 ∧
        m.IsNew m2 q := by
    intro m tp sigp ht hs
    obtain ⟨q, m2, hw, hq, hext, hnew⟩ := m.WithSignature_spec tp sigp t sig ht hs
    have hlt := m.lt_length_of_transaction tp t ht
    exact ⟨q, m2, hw, hq, Memory.transaction_of_extends hext ht,
      Memory.bytes_of_extends hext hs, Nat.ne_of_gt (Nat.lt_of_lt_of_le hlt hnew.1), hext,
      hnew⟩
  have hw : t.WithSignature sig
      = { body := .dynamicFee (b.copy.setSignature sig), cache := Cache.empty } := by
    unfold Transaction.WithSignature
    rw [hb]
    rfl
  have hfresh : ∀ c : Cache, c.signingHash = none →
      (Transaction.SigningHash K { body := .dynamicFee b, cache := c }).1
        = K.prefixedRlpHash TypeDynamicFee b.signingFields := by
    intro c hc
    unfold Transaction.SigningHash
    dsimp only
    rw [hc]
    rfl
  have hnew : ((t.WithSignature sig).SigningHash K).1
      = K.prefixedRlpHash TypeDynamicFee b.signingFields := by
    rw [hw]
    rfl
  have hold : (t.SigningHash K).1 = K.prefixedRlpHash TypeDynamicFee b.signingFields := by
    cases hc : t.cache.signingHash with
    | none =>
      have := hfresh t.cache hc
      rw [← hb] at this
      exact this
    | some cached =>
      rw [Transaction.SigningHash_cached K t cached hc]
      have h1 := hsh cached hc
      rw [hb, hfresh _ rfl] at h1
      exact h1
  have hfields : (t.WithSignature sig).txType = t.txType ∧
      (t.WithSignature sig).Signature = sig ∧
      (t.WithSignature sig).body.chainTag = t.body.chainTag ∧
      (t.WithSignature sig).BlockRef = t.BlockRef ∧
      (t.WithSignature sig).body.expiration = t.body.expiration ∧
      (t.WithSignature sig).Clauses = t.Clauses ∧
      (t.WithSignature sig).MaxPriorityFeePerGas = t.MaxPriorityFeePerGas ∧
      (t.WithSignature sig).MaxFeePerGas = t.MaxFeePerGas ∧
      (t.WithSignature sig).Gas = t.Gas ∧
      (t.WithSignature sig).body.dependsOn = t.body.dependsOn ∧
      (t.WithSignature sig).body.nonce = t.body.nonce ∧
      (t.WithSignature sig).body.reserved = t.body.reserved := by
    rw [hw]
    unfold Transaction.txType Transaction.Signature Transaction.BlockRef Transaction.Clauses
      Transaction.MaxPriorityFeePerGas Transaction.MaxFeePerGas Transaction.Gas
    rw [hb]
    refine ⟨rfl, rfl, rfl, rfl, rfl, rfl, ?_, ?_, rfl, rfl, rfl, rfl⟩
    · show (b.copy.setSignature sig).maxPriorityFeePerGas = b.maxPriorityFeePerGas
      unfold dynamicFeeTransaction.maxPriorityFeePerGas dynamicFeeTransaction.setSignature
        dynamicFeeTransaction.copy
      cases b.MaxPriorityFeePerGas <;> rfl
    · show (b.copy.setSignature sig).maxFeePerGas = b.maxFeePerGas
      unfold dynamicFeeTransaction.maxFeePerGas dynamicFeeTransaction.setSignature
        dynamicFeeTransaction.copy
      cases b.MaxFeePerGas <;> rfl
  obtain ⟨f1, f2, f3, f4, f5, f6, f7, f8, f9, f10, f11, f12⟩ := hfields
  exact ⟨f1, f2, f3, f4, f5, f6, f7, f8, f9, f10, f11, f12, hnew.trans hold.symm, hmem⟩

/-- The frame of claim C18 on an example whose fee fields are `nil` and whose signing hash
is cached: the signed copy carries the signature, reports the same (zero) fees and has
the same signing hash. In the example memory the transaction lies behind the pointer `0`
and the signature in the byte array `0`: the call returns the new pointer `2`, and the
pointer `0` stands for the same transaction after it. -/
theorem WithSignature_dynamicFee_witness :
    signingHashCached exampleCrypto exampleNilFeeTx ∧
    (exampleNilFeeTx.WithSignature [1, 2, 3]).Signature = [1, 2, 3] ∧
    (exampleNilFeeTx.WithSignature [1, 2, 3]).MaxFeePerGas = exampleNilFeeTx.MaxFeePerGas ∧
    ((exampleNilFeeTx.WithSignature [1, 2, 3]).SigningHash exampleCrypto).1
      = (exampleNilFeeTx.SigningHash exampleCrypto).1 ∧
    exampleMemory.transaction 0 = some exampleNilFeeTx ∧
    exampleMemory.bytes (some 0) = some [1, 2, 3] ∧
    (∃ m2, exampleMemory.WithSignature 0 (some 0) = .ok (2, m2)) ∧
    (∃ q m2, exampleMemory.WithSignature 0 (some 0) = .ok (q, m2) ∧
      m2.transaction q = some (exampleNilFeeTx.WithSignature [1, 2, 3]) ∧
      m2.transaction 0 = some exampleNilFeeTx ∧
      m2.bytes (some 0) = some [1, 2, 3] ∧
      q ≠ 0 ∧
      exampleMemory.Extends m2 ∧
      exampleMemory.IsNew m2 q) :=
  ⟨fun _ hc => (Option.some.inj hc).symm.trans rfl,
    (WithSignature_dynamicFee exampleCrypto exampleNilFeeTx _ [1, 2, 3] rfl
      (fun _ hc => (Option.some.inj hc).symm.trans rfl)).2.1,
    (WithSignature_dynamicFee exampleCrypto exampleNilFeeTx _ [1, 2, 3] rfl
      (fun _ hc => (Option.some.inj hc).symm.trans rfl)).2.2.2.2.2.2.2.1,
    (WithSignature_dynamicFee exampleCrypto exampleNilFeeTx _ [1, 2, 3] rfl
      (fun _ hc => (Option.some.inj hc).symm.trans rfl)).2.2.2.2.2.2.2.2.2.2.2.2.1,
    rfl, rfl, ⟨_, rfl⟩,
    (WithSignature_dynamicFee exampleCrypto exampleNilFeeTx _ [1, 2, 3] rfl
      (fun _ hc => (Option.some.inj hc).symm.trans rfl)).2.2.2.2.2.2.2.2.2.2.2.2.2
      exampleMemory 0 (some 0) rfl rfl⟩

/-! ## The canonical codec: decoding inverts encoding -/

/-- The fold of `bytesToNat` started from `a` shifts `a` by the length of the string. -/
theorem bytesToNat_foldl (bs : List Byte) (a : Nat) :
    bs.foldl (fun acc b => acc * 256 + b.val) a = a * 256 ^ bs.length + bytesToNat bs := by
  induction bs generalizing a with
  | nil => simp [bytesToNat]
  | cons b bs ih =>
    unfold bytesToNat
    rw [List.foldl_cons, List.foldl_cons, ih, ih (0 * 256 + b.val), List.length_cons, pow_succ]
    ring

/-- The value of a byte string by its first byte. -/
theorem bytesToNat_cons (b : Byte) (bs : List Byte) :
    bytesToNat (b :: bs) = b.val * 256 ^ bs.length + bytesToNat bs := by
  unfold bytesToNat
  rw [List.foldl_cons, bytesToNat_foldl]
  simp [bytesToNat]

/-- The value of a concatenation. -/
theorem bytesToNat_append (a b : List Byte) :
    bytesToNat (a ++ b) = bytesToNat a * 256 ^ b.length + bytesToNat b := by
  unfold bytesToNat
  rw [List.foldl_append, bytesToNat_foldl]
  rfl

/-- A string of `k` bytes has a value below `256 ^ k`. -/
theorem bytesToNat_lt (bs : List Byte) : bytesToNat bs < 256 ^ bs.length := by
  induction bs with
  | nil => simp [bytesToNat]
  | cons b bs ih =>
    rw [bytesToNat_cons, List.length_cons, pow_succ]
    have hb : b.val < 256 := b.isLt
    have : b.val * 256 ^ bs.length + 256 ^ bs.length ≤ 256 * 256 ^ bs.length := by
      have := Nat.mul_le_mul_right (256 ^ bs.length) (Nat.succ_le_of_lt hb)
      rw [Nat.succ_mul] at this
      exact this
    omega

/-- The fixed-width bytes have the width asked for. -/
theorem natToBytesFixed_length (k n : Nat) : (natToBytesFixed k n).length = k := by
  induction k generalizing n with
  | zero => rfl
  | succ k ih => simp [natToBytesFixed, ih]

/-- The value of the `k` fixed-width bytes of `n` is `n` modulo `256 ^ k`. -/
theorem bytesToNat_natToBytesFixed (k n : Nat) :
    bytesToNat (natToBytesFixed k n) = n % 256 ^ k := by
  induction k generalizing n with
  | zero => simp [natToBytesFixed, bytesToNat, Nat.mod_one]
  | succ k ih =>
    unfold natToBytesFixed
    rw [bytesToNat_append, ih]
    have h1 : bytesToNat [(Fin.ofNat (n % 256) : Byte)] = n % 256 := by
      simp [bytesToNat, Fin.ofNat]
    rw [h1, List.length_singleton, pow_one, pow_succ, Nat.mul_comm (256 ^ k) 256, Nat.mod_mul]
    omega

/-- The fixed-width bytes of a number that fits have its value. -/
theorem bytesToNat_natToBytesFixed_of_lt (k n : Nat) (h : n < 256 ^ k) :
    bytesToNat (natToBytesFixed k n) = n := by
  rw [bytesToNat_natToBytesFixed, Nat.mod_eq_of_lt h]

/-- The fixed-width bytes of the value of a string are the string, padded with zero bytes. -/
theorem natToBytesFixed_bytesToNat (s : List Byte) (j : Nat) :
    natToBytesFixed (j + s.length) (bytesToNat s) = List.replicate j 0 ++ s := by
  induction s using List.reverseRecOn generalizing j with
  | nil =>
    simp only [List.length_nil, Nat.add_zero, List.append_nil]
    induction j with
    | zero => rfl
    | succ j ih =>
      unfold natToBytesFixed
      have h0 : bytesToNat [] / 256 = bytesToNat [] := by simp [bytesToNat]
      rw [h0, ih]
      have : (Fin.ofNat (bytesToNat [] % 256) : Byte) = 0 := by simp [bytesToNat, Fin.ofNat]
      rw [this, ← List.replicate_succ']
  | append_singleton s b ih =>
    rw [List.length_append, List.length_singleton, ← Nat.add_assoc]
    unfold natToBytesFixed
    rw [bytesToNat_append]
    have hb : bytesToNat [b] = b.val := by simp [bytesToNat]
    have hlt : b.val < 256 := b.isLt
    rw [hb, List.length_singleton, pow_one]
    have h1 : (bytesToNat s * 256 + b.val) / 256 = bytesToNat s := by omega
    have h2 : (bytesToNat s * 256 + b.val) % 256 = b.val := by omega
    rw [h1, h2, ih, List.append_assoc]
    have hfin : (Fin.ofNat b.val : Byte) = b := Fin.ext (Nat.mod_eq_of_lt hlt)
    rw [hfin]

/-- Leading zero bytes do not change the value. -/
theorem bytesToNat_stripZeros (s : List Byte) : bytesToNat (stripZeros s) = bytesToNat s := by
  induction s with
  | nil => rfl
  | cons b s ih =>
    unfold stripZeros
    rw [List.dropWhile_cons]
    by_cases hb : b = 0
    · rw [if_pos (by simpa using hb)]
      rw [bytesToNat_cons, hb]
      simp only [Fin.val_zero, Nat.zero_mul, Nat.zero_add]
      exact ih
    · rw [if_neg (by simpa using hb)]

/-- Stripping removes a zero padding in front of a string without a leading zero. -/
theorem stripZeros_replicate (j : Nat) (s : List Byte) (h : s.head? ≠ some 0) :
    stripZeros (List.replicate j 0 ++ s) = s := by
  induction j with
  | zero =>
    simp only [List.replicate_zero, List.nil_append]
    unfold stripZeros
    cases s with
    | nil => rfl
    | cons b s =>
      rw [List.dropWhile_cons, if_neg]
      intro hb
      exact h (by simpa using hb)
  | succ j ih =>
    unfold stripZeros at ih ⊢
    rw [List.replicate_succ, List.cons_append, List.dropWhile_cons, if_pos (by simp)]
    exact ih

/-- A stripped string has no leading zero. -/
theorem stripZeros_head (s : List Byte) : (stripZeros s).head? ≠ some 0 := by
  induction s with
  | nil => simp [stripZeros]
  | cons b s ih =>
    unfold stripZeros at ih ⊢
    rw [List.dropWhile_cons]
    by_cases hb : b = 0
    · rw [if_pos (by simpa using hb)]
      exact ih
    · rw [if_neg (by simpa using hb)]
      simpa using hb

/-- Stripping does not lengthen a string. -/
theorem stripZeros_length_le (s : List Byte) : (stripZeros s).length ≤ s.length := by
  unfold stripZeros
  exact (List.dropWhile_sublist _).length_le

/-- The minimal bytes of a number have no leading zero. -/
theorem natToBytes_head (n : Nat) : (natToBytes n).head? ≠ some 0 := stripZeros_head _

/-- With enough fuel, the counted width is enough for the number. -/
theorem lt_pow_byteWidthAux (fuel n : Nat) (h : n ≤ fuel) : n < 256 ^ byteWidthAux fuel n := by
  induction fuel generalizing n with
  | zero =>
    have h0 : n = 0 := Nat.le_zero.mp h
    rw [h0]
    exact Nat.pow_pos (by decide)
  | succ fuel ih =>
    unfold byteWidthAux
    by_cases h0 : n = 0
    · rw [if_pos h0, h0]
      exact Nat.pow_pos (by decide)
    · rw [if_neg h0, pow_succ]
      have := ih (n / 256) (by omega)
      omega

/-- The width `natToBytes` starts from is enough for the number. -/
theorem lt_pow_byteWidth (n : Nat) : n < 256 ^ byteWidth n :=
  lt_pow_byteWidthAux n n (Nat.le_refl n)

/-- The minimal bytes of `n` have the value `n`. -/
theorem bytesToNat_natToBytes (n : Nat) : bytesToNat (natToBytes n) = n := by
  unfold natToBytes
  rw [bytesToNat_stripZeros, bytesToNat_natToBytesFixed_of_lt _ _ (lt_pow_byteWidth n)]

/-- A string with a non-zero first byte has a value of at least `256 ^ (length - 1)`. -/
theorem le_bytesToNat (b : Byte) (s : List Byte) (hb : b ≠ 0) :
    256 ^ s.length ≤ bytesToNat (b :: s) := by
  rw [bytesToNat_cons]
  have : 1 ≤ b.val := Nat.pos_of_ne_zero (fun h => hb (Fin.ext h))
  calc 256 ^ s.length = 1 * 256 ^ s.length := (Nat.one_mul _).symm
    _ ≤ b.val * 256 ^ s.length := Nat.mul_le_mul_right _ this
    _ ≤ _ := Nat.le_add_right _ _

/-- A string without a leading zero is the minimal bytes of its value. -/
theorem natToBytes_bytesToNat (s : List Byte) (h : s.head? ≠ some 0) :
    natToBytes (bytesToNat s) = s := by
  unfold natToBytes
  have hle : s.length ≤ byteWidth (bytesToNat s) := by
    cases s with
    | nil => simp
    | cons b s =>
      have hb : b ≠ 0 := fun e => h (by simp [e])
      have h1 := le_bytesToNat b s hb
      have h2 := lt_pow_byteWidth (bytesToNat (b :: s))
      rw [List.length_cons]
      by_contra hlt
      have h3 : (256 : Nat) ^ byteWidth (bytesToNat (b :: s)) ≤ 256 ^ s.length :=
        Nat.pow_le_pow_right (by decide) (by omega)
      omega
  obtain ⟨j, hj⟩ := Nat.exists_eq_add_of_le hle
  rw [hj, Nat.add_comm, natToBytesFixed_bytesToNat, stripZeros_replicate _ _ h]

/-- A number below `256 ^ k` has at most `k` minimal bytes. -/
theorem natToBytes_length_le (n k : Nat) (h : n < 256 ^ k) : (natToBytes n).length ≤ k := by
  by_contra hlt
  have hk : k < (natToBytes n).length := Nat.lt_of_not_le hlt
  have hhead := natToBytes_head n
  have hval := bytesToNat_natToBytes n
  cases hs : natToBytes n with
  | nil => rw [hs] at hk; exact Nat.not_lt_zero _ hk
  | cons b s =>
    rw [hs] at hk hhead hval
    have hb : b ≠ 0 := fun e => hhead (by simp [e])
    have h1 := le_bytesToNat b s hb
    rw [hval] at h1
    rw [List.length_cons] at hk
    have : 256 ^ k ≤ 256 ^ s.length := Nat.pow_le_pow_right (by decide) (by omega)
    omega

/-- Taking a payload off the front of a concatenation. -/
theorem takePayload_append (p rest : List Byte) :
    takePayload p.length (p ++ rest) = some (p, rest) := by
  unfold takePayload
  rw [if_neg (by simp), List.take_left, List.drop_left]

/-- A taken payload and the rest make up the input. -/
theorem takePayload_eq_some (len : Nat) (input p rest : List Byte)
    (h : takePayload len input = some (p, rest)) : input = p ++ rest ∧ p.length = len := by
  unfold takePayload at h
  by_cases hl : input.length < len
  · rw [if_pos hl] at h
    cases h
  · rw [if_neg hl] at h
    have h1 := Option.some.inj h
    have hp : List.take len input = p := congrArg Prod.fst h1
    have hr : List.drop len input = rest := congrArg Prod.snd h1
    refine ⟨?_, ?_⟩
    · rw [← hp, ← hr, List.take_append_drop]
    · rw [← hp, List.length_take]
      omega

/-- Reading back a length of 56 or more written in minimal bytes. -/
theorem readLength_append (len : Nat) (rest : List Byte) (h56 : 56 ≤ len) :
    readLength (natToBytes len).length (natToBytes len ++ rest) = some (len, rest) := by
  unfold readLength
  rw [takePayload_append]
  dsimp only
  rw [if_neg (natToBytes_head len), bytesToNat_natToBytes, if_neg (by omega)]

/-- An accepted length is written in minimal bytes and is 56 or more. -/
theorem readLength_eq_some (ll : Nat) (input rest : List Byte) (len : Nat)
    (h : readLength ll input = some (len, rest)) :
    input = natToBytes len ++ rest ∧ (natToBytes len).length = ll ∧ 56 ≤ len := by
  unfold readLength at h
  cases htp : takePayload ll input with
  | none => rw [htp] at h; cases h
  | some pr =>
    obtain ⟨lb, r⟩ := pr
    rw [htp] at h
    dsimp only at h
    by_cases h0 : lb.head? = some 0
    · rw [if_pos h0] at h
      cases h
    · rw [if_neg h0] at h
      by_cases h56 : bytesToNat lb < 56
      · rw [if_pos h56] at h
        cases h
      · rw [if_neg h56] at h
        have h1 := Option.some.inj h
        have hlen : bytesToNat lb = len := congrArg Prod.fst h1
        have hr : r = rest := congrArg Prod.snd h1
        have hsplit := takePayload_eq_some ll input lb r htp
        have hnb : natToBytes len = lb := by rw [← hlen, natToBytes_bytesToNat lb h0]
        rw [hnb, ← hr]
        exact ⟨hsplit.1, hsplit.2, by omega⟩

/-- The byte of a number below 256 has that value. -/
theorem byte_val (a : Nat) (h : a < 256) : ((Fin.ofNat a : Byte)).val = a :=
  Nat.mod_eq_of_lt h

/-- A positive number has at least one byte. -/
theorem natToBytes_length_pos (len : Nat) (h : 0 < len) : 0 < (natToBytes len).length := by
  cases hs : natToBytes len with
  | nil =>
    have := bytesToNat_natToBytes len
    rw [hs] at this
    simp [bytesToNat] at this
    omega
  | cons b s => simp

/-- A length below `2 ^ 64` is written on at most 8 bytes. -/
theorem natToBytes_length_le_eight (len : Nat) (h : len < 2 ^ 64) :
    (natToBytes len).length ≤ 8 :=
  natToBytes_length_le len 8 (by
    have : (256 : Nat) ^ 8 = 2 ^ 64 := by norm_num
    omega)

/-- A single byte below `0x80` is its own encoding. -/
theorem encodeString_single_lt (x : Byte) (h : x.val < 0x80) : encodeString [x] = [x] := by
  unfold encodeString
  dsimp only
  rw [if_pos h]

/-- A single byte of `0x80` or more is encoded with the header `0x81`. -/
theorem encodeString_single_ge (x : Byte) (h : ¬ x.val < 0x80) :
    encodeString [x] = [0x81, x] := by
  unfold encodeString
  dsimp only
  rw [if_neg h]
  rfl

/-- A string that is not a single byte is encoded with its length header. -/
theorem encodeString_of_length_ne_one (s : List Byte) (h : s.length ≠ 1) :
    encodeString s = encodeLength 0x80 s.length ++ s := by
  unfold encodeString
  match s, h with
  | [], _ => rfl
  | [x], h => exact absurd rfl h
  | _ :: _ :: _, _ => rfl

/-- Decoding a string that is not a single byte, encoded with its length header. -/
theorem readItem_encodeLength_str (s rest : List Byte) (h1 : s.length ≠ 1)
    (hlen : s.length < 2 ^ 64) :
    readItem (encodeLength 0x80 s.length ++ s ++ rest) = some (.str s, rest) := by
  unfold encodeLength
  by_cases h56 : s.length < 56
  · rw [if_pos h56]
    have hv : ((Fin.ofNat (0x80 + s.length) : Byte)).val = 0x80 + s.length :=
      byte_val _ (by omega)
    simp only [List.singleton_append, List.cons_append, List.nil_append, readItem]
    rw [if_neg (by omega), if_pos (by omega), hv]
    have : 0x80 + s.length - 0x80 = s.length := by omega
    rw [this, takePayload_append]
    dsimp only
    match s, h1 with
    | [], _ => rfl
    | [x], h => exact absurd rfl h
    | _ :: _ :: _, _ => rfl
  · rw [if_neg h56]
    have hpos := natToBytes_length_pos s.length (by omega)
    have hle := natToBytes_length_le_eight s.length hlen
    have hv : ((Fin.ofNat (0x80 + 55 + (natToBytes s.length).length) : Byte)).val
        = 0x80 + 55 + (natToBytes s.length).length := byte_val _ (by omega)
    simp only [List.cons_append, readItem]
    rw [if_neg (by omega), if_neg (by omega), if_pos (by omega), hv]
    have : 0x80 + 55 + (natToBytes s.length).length - 0xb7 = (natToBytes s.length).length := by
      omega
    rw [this, List.append_assoc, readLength_append _ _ (by omega)]
    dsimp only
    rw [takePayload_append]

/-- Decoding an encoded list gives its payload back. -/
theorem readItem_encodeList (p rest : List Byte) (hlen : p.length < 2 ^ 64) :
    readItem (encodeList p ++ rest) = some (.list p, rest) := by
  unfold encodeList encodeLength
  by_cases h56 : p.length < 56
  · rw [if_pos h56]
    have hv : ((Fin.ofNat (0xc0 + p.length) : Byte)).val = 0xc0 + p.length :=
      byte_val _ (by omega)
    simp only [List.singleton_append, List.cons_append, List.nil_append, readItem]
    rw [if_neg (by omega), if_neg (by omega), if_neg (by omega), if_pos (by omega), hv]
    have : 0xc0 + p.length - 0xc0 = p.length := by omega
    rw [this, takePayload_append]
  · rw [if_neg h56]
    have hpos := natToBytes_length_pos p.length (by omega)
    have hle := natToBytes_length_le_eight p.length hlen
    have hv : ((Fin.ofNat (0xc0 + 55 + (natToBytes p.length).length) : Byte)).val
        = 0xc0 + 55 + (natToBytes p.length).length := byte_val _ (by omega)
    simp only [List.cons_append, readItem]
    rw [if_neg (by omega), if_neg (by omega), if_neg (by omega), if_neg (by omega), hv]
    have : 0xc0 + 55 + (natToBytes p.length).length - 0xf7 = (natToBytes p.length).length := by
      omega
    rw [this, List.append_assoc, readLength_append _ _ (by omega)]
    dsimp only
    rw [takePayload_append]

/-- Decoding an encoded item gives the item back, and the bytes after it. -/
theorem readItem_encode (it : Item) (rest : List Byte) (h : it.size < 2 ^ 64) :
    readItem (it.encode ++ rest) = some (it, rest) := by
  cases it with
  | list p => exact readItem_encodeList p rest h
  | str s =>
    show readItem (encodeString s ++ rest) = some (.str s, rest)
    by_cases h1 : s.length = 1
    · match s, h1 with
      | [x], _ =>
        by_cases hx : x.val < 0x80
        · rw [encodeString_single_lt x hx]
          simp only [List.singleton_append, readItem]
          rw [if_pos hx]
        · rw [encodeString_single_ge x hx]
          have h81 : ((0x81 : Byte)).val = 0x81 := rfl
          simp only [List.cons_append, List.nil_append, readItem]
          rw [if_neg (by rw [h81]; decide), if_pos (by rw [h81]; decide), h81]
          have : takePayload (0x81 - 0x80) (x :: rest) = some ([x], rest) :=
            takePayload_append [x] rest
          rw [this]
          dsimp only
          rw [if_neg hx]
    · rw [encodeString_of_length_ne_one s h1]
      exact readItem_encodeLength_str s rest h1 h

/-- A byte is the byte of its value. -/
theorem byte_eq (h : Byte) (a : Nat) (e : h.val = a) : (Fin.ofNat a : Byte) = h :=
  Fin.ext (by rw [← e]; exact Nat.mod_eq_of_lt h.isLt)

/-- An accepted input is the canonical encoding of the item read, followed by the bytes
left over. -/
theorem readItem_eq_some (b : List Byte) (it : Item) (rest : List Byte)
    (h : readItem b = some (it, rest)) : b = it.encode ++ rest := by
  cases b with
  | nil => cases h
  | cons hd tl =>
    unfold readItem at h
    dsimp only at h
    by_cases c1 : hd.val < 0x80
    · rw [if_pos c1] at h
      have h1 := Option.some.inj h
      rw [← (Prod.mk.inj h1).1, ← (Prod.mk.inj h1).2]
      show hd :: tl = encodeString [hd] ++ tl
      rw [encodeString_single_lt hd c1]
      rfl
    · rw [if_neg c1] at h
      by_cases c2 : hd.val < 0xb8
      · rw [if_pos c2] at h
        cases htp : takePayload (hd.val - 0x80) tl with
        | none => rw [htp] at h; cases h
        | some pr =>
          obtain ⟨s, r⟩ := pr
          rw [htp] at h
          dsimp only at h
          have hsplit := takePayload_eq_some _ _ _ _ htp
          have hit : it = .str s ∧ rest = r ∧ (∀ x, s = [x] → ¬ x.val < 0x80) := by
            match s, h with
            | [], h =>
              have h1 := Option.some.inj h
              exact ⟨(Prod.mk.inj h1).1.symm, (Prod.mk.inj h1).2.symm,
                fun x e => by cases e⟩
            | [x], h =>
              dsimp only at h
              by_cases hx : x.val < 0x80
              · rw [if_pos hx] at h
                cases h
              · rw [if_neg hx] at h
                have h1 := Option.some.inj h
                refine ⟨(Prod.mk.inj h1).1.symm, (Prod.mk.inj h1).2.symm, ?_⟩
                intro y e
                cases e
                exact hx
            | _ :: _ :: _, h =>
              have h1 := Option.some.inj h
              exact ⟨(Prod.mk.inj h1).1.symm, (Prod.mk.inj h1).2.symm,
                fun x e => by cases e⟩
          rw [hit.1, hit.2.1, hsplit.1]
          show hd :: (s ++ r) = encodeString s ++ r
          by_cases hone : s.length = 1
          · match s, hone with
            | [x], _ =>
              rw [encodeString_single_ge x (hit.2.2 x rfl)]
              have : hd = 0x81 := by
                apply Fin.ext
                have := hsplit.2
                simp only [List.length_singleton] at this
                show hd.val = 0x81
                omega
              rw [this]
              rfl
          · rw [encodeString_of_length_ne_one s hone]
            unfold encodeLength
            rw [if_pos (by omega), byte_eq hd _ (by omega)]
            rfl
      · rw [if_neg c2] at h
        by_cases c3 : hd.val < 0xc0
        · rw [if_pos c3] at h
          cases hrl : readLength (hd.val - 0xb7) tl with
          | none => rw [hrl] at h; cases h
          | some pr =>
            obtain ⟨len, tl2⟩ := pr
            rw [hrl] at h
            dsimp only at h
            have hlen := readLength_eq_some _ _ _ _ hrl
            cases htp : takePayload len tl2 with
            | none => rw [htp] at h; cases h
            | some pr2 =>
              obtain ⟨s, r⟩ := pr2
              rw [htp] at h
              dsimp only at h
              have hsplit := takePayload_eq_some _ _ _ _ htp
              have h1 := Option.some.inj h
              rw [← (Prod.mk.inj h1).1, ← (Prod.mk.inj h1).2, hlen.1, hsplit.1]
              show hd :: (natToBytes len ++ (s ++ r)) = encodeString s ++ r
              rw [encodeString_of_length_ne_one s (by omega)]
              unfold encodeLength
              rw [if_neg (by omega), hsplit.2, byte_eq hd _ (by omega)]
              simp
        · rw [if_neg c3] at h
          by_cases c4 : hd.val < 0xf8
          · rw [if_pos c4] at h
            cases htp : takePayload (hd.val - 0xc0) tl with
            | none => rw [htp] at h; cases h
            | some pr =>
              obtain ⟨p, r⟩ := pr
              rw [htp] at h
              dsimp only at h
              have hsplit := takePayload_eq_some _ _ _ _ htp
              have h1 := Option.some.inj h
              rw [← (Prod.mk.inj h1).1, ← (Prod.mk.inj h1).2, hsplit.1]
              show hd :: (p ++ r) = encodeList p ++ r
              unfold encodeList encodeLength
              rw [if_pos (by omega), byte_eq hd _ (by omega)]
              rfl
          · rw [if_neg c4] at h
            cases hrl : readLength (hd.val - 0xf7) tl with
            | none => rw [hrl] at h; cases h
            | some pr =>
              obtain ⟨len, tl2⟩ := pr
              rw [hrl] at h
              dsimp only at h
              have hlen := readLength_eq_some _ _ _ _ hrl
              cases htp : takePayload len tl2 with
              | none => rw [htp] at h; cases h
              | some pr2 =>
                obtain ⟨p, r⟩ := pr2
                rw [htp] at h
                dsimp only at h
                have hsplit := takePayload_eq_some _ _ _ _ htp
                have h1 := Option.some.inj h
                rw [← (Prod.mk.inj h1).1, ← (Prod.mk.inj h1).2, hlen.1, hsplit.1]
                show hd :: (natToBytes len ++ (p ++ r)) = encodeList p ++ r
                unfold encodeList encodeLength
                rw [if_neg (by omega), hsplit.2, byte_eq hd _ (by have := hd.isLt; omega)]
                simp

/-- The encoding of an item is not empty. -/
theorem Item.encode_length_pos (it : Item) : 0 < it.encode.length := by
  cases it with
  | str s =>
    show 0 < (encodeString s).length
    unfold encodeString encodeLength
    split
    · split <;> simp
    · split <;> simp
  | list p =>
    show 0 < (encodeList p).length
    unfold encodeList encodeLength
    split <;> simp

/-- The payload of an item is not longer than its encoding. -/
theorem Item.size_le_encode_length (it : Item) : it.size ≤ it.encode.length := by
  cases it with
  | str s =>
    show s.length ≤ (encodeString s).length
    unfold encodeString
    split
    · split <;> simp
    · simp
  | list p =>
    show p.length ≤ (encodeList p).length
    unfold encodeList
    simp

/-- The payload of a list by its first item. -/
theorem encodeItems_cons (it : Item) (its : List Item) :
    encodeItems (it :: its) = it.encode ++ encodeItems its := rfl

/-- Reading the items of an encoded payload, with enough fuel. -/
theorem readItemsAux_encodeItems (its : List Item) (h : ∀ it ∈ its, it.size < 2 ^ 64)
    (fuel : Nat) (hf : (encodeItems its).length ≤ fuel) :
    readItemsAux fuel (encodeItems its) = some its := by
  induction its generalizing fuel with
  | nil =>
    cases fuel with
    | zero => rfl
    | succ f => rfl
  | cons it its ih =>
    rw [encodeItems_cons] at hf ⊢
    have hpos := it.encode_length_pos
    rw [List.length_append] at hf
    cases fuel with
    | zero => omega
    | succ f =>
      unfold readItemsAux
      have hne : it.encode ++ encodeItems its ≠ [] := by
        intro e
        have := congrArg List.length e
        rw [List.length_append] at this
        simp only [List.length_nil] at this
        omega
      rw [if_neg hne, readItem_encode it _ (h it (List.mem_cons_self it its))]
      dsimp only
      rw [ih (fun x hx => h x (List.mem_cons_of_mem it hx)) f (by omega)]

/-- Reading the items of an encoded payload gives the items back. -/
theorem readItems_encodeItems (its : List Item) (h : ∀ it ∈ its, it.size < 2 ^ 64) :
    readItems (encodeItems its) = some its :=
  readItemsAux_encodeItems its h _ (Nat.le_refl _)

/-- An accepted payload is the concatenation of the encodings of its items, for every fuel. -/
theorem readItemsAux_eq_some (fuel : Nat) (b : List Byte) (its : List Item)
    (h : readItemsAux fuel b = some its) : b = encodeItems its := by
  induction fuel generalizing b its with
  | zero =>
    unfold readItemsAux at h
    by_cases hb : b = []
    · rw [if_pos hb] at h
      rw [hb, ← Option.some.inj h]
      rfl
    · rw [if_neg hb] at h
      cases h
  | succ f ih =>
    unfold readItemsAux at h
    by_cases hb : b = []
    · rw [if_pos hb] at h
      rw [hb, ← Option.some.inj h]
      rfl
    · rw [if_neg hb] at h
      cases hr : readItem b with
      | none => rw [hr] at h; cases h
      | some pr =>
        obtain ⟨it, rest⟩ := pr
        rw [hr] at h
        dsimp only at h
        cases hrest : readItemsAux f rest with
        | none => rw [hrest] at h; cases h
        | some its2 =>
          rw [hrest] at h
          dsimp only at h
          rw [← Option.some.inj h, encodeItems_cons, ← ih rest its2 hrest]
          exact readItem_eq_some b it rest hr

/-- An accepted payload is the concatenation of the canonical encodings of its items. -/
theorem readItems_eq_some (b : List Byte) (its : List Item) (h : readItems b = some its) :
    b = encodeItems its :=
  readItemsAux_eq_some _ b its h

/-- The payload of an item of a list is not longer than the payload of the list. -/
theorem Item.size_le_encodeItems (its : List Item) (it : Item) (h : it ∈ its) :
    it.size ≤ (encodeItems its).length := by
  induction its with
  | nil => cases h
  | cons x xs ih =>
    rw [encodeItems_cons, List.length_append]
    rcases List.mem_cons.mp h with e | e
    · rw [e]
      have := x.size_le_encode_length
      omega
    · have := ih e
      omega

/-- An unsigned integer that fits in `w` bytes is decoded from its encoding. -/
theorem decodeUint_encodeUint (w n : Nat) (h : n < 256 ^ w) :
    decodeUint w (encodeUint n) = some n := by
  unfold decodeUint encodeUint
  dsimp only
  rw [if_pos ⟨natToBytes_length_le n w h, natToBytes_head n⟩, bytesToNat_natToBytes]

/-- An accepted unsigned integer is canonically encoded and fits in `w` bytes. -/
theorem decodeUint_eq_some (w : Nat) (it : Item) (n : Nat) (h : decodeUint w it = some n) :
    it = encodeUint n ∧ n < 256 ^ w := by
  cases it with
  | list p => cases h
  | str s =>
    unfold decodeUint at h
    dsimp only at h
    by_cases hc : s.length ≤ w ∧ s.head? ≠ some 0
    · rw [if_pos hc] at h
      have hn := Option.some.inj h
      unfold encodeUint
      rw [← hn, natToBytes_bytesToNat s hc.2]
      exact ⟨rfl, lt_of_lt_of_le (bytesToNat_lt s) (Nat.pow_le_pow_right (by decide) hc.1)⟩
    · rw [if_neg hc] at h
      cases h

/-- A non-negative big integer is decoded from its encoding. -/
theorem decodeBigInt_encodeBigInt (v : Int) (it : Item) (h : encodeBigInt v = some it) :
    decodeBigInt it = some v ∧ 0 ≤ v := by
  unfold encodeBigInt at h
  by_cases hv : v < 0
  · rw [if_pos hv] at h
    cases h
  · rw [if_neg hv] at h
    rw [← Option.some.inj h]
    unfold decodeBigInt
    dsimp only
    rw [if_pos (natToBytes_head _), bytesToNat_natToBytes, Int.toNat_of_nonneg (by omega)]
    exact ⟨rfl, by omega⟩

/-- An accepted big integer is non-negative and canonically encoded. -/
theorem decodeBigInt_eq_some (it : Item) (v : Int) (h : decodeBigInt it = some v) :
    encodeBigInt v = some it ∧ 0 ≤ v := by
  cases it with
  | list p => cases h
  | str s =>
    unfold decodeBigInt at h
    dsimp only at h
    by_cases hc : s.head? ≠ some 0
    · rw [if_pos hc] at h
      have hn := Option.some.inj h
      rw [← hn]
      unfold encodeBigInt
      rw [if_neg (by omega), Int.toNat_ofNat, natToBytes_bytesToNat s hc]
      exact ⟨rfl, Int.ofNat_nonneg _⟩
    · rw [if_neg hc] at h
      cases h

/-- An optional value that fits in `w > 0` bytes is decoded from its encoding. -/
theorem decodeFixedOpt_encodeFixedOpt (w : Nat) (v : Option Nat) (hw : 0 < w)
    (h : ∀ x, v = some x → x < 256 ^ w) :
    decodeFixedOpt w (encodeFixedOpt w v) = some v := by
  cases v with
  | none => rfl
  | some x =>
    unfold decodeFixedOpt encodeFixedOpt
    dsimp only
    rw [natToBytesFixed_length, if_neg (by omega), if_pos rfl,
      bytesToNat_natToBytesFixed_of_lt w x (h x rfl)]

/-- An accepted optional value is canonically encoded and fits in `w` bytes. -/
theorem decodeFixedOpt_eq_some (w : Nat) (it : Item) (v : Option Nat)
    (h : decodeFixedOpt w it = some v) :
    it = encodeFixedOpt w v ∧ ∀ x, v = some x → x < 256 ^ w := by
  cases it with
  | list p => cases h
  | str s =>
    unfold decodeFixedOpt at h
    dsimp only at h
    by_cases h0 : s.length = 0
    · rw [if_pos h0] at h
      rw [← Option.some.inj h, List.length_eq_zero.mp h0]
      exact ⟨rfl, fun x e => by cases e⟩
    · rw [if_neg h0] at h
      by_cases hw : s.length = w
      · rw [if_pos hw] at h
        rw [← Option.some.inj h]
        unfold encodeFixedOpt
        dsimp only
        have := natToBytesFixed_bytesToNat s 0
        rw [Nat.zero_add, hw] at this
        rw [this]
        refine ⟨by simp, fun x e => ?_⟩
        rw [← Option.some.inj e, ← hw]
        exact bytesToNat_lt s
      · rw [if_neg hw] at h
        cases h

/-- An accepted byte string field is a string item. -/
theorem decodeBytes_eq_some (it : Item) (s : List Byte) (h : decodeBytes it = some s) :
    it = .str s := by
  cases it with
  | list p => cases h
  | str s2 => rw [← Option.some.inj h]

/-- A well-formed clause is decoded from its encoding. -/
theorem decodeClause_encodeClause (c : Clause) (it : Item) (hwf : c.WellFormed)
    (he : encodeClause c = some it) (hsz : it.size < 2 ^ 64) : decodeClause it = some c := by
  unfold encodeClause at he
  cases hv : encodeBigInt c.Value with
  | none => rw [hv] at he; cases he
  | some value =>
    rw [hv] at he
    have hit := Option.some.inj he
    rw [← hit] at hsz ⊢
    have hsize : ∀ x ∈ [encodeFixedOpt 20 c.To, value, Item.str c.Data], x.size < 2 ^ 64 :=
      fun x hx => lt_of_le_of_lt (Item.size_le_encodeItems _ x hx) hsz
    unfold decodeClause
    dsimp only
    rw [readItems_encodeItems _ hsize]
    dsimp only [Option.bind]
    rw [decodeFixedOpt_encodeFixedOpt 20 c.To (by decide) hwf,
      (decodeBigInt_encodeBigInt c.Value value hv).1]
    rfl

/-- An accepted clause item is the encoding of the clause, which is well-formed. -/
theorem decodeClause_eq_some (it : Item) (c : Clause) (h : decodeClause it = some c) :
    encodeClause c = some it ∧ c.WellFormed := by
  cases it with
  | str s => cases h
  | list p =>
    unfold decodeClause at h
    dsimp only at h
    cases hr : readItems p with
    | none => rw [hr] at h; cases h
    | some its =>
      rw [hr] at h
      dsimp only [Option.bind] at h
      have hp := readItems_eq_some p its hr
      match its, h with
      | [to_, value, data], h =>
        dsimp only at h
        cases ht : decodeFixedOpt 20 to_ with
        | none => rw [ht] at h; cases h
        | some t =>
          rw [ht] at h
          dsimp only at h
          cases hv : decodeBigInt value with
          | none => rw [hv] at h; cases h
          | some v =>
            rw [hv] at h
            dsimp only at h
            cases hd : decodeBytes data with
            | none => rw [hd] at h; cases h
            | some d =>
              rw [hd] at h
              dsimp only at h
              rw [← Option.some.inj h]
              have h1 := decodeFixedOpt_eq_some 20 to_ t ht
              have h2 := decodeBigInt_eq_some value v hv
              have h3 := decodeBytes_eq_some data d hd
              refine ⟨?_, h1.2⟩
              unfold encodeClause
              dsimp only
              rw [h2.1]
              dsimp only [Option.bind]
              rw [hp, h1.1, h3]

/-- Well-formed clauses are decoded from their items. -/
theorem decodeClauseList_encodeClauseList (cs : List Clause) (its : List Item)
    (hwf : ∀ c ∈ cs, c.WellFormed) (he : encodeClauseList cs = some its)
    (hsz : ∀ it ∈ its, it.size < 2 ^ 64) : decodeClauseList its = some cs := by
  induction cs generalizing its with
  | nil =>
    rw [← Option.some.inj he]
    rfl
  | cons c cs ih =>
    unfold encodeClauseList at he
    cases hc : encodeClause c with
    | none => rw [hc] at he; cases he
    | some it =>
      rw [hc] at he
      dsimp only [Option.bind] at he
      cases hcs : encodeClauseList cs with
      | none => rw [hcs] at he; cases he
      | some its2 =>
        rw [hcs] at he
        dsimp only at he
        rw [← Option.some.inj he] at hsz ⊢
        unfold decodeClauseList
        rw [decodeClause_encodeClause c it (hwf c (List.mem_cons_self c cs)) hc
          (hsz it (List.mem_cons_self it its2))]
        dsimp only [Option.bind]
        rw [ih its2 (fun x hx => hwf x (List.mem_cons_of_mem c hx)) hcs
          (fun x hx => hsz x (List.mem_cons_of_mem it hx))]

/-- Accepted clause items are the encodings of the clauses, which are well-formed. -/
theorem decodeClauseList_eq_some (its : List Item) (cs : List Clause)
    (h : decodeClauseList its = some cs) :
    encodeClauseList cs = some its ∧ ∀ c ∈ cs, c.WellFormed := by
  induction its generalizing cs with
  | nil =>
    rw [← Option.some.inj h]
    exact ⟨rfl, fun c hc => by cases hc⟩
  | cons it its ih =>
    unfold decodeClauseList at h
    cases hc : decodeClause it with
    | none => rw [hc] at h; cases h
    | some c =>
      rw [hc] at h
      dsimp only [Option.bind] at h
      cases hcs : decodeClauseList its with
      | none => rw [hcs] at h; cases h
      | some cs2 =>
        rw [hcs] at h
        dsimp only at h
        rw [← Option.some.inj h]
        have h1 := decodeClause_eq_some it c hc
        have h2 := ih cs2 hcs
        refine ⟨?_, ?_⟩
        · unfold encodeClauseList
          rw [h1.1]
          dsimp only [Option.bind]
          rw [h2.1]
        · intro x hx
          rcases List.mem_cons.mp hx with e | e
          · rw [e]
            exact h1.2
          · exact h2.2 x e

/-- Well-formed clauses are decoded from the encoding of the `clauses` field. -/
theorem decodeClauses_encodeClauses (cs : List Clause) (it : Item)
    (hwf : ∀ c ∈ cs, c.WellFormed) (he : encodeClauses cs = some it)
    (hsz : it.size < 2 ^ 64) : decodeClauses it = some cs := by
  unfold encodeClauses at he
  cases hcs : encodeClauseList cs with
  | none => rw [hcs] at he; cases he
  | some its =>
    rw [hcs] at he
    dsimp only [Option.bind] at he
    rw [← Option.some.inj he] at hsz ⊢
    have hsize : ∀ x ∈ its, x.size < 2 ^ 64 :=
      fun x hx => lt_of_le_of_lt (Item.size_le_encodeItems _ x hx) hsz
    unfold decodeClauses
    dsimp only
    rw [readItems_encodeItems its hsize]
    exact decodeClauseList_encodeClauseList cs its hwf hcs hsize

/-- An accepted `clauses` field is the encoding of the clauses, which are well-formed. -/
theorem decodeClauses_eq_some (it : Item) (cs : List Clause) (h : decodeClauses it = some cs) :
    encodeClauses cs = some it ∧ ∀ c ∈ cs, c.WellFormed := by
  cases it with
  | str s => cases h
  | list p =>
    unfold decodeClauses at h
    dsimp only at h
    cases hr : readItems p with
    | none => rw [hr] at h; cases h
    | some its =>
      rw [hr] at h
      have h1 := decodeClauseList_eq_some its cs h
      refine ⟨?_, h1.2⟩
      unfold encodeClauses
      rw [h1.1]
      dsimp only [Option.bind]
      rw [← readItems_eq_some p its hr]

/-- Items that do not end with an empty string are in the trimmed form. -/
theorem trimEmpty_of_getLast (its : List Item) (h : its.getLast? ≠ some (.str [])) :
    trimEmpty its = its := by
  unfold trimEmpty
  rw [← List.head?_reverse] at h
  cases hr : its.reverse with
  | nil =>
    have : its = [] := List.reverse_eq_nil_iff.mp hr
    rw [this]
    rfl
  | cons y ys =>
    rw [hr] at h
    have hy : y ≠ .str [] := fun e => h (by rw [e]; rfl)
    rw [List.dropWhile_cons, if_neg (by simpa using hy), ← hr, List.reverse_reverse]

/-- Byte strings are decoded from their string items. -/
theorem decodeBytesList_map (ss : List (List Byte)) :
    decodeBytesList (ss.map Item.str) = some ss := by
  induction ss with
  | nil => rfl
  | cons s ss ih =>
    rw [List.map_cons]
    unfold decodeBytesList
    rw [ih]
    rfl

/-- Accepted unused slots are string items. -/
theorem decodeBytesList_eq_some (its : List Item) (ss : List (List Byte))
    (h : decodeBytesList its = some ss) : its = ss.map Item.str := by
  induction its generalizing ss with
  | nil =>
    rw [← Option.some.inj h]
    rfl
  | cons it its ih =>
    unfold decodeBytesList at h
    cases hd : decodeBytes it with
    | none => rw [hd] at h; cases h
    | some s =>
      rw [hd] at h
      dsimp only [Option.bind] at h
      cases hr : decodeBytesList its with
      | none => rw [hr] at h; cases h
      | some ss2 =>
        rw [hr] at h
        dsimp only at h
        rw [← Option.some.inj h, List.map_cons, ← ih ss2 hr, decodeBytes_eq_some it s hd]

/-- The minimal bytes of zero are the empty string. -/
theorem natToBytes_zero : natToBytes 0 = [] := by
  have h := natToBytes_length_le 0 0 (by decide)
  exact List.length_eq_zero.mp (Nat.le_zero.mp h)

/-- The minimal bytes of a positive number are not empty. -/
theorem natToBytes_ne_nil (n : Nat) (h : n ≠ 0) : natToBytes n ≠ [] := by
  intro e
  have := natToBytes_length_pos n (Nat.pos_of_ne_zero h)
  rw [e] at this
  exact Nat.lt_irrefl _ this

/-- The items of a well-formed reserved block are trimmed only when the block is
empty. -/
theorem trimEmpty_reserved (r : reserved) (hwf : r.WellFormed) :
    (r.Features = 0 ∧ r.Unused = [] ∧
      trimEmpty (encodeUint r.Features :: r.Unused.map Item.str) = []) ∨
    ((encodeUint r.Features :: r.Unused.map Item.str).getLast? ≠ some (.str []) ∧
      trimEmpty (encodeUint r.Features :: r.Unused.map Item.str)
        = encodeUint r.Features :: r.Unused.map Item.str) := by
  by_cases hu : r.Unused = []
  · by_cases hf : r.Features = 0
    · left
      refine ⟨hf, hu, ?_⟩
      rw [hu, hf]
      unfold encodeUint
      rw [natToBytes_zero]
      rfl
    · right
      have hl : (encodeUint r.Features :: r.Unused.map Item.str).getLast?
          ≠ some (.str []) := by
        rw [hu]
        unfold encodeUint
        intro e
        have e1 : natToBytes r.Features = [] := by
          simp only [List.map_nil, List.getLast?_singleton, Option.some.injEq,
            Item.str.injEq] at e
          exact e
        exact natToBytes_ne_nil _ hf e1
      exact ⟨hl, trimEmpty_of_getLast _ hl⟩
  · right
    have hl : (encodeUint r.Features :: r.Unused.map Item.str).getLast?
        ≠ some (.str []) := by
      intro e
      cases hus : r.Unused with
      | nil => exact hu hus
      | cons u us =>
        rw [hus, List.map_cons, List.getLast?_cons_cons, ← List.map_cons, List.getLast?_map] at e
        cases hl : (u :: us).getLast? with
        | none => rw [hl] at e; cases e
        | some x =>
          rw [hl] at e
          have hx : x = [] := Item.str.inj (Option.some.inj e)
          exact hwf.2 (by rw [hus, hl, hx])
    exact ⟨hl, trimEmpty_of_getLast _ hl⟩

/-- A well-formed reserved block is decoded from its encoding. -/
theorem decodeReserved_encodeReserved (r : reserved) (hwf : r.WellFormed)
    (hsz : (encodeReserved r).size < 2 ^ 64) : decodeReserved (encodeReserved r) = some r := by
  unfold encodeReserved at hsz ⊢
  have hsize : ∀ x ∈ trimEmpty (encodeUint r.Features :: r.Unused.map Item.str),
      x.size < 2 ^ 64 :=
    fun x hx => lt_of_le_of_lt (Item.size_le_encodeItems _ x hx) hsz
  unfold decodeReserved
  dsimp only
  rw [readItems_encodeItems _ hsize]
  dsimp only [Option.bind]
  rcases trimEmpty_reserved r hwf with ⟨hf, hu, ht⟩ | ⟨hl, ht⟩
  · rw [ht]
    dsimp only
    cases r with
    | mk F U =>
      dsimp only at hf hu
      rw [hf, hu]
  · rw [ht]
    dsimp only
    rw [if_neg hl, decodeUint_encodeUint 4 r.Features hwf.1]
    dsimp only
    rw [decodeBytesList_map]

/-- An accepted reserved block is canonically encoded and well-formed. -/
theorem decodeReserved_eq_some (it : Item) (r : reserved) (h : decodeReserved it = some r) :
    it = encodeReserved r ∧ r.WellFormed := by
  cases it with
  | str s => cases h
  | list p =>
    unfold decodeReserved at h
    dsimp only at h
    cases hr : readItems p with
    | none => rw [hr] at h; cases h
    | some its =>
      rw [hr] at h
      dsimp only [Option.bind] at h
      have hp := readItems_eq_some p its hr
      match its, h with
      | [], h =>
        dsimp only at h
        rw [← Option.some.inj h, hp]
        refine ⟨?_, by decide, by decide⟩
        unfold encodeReserved encodeUint
        dsimp only
        rw [natToBytes_zero]
        rfl
      | f :: us, h =>
        dsimp only at h
        by_cases hl : (f :: us).getLast? = some (.str [])
        · rw [if_pos hl] at h
          cases h
        · rw [if_neg hl] at h
          cases hf : decodeUint 4 f with
          | none => rw [hf] at h; cases h
          | some features =>
            rw [hf] at h
            dsimp only at h
            cases hu : decodeBytesList us with
            | none => rw [hu] at h; cases h
            | some unused =>
              rw [hu] at h
              dsimp only at h
              rw [← Option.some.inj h]
              have h1 := decodeUint_eq_some 4 f features hf
              have h2 := decodeBytesList_eq_some us unused hu
              have hitems : f :: us = encodeUint features :: unused.map Item.str := by
                rw [h1.1, h2]
              refine ⟨?_, h1.2, ?_⟩
              · unfold encodeReserved
                dsimp only
                rw [← hitems, trimEmpty_of_getLast _ hl, hp]
              · dsimp only
                intro e
                apply hl
                rw [hitems]
                cases hun : unused with
                | nil => rw [hun] at e; cases e
                | cons u us2 =>
                  rw [List.map_cons, List.getLast?_cons_cons, ← List.map_cons,
                    List.getLast?_map, ← hun, e]
                  rfl

/-- A non-negative big integer has an encoding. -/
theorem encodeBigInt_of_nonneg (v : Int) (h : 0 ≤ v) :
    encodeBigInt v = some (.str (natToBytes v.toNat)) := by
  unfold encodeBigInt
  rw [if_neg (by omega)]

/-- Clauses with non-negative values have an encoding. -/
theorem encodeClauseList_of_nonneg (cs : List Clause) (h : ∀ c ∈ cs, 0 ≤ c.Value) :
    ∃ its, encodeClauseList cs = some its := by
  induction cs with
  | nil => exact ⟨[], rfl⟩
  | cons c cs ih =>
    obtain ⟨its, hits⟩ := ih (fun x hx => h x (List.mem_cons_of_mem c hx))
    unfold encodeClauseList encodeClause
    rw [encodeBigInt_of_nonneg c.Value (h c (List.mem_cons_self c cs)), hits]
    exact ⟨_, rfl⟩

/-- The `clauses` field of clauses with non-negative values has an encoding. -/
theorem encodeClauses_of_nonneg (cs : List Clause) (h : ∀ c ∈ cs, 0 ≤ c.Value) :
    ∃ it, encodeClauses cs = some it := by
  obtain ⟨its, hits⟩ := encodeClauseList_of_nonneg cs h
  unfold encodeClauses
  rw [hits]
  exact ⟨_, rfl⟩

/-- The encoding of a list starts with a byte of `0xc0` or more. -/
theorem encodeList_head (payload : List Byte) (h : payload.length < 2 ^ 64) :
    ∃ hd tl, encodeList payload = hd :: tl ∧ 0xc0 ≤ hd.val := by
  unfold encodeList encodeLength
  by_cases h56 : payload.length < 56
  · rw [if_pos h56]
    exact ⟨_, _, rfl, by rw [byte_val _ (by omega)]; omega⟩
  · rw [if_neg h56]
    have hle := natToBytes_length_le_eight payload.length h
    exact ⟨_, _, rfl, by rw [byte_val _ (by omega)]; omega⟩

/-- The items of a well-formed dynamic-fee body. -/
theorem dynamicFee_toItems_eq (t : dynamicFeeTransaction) (hwf : t.WellFormed) :
    ∃ cl mp mf, encodeClauses t.Clauses = some cl ∧
      t.MaxPriorityFeePerGas = some mp ∧ 0 ≤ mp ∧ t.MaxFeePerGas = some mf ∧ 0 ≤ mf ∧
      t.toItems = some [encodeUint t.ChainTag, encodeUint t.BlockRef,
        encodeUint t.Expiration, cl, .str (natToBytes mp.toNat), .str (natToBytes mf.toNat),
        encodeUint t.Gas, encodeFixedOpt 32 t.DependsOn, encodeUint t.Nonce,
        encodeReserved t.Reserved, .str t.Signature] := by
  obtain ⟨_, _, _, hcs, ⟨mp, hmp, hmp0⟩, ⟨mf, hmf, hmf0⟩, _, _, _, _⟩ := hwf
  obtain ⟨cl, hcl⟩ := encodeClauses_of_nonneg t.Clauses (fun c hc => (hcs c hc).2)
  refine ⟨cl, mp, mf, hcl, hmp, hmp0, hmf, hmf0, ?_⟩
  unfold dynamicFeeTransaction.toItems
  rw [hcl, hmp, hmf]
  dsimp only [Option.bind, Option.getD]
  rw [encodeBigInt_of_nonneg mp hmp0, encodeBigInt_of_nonneg mf hmf0]

/-- A well-formed dynamic-fee body has an encoding, a list. -/
theorem dynamicFee_encode_ok (t : dynamicFeeTransaction) (hwf : t.WellFormed) :
    ∃ its, t.toItems = some its ∧ t.encode = .ok (encodeList (encodeItems its)) := by
  obtain ⟨cl, mp, mf, _, _, _, _, _, hits⟩ := dynamicFee_toItems_eq t hwf
  refine ⟨_, hits, ?_⟩
  unfold dynamicFeeTransaction.encode
  rw [hits]

/-- A well-formed dynamic-fee body is decoded from its encoding, when that is shorter
than `2 ^ 64` bytes. -/
theorem dynamicFee_decode_encode (t : dynamicFeeTransaction) (hwf : t.WellFormed)
    (enc : List Byte) (he : t.encode = .ok enc) (hsz : enc.length < 2 ^ 64) :
    dynamicFeeTransaction.decode enc = .ok t := by
  obtain ⟨cl, mp, mf, hcl, hmp, hmp0, hmf, hmf0, hits⟩ := dynamicFee_toItems_eq t hwf
  obtain ⟨h1, h2, h3, hcs, _, _, h7, h8, h9, h10⟩ := hwf
  unfold dynamicFeeTransaction.encode at he
  rw [hits] at he
  have henc := Except.ok.inj he
  rw [← henc] at hsz ⊢
  have hpay := (Item.list (encodeItems [encodeUint t.ChainTag, encodeUint t.BlockRef,
        encodeUint t.Expiration, cl, .str (natToBytes mp.toNat), .str (natToBytes mf.toNat),
        encodeUint t.Gas, encodeFixedOpt 32 t.DependsOn, encodeUint t.Nonce,
        encodeReserved t.Reserved, .str t.Signature])).size_le_encode_length
  have hsize : ∀ x ∈ [encodeUint t.ChainTag, encodeUint t.BlockRef,
        encodeUint t.Expiration, cl, .str (natToBytes mp.toNat), .str (natToBytes mf.toNat),
        encodeUint t.Gas, encodeFixedOpt 32 t.DependsOn, encodeUint t.Nonce,
        encodeReserved t.Reserved, .str t.Signature], x.size < 2 ^ 64 :=
    fun x hx => lt_of_le_of_lt (Nat.le_trans (Item.size_le_encodeItems _ x hx) hpay) hsz
  have hread := readItem_encode (Item.list (encodeItems [encodeUint t.ChainTag,
        encodeUint t.BlockRef,
        encodeUint t.Expiration, cl, .str (natToBytes mp.toNat), .str (natToBytes mf.toNat),
        encodeUint t.Gas, encodeFixedOpt 32 t.DependsOn, encodeUint t.Nonce,
        encodeReserved t.Reserved, .str t.Signature])) [] (lt_of_le_of_lt hpay hsz)
  rw [List.append_nil] at hread
  unfold dynamicFeeTransaction.decode
  rw [show encodeList _ = (Item.list _).encode from rfl, hread]
  dsimp only
  rw [readItems_encodeItems _ hsize]
  dsimp only [Option.bind, dynamicFeeTransaction.ofItems]
  rw [decodeUint_encodeUint 1 t.ChainTag (by omega),
    decodeUint_encodeUint 8 t.BlockRef (lt_of_lt_of_le h2 (by norm_num)),
    decodeUint_encodeUint 4 t.Expiration (lt_of_lt_of_le h3 (by norm_num)),
    decodeClauses_encodeClauses t.Clauses cl (fun c hc => (hcs c hc).1) hcl
      (hsize cl (by simp)),
    (decodeBigInt_encodeBigInt mp _ (encodeBigInt_of_nonneg mp hmp0)).1,
    (decodeBigInt_encodeBigInt mf _ (encodeBigInt_of_nonneg mf hmf0)).1,
    decodeUint_encodeUint 8 t.Gas (lt_of_lt_of_le h7 (by norm_num)),
    decodeFixedOpt_encodeFixedOpt 32 t.DependsOn (by decide)
      (fun d hd => lt_of_lt_of_le (h8 d hd) (by norm_num)),
    decodeUint_encodeUint 8 t.Nonce (lt_of_lt_of_le h9 (by norm_num)),
    decodeReserved_encodeReserved t.Reserved h10 (hsize _ (by simp))]
  dsimp only [decodeBytes]
  rw [← hmp, ← hmf]

/-- An encoded clause has a non-negative value. -/
theorem encodeClause_nonneg (c : Clause) (it : Item) (h : encodeClause c = some it) :
    0 ≤ c.Value := by
  unfold encodeClause encodeBigInt at h
  by_cases hv : c.Value < 0
  · rw [if_pos hv] at h
    cases h
  · omega

/-- Encoded clauses have non-negative values. -/
theorem encodeClauseList_nonneg (cs : List Clause) (its : List Item)
    (h : encodeClauseList cs = some its) : ∀ c ∈ cs, 0 ≤ c.Value := by
  induction cs generalizing its with
  | nil => exact fun c hc => by cases hc
  | cons c cs ih =>
    unfold encodeClauseList at h
    cases hc : encodeClause c with
    | none => rw [hc] at h; cases h
    | some it =>
      rw [hc] at h
      dsimp only [Option.bind] at h
      cases hcs : encodeClauseList cs with
      | none => rw [hcs] at h; cases h
      | some its2 =>
        intro x hx
        rcases List.mem_cons.mp hx with e | e
        · rw [e]
          exact encodeClause_nonneg c it hc
        · exact ih its2 hcs x e

/-- An encoded `clauses` field holds clauses with non-negative values. -/
theorem encodeClauses_nonneg (cs : List Clause) (it : Item) (h : encodeClauses cs = some it) :
    ∀ c ∈ cs, 0 ≤ c.Value := by
  unfold encodeClauses at h
  cases hcs : encodeClauseList cs with
  | none => rw [hcs] at h; cases h
  | some its => exact encodeClauseList_nonneg cs its hcs

/-- Accepted items of a dynamic-fee body are the items of the decoded body, which is
well-formed. -/
theorem dynamicFee_ofItems_eq_some (its : List Item) (t : dynamicFeeTransaction)
    (h : dynamicFeeTransaction.ofItems its = some t) : t.toItems = some its ∧ t.WellFormed := by
  match its, h with
  | [chainTag, blockRef, expiration, clauses, maxPriorityFeePerGas, maxFeePerGas, gas,
      dependsOn, nonce, reserved, signature], h =>
    simp only [dynamicFeeTransaction.ofItems, Option.bind_eq_some] at h
    obtain ⟨ct, hct, br, hbr, ex, hex, cs, hcs, mp, hmp, mf, hmf, g, hg, d, hd, n, hn, r, hr,
      sig, hsig, ht⟩ := h
    have e1 := decodeUint_eq_some 1 _ _ hct
    have e2 := decodeUint_eq_some 8 _ _ hbr
    have e3 := decodeUint_eq_some 4 _ _ hex
    have e4 := decodeClauses_eq_some _ _ hcs
    have e5 := decodeBigInt_eq_some _ _ hmp
    have e6 := decodeBigInt_eq_some _ _ hmf
    have e7 := decodeUint_eq_some 8 _ _ hg
    have e8 := decodeFixedOpt_eq_some 32 _ _ hd
    have e9 := decodeUint_eq_some 8 _ _ hn
    have e10 := decodeReserved_eq_some _ _ hr
    have e11 := decodeBytes_eq_some _ _ hsig
    have hv0 : ∀ c ∈ cs, 0 ≤ c.Value := encodeClauses_nonneg cs _ e4.1
    rw [← Option.some.inj ht]
    refine ⟨?_, ?_⟩
    · unfold dynamicFeeTransaction.toItems
      dsimp only [Option.getD]
      rw [e4.1, e5.1, e6.1]
      dsimp only [Option.bind]
      rw [← e1.1, ← e2.1, ← e3.1, ← e7.1, ← e8.1, ← e9.1, ← e10.1, ← e11]
    · refine ⟨lt_of_lt_of_le e1.2 (by norm_num), lt_of_lt_of_le e2.2 (by norm_num),
        lt_of_lt_of_le e3.2 (by norm_num), fun c hc => ⟨e4.2 c hc, hv0 c hc⟩,
        ⟨mp, rfl, e5.2⟩, ⟨mf, rfl, e6.2⟩, lt_of_lt_of_le e7.2 (by norm_num),
        fun x hx => lt_of_lt_of_le (e8.2 x hx) (by norm_num),
        lt_of_lt_of_le e9.2 (by norm_num), e10.2⟩

/-- An accepted input is the encoding of the dynamic-fee body decoded from it, which is
well-formed. -/
theorem dynamicFee_decode_eq_ok (input : List Byte) (t : dynamicFeeTransaction)
    (h : dynamicFeeTransaction.decode input = .ok t) :
    t.encode = .ok input ∧ t.WellFormed := by
  unfold dynamicFeeTransaction.decode at h
  cases hr : readItem input with
  | none => rw [hr] at h; cases h
  | some pr =>
    obtain ⟨it, rest⟩ := pr
    rw [hr] at h
    have hin := readItem_eq_some input it rest hr
    match it, rest, h with
    | .list payload, [], h =>
      dsimp only at h
      cases hits : readItems payload with
      | none => rw [hits] at h; cases h
      | some its =>
        rw [hits] at h
        dsimp only [Option.bind] at h
        cases hof : dynamicFeeTransaction.ofItems its with
        | none => rw [hof] at h; cases h
        | some t2 =>
          rw [hof] at h
          dsimp only at h
          rw [← Except.ok.inj h]
          have h1 := dynamicFee_ofItems_eq_some its t2 hof
          refine ⟨?_, h1.2⟩
          unfold dynamicFeeTransaction.encode
          rw [h1.1]
          dsimp only
          rw [hin, List.append_nil, ← readItems_eq_some payload its hits]
          rfl

/-- The items of a well-formed legacy body. -/
theorem legacy_toItems_eq (t : legacyTransaction) (hwf : t.WellFormed) :
    ∃ cl, encodeClauses t.Clauses = some cl ∧
      t.toItems = some [encodeUint t.ChainTag, encodeUint t.BlockRef,
        encodeUint t.Expiration, cl, encodeUint t.GasPriceCoef,
        encodeUint t.Gas, encodeFixedOpt 32 t.DependsOn, encodeUint t.Nonce,
        encodeReserved t.Reserved, .str t.Signature] := by
  obtain ⟨_, _, _, hcs, _, _, _, _, _⟩ := hwf
  obtain ⟨cl, hcl⟩ := encodeClauses_of_nonneg t.Clauses (fun c hc => (hcs c hc).2)
  refine ⟨cl, hcl, ?_⟩
  unfold legacyTransaction.toItems
  rw [hcl]
  rfl

/-- A well-formed legacy body has an encoding, a list. -/
theorem legacy_encode_ok (t : legacyTransaction) (hwf : t.WellFormed) :
    ∃ its, t.toItems = some its ∧ t.encode = .ok (encodeList (encodeItems its)) := by
  obtain ⟨cl, _, hits⟩ := legacy_toItems_eq t hwf
  refine ⟨_, hits, ?_⟩
  unfold legacyTransaction.encode
  rw [hits]

/-- A well-formed legacy body is decoded from its encoding, when that is shorter than
`2 ^ 64` bytes. -/
theorem legacy_decode_encode (t : legacyTransaction) (hwf : t.WellFormed)
    (enc : List Byte) (he : t.encode = .ok enc) (hsz : enc.length < 2 ^ 64) :
    legacyTransaction.decode enc = .ok t := by
  obtain ⟨cl, hcl, hits⟩ := legacy_toItems_eq t hwf
  obtain ⟨h1, h2, h3, hcs, h5, h7, h8, h9, h10⟩ := hwf
  unfold legacyTransaction.encode at he
  rw [hits] at he
  have henc := Except.ok.inj he
  rw [← henc] at hsz ⊢
  have hpay := (Item.list (encodeItems [encodeUint t.ChainTag, encodeUint t.BlockRef,
        encodeUint t.Expiration, cl, encodeUint t.GasPriceCoef,
        encodeUint t.Gas, encodeFixedOpt 32 t.DependsOn, encodeUint t.Nonce,
        encodeReserved t.Reserved, .str t.Signature])).size_le_encode_length
  have hsize : ∀ x ∈ [encodeUint t.ChainTag, encodeUint t.BlockRef,
        encodeUint t.Expiration, cl, encodeUint t.GasPriceCoef,
        encodeUint t.Gas, encodeFixedOpt 32 t.DependsOn, encodeUint t.Nonce,
        encodeReserved t.Reserved, .str t.Signature], x.size < 2 ^ 64 :=
    fun x hx => lt_of_le_of_lt (Nat.le_trans (Item.size_le_encodeItems _ x hx) hpay) hsz
  have hread := readItem_encode (Item.list (encodeItems [encodeUint t.ChainTag,
        encodeUint t.BlockRef,
        encodeUint t.Expiration, cl, encodeUint t.GasPriceCoef,
        encodeUint t.Gas, encodeFixedOpt 32 t.DependsOn, encodeUint t.Nonce,
        encodeReserved t.Reserved, .str t.Signature])) [] (lt_of_le_of_lt hpay hsz)
  rw [List.append_nil] at hread
  unfold legacyTransaction.decode
  rw [show encodeList _ = (Item.list _).encode from rfl, hread]
  dsimp only
  rw [readItems_encodeItems _ hsize]
  dsimp only [Option.bind, legacyTransaction.ofItems]
  rw [decodeUint_encodeUint 1 t.ChainTag (by omega),
    decodeUint_encodeUint 8 t.BlockRef (lt_of_lt_of_le h2 (by norm_num)),
    decodeUint_encodeUint 4 t.Expiration (lt_of_lt_of_le h3 (by norm_num)),
    decodeClauses_encodeClauses t.Clauses cl (fun c hc => (hcs c hc).1) hcl
      (hsize cl (by simp)),
    decodeUint_encodeUint 1 t.GasPriceCoef (by omega),
    decodeUint_encodeUint 8 t.Gas (lt_of_lt_of_le h7 (by norm_num)),
    decodeFixedOpt_encodeFixedOpt 32 t.DependsOn (by decide)
      (fun d hd => lt_of_lt_of_le (h8 d hd) (by norm_num)),
    decodeUint_encodeUint 8 t.Nonce (lt_of_lt_of_le h9 (by norm_num)),
    decodeReserved_encodeReserved t.Reserved h10 (hsize _ (by simp))]
  rfl

/-- Accepted items of a legacy body are the items of the decoded body, which is
well-formed. -/
theorem legacy_ofItems_eq_some (its : List Item) (t : legacyTransaction)
    (h : legacyTransaction.ofItems its = some t) : t.toItems = some its ∧ t.WellFormed := by
  match its, h with
  | [chainTag, blockRef, expiration, clauses, gasPriceCoef, gas,
      dependsOn, nonce, reserved, signature], h =>
    simp only [legacyTransaction.ofItems, Option.bind_eq_some] at h
    obtain ⟨ct, hct, br, hbr, ex, hex, cs, hcs, gpc, hgpc, g, hg, d, hd, n, hn, r, hr,
      sig, hsig, ht⟩ := h
    have e1 := decodeUint_eq_some 1 _ _ hct
    have e2 := decodeUint_eq_some 8 _ _ hbr
    have e3 := decodeUint_eq_some 4 _ _ hex
    have e4 := decodeClauses_eq_some _ _ hcs
    have e5 := decodeUint_eq_some 1 _ _ hgpc
    have e7 := decodeUint_eq_some 8 _ _ hg
    have e8 := decodeFixedOpt_eq_some 32 _ _ hd
    have e9 := decodeUint_eq_some 8 _ _ hn
    have e10 := decodeReserved_eq_some _ _ hr
    have e11 := decodeBytes_eq_some _ _ hsig
    have hv0 : ∀ c ∈ cs, 0 ≤ c.Value := encodeClauses_nonneg cs _ e4.1
    rw [← Option.some.inj ht]
    refine ⟨?_, ?_⟩
    · unfold legacyTransaction.toItems
      dsimp only
      rw [e4.1]
      dsimp only [Option.bind]
      rw [← e1.1, ← e2.1, ← e3.1, ← e5.1, ← e7.1, ← e8.1, ← e9.1, ← e10.1, ← e11]
    · exact ⟨lt_of_lt_of_le e1.2 (by norm_num), lt_of_lt_of_le e2.2 (by norm_num),
        lt_of_lt_of_le e3.2 (by norm_num), fun c hc => ⟨e4.2 c hc, hv0 c hc⟩,
        lt_of_lt_of_le e5.2 (by norm_num), lt_of_lt_of_le e7.2 (by norm_num),
        fun x hx => lt_of_lt_of_le (e8.2 x hx) (by norm_num),
        lt_of_lt_of_le e9.2 (by norm_num), e10.2⟩

/-- An accepted input is the encoding of the legacy body decoded from it, which is
well-formed. -/
theorem legacy_decode_eq_ok (input : List Byte) (t : legacyTransaction)
    (h : legacyTransaction.decode input = .ok t) :
    t.encode = .ok input ∧ t.WellFormed := by
  unfold legacyTransaction.decode at h
  cases hr : readItem input with
  | none => rw [hr] at h; cases h
  | some pr =>
    obtain ⟨it, rest⟩ := pr
    rw [hr] at h
    have hin := readItem_eq_some input it rest hr
    match it, rest, h with
    | .list payload, [], h =>
      dsimp only at h
      cases hits : readItems payload with
      | none => rw [hits] at h; cases h
      | some its =>
        rw [hits] at h
        dsimp only [Option.bind] at h
        cases hof : legacyTransaction.ofItems its with
        | none => rw [hof] at h; cases h
        | some t2 =>
          rw [hof] at h
          dsimp only at h
          rw [← Except.ok.inj h]
          have h1 := legacy_ofItems_eq_some its t2 hof
          refine ⟨?_, h1.2⟩
          unfold legacyTransaction.encode
          rw [h1.1]
          dsimp only
          rw [hin, List.append_nil, ← readItems_eq_some payload its hits]
          rfl

/-! ## The round trip of `MarshalBinary` and `UnmarshalBinary` -/

/-- The body that `setDecoded` leaves is the one it is given. -/
theorem Transaction.setDecoded_body (t : Transaction) (body : txData) (size : Nat) :
    (t.setDecoded body size).body = body := by
  unfold Transaction.setDecoded
  split <;> rfl

/-- With a non-zero size, `setDecoded` stores the body and the size. -/
theorem Transaction.setDecoded_pos (t : Transaction) (body : txData) (size : Nat)
    (h : 0 < size) :
    t.setDecoded body size = { body := body, cache := { t.cache with size := size } } := by
  unfold Transaction.setDecoded
  rw [if_pos h]

/-- The encoding of a well-formed legacy transaction is decoded, into any receiver, to
its body. -/
theorem UnmarshalBinary_MarshalBinary_legacy (t u : Transaction) (b : legacyTransaction)
    (hb : t.body = .legacy b) (hwf : b.WellFormed) :
    ∃ enc, t.MarshalBinary rlpCodec = .ok enc ∧
      (enc.length < 2 ^ 64 →
        u.UnmarshalBinary rlpCodec enc
          = (none, { body := t.body, cache := { u.cache with size := enc.length } })) := by
  obtain ⟨its, hits, henc⟩ := legacy_encode_ok b hwf
  refine ⟨encodeList (encodeItems its), ?_, ?_⟩
  · unfold Transaction.MarshalBinary
    rw [hb]
    show (match b.encode with
      | .error err => Except.error (Error.external err)
      | .ok enc => Except.ok enc) = _
    rw [henc]
  · intro hsz
    have hpay : (encodeItems its).length < 2 ^ 64 :=
      lt_of_le_of_lt (Item.list (encodeItems its)).size_le_encode_length hsz
    obtain ⟨hd, tl, hcons, hhd⟩ := encodeList_head (encodeItems its) hpay
    have hdec := legacy_decode_encode b hwf _ henc hsz
    rw [hcons] at hdec hsz ⊢
    unfold Transaction.UnmarshalBinary
    dsimp only
    rw [decide_eq_true (by omega : hd.val > 0x7f), if_pos rfl]
    show (match legacyTransaction.decode (hd :: tl) with
      | .error err => (some (Error.external err), u)
      | .ok data => (none, u.setDecoded (.legacy data) ((hd :: tl).length % 2 ^ 64))) = _
    rw [hdec]
    dsimp only
    rw [Nat.mod_eq_of_lt hsz, Transaction.setDecoded_pos _ _ _ (by simp), hb]

/-- The encoding of a well-formed dynamic-fee transaction is the byte `0x51` followed by
the list of its fields, and is decoded, into any receiver, to its body. -/
theorem UnmarshalBinary_MarshalBinary_dynamicFee (t u : Transaction)
    (b : dynamicFeeTransaction) (hb : t.body = .dynamicFee b) (hwf : b.WellFormed) :
    ∃ its, b.toItems = some its ∧
      t.MarshalBinary rlpCodec = .ok (0x51 :: encodeList (encodeItems its)) ∧
      ((0x51 :: encodeList (encodeItems its)).length < 2 ^ 64 →
        u.UnmarshalBinary rlpCodec (0x51 :: encodeList (encodeItems its))
          = (none, { body := t.body,
                     cache := { u.cache with
                       size := (0x51 :: encodeList (encodeItems its)).length } })) := by
  obtain ⟨its, hits, henc⟩ := dynamicFee_encode_ok b hwf
  refine ⟨its, hits, ?_, ?_⟩
  · unfold Transaction.MarshalBinary
    rw [hb]
    dsimp only
    unfold Transaction.encodeTyped Transaction.encodeBody Transaction.txType
    rw [hb]
    show (match b.encode with
      | .error err => Except.error (Error.external err)
      | .ok enc => Except.ok (Fin.ofNat TypeDynamicFee :: enc)) = _
    rw [henc]
    rfl
  · intro hsz
    have hsz2 : (encodeList (encodeItems its)).length < 2 ^ 64 := by
      rw [List.length_cons] at hsz
      omega
    have hpos : 0 < (encodeList (encodeItems its)).length :=
      (Item.list (encodeItems its)).encode_length_pos
    have hdec := dynamicFee_decode_encode b hwf _ henc hsz2
    unfold Transaction.UnmarshalBinary
    dsimp only
    have h51 : ((0x51 : Byte)).val = 0x51 := rfl
    rw [decide_eq_false (by rw [h51]; decide : ¬ ((0x51 : Byte)).val > 0x7f)]
    have hty : Transaction.decodeTyped rlpCodec (0x51 :: encodeList (encodeItems its))
        = .ok (.dynamicFee b) := by
      unfold Transaction.decodeTyped
      rw [if_neg (by rw [List.length_cons]; omega)]
      dsimp only
      rw [if_pos (by rw [h51]; rfl)]
      show (match dynamicFeeTransaction.decode (encodeList (encodeItems its)) with
        | .error err => Except.error (Error.external err)
        | .ok body => Except.ok (txData.dynamicFee body)) = _
      rw [hdec]
    simp only [hty]
    rw [Nat.mod_eq_of_lt hsz, Transaction.setDecoded_pos _ _ _ (by simp), hb]
    rfl

/-- Every input that `UnmarshalBinary` accepts is the encoding of the transaction it
leaves in the receiver, whose body is well-formed. -/
theorem MarshalBinary_UnmarshalBinary (u u2 : Transaction) (input : List Byte)
    (h : u.UnmarshalBinary rlpCodec input = (none, u2)) :
    u2.MarshalBinary rlpCodec = .ok input ∧ u2.WellFormed := by
  unfold Transaction.UnmarshalBinary at h
  dsimp only at h
  cases input with
  | nil =>
    dsimp only at h
    rw [if_neg (by decide)] at h
    have hd : Transaction.decodeTyped rlpCodec [] = .error .shortTypedTx := rfl
    rw [hd] at h
    cases h
  | cons b0 tl =>
    dsimp only at h
    by_cases hleg : b0.val > 0x7f
    · rw [decide_eq_true hleg, if_pos rfl] at h
      cases hdec : legacyTransaction.decode (b0 :: tl) with
      | error err =>
        have h2 : rlpCodec.DecodeLegacy (b0 :: tl) = .error err := hdec
        rw [h2] at h
        cases h
      | ok data =>
        have h2 : rlpCodec.DecodeLegacy (b0 :: tl) = .ok data := hdec
        rw [h2] at h
        dsimp only at h
        have hu2 := (Prod.mk.inj h).2
        have hbody : u2.body = .legacy data := by
          rw [← hu2, Transaction.setDecoded_body]
        have hcan := legacy_decode_eq_ok _ _ hdec
        refine ⟨?_, ?_⟩
        · unfold Transaction.MarshalBinary
          rw [hbody]
          show (match data.encode with
            | .error err => Except.error (Error.external err)
            | .ok enc => Except.ok enc) = _
          rw [hcan.1]
        · unfold Transaction.WellFormed
          rw [hbody]
          exact hcan.2
    · rw [decide_eq_false hleg, if_neg (by decide)] at h
      cases hty : Transaction.decodeTyped rlpCodec (b0 :: tl) with
      | error err =>
        rw [hty] at h
        cases h
      | ok body =>
        rw [hty] at h
        dsimp only at h
        have hu2 := (Prod.mk.inj h).2
        have hbody : u2.body = body := by
          rw [← hu2, Transaction.setDecoded_body]
        unfold Transaction.decodeTyped at hty
        by_cases hlen : (b0 :: tl).length ≤ 1
        · rw [if_pos hlen] at hty
          cases hty
        · rw [if_neg hlen] at hty
          dsimp only at hty
          by_cases h51 : b0.val = TypeDynamicFee
          · rw [if_pos h51] at hty
            cases hdec : dynamicFeeTransaction.decode tl with
            | error err =>
              have h2 : rlpCodec.DecodeDynamicFee tl = .error err := hdec
              rw [h2] at hty
              cases hty
            | ok data =>
              have h2 : rlpCodec.DecodeDynamicFee tl = .ok data := hdec
              rw [h2] at hty
              dsimp only at hty
              have hb2 : u2.body = .dynamicFee data := by
                rw [hbody, ← Except.ok.inj hty]
              have hcan := dynamicFee_decode_eq_ok _ _ hdec
              refine ⟨?_, ?_⟩
              · unfold Transaction.MarshalBinary
                rw [hb2]
                dsimp only
                unfold Transaction.encodeTyped Transaction.encodeBody Transaction.txType
                rw [hb2]
                show (match data.encode with
                  | .error err => Except.error (Error.external err)
                  | .ok enc => Except.ok (Fin.ofNat TypeDynamicFee :: enc)) = _
                rw [hcan.1]
                dsimp only
                rw [byte_eq b0 TypeDynamicFee h51]
              · unfold Transaction.WellFormed
                rw [hb2]
                exact hcan.2
          · rw [if_neg h51] at hty
            cases hty

/-- Claim C20. For every transaction `t` with a well-formed body, `MarshalBinary` succeeds;
for a dynamic-fee body its result is the byte `0x51` followed by the list of the body
fields; and `UnmarshalBinary` of the result (a Go byte slice, shorter than `2 ^ 64`), into
any receiver `u`, succeeds and leaves a transaction of the same type with the body of
`t`, and the length of the input as cached size. And every input that `UnmarshalBinary`
accepts is the `MarshalBinary` encoding of the transaction it leaves. -/
theorem MarshalBinary_roundtrip (t u : Transaction) :
    (t.WellFormed →
      ∃ enc, t.MarshalBinary rlpCodec = .ok enc ∧
        (∀ b, t.body = .dynamicFee b →
          ∃ its, b.toItems = some its ∧ enc = 0x51 :: encodeList (encodeItems its)) ∧
        (enc.length < 2 ^ 64 →
          u.UnmarshalBinary rlpCodec enc
            = (none, { body := t.body, cache := { u.cache with size := enc.length } }) ∧
          (u.UnmarshalBinary rlpCodec enc).2.txType = t.txType)) ∧
    (∀ input u2, u.UnmarshalBinary rlpCodec input = (none, u2) →
      u2.MarshalBinary rlpCodec = .ok input) := by
  refine ⟨fun hwf => ?_, fun input u2 h => (MarshalBinary_UnmarshalBinary u u2 input h).1⟩
  unfold Transaction.WellFormed at hwf
  cases hb : t.body with
  | legacy b =>
    rw [hb] at hwf
    obtain ⟨enc, henc, hdec⟩ := UnmarshalBinary_MarshalBinary_legacy t u b hb hwf
    refine ⟨enc, henc, (fun b2 e => by cases e), fun hsz => ?_⟩
    rw [hdec hsz]
    unfold Transaction.txType
    rw [hb]
    exact ⟨rfl, rfl⟩
  | dynamicFee b =>
    rw [hb] at hwf
    obtain ⟨its, hits, henc, hdec⟩ := UnmarshalBinary_MarshalBinary_dynamicFee t u b hb hwf
    refine ⟨_, henc, fun b2 e => ?_, fun hsz => ?_⟩
    · rw [← txData.dynamicFee.inj e]
      exact ⟨its, hits, rfl⟩
    · rw [hdec hsz]
      unfold Transaction.txType
      rw [hb]
      exact ⟨rfl, rfl⟩

/-- The example dynamic-fee transaction is well-formed. -/
theorem exampleDynamicTx_wellFormed : exampleDynamicTx.WellFormed := by
  refine ⟨by decide, by decide, by decide, ?_, ⟨5, rfl, by decide⟩, ⟨80, rfl, by decide⟩,
    by decide, (fun d h => by cases h), by decide, by decide, by decide⟩
  intro c hc
  simp only [List.mem_cons, List.mem_singleton, List.not_mem_nil, or_false, or_self] at hc
  rw [hc]
  exact ⟨fun a h => by rw [← Option.some.inj h]; decide, by decide⟩

set_option maxRecDepth 100000 in
/-- The round trip of claim C20 on the example dynamic-fee transaction, decoded into a
receiver that holds the example legacy transaction: the encoding has 130 bytes and gives
the body back; and the 13 bytes of a dynamic-fee transaction without clauses, once
accepted, are re-encoded to themselves. -/
theorem MarshalBinary_roundtrip_witness :
    exampleDynamicTx.WellFormed ∧
    (∃ enc, exampleDynamicTx.MarshalBinary rlpCodec = .ok enc ∧ enc.length = 130 ∧
      exampleLegacyTx.UnmarshalBinary rlpCodec enc
        = (none, { body := exampleDynamicTx.body,
                   cache := { exampleLegacyTx.cache with size := enc.length } })) ∧
    (exampleLegacyTx.UnmarshalBinary rlpCodec
        [0x51, 0xcb, 0x01, 0x80, 0x20, 0xc0, 0x05, 0x50, 0x01, 0x80, 0x80, 0xc0, 0x80]).2.MarshalBinary
      rlpCodec
      = .ok [0x51, 0xcb, 0x01, 0x80, 0x20, 0xc0, 0x05, 0x50, 0x01, 0x80, 0x80, 0xc0, 0x80] := by
  refine ⟨exampleDynamicTx_wellFormed, ?_,
    (MarshalBinary_roundtrip exampleDynamicTx exampleLegacyTx).2 _ _ (Prod.ext rfl rfl)⟩
  obtain ⟨enc, henc, _, hdec⟩ :=
    (MarshalBinary_roundtrip exampleDynamicTx exampleLegacyTx).1 exampleDynamicTx_wellFormed
  have hlen : enc.length = 130 := by
    have h : (exampleDynamicTx.MarshalBinary rlpCodec).toOption.map List.length = some 130 := by
      decide
    rw [henc] at h
    exact Option.some.inj h
  exact ⟨enc, henc, hlen, (hdec (by omega)).1⟩

/-! ## Fee identity, expiry, positive gas, error order and the frame of failed `BuyGas` -/

/-- Claim C26. For a dynamic-fee transaction and every base fee, `EffectiveGasPrice` is
`min (maxFeePerGas) (maxPriorityFeePerGas + baseFee)`, `EffectivePriorityFeePerGas` is
`min (maxFeePerGas - baseFee) maxPriorityFeePerGas`, and the first is the base fee plus
the second. Computing either leaves the transaction unchanged: in every memory in which
the pointer `tp` stands for the transaction and the pointer `bf` for the base fee, each
of the two calls over the memory returns a pointer `r` to a new integer that holds the
value; after the call `tp` still stands for the same transaction, so its `maxFeePerGas`
and `maxPriorityFeePerGas` are what they were, `bf` still holds the base fee, and every
cell the memory had holds what it held. -/
theorem EffectiveGasPrice_eq_baseFee_add (W : WorkParams) (t : Transaction)
    (b : dynamicFeeTransaction) (baseFee legacyTxBaseGasPrice provedWork : Int)
    (hb : t.body = .dynamicFee b) :
    t.EffectiveGasPrice (some baseFee) legacyTxBaseGasPrice
      = .ok (min t.MaxFeePerGas (t.MaxPriorityFeePerGas + baseFee)) ∧
    t.EffectivePriorityFeePerGas W (some baseFee) legacyTxBaseGasPrice provedWork
      = .ok (min (t.MaxFeePerGas - baseFee) t.MaxPriorityFeePerGas) ∧
    min t.MaxFeePerGas (t.MaxPriorityFeePerGas + baseFee)
      = baseFee + min (t.MaxFeePerGas - baseFee) t.MaxPriorityFeePerGas ∧
    (∀ price priority,
      t.EffectiveGasPrice (some baseFee) legacyTxBaseGasPrice = .ok price →
      t.EffectivePriorityFeePerGas W (some baseFee) legacyTxBaseGasPrice provedWork
        = .ok priority →
      price = baseFee + priority) ∧
    (∀ (m : Memory) (tp bf : Ptr) (lp pw : Option Ptr),
      m.transaction tp = some t → m.ints[bf]? = some baseFee →
      (∃ r m1, m.EffectiveGasPrice tp (some bf) lp = .ok (some r, m1) ∧
        m1.ints[r]? = some (min t.MaxFeePerGas (t.MaxPriorityFeePerGas + baseFee)) ∧
        m1.transaction tp = some t ∧
        m1.ints[bf]? = some baseFee ∧
        m.ints.length ≤ r ∧
        m.Extends m1) ∧
      (∃ r m1, m.EffectivePriorityFeePerGas tp (some bf) lp pw = .ok (some r, m1) ∧
        m1.ints[r]? = some (min (t.MaxFeePerGas - baseFee) t.MaxPriorityFeePerGas) ∧
        m1.transaction tp = some t ∧
        m1.ints[bf]? = some baseFee ∧
        m.ints.length ≤ r ∧
        m.Extends m1)) := by
  have h1 : t.EffectiveGasPrice (some baseFee) legacyTxBaseGasPrice
      = .ok (min t.MaxFeePerGas (t.MaxPriorityFeePerGas + baseFee)) := by
    unfold Transaction.EffectiveGasPrice Transaction.MaxFeePerGas
      Transaction.MaxPriorityFeePerGas
    rw [hb]
    rfl
  have h2 : t.EffectivePriorityFeePerGas W (some baseFee) legacyTxBaseGasPrice provedWork
      = .ok (min (t.MaxFeePerGas - baseFee) t.MaxPriorityFeePerGas) := by
    unfold Transaction.EffectivePriorityFeePerGas Transaction.txType
      Transaction.MaxFeePerGas Transaction.MaxPriorityFeePerGas
    rw [hb]
    rfl
  have h3 : min t.MaxFeePerGas (t.MaxPriorityFeePerGas + baseFee)
      = baseFee + min (t.MaxFeePerGas - baseFee) t.MaxPriorityFeePerGas := by
    rcases le_total t.MaxFeePerGas (t.MaxPriorityFeePerGas + baseFee) with h | h
    · rw [min_eq_left h, min_eq_left (by omega)]
      omega
    · rw [min_eq_right h, min_eq_right (by omega)]
      omega
  refine ⟨h1, h2, h3, fun price priority hp hq => ?_, fun m tp bf lp pw ht hbf => ?_⟩
  · rw [h1] at hp
    rw [h2] at hq
    rw [← Except.ok.inj hp, ← Except.ok.inj hq]
    exact h3
  · obtain ⟨r, m1, hr, hv, hnew, hext⟩ :=
      m.EffectiveGasPrice_spec tp bf lp t baseFee ht hbf
    obtain ⟨r2, m2, hr2, hv2, hnew2, hext2⟩ :=
      m.EffectivePriorityFeePerGas_spec tp bf lp pw t baseFee ht hbf
    exact ⟨⟨r, m1, hr, hv, Memory.transaction_of_extends hext ht,
        cell_mono hext.1 hbf, hnew, hext⟩,
      ⟨r2, m2, hr2, hv2, Memory.transaction_of_extends hext2 ht,
        cell_mono hext2.1 hbf, hnew2, hext2⟩⟩

/-- The identity of claim C26 on the example dynamic-fee transaction (`maxFeePerGas = 80`,
`maxPriorityFeePerGas = 5`) under the base fee `10`: the price `15` is the base fee plus
the priority fee `5`. In the example memory the transaction lies behind the pointer `1`
and the base fee in the integer cell `2`: the price is returned in the new cell `4`, the
priority fee in the new cell `3`, and the pointer `1` stands for the same transaction
after either call. -/
theorem EffectiveGasPrice_eq_baseFee_add_witness :
    exampleDynamicTx.EffectiveGasPrice (some 10) 0 = .ok 15 ∧
    exampleDynamicTx.EffectivePriorityFeePerGas exampleWork (some 10) 0 0 = .ok 5 ∧
    (15 : Int) = 10 + 5 ∧
    exampleMemory.transaction 1 = some exampleDynamicTx ∧
    exampleMemory.ints[2]? = some 10 ∧
    (∃ m1, exampleMemory.EffectiveGasPrice 1 (some 2) none = .ok (some 4, m1) ∧
      m1.ints[4]? = some 15) ∧
    (∃ m1, exampleMemory.EffectivePriorityFeePerGas 1 (some 2) none none
        = .ok (some 3, m1) ∧ m1.ints[3]? = some 5) ∧
    (∃ r m1, exampleMemory.EffectiveGasPrice 1 (some 2) none = .ok (some r, m1) ∧
      m1.ints[r]? = some (min exampleDynamicTx.MaxFeePerGas
        (exampleDynamicTx.MaxPriorityFeePerGas + 10)) ∧
      m1.transaction 1 = some exampleDynamicTx ∧
      m1.ints[2]? = some 10 ∧
      exampleMemory.ints.length ≤ r ∧
      exampleMemory.Extends m1) ∧
    (∃ r m1, exampleMemory.EffectivePriorityFeePerGas 1 (some 2) none none
        = .ok (some r, m1) ∧
      m1.ints[r]? = some (min (exampleDynamicTx.MaxFeePerGas - 10)
        exampleDynamicTx.MaxPriorityFeePerGas) ∧
      m1.transaction 1 = some exampleDynamicTx ∧
      m1.ints[2]? = some 10 ∧
      exampleMemory.ints.length ≤ r ∧
      exampleMemory.Extends m1) :=
  ⟨(EffectiveGasPrice_eq_baseFee_add exampleWork exampleDynamicTx _ 10 0 0 rfl).1,
    (EffectiveGasPrice_eq_baseFee_add exampleWork exampleDynamicTx _ 10 0 0 rfl).2.1,
    (EffectiveGasPrice_eq_baseFee_add exampleWork exampleDynamicTx _ 10 0 0 rfl).2.2.2.1
      15 5 rfl rfl,
    rfl, rfl, ⟨_, rfl, rfl⟩, ⟨_, rfl, rfl⟩,
    ((EffectiveGasPrice_eq_baseFee_add exampleWork exampleDynamicTx _ 10 0 0 rfl).2.2.2.2
      exampleMemory 1 2 none none rfl rfl).1,
    ((EffectiveGasPrice_eq_baseFee_add exampleWork exampleDynamicTx _ 10 0 0 rfl).2.2.2.2
      exampleMemory 1 2 none none rfl rfl).2⟩

/-- Claim C22. For a 32-bit `blockNum` and a 32-bit expiration, `IsExpired(blockNum)` is
true exactly when `blockNum > blockRef.number + expiration` as natural numbers: the sum
is taken in 64 bits and does not wrap, also when it is `2 ^ 32` or more. For a 64-bit
block reference, `blockRef.number` is its upper 32 bits. -/
theorem IsExpired_iff (t : Transaction) (blockNum : Nat) (hnum : blockNum < 2 ^ 32)
    (hexp : t.body.expiration < 2 ^ 32) :
    (t.IsExpired blockNum = true ↔
      blockNum > BlockRef.Number t.BlockRef + t.body.expiration) ∧
    (t.body.blockRef < 2 ^ 64 → BlockRef.Number t.BlockRef = t.body.blockRef / 2 ^ 32) := by
  have hn : BlockRef.Number t.BlockRef < 2 ^ 32 := by
    unfold BlockRef.Number
    exact Nat.mod_lt _ (by decide)
  constructor
  · unfold Transaction.IsExpired
    rw [decide_eq_true_iff, Nat.mod_eq_of_lt (by omega : blockNum < 2 ^ 64),
      Nat.mod_eq_of_lt (by omega : BlockRef.Number t.BlockRef < 2 ^ 64),
      Nat.mod_eq_of_lt (by omega : t.body.expiration < 2 ^ 64),
      Nat.mod_eq_of_lt (by omega)]
  · intro hbr
    unfold BlockRef.Number Transaction.BlockRef
    exact Nat.mod_eq_of_lt (by omega)

/-- The expiry of claim C22 on a transaction with block number `2 ^ 32 - 1` and expiration
`32`: the sum is `2 ^ 32 + 31`, which no 32-bit block number exceeds. -/
theorem IsExpired_iff_witness :
    exampleLateTx.IsExpired (2 ^ 32 - 1) = false ∧
    (exampleLateTx.IsExpired (2 ^ 32 - 1) = true ↔
      2 ^ 32 - 1 > BlockRef.Number exampleLateTx.BlockRef + exampleLateTx.body.expiration) ∧
    BlockRef.Number exampleLateTx.BlockRef = 2 ^ 32 - 1 :=
  ⟨by decide, (IsExpired_iff exampleLateTx (2 ^ 32 - 1) (by decide) (by decide)).1,
    (IsExpired_iff exampleLateTx (2 ^ 32 - 1) (by decide) (by decide)).2 (by decide)⟩

/-- Claim C25. Whenever `BuyGas` returns an error, in particular "gas price is less than
block base fee" or "insufficient energy", the state it leaves is the state it was given:
no energy balance and no user credit differs, in whichever branch the error arose (the
ledger's `Sub` answers false without writing). -/
theorem BuyGas_error_state_unchanged (r : ResolvedTransaction) (state : State) (bt : Nat)
    (baseFee : Option Int) (err : Error)
    (h : (r.BuyGas state bt baseFee).1 = .error err) :
    (r.BuyGas state bt baseFee).2 = state ∧
    (∀ a, (r.BuyGas state bt baseFee).2.energy a = state.energy a) ∧
    (∀ c u, (r.BuyGas state bt baseFee).2.credit c u = state.credit c u) := by
  have hs := (BuyGas_error r state bt baseFee err h).1
  rw [hs]
  exact ⟨rfl, fun _ => rfl, fun _ _ => rfl⟩

/-- The frame of claim C25 in the sponsored branch: on the state without energy, the
sponsor `9`, the common recipient `7` and the origin `3` of the example legacy
transaction are tried in turn, none can pay, and the state is left as it was. -/
theorem BuyGas_error_state_unchanged_witness :
    (exampleResolved exampleLegacyTx).CommonTo = some 7 ∧
    ((exampleResolved exampleLegacyTx).BuyGas examplePoorState 0 none).1
      = .error .insufficientEnergy ∧
    ((exampleResolved exampleLegacyTx).BuyGas examplePoorState 0 none).2 = examplePoorState :=
  ⟨rfl, rfl,
    (BuyGas_error_state_unchanged (exampleResolved exampleLegacyTx) examplePoorState 0 none
      .insufficientEnergy rfl).1⟩

/-- A checked addition that does not overflow is exact. -/
theorem SafeAdd_of_not_overflow (x y : Nat) (h : ¬ (SafeAdd x y).2 = true) :
    (SafeAdd x y).1 = x + y := by
  rw [SafeAdd_overflow] at h
  exact SafeAdd_exact x y (by omega)

/-- The running total of the loop of `IntrinsicGas` never decreases, and grows by the gas
of a clause at least when there is one. -/
theorem intrinsicGasLoop_ge (G : GasSchedule) (total : Nat) (cs : List Clause) (g : Nat)
    (h : intrinsicGasLoop G total cs = .ok g) :
    total ≤ g ∧ (cs ≠ [] → total + min G.ClauseGas G.ClauseGasContractCreation ≤ g) := by
  induction cs generalizing total with
  | nil =>
    unfold intrinsicGasLoop at h
    exact ⟨Nat.le_of_eq (Except.ok.inj h), fun hne => absurd rfl hne⟩
  | cons c cs ih =>
    unfold intrinsicGasLoop at h
    cases hd : dataGas G c.Data with
    | error e => rw [hd] at h; cases h
    | ok gas =>
      rw [hd] at h
      dsimp only at h
      by_cases h1 : (SafeAdd total gas).2 = true
      · rw [if_pos h1] at h
        cases h
      · rw [if_neg h1] at h
        by_cases h2 : (SafeAdd (SafeAdd total gas).1
            (if c.IsCreatingContract then G.ClauseGasContractCreation else G.ClauseGas)).2 = true
        · rw [if_pos h2] at h
          cases h
        · rw [if_neg h2] at h
          have e1 := SafeAdd_of_not_overflow _ _ h1
          have e2 := SafeAdd_of_not_overflow _ _ h2
          have hrec := (ih _ h).1
          rw [e2, e1] at hrec
          have hc : min G.ClauseGas G.ClauseGasContractCreation
              ≤ (if c.IsCreatingContract then G.ClauseGasContractCreation else G.ClauseGas) := by
            split
            · exact Nat.min_le_right _ _
            · exact Nat.min_le_left _ _
          exact ⟨by omega, fun _ => by omega⟩

/-- A successful `IntrinsicGas` is at least `TxGas` plus the lesser of the two clause
gas constants. -/
theorem IntrinsicGas_ge (G : GasSchedule) (cs : List Clause) (g : Nat)
    (h : IntrinsicGas G cs = .ok g) :
    G.TxGas + min G.ClauseGas G.ClauseGasContractCreation ≤ g := by
  unfold IntrinsicGas at h
  by_cases h0 : cs.length = 0
  · rw [if_pos h0] at h
    rw [← Except.ok.inj h]
    have := Nat.min_le_left G.ClauseGas G.ClauseGasContractCreation
    omega
  · rw [if_neg h0] at h
    exact (intrinsicGasLoop_ge G G.TxGas cs g h).2 (fun e => h0 (by rw [e]; rfl))

/-- With a positive gas, `OverallGasPrice` does not divide by zero. -/
theorem OverallGasPrice_no_division_by_zero (W : WorkParams) (t : Transaction)
    (legacyTxBaseGasPrice provedWork : Int) (hgas : 0 < t.Gas) :
    t.OverallGasPrice W legacyTxBaseGasPrice provedWork ≠ .error .divisionByZero := by
  have hg : ¬ t.body.gas = 0 := Nat.pos_iff_ne_zero.mp hgas
  unfold Transaction.OverallGasPrice
  split
  · intro h
    cases h
  · dsimp only
    split
    · intro h
      cases h
    · split
      · intro h
        cases h
      · intro h
        cases h

/-- Claim C24. For a transaction accepted by `ResolveTransaction`, the intrinsic gas of the
result is at most `Gas()` and, with an `intrinsicGas` cell that is zero or was written by
`IntrinsicGas`, at least `TxGas + ClauseGas`, which is positive (contract creation costs
no less than a call). So `Gas()` is positive, for every content of the cache, and
`OverallGasPrice` does not divide by zero on the transaction, as passed in and as
resolved. -/
theorem ResolveTransaction_gas_positive (G : GasSchedule) (K : Crypto) (trx : Transaction)
    (r : ResolvedTransaction) (h : (ResolveTransaction G K trx).1 = .ok r)
    (hcc : G.ClauseGas ≤ G.ClauseGasContractCreation) (hpos : 0 < G.TxGas + G.ClauseGas) :
    r.IntrinsicGas ≤ trx.Gas ∧
    (intrinsicGasCached G trx → G.TxGas + G.ClauseGas ≤ r.IntrinsicGas) ∧
    0 < r.IntrinsicGas ∧ 0 < trx.Gas ∧ r.tx.Gas = trx.Gas ∧
    (∀ W legacyTxBaseGasPrice provedWork,
      trx.OverallGasPrice W legacyTxBaseGasPrice provedWork ≠ .error .divisionByZero ∧
      r.tx.OverallGasPrice W legacyTxBaseGasPrice provedWork ≠ .error .divisionByZero) := by
  rw [ResolveTransaction_fst] at h
  cases ho : (trx.Origin K).1 with
  | error e => rw [ho] at h; cases h
  | ok origin =>
    rw [ho] at h
    dsimp only at h
    cases hig : (trx.IntrinsicGas G).1 with
    | error e => rw [hig] at h; cases h
    | ok ig =>
      rw [hig] at h
      dsimp only at h
      by_cases hlt : trx.Gas < ig
      · rw [if_pos hlt] at h
        cases h
      · rw [if_neg hlt] at h
        cases hd : (trx.Delegator K).1 with
        | error e => rw [hd] at h; cases h
        | ok delegator =>
          rw [hd] at h
          dsimp only at h
          cases hcv : checkClauseValues 0 trx.Clauses with
          | error e => rw [hcv] at h; cases h
          | ok sum =>
            rw [hcv] at h
            dsimp only at h
            cases hff : checkFeeFields trx with
            | error e => rw [hff] at h; cases h
            | ok u =>
              rw [hff] at h
              dsimp only at h
              have hr := Except.ok.inj h
              have hrig : r.IntrinsicGas = ig := by rw [← hr]
              have hrtx : r.tx.Gas = trx.Gas := by
                rw [← hr]
                unfold Transaction.Gas
                rw [Transaction.Delegator_body, Transaction.IntrinsicGas_body,
                  Transaction.Origin_body]
              have hcases : (trx.cache.intrinsicGas ≠ 0 ∧ ig = trx.cache.intrinsicGas) ∨
                  (trx.cache.intrinsicGas = 0 ∧ IntrinsicGas G trx.body.clauses = .ok ig) := by
                unfold Transaction.IntrinsicGas at hig
                by_cases hc : trx.cache.intrinsicGas ≠ 0
                · rw [if_pos hc] at hig
                  exact Or.inl ⟨hc, (Except.ok.inj hig).symm⟩
                · rw [if_neg hc] at hig
                  refine Or.inr ⟨not_not.mp hc, ?_⟩
                  cases hcomp : IntrinsicGas G trx.body.clauses with
                  | error e => rw [hcomp] at hig; cases hig
                  | ok g =>
                    rw [hcomp] at hig
                    rw [← Except.ok.inj hig]
              have hmin : min G.ClauseGas G.ClauseGasContractCreation = G.ClauseGas :=
                Nat.min_eq_left hcc
              have hbound : intrinsicGasCached G trx → G.TxGas + G.ClauseGas ≤ ig := by
                intro hcache
                rcases hcases with ⟨hc, he⟩ | ⟨_, hcomp⟩
                · have := IntrinsicGas_ge G _ _ (hcache hc)
                  rw [hmin] at this
                  omega
                · have := IntrinsicGas_ge G _ _ hcomp
                  rw [hmin] at this
                  exact this
              have higpos : 0 < ig := by
                rcases hcases with ⟨hc, he⟩ | ⟨_, hcomp⟩
                · omega
                · have := IntrinsicGas_ge G _ _ hcomp
                  rw [hmin] at this
                  omega
              have hgas : 0 < trx.Gas := by omega
              rw [hrig]
              refine ⟨Nat.le_of_not_lt hlt, hbound, higpos, hgas, hrtx, fun W p w => ?_⟩
              exact ⟨OverallGasPrice_no_division_by_zero W trx p w hgas,
                OverallGasPrice_no_division_by_zero W r.tx p w (by rw [hrtx]; exact hgas)⟩

/-- The example legacy transaction resolves with the intrinsic gas `37000`. -/
theorem exampleLegacyTx_resolved :
    (ResolveTransaction exampleSchedule exampleCrypto exampleLegacyTx).1
      = .ok { tx := (((exampleLegacyTx.Origin exampleCrypto).2.IntrinsicGas
                exampleSchedule).2.Delegator exampleCrypto).2,
              Origin := 3, Delegator := none, IntrinsicGas := 37000,
              Clauses := exampleLegacyTx.Clauses } := by
  have ho : (exampleLegacyTx.Origin exampleCrypto).1 = .ok 3 := rfl
  have hig : (exampleLegacyTx.IntrinsicGas exampleSchedule).1 = .ok 37000 := rfl
  have hd : (exampleLegacyTx.Delegator exampleCrypto).1 = .ok none := rfl
  have hcv : checkClauseValues 0 exampleLegacyTx.Clauses = .ok 0 := by
    simp [checkClauseValues, exampleLegacyTx, Transaction.Clauses, txData.clauses, BitLen]
  have hff : checkFeeFields exampleLegacyTx = .ok () := rfl
  rw [ResolveTransaction_fst, ho]
  dsimp only
  rw [hig]
  dsimp only
  rw [if_neg (by decide), hd]
  dsimp only
  rw [hcv]
  dsimp only
  rw [hff]

/-- The bounds of claim C24 on the example legacy transaction: its intrinsic gas `37000` is
at most its gas `40000` and at least `TxGas + ClauseGas = 21000`, and its overall gas
price is computed. -/
theorem ResolveTransaction_gas_positive_witness :
    (37000 : Nat) ≤ exampleLegacyTx.Gas ∧
    exampleSchedule.TxGas + exampleSchedule.ClauseGas ≤ 37000 ∧
    exampleLegacyTx.OverallGasPrice exampleWork 1000000000 20000000
      ≠ .error .divisionByZero :=
  ⟨(ResolveTransaction_gas_positive exampleSchedule exampleCrypto exampleLegacyTx _
      exampleLegacyTx_resolved (by decide) (by decide)).1,
    (ResolveTransaction_gas_positive exampleSchedule exampleCrypto exampleLegacyTx _
      exampleLegacyTx_resolved (by decide) (by decide)).2.1 (fun h => absurd rfl h),
    ((ResolveTransaction_gas_positive exampleSchedule exampleCrypto exampleLegacyTx _
      exampleLegacyTx_resolved (by decide) (by decide)).2.2.2.2.2
        exampleWork 1000000000 20000000).1⟩

/-- The clause loop of `ResolveTransaction` fails with one of its two errors only. -/
theorem checkClauseValues_error (cs : List Clause) (s : Int) (e : Error)
    (h : checkClauseValues s cs = .error e) :
    e = .clauseWithNegativeValue ∨ e = .txValueTooLarge := by
  induction cs generalizing s with
  | nil => cases h
  | cons c rest ih =>
    unfold checkClauseValues at h
    dsimp only at h
    by_cases h1 : c.Value < 0
    · rw [if_pos h1] at h
      exact Or.inl (Except.error.inj h).symm
    · rw [if_neg h1] at h
      by_cases h2 : BitLen (s + c.Value) > 256
      · rw [if_pos h2] at h
        exact Or.inr (Except.error.inj h).symm
      · rw [if_neg h2] at h
        exact ih _ h

/-- The clause loop of `ResolveTransaction` fails on a negative value. -/
theorem checkClauseValues_negative (cs : List Clause) (s : Int)
    (h : ∃ c ∈ cs, c.Value < 0) : ∃ e, checkClauseValues s cs = .error e := by
  induction cs generalizing s with
  | nil =>
    obtain ⟨c, hc, _⟩ := h
    cases hc
  | cons c rest ih =>
    unfold checkClauseValues
    dsimp only
    by_cases h1 : c.Value < 0
    · rw [if_pos h1]
      exact ⟨_, rfl⟩
    · rw [if_neg h1]
      by_cases h2 : BitLen (s + c.Value) > 256
      · rw [if_pos h2]
        exact ⟨_, rfl⟩
      · rw [if_neg h2]
        obtain ⟨x, hx, hxv⟩ := h
        rcases List.mem_cons.mp hx with e | e
        · rw [e] at hxv
          exact absurd hxv h1
        · exact ih _ ⟨x, e, hxv⟩

/-- Claim C23, amended. `ResolveTransaction` returns the error of the first failing check
in the order of the code: the signature length; then, the origin recovered and the
intrinsic gas computed, gas at least the intrinsic gas; then, the delegator recovered,
the clause values (a negative value or a sum above 256 bits); then the dynamic-fee
bounds. A wrong signature length hides every other fault, a gas below the intrinsic gas
hides the clause values and the fee fields, and a faulty clause value hides the fee
fields. -/
theorem ResolveTransaction_error_order (G : GasSchedule) (K : Crypto) (trx : Transaction) :
    (trx.body.signature.length ≠ (if Features.IsDelegated trx.Features then 130 else 65) →
      (ResolveTransaction G K trx).1 = .error .invalidSignatureLen) ∧
    (∀ origin intrinsicGas, (trx.Origin K).1 = .ok origin →
      (trx.IntrinsicGas G).1 = .ok intrinsicGas → trx.Gas < intrinsicGas →
      (ResolveTransaction G K trx).1 = .error .intrinsicGasExceedsProvidedGas) ∧
    (∀ origin intrinsicGas delegator, (trx.Origin K).1 = .ok origin →
      (trx.IntrinsicGas G).1 = .ok intrinsicGas → intrinsicGas ≤ trx.Gas →
      (trx.Delegator K).1 = .ok delegator →
      (∀ e, checkClauseValues 0 trx.Clauses = .error e →
        (ResolveTransaction G K trx).1 = .error e ∧
        (e = .clauseWithNegativeValue ∨ e = .txValueTooLarge)) ∧
      ((∃ c ∈ trx.Clauses, c.Value < 0) →
        ∃ e, checkClauseValues 0 trx.Clauses = .error e) ∧
      (∀ sum e, checkClauseValues 0 trx.Clauses = .ok sum → checkFeeFields trx = .error e →
        (ResolveTransaction G K trx).1 = .error e)) := by
  refine ⟨fun hlen => ?_, fun origin ig ho hig hlt => ?_, fun origin ig d ho hig hle hd => ?_⟩
  · have hv := (Transaction.validateSignatureLength_error_iff trx .invalidSignatureLen).mpr
      ⟨rfl, hlen⟩
    have ho : (trx.Origin K).1 = .error .invalidSignatureLen := by
      unfold Transaction.Origin
      rw [hv]
    rw [ResolveTransaction_fst, ho]
  · rw [ResolveTransaction_fst, ho]
    dsimp only
    rw [hig]
    dsimp only
    rw [if_pos hlt]
  · have hpre : ∀ x, (match checkClauseValues 0 trx.Clauses with
          | .error err => .error err
          | .ok _ =>
            match checkFeeFields trx with
            | .error err => .error err
            | .ok _ =>
              .ok { tx := (((trx.Origin K).2.IntrinsicGas G).2.Delegator K).2
                    Origin := origin
                    Delegator := d
                    IntrinsicGas := ig
                    Clauses := trx.Clauses }) = x →
        (ResolveTransaction G K trx).1 = x := by
      intro x hx
      rw [ResolveTransaction_fst, ho]
      dsimp only
      rw [hig]
      dsimp only
      rw [if_neg (by omega), hd]
      exact hx
    refine ⟨fun e he => ⟨?_, checkClauseValues_error _ _ _ he⟩,
      checkClauseValues_negative _ _, fun sum e hs hf => ?_⟩
    · apply hpre
      rw [he]
    · apply hpre
      rw [hs]
      dsimp only
      rw [hf]

/-- Claim C23 as stated fails. The example transaction has a signature of the right
length, a clause of value `-1` and the gas `100` below its intrinsic gas `21000`:
`ResolveTransaction` returns "intrinsic gas exceeds provided gas", the check the
specification lists third, and not "clause with negative value", which it lists
second. -/
theorem ResolveTransaction_error_order_counterexample :
    exampleTwoFaultsTx.validateSignatureLength = .ok () ∧
    (∃ c ∈ exampleTwoFaultsTx.Clauses, c.Value < 0) ∧
    checkClauseValues 0 exampleTwoFaultsTx.Clauses = .error .clauseWithNegativeValue ∧
    IntrinsicGas exampleSchedule exampleTwoFaultsTx.Clauses = .ok 21000 ∧
    exampleTwoFaultsTx.Gas < 21000 ∧
    (ResolveTransaction exampleSchedule exampleCrypto exampleTwoFaultsTx).1
      = .error .intrinsicGasExceedsProvidedGas ∧
    (ResolveTransaction exampleSchedule exampleCrypto exampleTwoFaultsTx).1
      ≠ .error .clauseWithNegativeValue := by
  have hr : (ResolveTransaction exampleSchedule exampleCrypto exampleTwoFaultsTx).1
      = .error .intrinsicGasExceedsProvidedGas := rfl
  refine ⟨rfl, ⟨⟨some 7, -1, []⟩, by decide, by decide⟩, rfl, rfl, by decide, hr, ?_⟩
  rw [hr]
  intro h
  cases h

/-- The order of the amended claim C23 on the example with two faults: gas below the
intrinsic gas is reported although a clause value is negative. -/
theorem ResolveTransaction_error_order_witness :
    (ResolveTransaction exampleSchedule exampleCrypto exampleTwoFaultsTx).1
      = .error .intrinsicGasExceedsProvidedGas :=
  (ResolveTransaction_error_order exampleSchedule exampleCrypto exampleTwoFaultsTx).2.1
    3 21000 rfl rfl (by decide)

/-! ## Memoisation: a cached value is the value of the first call -/

/-- The empty cache is sound. -/
theorem CacheSound.empty (G : GasSchedule) (K : Crypto) (body : txData) :
    CacheSound G K body Cache.empty :=
  ⟨(fun _ h => by cases h), (fun _ h => by cases h), (fun _ h => by cases h),
    (fun _ h => by cases h), fun h => absurd rfl h⟩

/-- With a sound cache, `SigningHash` returns what it returns on an empty cache. -/
theorem SigningHash_sound (G : GasSchedule) (K : Crypto) (t : Transaction)
    (hs : CacheSound G K t.body t.cache) :
    (t.SigningHash K).1
      = (Transaction.SigningHash K { body := t.body, cache := Cache.empty }).1 := by
  cases hc : t.cache.signingHash with
  | some h =>
    rw [Transaction.SigningHash_cached K t h hc]
    exact hs.signingHash h hc
  | none => exact Transaction.SigningHash_congr K _ t rfl hc

/-- The method `SigningHash` leaves a sound cache sound. -/
theorem SigningHash_keeps_sound (G : GasSchedule) (K : Crypto) (t : Transaction)
    (hs : CacheSound G K t.body t.cache) :
    CacheSound G K t.body (t.SigningHash K).2.cache := by
  have hv := SigningHash_sound G K t hs
  unfold Transaction.SigningHash at hv ⊢
  cases hc : t.cache.signingHash with
  | some h => exact hs
  | none =>
    rw [hc] at hv
    dsimp only at hv ⊢
    exact ⟨fun h e => by rw [← Option.some.inj e]; exact hv, hs.origin, hs.id, hs.hash,
      hs.intrinsicGas⟩

/-- The method `Hash` leaves the body as it is. -/
theorem Hash_body (K : Crypto) (t : Transaction) : (t.Hash K).2.body = t.body := by
  unfold Transaction.Hash
  split <;> rfl

/-- With a sound cache, `Hash` returns what it returns on an empty cache. -/
theorem Hash_sound (G : GasSchedule) (K : Crypto) (t : Transaction)
    (hs : CacheSound G K t.body t.cache) :
    (t.Hash K).1 = (Transaction.Hash K { body := t.body, cache := Cache.empty }).1 := by
  unfold Transaction.Hash
  cases hc : t.cache.hash with
  | some h =>
    dsimp only
    have := hs.hash h hc
    unfold Transaction.Hash at this
    exact this
  | none => rfl

/-- The method `Hash` leaves a sound cache sound. -/
theorem Hash_keeps_sound (G : GasSchedule) (K : Crypto) (t : Transaction)
    (hs : CacheSound G K t.body t.cache) :
    CacheSound G K t.body (t.Hash K).2.cache := by
  have hv := Hash_sound G K t hs
  unfold Transaction.Hash at hv ⊢
  cases hc : t.cache.hash with
  | some h => exact hs
  | none =>
    rw [hc] at hv
    dsimp only at hv ⊢
    exact ⟨hs.signingHash, hs.origin, hs.id,
      fun h e => by rw [← Option.some.inj e]; exact hv, hs.intrinsicGas⟩

/-- With a sound cache, `IntrinsicGas` returns what it returns on an empty cache. -/
theorem IntrinsicGas_sound (G : GasSchedule) (K : Crypto) (t : Transaction)
    (hs : CacheSound G K t.body t.cache) :
    (t.IntrinsicGas G).1
      = (Transaction.IntrinsicGas G { body := t.body, cache := Cache.empty }).1 := by
  by_cases hc : t.cache.intrinsicGas ≠ 0
  · rw [hs.intrinsicGas hc]
    unfold Transaction.IntrinsicGas
    rw [if_pos hc]
  · exact Transaction.IntrinsicGas_congr G _ t rfl (not_not.mp hc)

/-- The method `IntrinsicGas` leaves a sound cache sound. -/
theorem IntrinsicGas_keeps_sound (G : GasSchedule) (K : Crypto) (t : Transaction)
    (hs : CacheSound G K t.body t.cache) :
    CacheSound G K t.body (t.IntrinsicGas G).2.cache := by
  have hv := IntrinsicGas_sound G K t hs
  by_cases hc : t.cache.intrinsicGas ≠ 0
  · unfold Transaction.IntrinsicGas
    rw [if_pos hc]
    exact hs
  · cases hg : IntrinsicGas G t.body.clauses with
    | error e =>
      unfold Transaction.IntrinsicGas
      rw [if_neg hc, hg]
      exact hs
    | ok g =>
      have hfresh : (Transaction.IntrinsicGas G { body := t.body, cache := Cache.empty }).1
          = .ok g := by
        rw [← hv]
        unfold Transaction.IntrinsicGas
        rw [if_neg hc, hg]
      unfold Transaction.IntrinsicGas
      rw [if_neg hc, hg]
      exact ⟨hs.signingHash, hs.origin, hs.id, hs.hash, fun _ => hfresh⟩

/-- The result of `Origin`, read off the cache and the signing hash. -/
theorem Origin_fst (K : Crypto) (t : Transaction) :
    (t.Origin K).1 =
      match t.validateSignatureLength with
      | .error err => .error err
      | .ok _ =>
        match t.cache.origin with
        | some cached => .ok cached
        | none =>
          match K.SigToPub (t.SigningHash K).1 (t.body.signature.take 65) with
          | .error err => .error (.external err)
          | .ok pub => .ok (K.PubkeyToAddress pub) := by
  unfold Transaction.Origin
  cases hv : t.validateSignatureLength with
  | error e => rfl
  | ok u =>
    dsimp only
    cases hc : t.cache.origin with
    | some o => rfl
    | none =>
      dsimp only
      cases hp : K.SigToPub (t.SigningHash K).1 (t.body.signature.take 65) <;> rfl

/-- With a sound cache, `Origin` returns what it returns on an empty cache. -/
theorem Origin_sound (G : GasSchedule) (K : Crypto) (t : Transaction)
    (hs : CacheSound G K t.body t.cache) :
    (t.Origin K).1 = (Transaction.Origin K { body := t.body, cache := Cache.empty }).1 := by
  have hval : Transaction.validateSignatureLength { body := t.body, cache := Cache.empty }
      = t.validateSignatureLength := Transaction.validateSignatureLength_congr t _ rfl
  cases hv : t.validateSignatureLength with
  | error e =>
    rw [Origin_fst, Origin_fst, hval, hv]
  | ok u =>
    cases hc : t.cache.origin with
    | some o =>
      rw [hs.origin o hc, Origin_fst, hv]
      dsimp only
      rw [hc]
    | none =>
      rw [Origin_fst K t, Origin_fst, hval, hv]
      dsimp only
      rw [hc, SigningHash_sound G K t hs]
      rfl

/-- The method `Origin` leaves a sound cache sound. -/
theorem Origin_keeps_sound (G : GasSchedule) (K : Crypto) (t : Transaction)
    (hs : CacheSound G K t.body t.cache) :
    CacheSound G K t.body (t.Origin K).2.cache := by
  have hv := Origin_sound G K t hs
  have hsh := SigningHash_keeps_sound G K t hs
  cases hval : t.validateSignatureLength with
  | error e =>
    unfold Transaction.Origin
    rw [hval]
    exact hs
  | ok u =>
    cases hc : t.cache.origin with
    | some o =>
      unfold Transaction.Origin
      rw [hval]
      dsimp only
      rw [hc]
      exact hs
    | none =>
      cases hp : K.SigToPub (t.SigningHash K).1 (t.body.signature.take 65) with
      | error e =>
        unfold Transaction.Origin
        rw [hval]
        dsimp only
        rw [hc]
        dsimp only
        rw [hp]
        exact hsh
      | ok pub =>
        have hres : (t.Origin K).1 = .ok (K.PubkeyToAddress pub) := by
          rw [Origin_fst, hval]
          dsimp only
          rw [hc]
          dsimp only
          rw [hp]
        unfold Transaction.Origin
        rw [hval]
        dsimp only
        rw [hc]
        dsimp only
        rw [hp]
        exact ⟨hsh.signingHash, fun o e => by rw [← Option.some.inj e, ← hv, hres], hsh.id,
          hsh.hash, hsh.intrinsicGas⟩

/-- With a sound cache, `ID` returns what it returns on an empty cache. -/
theorem ID_sound (G : GasSchedule) (K : Crypto) (t : Transaction)
    (hs : CacheSound G K t.body t.cache) :
    (t.ID K).1 = (Transaction.ID K { body := t.body, cache := Cache.empty }).1 := by
  cases hc : t.cache.id with
  | some i =>
    rw [← hs.id i hc]
    unfold Transaction.ID
    rw [hc]
  | none =>
    rw [Transaction.ID_fresh K t hc, Transaction.ID_fresh K _ rfl, Origin_sound G K t hs,
      SigningHash_sound G K t hs]

/-- The method `ID` leaves the body as it is. -/
theorem ID_body (K : Crypto) (t : Transaction) : (t.ID K).2.body = t.body := by
  unfold Transaction.ID
  split
  · rfl
  · dsimp only
    split
    · exact Transaction.Origin_body K t
    · exact (Transaction.SigningHash_body K _).trans (Transaction.Origin_body K t)

/-- The method `ID` leaves a sound cache sound. -/
theorem ID_keeps_sound (G : GasSchedule) (K : Crypto) (t : Transaction)
    (hs : CacheSound G K t.body t.cache) :
    CacheSound G K t.body (t.ID K).2.cache := by
  have hv := ID_sound G K t hs
  have ho := Origin_keeps_sound G K t hs
  have hob := Transaction.Origin_body K t
  have hsh : CacheSound G K t.body ((t.Origin K).2.SigningHash K).2.cache := by
    have := SigningHash_keeps_sound G K (t.Origin K).2 (by rw [hob]; exact ho)
    rw [hob] at this
    exact this
  cases hc : t.cache.id with
  | some i =>
    unfold Transaction.ID
    rw [hc]
    exact hs
  | none =>
    cases hor : (t.Origin K).1 with
    | error e =>
      have hres : (t.ID K).1 = 0 := by
        rw [Transaction.ID_fresh K t hc, hor]
      unfold Transaction.ID
      rw [hc]
      dsimp only
      rw [hor]
      exact ⟨ho.signingHash, ho.origin, fun i e => by rw [← Option.some.inj e, ← hv, hres],
        ho.hash, ho.intrinsicGas⟩
    | ok origin =>
      have hres : (t.ID K).1 = K.Blake2b ((t.Origin K).2.SigningHash K).1 origin := by
        rw [Transaction.ID_fresh K t hc, hor]
        dsimp only
        rw [Transaction.Origin_signingHash]
      unfold Transaction.ID
      rw [hc]
      dsimp only
      rw [hor]
      exact ⟨hsh.signingHash, hsh.origin, fun i e => by rw [← Option.some.inj e, ← hv, hres],
        hsh.hash, hsh.intrinsicGas⟩

/-- The method `Delegator` leaves a sound cache sound. -/
theorem Delegator_keeps_sound (G : GasSchedule) (K : Crypto) (t : Transaction)
    (hs : CacheSound G K t.body t.cache) :
    CacheSound G K t.body (t.Delegator K).2.cache := by
  have ho := Origin_keeps_sound G K t hs
  have hob := Transaction.Origin_body K t
  have hsh : CacheSound G K t.body ((t.Origin K).2.SigningHash K).2.cache := by
    have := SigningHash_keeps_sound G K (t.Origin K).2 (by rw [hob]; exact ho)
    rw [hob] at this
    exact this
  unfold Transaction.Delegator Transaction.DelegatorSigningHash
  dsimp only
  split
  · exact hs
  · split
    · exact hs
    · split
      · exact hs
      · split
        · exact ho
        · split
          · exact hsh
          · exact ⟨hsh.signingHash, hsh.origin, hsh.id, hsh.hash, hsh.intrinsicGas⟩

/-- The method `UnprovedWork` leaves the body as it is. -/
theorem UnprovedWork_body (W : WorkParams) (K : Crypto) (t : Transaction) :
    (t.UnprovedWork W K).2.body = t.body := by
  unfold Transaction.UnprovedWork
  split
  · rfl
  · split
    · rfl
    · dsimp only
      split
      · exact Transaction.Origin_body K t
      · exact Transaction.Origin_body K t

/-- The method `UnprovedWork` leaves a sound cache sound. -/
theorem UnprovedWork_keeps_sound (G : GasSchedule) (W : WorkParams) (K : Crypto)
    (t : Transaction) (hs : CacheSound G K t.body t.cache) :
    CacheSound G K t.body (t.UnprovedWork W K).2.cache := by
  have ho := Origin_keeps_sound G K t hs
  unfold Transaction.UnprovedWork
  split
  · exact hs
  · split
    · exact hs
    · dsimp only
      split
      · exact ho
      · exact ⟨ho.signingHash, ho.origin, ho.id, ho.hash, ho.intrinsicGas⟩

/-- A call of a method leaves the body as it is and a sound cache sound. -/
theorem Step_keeps_sound (G : GasSchedule) (K : Crypto) (W : WorkParams) (t u : Transaction)
    (h : Transaction.Step G K W t u) (hs : CacheSound G K t.body t.cache) :
    u.body = t.body ∧ CacheSound G K u.body u.cache := by
  cases h with
  | signingHash =>
    have hb := Transaction.SigningHash_body K t
    exact ⟨hb, by rw [hb]; exact SigningHash_keeps_sound G K t hs⟩
  | hash =>
    have hb := Hash_body K t
    exact ⟨hb, by rw [hb]; exact Hash_keeps_sound G K t hs⟩
  | id =>
    have hb := ID_body K t
    exact ⟨hb, by rw [hb]; exact ID_keeps_sound G K t hs⟩
  | intrinsicGas =>
    have hb := Transaction.IntrinsicGas_body G t
    exact ⟨hb, by rw [hb]; exact IntrinsicGas_keeps_sound G K t hs⟩
  | origin =>
    have hb := Transaction.Origin_body K t
    exact ⟨hb, by rw [hb]; exact Origin_keeps_sound G K t hs⟩
  | delegator =>
    have hb := Transaction.Delegator_body K t
    exact ⟨hb, by rw [hb]; exact Delegator_keeps_sound G K t hs⟩
  | unprovedWork =>
    have hb := UnprovedWork_body W K t
    exact ⟨hb, by rw [hb]; exact UnprovedWork_keeps_sound G W K t hs⟩

/-- After any number of method calls on a transaction built with an empty cache, the body
is the one it was built with and the cache is sound. -/
theorem Steps_keep_sound (G : GasSchedule) (K : Crypto) (W : WorkParams) (body : txData)
    (t : Transaction)
    (h : Relation.ReflTransGen (Transaction.Step G K W) { body := body, cache := Cache.empty } t) :
    t.body = body ∧ CacheSound G K t.body t.cache := by
  induction h with
  | refl => exact ⟨rfl, CacheSound.empty G K body⟩
  | tail _ hstep ih =>
    have := Step_keeps_sound G K W _ _ hstep ih.2
    exact ⟨this.1.trans ih.1, this.2⟩

/-- Claim C21. On a transaction built with an empty cache, after any number of calls of
the methods that write the cache (`SigningHash`, `Hash`, `ID`, `IntrinsicGas`, `Origin`,
`Delegator`, `UnprovedWork`), each of `SigningHash`, `Hash`, `ID` and `IntrinsicGas`
returns what the first call on the empty cache returns, an error of `IntrinsicGas`
included. That value is computed from the body alone: the hash of the signing fields,
the hash of all fields, the Blake2b hash of signing hash and origin (zero without an
origin), and the intrinsic gas of the clauses. -/
theorem memoised_results (G : GasSchedule) (K : Crypto) (W : WorkParams) (body : txData)
    (t : Transaction)
    (h : Relation.ReflTransGen (Transaction.Step G K W) { body := body, cache := Cache.empty } t) :
    t.body = body ∧
    (t.SigningHash K).1
      = (Transaction.SigningHash K { body := body, cache := Cache.empty }).1 ∧
    (t.Hash K).1 = (Transaction.Hash K { body := body, cache := Cache.empty }).1 ∧
    (t.ID K).1 = (Transaction.ID K { body := body, cache := Cache.empty }).1 ∧
    (t.IntrinsicGas G).1
      = (Transaction.IntrinsicGas G { body := body, cache := Cache.empty }).1 ∧
    (Transaction.SigningHash K { body := body, cache := Cache.empty }).1
      = (if body.txType = TypeLegacy then K.rlpHash body.signingFields
         else K.prefixedRlpHash body.txType body.signingFields) ∧
    (Transaction.Hash K { body := body, cache := Cache.empty }).1
      = (if body.txType = TypeLegacy then K.rlpHash body.fields
         else K.prefixedRlpHash body.txType body.fields) ∧
    (Transaction.ID K { body := body, cache := Cache.empty }).1
      = (match (Transaction.Origin K { body := body, cache := Cache.empty }).1 with
         | .error _ => 0
         | .ok origin =>
           K.Blake2b (Transaction.SigningHash K { body := body, cache := Cache.empty }).1
             origin) ∧
    (Transaction.IntrinsicGas G { body := body, cache := Cache.empty }).1
      = IntrinsicGas G body.clauses := by
  obtain ⟨hb, hs⟩ := Steps_keep_sound G K W body t h
  have e1 := SigningHash_sound G K t hs
  have e2 := Hash_sound G K t hs
  have e3 := ID_sound G K t hs
  have e4 := IntrinsicGas_sound G K t hs
  rw [hb] at e1 e2 e3 e4
  refine ⟨hb, e1, e2, e3, e4, rfl, rfl, Transaction.ID_fresh K _ rfl, ?_⟩
  unfold Transaction.IntrinsicGas
  rw [if_neg (fun h => h rfl)]
  cases IntrinsicGas G body.clauses <;> rfl

/-- The memoisation of claim C21 on the example transactions: after `ID`, `IntrinsicGas`
and `Hash` were called on the example legacy transaction, `ID` returns again the hash
of signing hash `1` and origin `3`; and after a failed `IntrinsicGas` on a transaction
whose intrinsic gas overflows, the call fails again. -/
theorem memoised_results_witness :
    ((((exampleLegacyTx.ID exampleCrypto).2.IntrinsicGas exampleSchedule).2.Hash
        exampleCrypto).2.ID exampleCrypto).1 = 4 ∧
    ((Transaction.IntrinsicGas exampleOverflowSchedule
        (Transaction.IntrinsicGas exampleOverflowSchedule exampleLegacyTx).2).1
      = .error .intrinsicGasOverflow) :=
  ⟨(memoised_results exampleSchedule exampleCrypto exampleWork exampleLegacyTx.body _
      (((Relation.ReflTransGen.single (Transaction.Step.id exampleLegacyTx)).tail
        (Transaction.Step.intrinsicGas _)).tail (Transaction.Step.hash _))).2.2.2.1,
    (memoised_results exampleOverflowSchedule exampleCrypto exampleWork exampleLegacyTx.body _
      (Relation.ReflTransGen.single (Transaction.Step.intrinsicGas exampleLegacyTx))).2.2.2.2.1⟩

end Thor
